import Mathlib

/-!
Shallow embedding of `src/backend/logic_checker.py` (class `LogicChecker`).

Strings are modelled as `List Char` (Python `str` slicing maps to
`take`/`drop`); fallible code returns `Except String _` mirroring Python
exceptions (the exact error payload of an *internal* failure is irrelevant:
`_evaluate` catches every exception and re-raises
`ValueError(f"Invalid expression: {expression}")`).

Recursive string functions of the source (`_transform_logic` and its step-4
scan loop) recurse on strictly shorter substrings, so they terminate on every
input; the embedding makes this explicit with a fuel parameter, decremented on
every call, and top-level wrappers pass `2 * length + 2` fuel, which the
length-decrease argument shows is never exhausted.  Keeping the definitions
structurally recursive (rather than well-founded) keeps them kernel-reducible,
so concrete runs evaluate by `rfl`/`decide`.

Python's `eval` is modelled on the fragment of Python boolean expressions that
the pipeline can produce from expressions of the documented language
(variables `p`..`z`, `~ v ^ -> <->`, parentheses, spaces): the tokens
`True`, `False`, `not`, `and`, `or`, `==`, parentheses.  Anything else
(stray characters, unbound names) is an evaluation error, as in Python.
-/

namespace LogicCheck

/-- Python regex `\w` on ASCII: letters, digits, underscore. -/
def isWordChar (c : Char) : Bool := c.isAlpha || c.isDigit || c == '_'

/-- The whitespace set of Python `str.strip()`. -/
def pySpace (c : Char) : Bool :=
  c == ' ' || c == '\t' || c == '\n' || c == '\r' || c == '\x0b' || c == '\x0c'

/-- Python `s.strip()`. -/
def pyStrip (s : List Char) : List Char :=
  ((s.dropWhile pySpace).reverse.dropWhile pySpace).reverse

/-- Python `s.replace(c, repl)` for a single-character pattern: every
occurrence is replaced. -/
def replaceChar (c : Char) (repl : List Char) : List Char → List Char
  | [] => []
  | x :: xs => (if x == c then repl else [x]) ++ replaceChar c repl xs

/-- Python `str(b)` for a bool. -/
def pyBoolStr (b : Bool) : String := if b then "True" else "False"

/-- Word-ness of the character at an optional position (out of range counts
as non-word, as for regex `\b`). -/
def wordAt : Option Char → Bool
  | none => false
  | some c => isWordChar c

/-- One pass of Python `re.sub(r'\b' + var + r'\b', repl, s)` for a
single-character `var`: replace each occurrence of `c` that has a word
boundary on both sides.  `prev` is the character preceding the current
position in the *original* string (regex boundaries are judged on the string
being scanned). -/
def substWordAux (c : Char) (repl : List Char) : Option Char → List Char → List Char
  | _, [] => []
  | prev, x :: xs =>
    (if x == c && (wordAt prev != isWordChar x) && (isWordChar x != wordAt xs.head?)
     then repl else [x]) ++ substWordAux c repl (some x) xs

/-- Python `re.sub(r'\b' + var + r'\b', repl, s)` for single-character `var`. -/
def substWord (c : Char) (repl : List Char) (s : List Char) : List Char :=
  substWordAux c repl none s

/-- The matches of `re.findall(r'\b[p-z]\b', s)`, in scan order: single
characters in `p`..`z` bounded on both sides by a non-word character or the
string edge. -/
def varMatches : Option Char → List Char → List Char
  | _, [] => []
  | prev, x :: xs =>
    (if ('p' ≤ x && x ≤ 'z') && !wordAt prev && !wordAt xs.head?
     then [x] else []) ++ varMatches (some x) xs

/-- Source `LogicChecker._extract_variables`: `set(re.findall(r'\b[p-z]\b',
expression.lower()))`.  The Python `set` is modelled as the duplicate-free
list of matches (first occurrences kept). -/
def extract_variables (expression : String) : List Char :=
  (varMatches none (expression.toList.map Char.toLower)).dedup

/-- Sorted list of characters, as Python `sorted(...)`. -/
def sortChars (l : List Char) : List Char := l.insertionSort (· ≤ ·)

/-- Helper `find_matching_paren` of `_transform_logic`: scan from `start + 1`
with depth count 1, return the index where the count returns to 0.  `i` is
the absolute index of the head of the remaining text. -/
def fmpAux : List Char → Nat → Int → Option Nat
  | [], _, _ => none
  | ch :: rest, i, count =>
    let count' := if ch == '(' then count + 1 else if ch == ')' then count - 1 else count
    if count' == 0 then some i else fmpAux rest (i + 1) count'

/-- Source `find_matching_paren(text, start)`; Python returns `-1` for "not found",
modelled as `none`. -/
def find_matching_paren (text : List Char) (start : Nat) : Option Nat :=
  fmpAux (text.drop (start + 1)) (start + 1) 1

/-- Helper `is_fully_enclosed` of `_transform_logic`. -/
def is_fully_enclosed (text : List Char) : Bool :=
  if text.head? == some '(' && text.getLast? == some ')' then
    find_matching_paren text 0 == some (text.length - 1)
  else false

/-- The `while is_fully_enclosed(expr): expr = expr[1:-1].strip()` loop of
`_transform_logic`.  Each iteration strictly shortens the string, so fuel
equal to the length is never exhausted; the fuel-out branch returns the
string unchanged. -/
def strip_outer : Nat → List Char → List Char
  | 0, e => e
  | n + 1, e => if is_fully_enclosed e then strip_outer n (pyStrip (e.drop 1).dropLast) else e

/-- Helper `find_operator(text, op)` of `_transform_logic`: leftmost
occurrence of `op` at parenthesis depth 0.  `i` is the absolute index of the
head of the remaining text, `nesting` the current depth (it may go
negative, as in the source). -/
def foAux (op : List Char) : List Char → Nat → Int → Option Nat
  | [], _, _ => none
  | ch :: rest, i, nesting =>
    if ch == '(' then foAux op rest (i + 1) (nesting + 1)
    else if ch == ')' then foAux op rest (i + 1) (nesting - 1)
    else if nesting == 0 && op.isPrefixOf (ch :: rest) then some i
    else foAux op rest (i + 1) nesting

/-- Source `find_operator(text, op)`. -/
def find_operator (text op : List Char) : Option Nat := foAux op text 0 0

/-- Steps 0-1 of `_transform_logic`: `expr.strip()` followed by the
fully-enclosing-parenthesis stripping loop. -/
def stripped (expr : List Char) : List Char :=
  strip_outer (pyStrip expr).length (pyStrip expr)

mutual

/-- Source `LogicChecker._transform_logic`:
1. strip + repeatedly strip genuinely enclosing parentheses;
2. split at the leftmost depth-0 `<->`, rewriting to `({l} == {r})`;
3. else split at the leftmost depth-0 `->`, rewriting to `(not {l} or {r})`;
4. else pass characters through, recursively transforming and re-wrapping
   parenthesized groups (`scanChars`). -/
def transform_logic : Nat → List Char → Except String (List Char)
  | 0, _ => .error "out of fuel"
  | fuel + 1, expr =>
    let e := stripped expr
    match find_operator e ['<', '-', '>'] with
    | some idx => do
      let l ← transform_logic fuel (e.take idx)
      let r ← transform_logic fuel (e.drop (idx + 3))
      .ok (['('] ++ l ++ (" == ".toList) ++ r ++ [')'])
    | none =>
      match find_operator e ['-', '>'] with
      | some idx => do
        let l ← transform_logic fuel (e.take idx)
        let r ← transform_logic fuel (e.drop (idx + 2))
        .ok ("(not ".toList ++ l ++ (" or ".toList) ++ r ++ [')'])
      | none => scanChars fuel e

/-- Step 4 of `_transform_logic`: the `while i < len(expr)` loop.  On `(` it
finds the matching `)`, recursively transforms the group and re-wraps it in
parentheses; a `(` with no match raises "Unbalanced parentheses"; every other
character is appended unchanged. -/
def scanChars : Nat → List Char → Except String (List Char)
  | 0, _ => .error "out of fuel"
  | _ + 1, [] => .ok []
  | fuel + 1, x :: xs =>
    if x == '(' then
      match find_matching_paren (x :: xs) 0 with
      | none => .error "Unbalanced parentheses"
      | some endi => do
        let inner := ((x :: xs).take endi).drop 1
        let t ← transform_logic fuel inner
        let rest ← scanChars fuel ((x :: xs).drop (endi + 1))
        .ok (['('] ++ t ++ [')'] ++ rest)
    else do
      let rest ← scanChars fuel xs
      .ok (x :: rest)

end

/-- Wrapper: `_transform_logic` as called from `_evaluate` (no fuel in the source;
`2 * length + 2` suffices because every recursive call strictly decreases
the measure `2 * length + phase`). -/
def transformTop (s : List Char) : Except String (List Char) :=
  transform_logic (2 * s.length + 2) s

/-! ### Python `eval` on the boolean fragment -/

/-- Tokens of the Python boolean expressions the pipeline produces. -/
inductive PyTok where
  | lpar | rpar | eqeq | tknot | tkand | tkor | tktrue | tkfalse
  deriving DecidableEq

/-- Tokenizer for the boolean fragment of Python `eval`.  Any other
character or name is an evaluation error (`SyntaxError`/`NameError`).  Fuel
`length + 1` is never exhausted (each step consumes at least one
character). -/
def tokenize : Nat → List Char → Except String (List PyTok)
  | 0, _ => .error "out of fuel"
  | _ + 1, [] => .ok []
  | fuel + 1, c :: cs =>
    if pySpace c then tokenize fuel cs
    else if c == '(' then (PyTok.lpar :: ·) <$> tokenize fuel cs
    else if c == ')' then (PyTok.rpar :: ·) <$> tokenize fuel cs
    else if c == '=' then
      match cs with
      | '=' :: cs' => (PyTok.eqeq :: ·) <$> tokenize fuel cs'
      | _ => .error "SyntaxError"
    else if c.isAlpha then
      let w : List Char := c :: cs.takeWhile Char.isAlpha
      let rest := cs.dropWhile Char.isAlpha
      if w = "not".toList then (PyTok.tknot :: ·) <$> tokenize fuel rest
      else if w = "and".toList then (PyTok.tkand :: ·) <$> tokenize fuel rest
      else if w = "or".toList then (PyTok.tkor :: ·) <$> tokenize fuel rest
      else if w = "True".toList then (PyTok.tktrue :: ·) <$> tokenize fuel rest
      else if w = "False".toList then (PyTok.tkfalse :: ·) <$> tokenize fuel rest
      else .error "NameError"
    else .error "SyntaxError"

mutual

/-- Python atom: `True`, `False` or a parenthesized expression. -/
def parseAtom : Nat → List PyTok → Except String (Bool × List PyTok)
  | 0, _ => .error "out of fuel"
  | fuel + 1, toks =>
    match toks with
    | PyTok.tktrue :: rest => .ok (true, rest)
    | PyTok.tkfalse :: rest => .ok (false, rest)
    | PyTok.lpar :: rest => do
      let (v, rest') ← parseOrE fuel rest
      match rest' with
      | PyTok.rpar :: rest'' => .ok (v, rest'')
      | _ => .error "SyntaxError"
    | _ => .error "SyntaxError"

/-- Python comparison chaining: `a == b == c` means `(a == b) and (b == c)`.
`acc` is the conjunction so far, `last` the previous operand. -/
def parseCmpRest : Nat → Bool → Bool → List PyTok → Except String (Bool × List PyTok)
  | 0, _, _, _ => .error "out of fuel"
  | fuel + 1, acc, last, toks =>
    match toks with
    | PyTok.eqeq :: rest => do
      let (b, rest') ← parseAtom fuel rest
      parseCmpRest fuel (acc && (last == b)) b rest'
    | _ => .ok (acc, toks)

/-- Python comparison: an atom, possibly followed by an `==` chain (an atom
alone is its own value; `not` is *not* a valid comparison operand, so
`True == not False` is a syntax error, as in Python). -/
def parseCmp : Nat → List PyTok → Except String (Bool × List PyTok)
  | 0, _ => .error "out of fuel"
  | fuel + 1, toks => do
    let (a, rest) ← parseAtom fuel toks
    match rest with
    | PyTok.eqeq :: _ => parseCmpRest fuel true a rest
    | _ => .ok (a, rest)

/-- Python `not_test`: `not not_test | comparison` (`==` binds tighter than
`not`). -/
def parseNotE : Nat → List PyTok → Except String (Bool × List PyTok)
  | 0, _ => .error "out of fuel"
  | fuel + 1, toks =>
    match toks with
    | PyTok.tknot :: rest => do
      let (b, rest') ← parseNotE fuel rest
      .ok (!b, rest')
    | _ => parseCmp fuel toks

/-- Continuation of `and_test`: fold further `and` operands (on booleans,
Python's short-circuit `and` is boolean conjunction). -/
def parseAndRest : Nat → Bool → List PyTok → Except String (Bool × List PyTok)
  | 0, _, _ => .error "out of fuel"
  | fuel + 1, acc, toks =>
    match toks with
    | PyTok.tkand :: rest => do
      let (b, rest') ← parseNotE fuel rest
      parseAndRest fuel (acc && b) rest'
    | _ => .ok (acc, toks)

/-- Python `and_test`. -/
def parseAndE : Nat → List PyTok → Except String (Bool × List PyTok)
  | 0, _ => .error "out of fuel"
  | fuel + 1, toks => do
    let (a, rest) ← parseNotE fuel toks
    parseAndRest fuel a rest

/-- Continuation of `or_test`: fold further `or` operands. -/
def parseOrRest : Nat → Bool → List PyTok → Except String (Bool × List PyTok)
  | 0, _, _ => .error "out of fuel"
  | fuel + 1, acc, toks =>
    match toks with
    | PyTok.tkor :: rest => do
      let (b, rest') ← parseAndE fuel rest
      parseOrRest fuel (acc || b) rest'
    | _ => .ok (acc, toks)

/-- Python `or_test` (top level of the boolean grammar). -/
def parseOrE : Nat → List PyTok → Except String (Bool × List PyTok)
  | 0, _ => .error "out of fuel"
  | fuel + 1, toks => do
    let (a, rest) ← parseAndE fuel toks
    parseOrRest fuel a rest

end

/-- Python `eval` on the boolean fragment: tokenize, parse a full `or_test`,
require all input consumed. -/
def pyEval (s : List Char) : Except String Bool := do
  let toks ← tokenize (s.length + 1) s
  let (v, rest) ← parseOrE (5 * toks.length + 10) toks
  if rest.isEmpty then .ok v else .error "SyntaxError"

/-! ### `_evaluate`, `generate_truth_table`, `check_equivalence`,
`format_truth_table` -/

/-- An assignment: the `values_dict` of the source, an insertion-ordered
`dict` modelled as an association list. -/
abbrev Assign := List (Char × Bool)

/-- A truth-table row: `(values_dict, result)`. -/
abbrev Row := Assign × Bool

/-- The operator replacements and the variable-substitution loop of
`LogicChecker._evaluate`: replace `v`/`^`/`~` by ` or `/` and `/` not `,
then substitute each bound variable (whole-word) by `str(value)` in
`values.items()` order. -/
def substAll (values : Assign) (t : List Char) : List Char :=
  values.foldl (fun acc vb => substWord vb.1 ((pyBoolStr vb.2).toList) acc)
    (replaceChar '~' (" not ".toList)
      (replaceChar '^' (" and ".toList)
        (replaceChar 'v' (" or ".toList) t)))

/-- The `try` body of `LogicChecker._evaluate`: lower-case, transform,
replace operators, substitute variables, then `eval`. -/
def evaluateCore (expression : String) (values : Assign) : Except String Bool := do
  let t ← transformTop (expression.toList.map Char.toLower)
  pyEval (substAll values t)

/-- Source `LogicChecker._evaluate`: any internal failure is re-raised as
`ValueError(f"Invalid expression: {expression}")` with the original,
untransformed expression text. -/
def evaluate (expression : String) (values : Assign) : Except String Bool :=
  match evaluateCore expression values with
  | .ok b => .ok b
  | .error _ => .error ("Invalid expression: " ++ expression)

/-- Python `itertools.product([False, True], repeat=n)`: all boolean tuples of
length `n`, first coordinate varying slowest, `False` before `True`. -/
def boolTuples : Nat → List (List Bool)
  | 0 => [[]]
  | n + 1 => (boolTuples n).map (false :: ·) ++ (boolTuples n).map (true :: ·)

/-- The row-building loop of `generate_truth_table`: evaluate the expression
at each assignment (any evaluation error propagates, as the uncaught
exception does in the source). -/
def gtRows (expression : String) (vars : List Char) :
    List (List Bool) → Except String (List Row)
  | [] => .ok []
  | t :: ts => do
    let d := vars.zip t
    let r ← evaluate expression d
    let rest ← gtRows expression vars ts
    .ok ((d, r) :: rest)

/-- Source `LogicChecker.generate_truth_table`. -/
def generate_truth_table (expression : String) :
    Except String (List Char × List Row) :=
  if (sortChars (extract_variables expression)).isEmpty then
    match evaluate expression [] with
    | .ok result => .ok ([], [([], result)])
    | .error _ => .error "Invalid expression with no variables"
  else do
    let rows ← gtRows expression (sortChars (extract_variables expression))
      (boolTuples (sortChars (extract_variables expression)).length)
    .ok (sortChars (extract_variables expression), rows)

/-- The truth tables returned by `check_equivalence`: in the zero-variable
branch the source returns bare row lists, otherwise `(variables, rows)`
pairs (Python is dynamically typed). -/
inductive PyTable where
  | bare (rows : List Row)
  | tabled (vars : List Char) (rows : List Row)

/-- The enumeration loop of `check_equivalence`, processed front-to-back:
returns `(table1, table2, is_equiv, first_diff)`.  The source keeps the
*first* divergent `values_dict` via an `is_equiv` flag; here the head of the
list wins, which is the same thing. -/
def ceLoop (expr1 expr2 : String) (vars : List Char) :
    List (List Bool) → Except String (List Row × List Row × Bool × Option Assign)
  | [] => .ok ([], [], true, none)
  | t :: ts => do
    let d := vars.zip t
    let r1 ← evaluate expr1 d
    let r2 ← evaluate expr2 d
    let (rows1, rows2, eqRest, fdRest) ← ceLoop expr1 expr2 vars ts
    .ok ((d, r1) :: rows1, (d, r2) :: rows2,
         (r1 == r2) && eqRest,
         if r1 != r2 then some d else fdRest)

/-- Python `", ".join(f"{k}={first_diff[k]}" for k in sorted(first_diff.keys()))`.
The dict's keys were inserted already sorted (`all_vars` is sorted), so
Python's `sorted` is the identity here and the entries are formatted in list
order. -/
def diffString (d : Assign) : String :=
  String.intercalate ", " (d.map fun kv => String.singleton kv.1 ++ "=" ++ pyBoolStr kv.2)

/-- Source `LogicChecker.check_equivalence`: result `(is_equiv, explanation,
table1, table2)`. -/
def joint_vars (expr1 expr2 : String) : List Char :=
  sortChars ((extract_variables expr1 ++ extract_variables expr2).dedup)

def check_equivalence (expr1 expr2 : String) :
    Except String (Bool × String × PyTable × PyTable) :=
  if (joint_vars expr1 expr2).isEmpty then do
    let result1 ← evaluate expr1 []
    let result2 ← evaluate expr2 []
    let isEq := result1 == result2
    let explanation := if isEq then "Yes - Both expressions evaluate to the same value"
      else "No - Expressions evaluate to different values"
    .ok (isEq, explanation, .bare [([], result1)], .bare [([], result2)])
  else do
    let (table1, table2, isEq, firstDiff) ←
      ceLoop expr1 expr2 (joint_vars expr1 expr2) (boolTuples (joint_vars expr1 expr2).length)
    let explanation := if isEq then "Yes - Both expressions have identical truth tables"
      else match firstDiff with
        | some d => "No - Different results when " ++ diffString d
        | none => "No - Different results when "
    .ok (isEq, explanation, .tabled (joint_vars expr1 expr2) table1,
         .tabled (joint_vars expr1 expr2) table2)

/-- One row line of `format_truth_table`:
`" | ".join(str(values_dict[v])[0] for v in variables) + " | " + str(result)[0]`.
A variable missing from the row's dict is a `KeyError`. -/
def rowLine (vlist : List Char) (row : Row) : Except String String := do
  let marks ← vlist.mapM fun v =>
    match row.1.lookup v with
    | some b => Except.ok (String.singleton ((pyBoolStr b).get 0))
    | none => Except.error "KeyError"
  .ok (String.intercalate " | " marks ++ " | " ++ String.singleton ((pyBoolStr row.2).get 0))

/-- Source `LogicChecker.format_truth_table`: `"No variables"` when the variable
list is empty, else a header line, a dash separator of the header's length,
and one line per row. -/
def format_truth_table (td : List Char × List Row) : Except String String :=
  let (vlist, rows) := td
  if vlist.isEmpty then .ok "No variables"
  else do
    let header := String.intercalate " | " (vlist.map String.singleton) ++ " | Result"
    let separator := String.mk (List.replicate header.length '-')
    let lines ← rows.mapM (rowLine vlist)
    .ok (String.intercalate "\n" (header :: separator :: lines))

/-! ### Derived and specification-side definitions used by the theorems -/

/-- Projection: the variable list of a `check_equivalence` table. -/
def pyTableVars : PyTable → List Char
  | .bare _ => []
  | .tabled vs _ => vs

/-- First enumerated row (paired with its assignment) where the two row
lists' results diverge. -/
def firstDivergence : List Row → List Row → Option Assign
  | (d, r1) :: t1, (_, r2) :: t2 =>
    if r1 != r2 then some d else firstDivergence t1 t2
  | _, _ => none

/-- Total rendering of one table row, defined for rows whose dict binds
every listed variable (as the generator's rows do); `rowLine` agrees with it
on such rows. -/
def totalRowLine (vlist : List Char) (row : Row) : String :=
  String.intercalate " | "
    (vlist.map fun v =>
      String.singleton ((pyBoolStr ((row.1.lookup v).getD false)).get 0)) ++
  " | " ++ String.singleton ((pyBoolStr row.2).get 0)

/-- Little-endian binary increment (ripple carry). -/
def incBits : List Bool → List Bool
  | [] => []
  | false :: t => true :: t
  | true :: t => false :: incBits t

/-- Binary successor of a most-significant-first bit string: the step
relation of binary counting with `false` as 0 and the first element most
significant. -/
def binSucc (l : List Bool) : List Bool := (incBits l.reverse).reverse

/-- Parenthesis nesting contribution of one character. -/
def parenDelta (c : Char) : Int := if c = '(' then 1 else if c = ')' then -1 else 0

/-- Parenthesis depth of a string: the running `(`-minus-`)` count tracked
by the scanning loops of the source. -/
def parenDepth : List Char → Int
  | [] => 0
  | c :: rest => parenDelta c + parenDepth rest

/-- Specification-side predicate (spec 4.2 step 1): the string is `(inner)`
where the outer pair is a genuine matching pair — `inner` is balanced and
the running depth inside (1 after the opening `(`) never returns to zero
before the final `)`. -/
def GenuinelyEnclosed (text : List Char) : Prop :=
  ∃ inner, text = '(' :: (inner ++ [')']) ∧ parenDepth inner = 0 ∧
    ∀ j, 0 < 1 + parenDepth (inner.take j)

/-! ### Fully parenthesized, precedence-explicit expressions (claim C9)

The idempotence claim quantifies over "well-formed expressions that are
already fully parenthesized and precedence-explicit".  These are generated
by the abstract syntax `PropForm` below, rendered by `print`: every
compound subexpression carries its own parentheses (with the documented
spacing ` v ` around the or-operator, so that the letter stays an isolated
token), and operands of every connective are parenthesized unless they are
single variables. -/

/-- A variable letter of the documented language: `p`..`z`, excluding the
or-operator letter `v`. -/
def varOK (c : Char) : Bool := ('p' ≤ c && c ≤ 'z') && !(c == 'v')

/-- Abstract syntax of fully parenthesized, precedence-explicit expressions. -/
inductive PropForm where
  | var (c : Char)
  | pnot (a : PropForm)
  | pand (a b : PropForm)
  | por (a b : PropForm)
  | pimp (a b : PropForm)
  | piff (a b : PropForm)

/-- Well-formedness: every variable letter is a legal variable. -/
def PropForm.wf : PropForm → Bool
  | .var c => varOK c
  | .pnot a => a.wf
  | .pand a b => a.wf && b.wf
  | .por a b => a.wf && b.wf
  | .pimp a b => a.wf && b.wf
  | .piff a b => a.wf && b.wf

/-- Concrete rendering of a fully parenthesized expression. -/
def print : PropForm → List Char
  | .var c => [c]
  | .pnot a => '(' :: '~' :: print a ++ [')']
  | .pand a b => '(' :: (print a ++ '^' :: print b) ++ [')']
  | .por a b => '(' :: (print a ++ ' ' :: 'v' :: ' ' :: print b) ++ [')']
  | .pimp a b => '(' :: (print a ++ '-' :: '>' :: print b) ++ [')']
  | .piff a b => '(' :: (print a ++ '<' :: '-' :: '>' :: print b) ++ [')']

/-- The rendering without the outermost parenthesis pair (for a variable,
the variable itself): what the transformer's stripping stage reduces
`print t` to. -/
def printCore : PropForm → List Char
  | .var c => [c]
  | .pnot a => '~' :: print a
  | .pand a b => print a ++ '^' :: print b
  | .por a b => print a ++ ' ' :: 'v' :: ' ' :: print b
  | .pimp a b => print a ++ '-' :: '>' :: print b
  | .piff a b => print a ++ '<' :: '-' :: '>' :: print b

/-- The transformer's output on `print t`: `<->` nodes become `(l == r)`,
`->` nodes become `(not l or r)` with the operand renderings stripped of
their own outer parentheses, and the scan re-wraps every non-variable
operand group. -/
def TC : PropForm → List Char
  | .var c => [c]
  | .pnot a => '~' :: (match a with
      | .var c => [c]
      | _ => '(' :: TC a ++ [')'])
  | .pand a b =>
      (match a with | .var c => [c] | _ => '(' :: TC a ++ [')']) ++
      '^' :: (match b with | .var c => [c] | _ => '(' :: TC b ++ [')'])
  | .por a b =>
      (match a with | .var c => [c] | _ => '(' :: TC a ++ [')']) ++
      ' ' :: 'v' :: ' ' :: (match b with | .var c => [c] | _ => '(' :: TC b ++ [')'])
  | .pimp a b =>
      '(' :: ('n' :: 'o' :: 't' :: ' ' :: TC a) ++ (' ' :: 'o' :: 'r' :: ' ' :: TC b) ++ [')']
  | .piff a b => '(' :: TC a ++ (' ' :: '=' :: '=' :: ' ' :: TC b) ++ [')']

/-- The group re-wrapping applied by the scan to an operand of `~`, `^`
or ` v `: variables pass through bare, every other operand is `(TC ..)`. -/
def TCwrap (t : PropForm) : List Char :=
  match t with
  | .var c => [c]
  | _ => '(' :: TC t ++ [')']

/-- What the stripping stage reduces `TC t` to: for `<->`/`->` images the
outer parenthesis pair is removed, everything else is left as is. -/
def TCbody (t : PropForm) : List Char :=
  match t with
  | .pimp a b => ('n' :: 'o' :: 't' :: ' ' :: TC a) ++ (' ' :: 'o' :: 'r' :: ' ' :: TC b)
  | .piff a b => TC a ++ (' ' :: '=' :: '=' :: ' ' :: TC b)
  | _ => TC t

/-- The transformer's output on a `TC` image occurring as a scan segment:
re-transforming removes the doubled parentheses that `TCwrap` put around
`<->`/`->` images (which carry their own parentheses). -/
def TDseg : PropForm → List Char
  | .var c => [c]
  | .pnot a => '~' :: (match a with
      | .var c => [c]
      | .pimp _ _ => TDseg a
      | .piff _ _ => TDseg a
      | _ => '(' :: TDseg a ++ [')'])
  | .pand a b =>
      (match a with
        | .var c => [c]
        | .pimp _ _ => TDseg a
        | .piff _ _ => TDseg a
        | _ => '(' :: TDseg a ++ [')']) ++
      '^' :: (match b with
        | .var c => [c]
        | .pimp _ _ => TDseg b
        | .piff _ _ => TDseg b
        | _ => '(' :: TDseg b ++ [')'])
  | .por a b =>
      (match a with
        | .var c => [c]
        | .pimp _ _ => TDseg a
        | .piff _ _ => TDseg a
        | _ => '(' :: TDseg a ++ [')']) ++
      ' ' :: 'v' :: ' ' :: (match b with
        | .var c => [c]
        | .pimp _ _ => TDseg b
        | .piff _ _ => TDseg b
        | _ => '(' :: TDseg b ++ [')'])
  | .pimp a b =>
      '(' :: ('n' :: 'o' :: 't' :: ' ' :: TDseg a) ++ (' ' :: 'o' :: 'r' :: ' ' :: TDseg b) ++ [')']
  | .piff a b => '(' :: TDseg a ++ (' ' :: '=' :: '=' :: ' ' :: TDseg b) ++ [')']

/-- The scan's group re-wrapping on the second transform. -/
def TDwrap (t : PropForm) : List Char :=
  match t with
  | .var c => [c]
  | .pimp _ _ => TDseg t
  | .piff _ _ => TDseg t
  | _ => '(' :: TDseg t ++ [')']

/-- The full output of transforming `TC t` (top level: the outer pair of a
`<->`/`->` image is stripped and not restored). -/
def TD : PropForm → List Char
  | .pimp a b => ('n' :: 'o' :: 't' :: ' ' :: TDseg a) ++ (' ' :: 'o' :: 'r' :: ' ' :: TDseg b)
  | .piff a b => TDseg a ++ (' ' :: '=' :: '=' :: ' ' :: TDseg b)
  | t => TDseg t

/-- Variable occurrences of a rendered expression in scan order, as matched
by the extractor's regex on both `print t` and `TC t`: the or-operator
letter `v` is matched as well (it is isolated in both renderings). -/
def occSeq : PropForm → List Char
  | .var c => [c]
  | .pnot a => occSeq a
  | .pand a b => occSeq a ++ occSeq b
  | .por a b => occSeq a ++ 'v' :: occSeq b
  | .pimp a b => occSeq a ++ occSeq b
  | .piff a b => occSeq a ++ occSeq b

/-- Whether a node is a negation (the unsafe right operand of `<->`:
`... ==  not ...` is a Python syntax error). -/
def isNotNode : PropForm → Bool
  | .pnot _ => true
  | _ => false

/-- Structural evaluability of the transformed image under Python `eval`:
every `<->` node whose right operand is a direct negation produces
`... ==  not ...`, which Python rejects; everything else evaluates. -/
def safe : PropForm → Bool
  | .var _ => true
  | .pnot a => safe a
  | .pand a b => safe a && safe b
  | .por a b => safe a && safe b
  | .pimp a b => safe a && safe b
  | .piff a b => safe a && safe b && !(isNotNode b)

/-- Parse attributes of a rendered segment under Python's grammar, used to
state what `eval` computes on the transformed image.  `v` is the value of
the segment; the remaining fields describe how an *unparenthesized*
segment (as produced inside a `<->`/`->` rewrite) combines with an `==`
chain and with surrounding `and`/`or` context: `chainL h`/`orCtx` split the
segment as the left operand of `==` (the chain binds tighter than `or`),
`nh` is the value of `not <segment>` (Python's `not` binds tighter than
`and`, so it captures only the first operand), `hb` is the first operand's
value and `andTail`/`orTail` the remaining context when the segment is the
right operand of `==`. -/
structure PV where
  v : Bool
  chainL : Bool → Bool
  orCtx : Bool → Bool
  nh : Bool
  hb : Bool
  andTail : Bool → Bool
  orTail : Bool → Bool

/-- The parse attributes of each node's image. -/
def pvP (d : Char → Bool) : PropForm → PV
  | .var c => ⟨d c, fun h => d c == h, id, !(d c), d c, id, id⟩
  | .pnot a =>
      let pa := pvP d a
      ⟨!pa.v, fun h => !(pa.v == h), id, pa.v, !pa.v, id, id⟩
  | .pand a b =>
      let pa := pvP d a; let pb := pvP d b
      ⟨pa.v && pb.v, fun h => pa.v && (pb.v == h), id, (!pa.v) && pb.v, pa.v,
       fun h => h && pb.v, id⟩
  | .por a b =>
      let pa := pvP d a; let pb := pvP d b
      ⟨pa.v || pb.v, fun h => pb.v == h, fun h => pa.v || h, (!pa.v) || pb.v, pa.v,
       id, fun h => h || pb.v⟩
  | .pimp a b =>
      let pa := pvP d a; let pb := pvP d b
      let v := pa.nh || pb.v
      ⟨v, fun h => v == h, id, !v, v, id, id⟩
  | .piff a b =>
      let pa := pvP d a; let pb := pvP d b
      let v := pb.orTail (pa.orCtx (pb.andTail (pa.chainL pb.hb)))
      ⟨v, fun h => v == h, id, !v, v, id, id⟩

/-- The value Python `eval` computes for the transformed image of `t` under
assignment `d` (meaningful when `safe t`). -/
def pv (d : Char → Bool) (t : PropForm) : Bool := (pvP d t).v

/-- The variable letters of a term, in order of occurrence. -/
def tvars : PropForm → List Char
  | .var c => [c]
  | .pnot a => tvars a
  | .pand a b => tvars a ++ tvars b
  | .por a b => tvars a ++ tvars b
  | .pimp a b => tvars a ++ tvars b
  | .piff a b => tvars a ++ tvars b

/-- `str(True)` / `str(False)` as character lists. -/
def boolChars (b : Bool) : List Char :=
  if b then ['T', 'r', 'u', 'e'] else ['F', 'a', 'l', 's', 'e']

/-- The image of a variable under a partial substitution. -/
def varImg (σ : Char → Option Bool) (c : Char) : List Char :=
  match σ c with
  | some b => boolChars b
  | none => [c]

/-- The `TC` image after `_evaluate`'s operator replacements and the
(partial) variable substitutions recorded in `σ`. -/
def icS (σ : Char → Option Bool) : PropForm → List Char
  | .var c => varImg σ c
  | .pnot a => ' ' :: 'n' :: 'o' :: 't' :: ' ' ::
      (match a with
        | .var c => varImg σ c
        | _ => '(' :: icS σ a ++ [')'])
  | .pand a b =>
      (match a with
        | .var c => varImg σ c
        | _ => '(' :: icS σ a ++ [')']) ++
      ' ' :: 'a' :: 'n' :: 'd' :: ' ' ::
      (match b with
        | .var c => varImg σ c
        | _ => '(' :: icS σ b ++ [')'])
  | .por a b =>
      (match a with
        | .var c => varImg σ c
        | _ => '(' :: icS σ a ++ [')']) ++
      ' ' :: ' ' :: 'o' :: 'r' :: ' ' :: ' ' ::
      (match b with
        | .var c => varImg σ c
        | _ => '(' :: icS σ b ++ [')'])
  | .pimp a b =>
      '(' :: ('n' :: 'o' :: 't' :: ' ' :: icS σ a) ++ (' ' :: 'o' :: 'r' :: ' ' :: icS σ b)
        ++ [')']
  | .piff a b => '(' :: icS σ a ++ (' ' :: '=' :: '=' :: ' ' :: icS σ b) ++ [')']

/-- The group image inside `icS`. -/
def icW (σ : Char → Option Bool) (t : PropForm) : List Char :=
  match t with
  | .var c => varImg σ c
  | _ => '(' :: icS σ t ++ [')']

/-- The `TD` image after the replacements and substitutions. -/
def idS (σ : Char → Option Bool) : PropForm → List Char
  | .var c => varImg σ c
  | .pnot a => ' ' :: 'n' :: 'o' :: 't' :: ' ' ::
      (match a with
        | .var c => varImg σ c
        | .pimp _ _ => idS σ a
        | .piff _ _ => idS σ a
        | _ => '(' :: idS σ a ++ [')'])
  | .pand a b =>
      (match a with
        | .var c => varImg σ c
        | .pimp _ _ => idS σ a
        | .piff _ _ => idS σ a
        | _ => '(' :: idS σ a ++ [')']) ++
      ' ' :: 'a' :: 'n' :: 'd' :: ' ' ::
      (match b with
        | .var c => varImg σ c
        | .pimp _ _ => idS σ b
        | .piff _ _ => idS σ b
        | _ => '(' :: idS σ b ++ [')'])
  | .por a b =>
      (match a with
        | .var c => varImg σ c
        | .pimp _ _ => idS σ a
        | .piff _ _ => idS σ a
        | _ => '(' :: idS σ a ++ [')']) ++
      ' ' :: ' ' :: 'o' :: 'r' :: ' ' :: ' ' ::
      (match b with
        | .var c => varImg σ c
        | .pimp _ _ => idS σ b
        | .piff _ _ => idS σ b
        | _ => '(' :: idS σ b ++ [')'])
  | .pimp a b =>
      '(' :: ('n' :: 'o' :: 't' :: ' ' :: idS σ a) ++ (' ' :: 'o' :: 'r' :: ' ' :: idS σ b)
        ++ [')']
  | .piff a b => '(' :: idS σ a ++ (' ' :: '=' :: '=' :: ' ' :: idS σ b) ++ [')']

/-- The group image inside `idS`. -/
def idW (σ : Char → Option Bool) (t : PropForm) : List Char :=
  match t with
  | .var c => varImg σ c
  | .pimp _ _ => idS σ t
  | .piff _ _ => idS σ t
  | _ => '(' :: idS σ t ++ [')']

/-- The image of the whole transformed string `TD t` (whose outermost
parenthesis pair of a `->`/`<->` rewrite was stripped). -/
def idTop (σ : Char → Option Bool) (t : PropForm) : List Char :=
  match t with
  | .pimp a b => ('n' :: 'o' :: 't' :: ' ' :: idS σ a) ++ (' ' :: 'o' :: 'r' :: ' ' :: idS σ b)
  | .piff a b => idS σ a ++ (' ' :: '=' :: '=' :: ' ' :: idS σ b)
  | _ => idS σ t

/-- The three operator replacements of `_evaluate`, in source order. -/
def replOps (l : List Char) : List Char :=
  replaceChar '~' (" not ".toList)
    (replaceChar '^' (" and ".toList)
      (replaceChar 'v' (" or ".toList) l))

/-- Token image of a substituted variable. -/
def varTok (d : Char → Bool) (c : Char) : PyTok :=
  if d c then PyTok.tktrue else PyTok.tkfalse

/-- The token list of the fully substituted `TC` image. -/
def tkS (d : Char → Bool) : PropForm → List PyTok
  | .var c => [varTok d c]
  | .pnot a => PyTok.tknot ::
      (match a with
        | .var c => [varTok d c]
        | _ => PyTok.lpar :: tkS d a ++ [PyTok.rpar])
  | .pand a b =>
      (match a with
        | .var c => [varTok d c]
        | _ => PyTok.lpar :: tkS d a ++ [PyTok.rpar]) ++
      PyTok.tkand ::
      (match b with
        | .var c => [varTok d c]
        | _ => PyTok.lpar :: tkS d b ++ [PyTok.rpar])
  | .por a b =>
      (match a with
        | .var c => [varTok d c]
        | _ => PyTok.lpar :: tkS d a ++ [PyTok.rpar]) ++
      PyTok.tkor ::
      (match b with
        | .var c => [varTok d c]
        | _ => PyTok.lpar :: tkS d b ++ [PyTok.rpar])
  | .pimp a b =>
      PyTok.lpar :: PyTok.tknot :: tkS d a ++ (PyTok.tkor :: tkS d b) ++ [PyTok.rpar]
  | .piff a b => PyTok.lpar :: tkS d a ++ (PyTok.eqeq :: tkS d b) ++ [PyTok.rpar]

/-- The group token image inside `tkS`. -/
def tkW (d : Char → Bool) (t : PropForm) : List PyTok :=
  match t with
  | .var c => [varTok d c]
  | _ => PyTok.lpar :: tkS d t ++ [PyTok.rpar]

/-- The token list of the fully substituted `TD` image. -/
def tkD (d : Char → Bool) : PropForm → List PyTok
  | .var c => [varTok d c]
  | .pnot a => PyTok.tknot ::
      (match a with
        | .var c => [varTok d c]
        | .pimp _ _ => tkD d a
        | .piff _ _ => tkD d a
        | _ => PyTok.lpar :: tkD d a ++ [PyTok.rpar])
  | .pand a b =>
      (match a with
        | .var c => [varTok d c]
        | .pimp _ _ => tkD d a
        | .piff _ _ => tkD d a
        | _ => PyTok.lpar :: tkD d a ++ [PyTok.rpar]) ++
      PyTok.tkand ::
      (match b with
        | .var c => [varTok d c]
        | .pimp _ _ => tkD d b
        | .piff _ _ => tkD d b
        | _ => PyTok.lpar :: tkD d b ++ [PyTok.rpar])
  | .por a b =>
      (match a with
        | .var c => [varTok d c]
        | .pimp _ _ => tkD d a
        | .piff _ _ => tkD d a
        | _ => PyTok.lpar :: tkD d a ++ [PyTok.rpar]) ++
      PyTok.tkor ::
      (match b with
        | .var c => [varTok d c]
        | .pimp _ _ => tkD d b
        | .piff _ _ => tkD d b
        | _ => PyTok.lpar :: tkD d b ++ [PyTok.rpar])
  | .pimp a b =>
      PyTok.lpar :: PyTok.tknot :: tkD d a ++ (PyTok.tkor :: tkD d b) ++ [PyTok.rpar]
  | .piff a b => PyTok.lpar :: tkD d a ++ (PyTok.eqeq :: tkD d b) ++ [PyTok.rpar]

/-- The group token image inside `tkD`. -/
def tkDW (d : Char → Bool) (t : PropForm) : List PyTok :=
  match t with
  | .var c => [varTok d c]
  | .pimp _ _ => tkD d t
  | .piff _ _ => tkD d t
  | _ => PyTok.lpar :: tkD d t ++ [PyTok.rpar]

/-- The token list of the whole substituted `TD` image. -/
def tkDTop (d : Char → Bool) (t : PropForm) : List PyTok :=
  match t with
  | .pimp a b => PyTok.tknot :: tkD d a ++ (PyTok.tkor :: tkD d b)
  | .piff a b => tkD d a ++ (PyTok.eqeq :: tkD d b)
  | _ => tkD d t

/-- Whether a node is an implication or biconditional (whose images carry
their own parentheses). -/
def isImpIff : PropForm → Bool
  | .pimp _ _ => true
  | .piff _ _ => true
  | _ => false

/-- Generic token segment of a transformed image, parameterized by the
operand-wrap `W` (`tkW d` for the first transform's image, `tkDW d` for the
second): this is the common shape of `tkS` and `tkD`. -/
def segW (d : Char → Bool) (W : PropForm → List PyTok) : PropForm → List PyTok
  | .var c => [varTok d c]
  | .pnot a => PyTok.tknot :: W a
  | .pand a b => W a ++ PyTok.tkand :: W b
  | .por a b => W a ++ PyTok.tkor :: W b
  | .pimp a b =>
      PyTok.lpar :: PyTok.tknot :: segW d W a ++ (PyTok.tkor :: segW d W b)
        ++ [PyTok.rpar]
  | .piff a b =>
      PyTok.lpar :: segW d W a ++ (PyTok.eqeq :: segW d W b) ++ [PyTok.rpar]

/-- The tokens left unconsumed by the comparison chain `last == <head of b>`:
the conjunction/disjunction tail of `b`'s segment. -/
def chainTail (W : PropForm → List PyTok) (rest : List PyTok) : PropForm → List PyTok
  | .pand _ y => PyTok.tkand :: (W y ++ rest)
  | .por _ y => PyTok.tkor :: (W y ++ rest)
  | _ => rest

/-- The tokens left unconsumed after the and-level has absorbed `b`'s
conjunction tail: `b`'s disjunction tail. -/
def orTailSeg (W : PropForm → List PyTok) (rest : List PyTok) : PropForm → List PyTok
  | .por _ y => PyTok.tkor :: (W y ++ rest)
  | _ => rest

/-- Behavior of an atom token segment under `parseAtom`: the segment is
consumed exactly and yields `v`, whatever follows. -/
def AtomB (T : List PyTok) (v : Bool) : Prop :=
  ∀ f rest, 5 * T.length + 1 ≤ f → parseAtom f (T ++ rest) = .ok (v, rest)

/-- Behavior of a raw or-level segment under `parseOrE`: consumed exactly
with value `v` whenever the continuation cannot extend a comparison,
conjunction or disjunction. -/
def OrB (T : List PyTok) (v : Bool) : Prop :=
  ∀ f rest, 5 * T.length + 5 ≤ f →
    rest.head? ≠ some PyTok.eqeq → rest.head? ≠ some PyTok.tkand →
    rest.head? ≠ some PyTok.tkor →
    parseOrE f (T ++ rest) = .ok (v, rest)

/-- Error behavior of an atom segment: parsing fails whatever follows. -/
def AtomErrB (T : List PyTok) : Prop :=
  ∀ f rest, 5 * T.length + 1 ≤ f → ∃ e, parseAtom f (T ++ rest) = .error e

/-- Error behavior of an or-level segment. -/
def OrErrB (T : List PyTok) : Prop :=
  ∀ f rest, 5 * T.length + 5 ≤ f → ∃ e, parseOrE f (T ++ rest) = .error e

/-- The full parse characterization of one node's token images: on safe
nodes the wrap is an atom and the raw segment an or-level segment computing
the Python value `pv`; on unsafe nodes (a `== not` sequence somewhere
inside) both fail. -/
def ParseOK (d : Char → Bool) (W : PropForm → List PyTok) (t : PropForm) : Prop :=
  (safe t = true → AtomB (W t) (pv d t) ∧ OrB (segW d W t) (pv d t) ∧
    (isImpIff t = true → AtomB (segW d W t) (pv d t))) ∧
  (safe t = false → AtomErrB (W t) ∧ OrErrB (segW d W t) ∧
    (isImpIff t = true → AtomErrB (segW d W t)))

/-! ### Helper lemmas -/

theorem gtRows_length (e : String) (vs : List Char) (ts : List (List Bool)) :
    ∀ rows, gtRows e vs ts = .ok rows → rows.length = ts.length := by
  induction ts with
  | nil =>
    intro rows h
    simp only [gtRows] at h
    cases h
    rfl
  | cons t ts ih =>
    intro rows h
    simp only [gtRows] at h
    cases he : evaluate e (vs.zip t) with
    | error m => rw [he] at h; cases h
    | ok r =>
      rw [he] at h
      cases hr : gtRows e vs ts with
      | error m => rw [hr] at h; cases h
      | ok rest =>
        rw [hr] at h
        cases h
        simpa using ih rest hr

theorem boolTuples_length (n : Nat) : (boolTuples n).length = 2 ^ n := by
  induction n with
  | zero => rfl
  | succ n ih => simp [boolTuples, ih, pow_succ]; omega

theorem length_mem_boolTuples (n : Nat) :
    ∀ t ∈ boolTuples n, t.length = n := by
  induction n with
  | zero => intro t ht; simp [boolTuples] at ht; simp [ht]
  | succ n ih =>
    intro t ht
    simp only [boolTuples, List.mem_append, List.mem_map] at ht
    rcases ht with ⟨a, ha, rfl⟩ | ⟨a, ha, rfl⟩ <;> simp [ih a ha]

end LogicCheck

namespace LogicCheck

/-! ### Claim C1 -/

/-- C1: the claim states `extractVariables` never returns an operator keyword
and that `extractVariables("p v q") = {p, q}`.  The code disagrees: the OR
operator `v` lies in the regex range `[p-z]` and occurs isolated, so it is
returned as a variable and the result is `{p, v, q}`. -/
theorem C1_extract_returns_operator_v :
    extract_variables "p v q" = ['p', 'v', 'q'] ∧
    'v' ∈ extract_variables "p v q" ∧
    extract_variables "p v q" ≠ ['p', 'q'] := by
  refine ⟨rfl, by decide, by decide⟩

/-! ### Claim C2 -/

/-- C2: the claim states `checkEquivalence("p^q", "p v q")` reports the
counterexample `p=False, q=True`.  The code extracts `v` as a variable, so
the joint support is `[p, q, v]` and the first divergent enumerated row is
`p=False, q=True, v=False`, which is what the explanation reports. -/
theorem C2_check_equivalence_and_vs_or :
    (check_equivalence "p^q" "p v q").map
        (fun r => (r.1, r.2.1, pyTableVars r.2.2.1)) =
      .ok (false, "No - Different results when p=False, q=True, v=False",
        ['p', 'q', 'v']) := by
  rfl

/-! ### Claim C3 -/

/-- C3 counterexample: the explanation the code produces for
`checkEquivalence("p^q", "p v q")` is `"No - Different results when
p=False, q=True, v=False"`, which is neither of the two canonical forms the
claim prescribes (`"equivalent — identical truth tables"` /
`"not equivalent — diverges when <assignment>"`). -/
theorem C3_explanation_not_spec_canonical :
    (check_equivalence "p^q" "p v q").map (fun r => r.2.1) =
      .ok "No - Different results when p=False, q=True, v=False" ∧
    "No - Different results when p=False, q=True, v=False" ≠
      "equivalent — identical truth tables" ∧
    ("not equivalent — diverges when ".toList.isPrefixOf
      "No - Different results when p=False, q=True, v=False".toList) = false :=
  ⟨rfl, by decide, by decide⟩

theorem ceLoop_characterize (e1 e2 : String) (vs : List Char) :
    ∀ (ts : List (List Bool)) (r1 r2 : List Row) (eqf : Bool) (fd : Option Assign),
      ceLoop e1 e2 vs ts = .ok (r1, r2, eqf, fd) →
      fd = firstDivergence r1 r2 ∧ (eqf = false ↔ fd.isSome) := by
  intro ts
  induction ts with
  | nil =>
    intro r1 r2 eqf fd h
    simp only [ceLoop] at h
    cases h
    simp [firstDivergence]
  | cons t ts ih =>
    intro r1 r2 eqf fd h
    simp only [ceLoop] at h
    cases he1 : evaluate e1 (vs.zip t) with
    | error m => rw [he1] at h; cases h
    | ok a =>
      rw [he1] at h
      cases he2 : evaluate e2 (vs.zip t) with
      | error m => rw [he2] at h; cases h
      | ok b =>
        rw [he2] at h
        cases hl : ceLoop e1 e2 vs ts with
        | error m => rw [hl] at h; cases h
        | ok res =>
          rw [hl] at h
          obtain ⟨rs1, rs2, eqR, fdR⟩ := res
          cases h
          obtain ⟨hfd, hiff⟩ := ih rs1 rs2 eqR fdR hl
          by_cases hab : a = b
          · subst hab
            simp only [firstDivergence, bne_self_eq_false, if_false, Bool.false_eq_true]
            constructor
            · simpa using hfd
            · simpa using hiff
          · have hne : (a != b) = true := bne_iff_ne.mpr hab
            simp [firstDivergence, hne, hab]

/-- C3 (amended): when the joint support is non-empty, the explanation
returned by `check_equivalence` is exactly one of the two code-canonical
forms: `"Yes - Both expressions have identical truth tables"` when the
verdict is equivalent, or `"No - Different results when <assignment>"`
where the assignment is the first enumerated divergent row (its keys being
the sorted joint support). -/
theorem C3_explanation_canonical_forms :
    ∀ (e1 e2 : String) (b : Bool) (x : String) (t1 t2 : PyTable),
      joint_vars e1 e2 ≠ [] →
      check_equivalence e1 e2 = .ok (b, x, t1, t2) →
      (b = true ∧ x = "Yes - Both expressions have identical truth tables") ∨
      (b = false ∧ ∃ rows1 rows2 d,
        t1 = .tabled (joint_vars e1 e2) rows1 ∧
        t2 = .tabled (joint_vars e1 e2) rows2 ∧
        firstDivergence rows1 rows2 = some d ∧
        x = "No - Different results when " ++ diffString d) := by
  intro e1 e2 b x t1 t2 hne h
  unfold check_equivalence at h
  have hv : (joint_vars e1 e2).isEmpty = false := by
    cases hjv : (joint_vars e1 e2).isEmpty
    · rfl
    · exact absurd (List.isEmpty_iff.mp hjv) hne
  rw [hv] at h
  simp only [if_false, Bool.false_eq_true] at h
  cases hl : ceLoop e1 e2 (joint_vars e1 e2)
      (boolTuples (joint_vars e1 e2).length) with
  | error m => rw [hl] at h; cases h
  | ok res =>
    rw [hl] at h
    obtain ⟨rows1, rows2, eqf, fd⟩ := res
    cases h
    obtain ⟨hfd, hiff⟩ := ceLoop_characterize e1 e2 _ _ _ _ _ _ hl
    cases eqf with
    | true => exact Or.inl ⟨rfl, by simp⟩
    | false =>
      refine Or.inr ⟨rfl, rows1, rows2, ?_⟩
      have hs : fd.isSome := hiff.mp rfl
      cases fd with
      | none => simp at hs
      | some d => exact ⟨d, rfl, rfl, hfd.symm, by simp⟩

/-- Witness for C3 at the concrete inputs `"p"`, `"~p"`. -/
theorem C3_explanation_canonical_forms_witness :
    (false = true ∧ "No - Different results when p=False" =
        "Yes - Both expressions have identical truth tables") ∨
    (false = false ∧ ∃ rows1 rows2 d,
      (PyTable.tabled ['p'] [([('p', false)], false), ([('p', true)], true)] : PyTable) =
        .tabled (joint_vars "p" "~p") rows1 ∧
      (PyTable.tabled ['p'] [([('p', false)], true), ([('p', true)], false)] : PyTable) =
        .tabled (joint_vars "p" "~p") rows2 ∧
      firstDivergence rows1 rows2 = some d ∧
      "No - Different results when p=False" =
        "No - Different results when " ++ diffString d) :=
  C3_explanation_canonical_forms "p" "~p" false "No - Different results when p=False"
    (.tabled ['p'] [([('p', false)], false), ([('p', true)], true)])
    (.tabled ['p'] [([('p', false)], true), ([('p', true)], false)])
    (by decide) rfl

end LogicCheck

namespace LogicCheck

/-! ### Claim C7 -/

/-- C7 counterexample: the zero-variable expression `"("` fails to evaluate,
and `generate_truth_table` reports it with the fixed message `"Invalid
expression with no variables"`, which does not contain the original
expression text (no `(` occurs in it) — contradicting the claim that every
surfaced failure carries the original expression text. -/
theorem C7_zero_variable_error_drops_text :
    generate_truth_table "(" = .error "Invalid expression with no variables" ∧
    '(' ∉ "Invalid expression with no variables".toList :=
  ⟨rfl, by decide⟩

/-- C7 (amended): every error raised by `_evaluate` carries the original,
untransformed expression text (`"Invalid expression: <original>"`) — in
particular an unmatched `(` in an expression with at least one variable is
reported that way — but when a *zero-variable* expression fails,
`generate_truth_table` replaces that error by the fixed message `"Invalid
expression with no variables"`, which omits the expression text. -/
theorem C7_error_reporting :
    (∀ (e : String) (vals : Assign) (msg : String),
      evaluate e vals = .error msg → msg = "Invalid expression: " ++ e) ∧
    (∀ e : String, sortChars (extract_variables e) = [] →
      (∃ m, evaluate e [] = .error m) →
      generate_truth_table e = .error "Invalid expression with no variables") := by
  constructor
  · intro e vals msg h
    unfold evaluate at h
    cases hc : evaluateCore e vals with
    | ok b => rw [hc] at h; cases h
    | error m => rw [hc] at h; cases h; rfl
  · intro e hvars hfail
    obtain ⟨m, hm⟩ := hfail
    unfold generate_truth_table
    rw [hvars]
    simp only [List.isEmpty_nil, if_true, hm]

/-- Witness for C7 at the concrete input `"("` (an unmatched parenthesis
with no variables). -/
theorem C7_error_reporting_witness :
    "Invalid expression: (" = "Invalid expression: " ++ "(" ∧
    generate_truth_table "(" = .error "Invalid expression with no variables" :=
  ⟨C7_error_reporting.1 "(" [] "Invalid expression: (" rfl,
   C7_error_reporting.2 "(" (by decide) ⟨"Invalid expression: (", rfl⟩⟩

/-! ### Claim C8 -/

/-- C8 counterexample: the single-row table of a zero-variable expression is
rendered as the fixed string `"No variables"`, not as a header row plus one
line per assignment (the word `Result` does not even occur in it). -/
theorem C8_zero_variable_table_not_header :
    format_truth_table ([], [([], true)]) = .ok "No variables" ∧
    ¬ ("Result".toList <:+: "No variables".toList) :=
  ⟨rfl, by decide⟩

theorem rowLine_total (vlist : List Char) (row : Row)
    (h : ∀ v ∈ vlist, (row.1.lookup v).isSome) :
    rowLine vlist row = .ok (totalRowLine vlist row) := by
  unfold rowLine totalRowLine
  have hm : (vlist.mapM fun v =>
      match row.1.lookup v with
      | some b => Except.ok (String.singleton ((pyBoolStr b).get 0))
      | none => Except.error "KeyError") =
      .ok (vlist.map fun v =>
        String.singleton ((pyBoolStr ((row.1.lookup v).getD false)).get 0)) := by
    induction vlist with
    | nil => rfl
    | cons v vs ih =>
      have hv : (row.1.lookup v).isSome := h v (List.mem_cons_self _ _)
      cases hl : row.1.lookup v with
      | none => rw [hl] at hv; cases hv
      | some b =>
        rw [List.mapM_cons, hl]
        have := ih (fun w hw => h w (List.mem_cons_of_mem _ hw))
        rw [this]
        simp only [List.map_cons, hl, Option.getD_some]
        rfl
  rw [hm]
  rfl

theorem rows_mapM_total (vlist : List Char) :
    ∀ rows : List Row, (∀ row ∈ rows, ∀ v ∈ vlist, (row.1.lookup v).isSome) →
      rows.mapM (rowLine vlist) = .ok (rows.map (totalRowLine vlist)) := by
  intro rows
  induction rows with
  | nil => intro _; rfl
  | cons row rest ih =>
    intro h
    rw [List.mapM_cons, rowLine_total vlist row (h row (List.mem_cons_self _ _)),
      ih (fun r hr => h r (List.mem_cons_of_mem _ hr))]
    rfl

theorem lookup_zip_isSome (_b : Bool) :
    ∀ (vs : List Char) (t : List Bool), t.length = vs.length →
      ∀ v ∈ vs, ((vs.zip t).lookup v).isSome := by
  intro vs
  induction vs with
  | nil => intro t _ v hv; cases hv
  | cons w ws ih =>
    intro t hlen v hv
    cases t with
    | nil => cases hlen
    | cons x xs =>
      simp only [List.zip_cons_cons, List.lookup]
      cases hvw : v == w with
      | true => simp
      | false =>
        have : v ∈ ws := by
          rcases List.mem_cons.mp hv with h | h
          · rw [h] at hvw; simp at hvw
          · exact h
        simpa using ih xs (by simpa using hlen) v this

theorem gtRows_covered (e : String) (vs : List Char) :
    ∀ (ts : List (List Bool)), (∀ t ∈ ts, t.length = vs.length) →
      ∀ rows, gtRows e vs ts = .ok rows →
        ∀ row ∈ rows, ∀ v ∈ vs, (row.1.lookup v).isSome := by
  intro ts
  induction ts with
  | nil =>
    intro _ rows h
    simp only [gtRows] at h
    cases h
    intro row hr; cases hr
  | cons t ts ih =>
    intro hts rows h
    simp only [gtRows] at h
    cases he : evaluate e (vs.zip t) with
    | error m => rw [he] at h; cases h
    | ok r =>
      rw [he] at h
      cases hr : gtRows e vs ts with
      | error m => rw [hr] at h; cases h
      | ok rest =>
        rw [hr] at h
        cases h
        intro row hrow v hv
        rcases List.mem_cons.mp hrow with hrw | hrw
        · subst hrw
          exact lookup_zip_isSome r vs t (hts t (List.mem_cons_self _ _)) v hv
        · exact ih (fun u hu => hts u (List.mem_cons_of_mem _ hu)) rest hr row hrw v hv

/-- C8 (amended): for a table whose variable list is non-empty and whose
rows bind every listed variable — as every generator-produced table does —
`format_truth_table` succeeds and returns the header line (variable names
joined by `" | "` plus `" | Result"`), a dash separator line, and one line
per assignment row with single-character `T`/`F` markers; a table with an
empty variable list is rendered as the fixed string `"No variables"`. -/
theorem C8_format_truth_table :
    (∀ rows : List Row, format_truth_table ([], rows) = .ok "No variables") ∧
    (∀ (vlist : List Char) (rows : List Row),
      vlist ≠ [] → (∀ row ∈ rows, ∀ v ∈ vlist, (row.1.lookup v).isSome) →
      format_truth_table (vlist, rows) =
        .ok (String.intercalate "\n"
          ((String.intercalate " | " (vlist.map String.singleton) ++ " | Result") ::
            String.mk (List.replicate
              (String.intercalate " | " (vlist.map String.singleton) ++
                " | Result").length '-') ::
            rows.map (totalRowLine vlist)))) ∧
    (∀ (e : String) (vs : List Char) (rows : List Row),
      generate_truth_table e = .ok (vs, rows) →
      ∀ row ∈ rows, ∀ v ∈ vs, (row.1.lookup v).isSome) := by
  refine ⟨fun rows => rfl, ?_, ?_⟩
  · intro vlist rows hne hcov
    have hv : vlist.isEmpty = false := by
      cases h : vlist.isEmpty
      · rfl
      · exact absurd (List.isEmpty_iff.mp h) hne
    simp only [format_truth_table, hv, if_false, Bool.false_eq_true]
    rw [rows_mapM_total vlist rows hcov]
    rfl
  · intro e vs rows h row hrow v hv
    unfold generate_truth_table at h
    cases hve : (sortChars (extract_variables e)).isEmpty with
    | true =>
      rw [hve] at h
      simp only [if_true] at h
      cases he : evaluate e [] with
      | error m => rw [he] at h; cases h
      | ok r =>
        rw [he] at h
        cases h
        rcases List.mem_singleton.mp hrow with rfl
        cases hv
    | false =>
      rw [hve] at h
      simp only [if_false, Bool.false_eq_true] at h
      cases hr : gtRows e (sortChars (extract_variables e))
          (boolTuples (sortChars (extract_variables e)).length) with
      | error m => rw [hr] at h; cases h
      | ok rest =>
        rw [hr] at h
        cases h
        exact gtRows_covered e _ _
          (length_mem_boolTuples _) rows hr row hrow v hv

/-- Witness for C8: the generator table of `"p"` formatted concretely. -/
theorem C8_format_truth_table_witness :
    format_truth_table ([], [([], true)]) = .ok "No variables" ∧
    format_truth_table (['p'], [([('p', false)], false), ([('p', true)], true)]) =
      .ok (String.intercalate "\n"
        ((String.intercalate " | " ((['p'] : List Char).map String.singleton) ++
            " | Result") ::
          String.mk (List.replicate
            (String.intercalate " | " ((['p'] : List Char).map String.singleton) ++
              " | Result").length '-') ::
          ([([('p', false)], false), ([('p', true)], true)] : List Row).map
            (totalRowLine ['p']))) :=
  ⟨C8_format_truth_table.1 [([], true)],
   C8_format_truth_table.2.1 ['p'] [([('p', false)], false), ([('p', true)], true)]
     (by decide) (by decide)⟩

/-! ### Claim C10 -/

theorem mem_replaceChar (c : Char) (repl : List Char) :
    ∀ (s : List Char) (x : Char), x ∈ replaceChar c repl s → x ∈ s ∨ x ∈ repl := by
  intro s
  induction s with
  | nil => intro x hx; cases hx
  | cons y ys ih =>
    intro x hx
    simp only [replaceChar, List.mem_append] at hx
    rcases hx with hx | hx
    · by_cases hy : y == c
      · rw [if_pos hy] at hx
        exact Or.inr hx
      · rw [if_neg hy] at hx
        rcases List.mem_singleton.mp hx with rfl
        exact Or.inl (List.mem_cons_self _ _)
    · rcases ih x hx with h | h
      · exact Or.inl (List.mem_cons_of_mem _ h)
      · exact Or.inr h

theorem not_mem_replaceChar_self (c : Char) (repl : List Char) (hc : c ∉ repl) :
    ∀ s, c ∉ replaceChar c repl s := by
  intro s
  induction s with
  | nil => intro hx; cases hx
  | cons y ys ih =>
    intro hx
    simp only [replaceChar, List.mem_append] at hx
    rcases hx with hx | hx
    · by_cases hy : y == c
      · rw [if_pos hy] at hx
        exact hc hx
      · rw [if_neg hy] at hx
        rcases List.mem_singleton.mp hx with rfl
        exact hy (beq_self_eq_true _)
    · exact ih hx

theorem mem_substWordAux (c : Char) (repl : List Char) :
    ∀ (s : List Char) (prev : Option Char) (x : Char),
      x ∈ substWordAux c repl prev s → x ∈ s ∨ x ∈ repl := by
  intro s
  induction s with
  | nil => intro prev x hx; cases hx
  | cons y ys ih =>
    intro prev x hx
    simp only [substWordAux, List.mem_append] at hx
    rcases hx with hx | hx
    · by_cases hcond : (y == c && (wordAt prev != isWordChar y) &&
          (isWordChar y != wordAt ys.head?)) = true
      · rw [if_pos hcond] at hx
        exact Or.inr hx
      · rw [if_neg hcond] at hx
        rcases List.mem_singleton.mp hx with rfl
        exact Or.inl (List.mem_cons_self _ _)
    · rcases ih (some y) x hx with h | h
      · exact Or.inl (List.mem_cons_of_mem _ h)
      · exact Or.inr h

theorem substWordAux_id_of_not_mem (c : Char) (repl : List Char) :
    ∀ (s : List Char) (prev : Option Char), c ∉ s →
      substWordAux c repl prev s = s := by
  intro s
  induction s with
  | nil => intro prev _; rfl
  | cons y ys ih =>
    intro prev hc
    have hy : (y == c) = false := by
      cases hyc : y == c
      · rfl
      · exact absurd (List.mem_cons_self y ys)
          (by rw [eq_of_beq hyc] at hc ⊢; exact fun h => hc (by exact h))
    simp only [substWordAux, hy, Bool.false_and, if_false, Bool.false_eq_true,
      List.singleton_append, List.cons.injEq, true_and]
    exact ih (some y) (fun h => hc (List.mem_cons_of_mem _ h))

theorem fold_subst_v_ignored (b1 b2 : Bool) :
    ∀ (vals : Assign) (acc : List Char), 'v' ∉ acc →
      (vals.map (fun p => if p.1 = 'v' then ('v', b1) else p)).foldl
          (fun a vb => substWord vb.1 ((pyBoolStr vb.2).toList) a) acc =
      (vals.map (fun p => if p.1 = 'v' then ('v', b2) else p)).foldl
          (fun a vb => substWord vb.1 ((pyBoolStr vb.2).toList) a) acc := by
  intro vals
  induction vals with
  | nil => intro acc _; rfl
  | cons p vals ih =>
    intro acc hacc
    by_cases hp : p.1 = 'v'
    · simp only [List.map_cons, if_pos hp, List.foldl_cons]
      rw [substWord, substWordAux_id_of_not_mem 'v' _ acc none hacc,
        substWord, substWordAux_id_of_not_mem 'v' _ acc none hacc]
      exact ih acc hacc
    · simp only [List.map_cons, if_neg hp, List.foldl_cons]
      refine ih _ ?_
      intro hmem
      rcases mem_substWordAux p.1 _ acc none 'v' hmem with h | h
      · exact hacc h
      · cases hb : p.2 <;> rw [hb] at h <;> revert h <;> decide

theorem substAll_v_ignored (b1 b2 : Bool) (vals : Assign) (t : List Char) :
    substAll (vals.map (fun p => if p.1 = 'v' then ('v', b1) else p)) t =
    substAll (vals.map (fun p => if p.1 = 'v' then ('v', b2) else p)) t := by
  have hv1 : 'v' ∉ replaceChar 'v' (" or ".toList) t :=
    not_mem_replaceChar_self 'v' _ (by decide) t
  have hv2 : 'v' ∉ replaceChar '^' (" and ".toList)
      (replaceChar 'v' (" or ".toList) t) := by
    intro h
    rcases mem_replaceChar '^' _ _ 'v' h with h | h
    · exact hv1 h
    · revert h; decide
  have hv3 : 'v' ∉ replaceChar '~' (" not ".toList)
      (replaceChar '^' (" and ".toList) (replaceChar 'v' (" or ".toList) t)) := by
    intro h
    rcases mem_replaceChar '~' _ _ 'v' h with h | h
    · exact hv2 h
    · revert h; decide
  exact fold_subst_v_ignored b1 b2 vals _ hv3

/-- C10: flipping the boolean bound to the variable `v` in the assignment
never changes the result of `_evaluate`: the character `v` is textually
replaced by ` or ` before variable substitution, so the whole-word
substitution for `v` acts on a string with no `v` left and is a no-op. -/
theorem C10_v_binding_never_read :
    ∀ (e : String) (vals : Assign) (b1 b2 : Bool),
      evaluate e (vals.map (fun p => if p.1 = 'v' then ('v', b1) else p)) =
      evaluate e (vals.map (fun p => if p.1 = 'v' then ('v', b2) else p)) := by
  intro e vals b1 b2
  unfold evaluate evaluateCore
  simp only [substAll_v_ignored b1 b2 vals]

/-! ### Claim C4 -/

/-- C4: `generateTruthTable(e)` returns exactly `2 ^ |support|` rows; the
returned variable list is the sorted extracted support; and when the support
is empty the (non-error) result is the single row pairing the empty
assignment with the expression's evaluated value. -/
theorem C4_truth_table_row_count :
    ∀ (e : String) (vs : List Char) (rows : List Row),
      generate_truth_table e = .ok (vs, rows) →
      rows.length = 2 ^ vs.length ∧ vs = sortChars (extract_variables e) ∧
      (vs = [] → ∃ r, rows = [([], r)] ∧ evaluate e [] = .ok r) := by
  intro e vs rows h
  unfold generate_truth_table at h
  cases hv : (sortChars (extract_variables e)).isEmpty with
  | true =>
    rw [hv] at h
    simp only [if_true] at h
    cases he : evaluate e [] with
    | error m => rw [he] at h; cases h
    | ok r =>
      rw [he] at h
      cases h
      refine ⟨rfl, (List.isEmpty_iff.mp hv).symm, fun _ => ⟨r, rfl, by simp [he]⟩⟩
  | false =>
    rw [hv] at h
    simp only [if_false, Bool.false_eq_true] at h
    cases hr : gtRows e (sortChars (extract_variables e))
        (boolTuples (sortChars (extract_variables e)).length) with
    | error m => rw [hr] at h; cases h
    | ok rws =>
      rw [hr] at h
      cases h
      refine ⟨?_, rfl, fun hnil => ?_⟩
      · rw [gtRows_length _ _ _ _ hr, boolTuples_length]
      · rw [hnil] at hv
        simp at hv

/-! ### Claim C5: enumeration order -/

theorem boolTuples_ne_nil (n : Nat) : boolTuples n ≠ [] := by
  induction n with
  | zero => simp [boolTuples]
  | succ n ih => simp [boolTuples, List.append_eq_nil, List.map_eq_nil_iff, ih]

theorem boolTuples_head (n : Nat) :
    (boolTuples n).head? = some (List.replicate n false) := by
  induction n with
  | zero => rfl
  | succ n ih =>
    simp only [boolTuples, List.replicate_succ]
    rw [List.head?_append_of_ne_nil]
    · rw [List.head?_map, ih]; rfl
    · simp [boolTuples_ne_nil n]

theorem boolTuples_last (n : Nat) :
    (boolTuples n).getLast? = some (List.replicate n true) := by
  induction n with
  | zero => rfl
  | succ n ih =>
    simp only [boolTuples, List.replicate_succ]
    rw [List.getLast?_append_of_ne_nil]
    · rw [List.getLast?_map, ih]; rfl
    · simp [boolTuples_ne_nil n]

theorem incBits_append_of_false_mem (l : List Bool) :
    ∀ u, false ∈ u → incBits (u ++ l) = incBits u ++ l := by
  intro u
  induction u with
  | nil => intro h; cases h
  | cons b u ih =>
    intro h
    cases b with
    | false => simp [incBits]
    | true =>
      have hm : false ∈ u := by simpa using h
      rw [List.cons_append]
      show false :: incBits (u ++ l) = (false :: incBits u) ++ l
      rw [ih hm, List.cons_append]

theorem eq_replicate_true_of_false_notMem :
    ∀ a : List Bool, false ∉ a → a = List.replicate a.length true := by
  intro a
  induction a with
  | nil => intro _; rfl
  | cons b t ih =>
    intro h
    cases b with
    | false => simp at h
    | true =>
      have hnt : false ∉ t := fun hm => h (List.mem_cons_of_mem _ hm)
      rw [List.length_cons, List.replicate_succ]
      exact congrArg (fun l => true :: l) (ih hnt)

theorem incBits_replicate_true (n : Nat) (l : List Bool) :
    incBits (List.replicate n true ++ l) = List.replicate n false ++ incBits l := by
  induction n with
  | zero => rfl
  | succ n ih =>
    rw [List.replicate_succ, List.cons_append]
    show false :: incBits (List.replicate n true ++ l) = _
    rw [ih, List.replicate_succ, List.cons_append]

theorem binSucc_cons (b : Bool) (a : List Bool)
    (h : a ≠ List.replicate a.length true) : binSucc (b :: a) = b :: binSucc a := by
  have hf : false ∈ a.reverse := by
    rw [List.mem_reverse]
    by_contra hn
    exact h (eq_replicate_true_of_false_notMem a hn)
  simp only [binSucc, List.reverse_cons]
  rw [incBits_append_of_false_mem _ _ hf]
  simp

theorem binSucc_rollover (n : Nat) :
    binSucc (false :: List.replicate n true) = true :: List.replicate n false := by
  simp only [binSucc, List.reverse_cons, List.reverse_replicate]
  rw [incBits_replicate_true]
  simp [incBits, List.reverse_replicate]

theorem boolTuples_chain (n : Nat) :
    List.Chain' (fun a b =>
      a.length = n ∧ a ≠ List.replicate n true ∧ b = binSucc a) (boolTuples n) := by
  induction n with
  | zero => simp [boolTuples]
  | succ n ih =>
    simp only [boolTuples]
    rw [List.chain'_append]
    refine ⟨?_, ?_, ?_⟩
    · rw [List.chain'_map]
      refine ih.imp ?_
      rintro a b ⟨hl, hne, rfl⟩
      refine ⟨by simp [hl], ?_, ?_⟩
      · simp [List.replicate_succ]
      · rw [binSucc_cons false a (by rw [hl]; exact hne)]
    · rw [List.chain'_map]
      refine ih.imp ?_
      rintro a b ⟨hl, hne, rfl⟩
      refine ⟨by simp [hl], ?_, ?_⟩
      · simp [List.replicate_succ, hne]
      · rw [binSucc_cons true a (by rw [hl]; exact hne)]
    · intro x hx y hy
      rw [List.getLast?_map, boolTuples_last] at hx
      rw [List.head?_map, boolTuples_head] at hy
      simp only [Option.mem_def, Option.map_some', Option.some_inj] at hx hy
      subst hx; subst hy
      refine ⟨by simp, by simp [List.replicate_succ], (binSucc_rollover n).symm⟩

theorem gtRows_fsts (e : String) (vs : List Char) (ts : List (List Bool)) :
    ∀ rows, gtRows e vs ts = .ok rows →
      rows.map Prod.fst = ts.map (fun t => vs.zip t) := by
  induction ts with
  | nil =>
    intro rows h
    simp only [gtRows] at h
    cases h
    rfl
  | cons t ts ih =>
    intro rows h
    simp only [gtRows] at h
    cases he : evaluate e (vs.zip t) with
    | error m => rw [he] at h; cases h
    | ok r =>
      rw [he] at h
      cases hr : gtRows e vs ts with
      | error m => rw [hr] at h; cases h
      | ok rest =>
        rw [hr] at h
        cases h
        simp [ih rest hr]

/-- C5: with non-empty support the generator's variable list is sorted and
duplicate-free, the row assignments are exactly the zip of the variable
list with the `itertools.product([False, True], ...)` tuples in product
order, the first tuple is all-`False`, the last all-`True`, and each tuple
is the binary successor (most-significant-first, `False` = 0) of the
previous one. -/
theorem C5_enumeration_order :
    ∀ (e : String) (vs : List Char) (rows : List Row),
      generate_truth_table e = .ok (vs, rows) → vs ≠ [] →
      vs.Sorted (· ≤ ·) ∧ vs.Nodup ∧
      rows.map Prod.fst = (boolTuples vs.length).map (fun t => vs.zip t) ∧
      ((rows.map Prod.fst).map (fun d => d.map Prod.snd)).head? =
        some (List.replicate vs.length false) ∧
      ((rows.map Prod.fst).map (fun d => d.map Prod.snd)).getLast? =
        some (List.replicate vs.length true) ∧
      List.Chain' (fun a b => b = binSucc a)
        ((rows.map Prod.fst).map (fun d => d.map Prod.snd)) := by
  intro e vs rows h hne
  have hvars : vs = sortChars (extract_variables e) ∧
      ∃ rws, gtRows e vs (boolTuples vs.length) = .ok rws ∧ rows = rws := by
    unfold generate_truth_table at h
    cases hv : (sortChars (extract_variables e)).isEmpty with
    | true =>
      rw [hv] at h
      simp only [if_true] at h
      cases he : evaluate e [] with
      | error m => rw [he] at h; cases h
      | ok r =>
        rw [he] at h
        cases h
        exact absurd rfl hne
    | false =>
      rw [hv] at h
      simp only [if_false, Bool.false_eq_true] at h
      cases hr : gtRows e (sortChars (extract_variables e))
          (boolTuples (sortChars (extract_variables e)).length) with
      | error m => rw [hr] at h; cases h
      | ok rws =>
        rw [hr] at h
        cases h
        exact ⟨rfl, _, hr, rfl⟩
  obtain ⟨hvs, rws, hr, hrr⟩ := hvars
  subst hrr
  have hfst : rows.map Prod.fst = (boolTuples vs.length).map (fun t => vs.zip t) :=
    gtRows_fsts _ _ _ _ hr
  have htuples : (rows.map Prod.fst).map (fun d => d.map Prod.snd) =
      boolTuples vs.length := by
    rw [hfst, List.map_map]
    refine List.map_congr_left ?_ |>.trans (List.map_id _)
    intro t ht
    simpa using List.map_snd_zip vs t (by rw [length_mem_boolTuples _ t ht])
  refine ⟨?_, ?_, hfst, ?_, ?_, ?_⟩
  · rw [hvs]; exact List.sorted_insertionSort _ _
  · rw [hvs]
    exact (List.perm_insertionSort _ _).nodup_iff.mpr (List.nodup_dedup _)
  · rw [htuples]; exact boolTuples_head _
  · rw [htuples]; exact boolTuples_last _
  · rw [htuples]
    exact (boolTuples_chain _).imp fun a b h => h.2.2

/-- Witness for C5 at the concrete input `"p^q"`. -/
theorem C5_enumeration_order_witness :
    (['p', 'q'] : List Char).Sorted (· ≤ ·) ∧ (['p', 'q'] : List Char).Nodup ∧
    (([([('p', false), ('q', false)], false), ([('p', false), ('q', true)], false),
       ([('p', true), ('q', false)], false), ([('p', true), ('q', true)], true)] :
        List Row).map Prod.fst) =
      (boolTuples (['p', 'q'] : List Char).length).map
        (fun t => (['p', 'q'] : List Char).zip t) ∧
    ((([([('p', false), ('q', false)], false), ([('p', false), ('q', true)], false),
        ([('p', true), ('q', false)], false), ([('p', true), ('q', true)], true)] :
         List Row).map Prod.fst).map (fun d => d.map Prod.snd)).head? =
      some (List.replicate (['p', 'q'] : List Char).length false) ∧
    ((([([('p', false), ('q', false)], false), ([('p', false), ('q', true)], false),
        ([('p', true), ('q', false)], false), ([('p', true), ('q', true)], true)] :
         List Row).map Prod.fst).map (fun d => d.map Prod.snd)).getLast? =
      some (List.replicate (['p', 'q'] : List Char).length true) ∧
    List.Chain' (fun a b => b = binSucc a)
      ((([([('p', false), ('q', false)], false), ([('p', false), ('q', true)], false),
          ([('p', true), ('q', false)], false), ([('p', true), ('q', true)], true)] :
           List Row).map Prod.fst).map (fun d => d.map Prod.snd)) :=
  C5_enumeration_order "p^q" ['p', 'q']
    [([('p', false), ('q', false)], false), ([('p', false), ('q', true)], false),
     ([('p', true), ('q', false)], false), ([('p', true), ('q', true)], true)]
    rfl (by decide)

/-- Witness for C4 at the concrete input `"p^q"`. -/
theorem C4_truth_table_row_count_witness :
    ([([('p', false), ('q', false)], false), ([('p', false), ('q', true)], false),
      ([('p', true), ('q', false)], false), ([('p', true), ('q', true)], true)] :
        List Row).length = 2 ^ (['p', 'q'] : List Char).length ∧
    (['p', 'q'] : List Char) = sortChars (extract_variables "p^q") ∧
    ((['p', 'q'] : List Char) = [] → ∃ r,
      ([([('p', false), ('q', false)], false), ([('p', false), ('q', true)], false),
        ([('p', true), ('q', false)], false), ([('p', true), ('q', true)], true)] :
          List Row) = [([], r)] ∧ evaluate "p^q" [] = .ok r) :=
  C4_truth_table_row_count "p^q" ['p', 'q']
    [([('p', false), ('q', false)], false), ([('p', false), ('q', true)], false),
     ([('p', true), ('q', false)], false), ([('p', true), ('q', true)], true)] rfl

/-! ### Claim C6: characterization lemmas for the transformer helpers -/

theorem parenDepth_append (l1 l2 : List Char) :
    parenDepth (l1 ++ l2) = parenDepth l1 + parenDepth l2 := by
  induction l1 with
  | nil => simp [parenDepth]
  | cons c rest ih => simp [parenDepth, ih]; ring

theorem parenDelta_cases (c : Char) :
    parenDelta c = 1 ∨ parenDelta c = -1 ∨ parenDelta c = 0 := by
  unfold parenDelta
  by_cases h1 : c = '('
  · simp [h1]
  · by_cases h2 : c = ')' <;> simp [h1, h2]

theorem parenDepth_take_step (l : List Char) :
    ∀ j : Nat, parenDepth (l.take (j + 1)) = parenDepth (l.take j) ∨
      parenDepth (l.take (j + 1)) = parenDepth (l.take j) + 1 ∨
      parenDepth (l.take (j + 1)) = parenDepth (l.take j) - 1 := by
  induction l with
  | nil => intro j; left; simp
  | cons c rest ih =>
    intro j
    cases j with
    | zero =>
      simp only [List.take_succ_cons, List.take_zero, List.take_nil, parenDepth]
      rcases parenDelta_cases c with h | h | h <;> rw [h] <;> omega
    | succ j =>
      simp only [List.take_succ_cons, parenDepth]
      rcases ih j with h | h | h <;> rw [h] <;> omega

theorem depth_stays_pos (l : List Char)
    (h : ∀ j, j < l.length → 1 + parenDepth (l.take (j + 1)) ≠ 0) :
    ∀ j, 0 < 1 + parenDepth (l.take j) := by
  intro j
  induction j with
  | zero => simp [parenDepth]
  | succ j ih =>
    by_cases hj : j < l.length
    · have hne := h j hj
      rcases parenDepth_take_step l j with hs | hs | hs <;> omega
    · have heq : l.take (j + 1) = l.take j := by
        rw [List.take_of_length_le (by omega), List.take_of_length_le (by omega)]
      rw [heq]; exact ih

theorem fmp_step_eq (cnt : Int) (c : Char) :
    (if c == '(' then cnt + 1 else if c == ')' then cnt - 1 else cnt) =
      cnt + parenDelta c := by
  unfold parenDelta
  by_cases h1 : c = '('
  · simp [h1]
  · by_cases h2 : c = ')'
    · simp [h1, h2]
      omega
    · simp [h1, h2]

theorem fmpAux_some_spec :
    ∀ (l : List Char) (i : Nat) (cnt : Int) (m : Nat),
      fmpAux l i cnt = some m →
      ∃ k, m = i + k ∧ k < l.length ∧ cnt + parenDepth (l.take (k + 1)) = 0 ∧
        ∀ j < k, cnt + parenDepth (l.take (j + 1)) ≠ 0 := by
  intro l
  induction l with
  | nil => intro i cnt m h; cases h
  | cons c rest ih =>
    intro i cnt m h
    simp only [fmpAux, fmp_step_eq] at h
    by_cases hz : cnt + parenDelta c = 0
    · rw [if_pos (by simpa using hz)] at h
      cases h
      refine ⟨0, rfl, by simp, ?_, fun j hj => absurd hj (Nat.not_lt_zero j)⟩
      simpa [parenDepth] using hz
    · rw [if_neg (by simpa using hz)] at h
      obtain ⟨k, hm, hk, hdep, hmin⟩ := ih (i + 1) (cnt + parenDelta c) m h
      refine ⟨k + 1, by omega, by simpa using Nat.succ_lt_succ hk, ?_, ?_⟩
      · simp only [List.take_succ_cons, parenDepth]
        linarith [hdep]
      · intro j hj
        cases j with
        | zero =>
          simp only [List.take_succ_cons, List.take_zero, parenDepth]
          intro hc
          exact hz (by linarith)
        | succ j =>
          have h3 := hmin j (by omega)
          simp only [List.take_succ_cons, parenDepth]
          intro hc
          exact h3 (by linarith)

theorem fmpAux_some_intro :
    ∀ (l : List Char) (i : Nat) (cnt : Int) (k : Nat),
      k < l.length → cnt + parenDepth (l.take (k + 1)) = 0 →
      (∀ j < k, cnt + parenDepth (l.take (j + 1)) ≠ 0) →
      fmpAux l i cnt = some (i + k) := by
  intro l
  induction l with
  | nil => intro i cnt k hk; cases hk
  | cons c rest ih =>
    intro i cnt k hk hdep hmin
    simp only [fmpAux, fmp_step_eq]
    cases k with
    | zero =>
      have hz : cnt + parenDelta c = 0 := by
        simp only [List.take_succ_cons, List.take_zero, parenDepth] at hdep
        linarith
      rw [if_pos (by simpa using hz)]
      simp
    | succ k =>
      have hz : cnt + parenDelta c ≠ 0 := by
        have h0 := hmin 0 (Nat.succ_pos k)
        simp only [List.take_succ_cons, List.take_zero, parenDepth] at h0
        intro hc
        exact h0 (by linarith)
      rw [if_neg (by simpa using hz)]
      have hres := ih (i + 1) (cnt + parenDelta c) k (by simpa using Nat.lt_of_succ_lt_succ hk)
        (by
          simp only [List.take_succ_cons, parenDepth] at hdep
          linarith)
        (by
          intro j hj
          have h3 := hmin (j + 1) (by omega)
          simp only [List.take_succ_cons, parenDepth] at h3
          intro hc
          exact h3 (by linarith))
      rw [hres]
      congr 1
      omega

theorem enclosed_shape (text : List Char)
    (hhead : text.head? = some '(') (hlast : text.getLast? = some ')') :
    ∃ inner, text = '(' :: (inner ++ [')']) := by
  cases text with
  | nil => cases hhead
  | cons a rest =>
    have ha : a = '(' := by simpa using hhead
    subst ha
    rcases List.eq_nil_or_concat rest with rfl | ⟨L, b, rfl⟩
    · simp at hlast
    · rw [List.concat_eq_append] at hlast
      have hb : b = ')' := by
        rw [show ('(' :: (L ++ [b])) = ('(' :: L) ++ [b] from by simp] at hlast
        rw [List.getLast?_concat] at hlast
        simpa using hlast
      exact ⟨L, by rw [List.concat_eq_append, hb]⟩

theorem is_fully_enclosed_iff (text : List Char) :
    is_fully_enclosed text = true ↔ GenuinelyEnclosed text := by
  constructor
  · intro h
    unfold is_fully_enclosed at h
    by_cases hc : (text.head? == some '(' && text.getLast? == some ')') = true
    · rw [if_pos hc] at h
      rw [Bool.and_eq_true] at hc
      have hhead : text.head? = some '(' := by simpa using hc.1
      have hlast : text.getLast? = some ')' := by simpa using hc.2
      have hf : find_matching_paren text 0 = some (text.length - 1) := by
        simpa using h
      obtain ⟨inner, rfl⟩ := enclosed_shape text hhead hlast
      rw [find_matching_paren] at hf
      simp only [List.drop_succ_cons, List.drop_zero, List.length_cons,
        List.length_append, List.length_singleton] at hf
      obtain ⟨k, hm, hk, hdep, hmin⟩ := fmpAux_some_spec _ _ _ _ hf
      have hkl : k = inner.length := by
        simp only [List.length_append, List.length_singleton] at hk
        omega
      subst hkl
      refine ⟨inner, rfl, ?_, ?_⟩
      · rw [List.take_of_length_le (by simp), parenDepth_append] at hdep
        have hcl : parenDepth [')'] = -1 := by decide
        rw [hcl] at hdep
        linarith
      · refine depth_stays_pos inner ?_
        intro j hj
        have h5 := hmin j hj
        rwa [List.take_append_of_le_length (by omega)] at h5
    · rw [if_neg hc] at h; cases h
  · rintro ⟨inner, rfl, hbal, hpos⟩
    unfold is_fully_enclosed
    have hlast : ('(' :: (inner ++ [')'])).getLast? = some ')' := by
      rw [show ('(' :: (inner ++ [')'])) = ('(' :: inner) ++ [')'] from by simp]
      exact List.getLast?_concat _
    rw [if_pos (by simp [hlast])]
    have hf : fmpAux (inner ++ [')']) 1 1 = some (1 + inner.length) := by
      apply fmpAux_some_intro
      · simp
      · rw [List.take_of_length_le (by simp), parenDepth_append]
        have hcl : parenDepth [')'] = -1 := by decide
        rw [hcl, hbal]
        decide
      · intro j hj
        rw [List.take_append_of_le_length (by omega)]
        have h6 := hpos (j + 1)
        omega
    rw [find_matching_paren]
    simp only [List.drop_succ_cons, List.drop_zero, List.length_cons,
      List.length_append, List.length_singleton]
    rw [hf]
    simp
    omega

theorem parenDelta_other (c : Char) (h1 : c ≠ '(') (h2 : c ≠ ')') :
    parenDelta c = 0 := by
  unfold parenDelta
  simp [h1, h2]


theorem foAux_cons_other_hit (op : List Char) (c : Char) (rest : List Char)
    (i : Nat) (d : Int) (h1 : c ≠ '(') (h2 : c ≠ ')') (h3 : d = 0)
    (h4 : op.isPrefixOf (c :: rest) = true) :
    foAux op (c :: rest) i d = some i := by
  simp [foAux, h1, h2, h3, h4]

theorem foAux_cons_other_miss (op : List Char) (c : Char) (rest : List Char)
    (i : Nat) (d : Int) (h1 : c ≠ '(') (h2 : c ≠ ')')
    (h3 : ¬(d = 0 ∧ op.isPrefixOf (c :: rest) = true)) :
    foAux op (c :: rest) i d = foAux op rest (i + 1) d := by
  have hb : (d == 0 && op.isPrefixOf (c :: rest)) = false := by
    cases hv : (d == 0 && op.isPrefixOf (c :: rest))
    · rfl
    · rw [Bool.and_eq_true, beq_iff_eq] at hv
      exact absurd hv h3
  simp [foAux, h1, h2, hb]

theorem foAux_some_spec (op : List Char) (hne : op ≠ [])
    (hh : ∀ c, op.head? = some c → c ≠ '(' ∧ c ≠ ')') :
    ∀ (l : List Char) (i : Nat) (d : Int) (m : Nat),
      foAux op l i d = some m →
      ∃ k, m = i + k ∧ k < l.length ∧ op.isPrefixOf (l.drop k) = true ∧
        d + parenDepth (l.take k) = 0 ∧
        ∀ j < k, ¬(op.isPrefixOf (l.drop j) = true ∧ d + parenDepth (l.take j) = 0) := by
  intro l
  induction l with
  | nil => intro i d m h; cases h
  | cons c rest ih =>
    intro i d m h
    have hpfx_paren : ∀ dd : Int, (c = '(' ∨ c = ')') →
        ¬(op.isPrefixOf (c :: rest) = true ∧ dd = 0) := by
      rintro dd hc ⟨hp, _⟩
      cases op with
      | nil => exact hne rfl
      | cons o op' =>
        have ho : o = c := by
          simp only [List.isPrefixOf, Bool.and_eq_true, beq_iff_eq] at hp
          exact hp.1
        rcases hc with rfl | rfl
        · exact (hh o rfl).1 ho
        · exact (hh o rfl).2 ho
    by_cases hc1 : c = '('
    · subst hc1
      rw [show foAux op ('(' :: rest) i d = foAux op rest (i + 1) (d + 1) from by
        simp [foAux]] at h
      obtain ⟨k, hm, hk, hp, hd, hmin⟩ := ih (i + 1) (d + 1) m h
      refine ⟨k + 1, by omega, by simpa using Nat.succ_lt_succ hk, by simpa using hp, ?_, ?_⟩
      · have hop : parenDelta '(' = 1 := by decide
        simp only [List.take_succ_cons, parenDepth, hop]
        linarith
      · intro j hj
        cases j with
        | zero =>
          simpa [parenDepth] using hpfx_paren d (Or.inl rfl)
        | succ j =>
          have h3 := hmin j (by omega)
          have hop : parenDelta '(' = 1 := by decide
          simp only [List.take_succ_cons, List.drop_succ_cons, parenDepth, hop]
          rintro ⟨hp3, hd3⟩
          exact h3 ⟨hp3, by linarith⟩
    · by_cases hc2 : c = ')'
      · subst hc2
        rw [show foAux op (')' :: rest) i d = foAux op rest (i + 1) (d - 1) from by
          simp [foAux]] at h
        obtain ⟨k, hm, hk, hp, hd, hmin⟩ := ih (i + 1) (d - 1) m h
        refine ⟨k + 1, by omega, by simpa using Nat.succ_lt_succ hk, by simpa using hp, ?_, ?_⟩
        · have hop : parenDelta ')' = -1 := by decide
          simp only [List.take_succ_cons, parenDepth, hop]
          linarith
        · intro j hj
          cases j with
          | zero =>
            simpa [parenDepth] using hpfx_paren d (Or.inr rfl)
          | succ j =>
            have h3 := hmin j (by omega)
            have hop : parenDelta ')' = -1 := by decide
            simp only [List.take_succ_cons, List.drop_succ_cons, parenDepth, hop]
            rintro ⟨hp3, hd3⟩
            exact h3 ⟨hp3, by linarith⟩
      · have hdel : parenDelta c = 0 := parenDelta_other c hc1 hc2
        by_cases hcond : (d == 0 && op.isPrefixOf (c :: rest)) = true
        · rw [Bool.and_eq_true, beq_iff_eq] at hcond
          rw [foAux_cons_other_hit op c rest i d hc1 hc2 hcond.1 hcond.2] at h
          cases h
          exact ⟨0, by omega, by simp, by simpa using hcond.2,
            by simpa [parenDepth] using hcond.1,
            fun j hj => absurd hj (Nat.not_lt_zero j)⟩
        · rw [foAux_cons_other_miss op c rest i d hc1 hc2 (by
            rintro ⟨hd0, hp0⟩
            exact hcond (by rw [Bool.and_eq_true, beq_iff_eq]; exact ⟨hd0, hp0⟩))] at h
          obtain ⟨k, hm, hk, hp, hd, hmin⟩ := ih (i + 1) d m h
          refine ⟨k + 1, by omega, by simpa using Nat.succ_lt_succ hk,
            by simpa using hp, ?_, ?_⟩
          · simp only [List.take_succ_cons, parenDepth, hdel]
            linarith
          · intro j hj
            cases j with
            | zero =>
              simp only [List.take_zero, parenDepth, List.drop_zero]
              rintro ⟨hp0, hd0⟩
              exact hcond (by
                rw [Bool.and_eq_true, beq_iff_eq]
                exact ⟨by linarith, hp0⟩)
            | succ j =>
              have h3 := hmin j (by omega)
              simp only [List.take_succ_cons, List.drop_succ_cons, parenDepth, hdel]
              rintro ⟨hp3, hd3⟩
              exact h3 ⟨hp3, by linarith⟩

theorem foAux_some_intro (op : List Char) (hne : op ≠ [])
    (hh : ∀ c, op.head? = some c → c ≠ '(' ∧ c ≠ ')') :
    ∀ (l : List Char) (i : Nat) (d : Int) (k : Nat),
      op.isPrefixOf (l.drop k) = true → d + parenDepth (l.take k) = 0 →
      (∀ j < k, ¬(op.isPrefixOf (l.drop j) = true ∧ d + parenDepth (l.take j) = 0)) →
      foAux op l i d = some (i + k) := by
  intro l
  induction l with
  | nil =>
    intro i d k hp hd _
    rw [List.drop_nil] at hp
    cases op with
    | nil => exact absurd rfl hne
    | cons o op' => simp [List.isPrefixOf] at hp
  | cons c rest ih =>
    intro i d k hp hd hmin
    by_cases hc1 : c = '('
    · subst hc1
      cases k with
      | zero =>
        exfalso
        simp only [List.drop_zero] at hp
        cases op with
        | nil => exact hne rfl
        | cons o op' =>
          simp only [List.isPrefixOf, Bool.and_eq_true, beq_iff_eq] at hp
          exact (hh o rfl).1 hp.1
      | succ k =>
        rw [show foAux op ('(' :: rest) i d = foAux op rest (i + 1) (d + 1) from by
          simp [foAux]]
        have hop : parenDelta '(' = 1 := by decide
        have hres := ih (i + 1) (d + 1) k (by simpa using hp)
          (by
            simp only [List.take_succ_cons, parenDepth, hop] at hd
            linarith)
          (by
            intro j hj
            have h3 := hmin (j + 1) (by omega)
            simp only [List.take_succ_cons, List.drop_succ_cons, parenDepth, hop] at h3
            rintro ⟨hp3, hd3⟩
            exact h3 ⟨hp3, by linarith⟩)
        rw [hres]
        congr 1
        omega
    · by_cases hc2 : c = ')'
      · subst hc2
        cases k with
        | zero =>
          exfalso
          simp only [List.drop_zero] at hp
          cases op with
          | nil => exact hne rfl
          | cons o op' =>
            simp only [List.isPrefixOf, Bool.and_eq_true, beq_iff_eq] at hp
            exact (hh o rfl).2 hp.1
        | succ k =>
          rw [show foAux op (')' :: rest) i d = foAux op rest (i + 1) (d - 1) from by
            simp [foAux]]
          have hop : parenDelta ')' = -1 := by decide
          have hres := ih (i + 1) (d - 1) k (by simpa using hp)
            (by
              simp only [List.take_succ_cons, parenDepth, hop] at hd
              linarith)
            (by
              intro j hj
              have h3 := hmin (j + 1) (by omega)
              simp only [List.take_succ_cons, List.drop_succ_cons, parenDepth, hop] at h3
              rintro ⟨hp3, hd3⟩
              exact h3 ⟨hp3, by linarith⟩)
          rw [hres]
          congr 1
          omega
      · have hdel : parenDelta c = 0 := parenDelta_other c hc1 hc2
        cases k with
        | zero =>
          simp only [List.drop_zero] at hp
          simp only [List.take_zero, parenDepth] at hd
          rw [foAux_cons_other_hit op c rest i d hc1 hc2 (by linarith) hp]
          simp
        | succ k =>
          rw [foAux_cons_other_miss op c rest i d hc1 hc2 (by
            rintro ⟨hd0, hp0⟩
            exact hmin 0 (Nat.succ_pos k)
              ⟨by simpa using hp0, by simp [parenDepth, hd0]⟩)]
          have hres := ih (i + 1) d k (by simpa using hp)
            (by
              simp only [List.take_succ_cons, parenDepth, hdel] at hd
              linarith)
            (by
              intro j hj
              have h3 := hmin (j + 1) (by omega)
              simp only [List.take_succ_cons, List.drop_succ_cons, parenDepth, hdel] at h3
              rintro ⟨hp3, hd3⟩
              exact h3 ⟨hp3, by linarith⟩)
          rw [hres]
          congr 1
          omega

theorem find_operator_some_iff (op : List Char) (hne : op ≠ [])
    (hh : ∀ c, op.head? = some c → c ≠ '(' ∧ c ≠ ')') (text : List Char) (m : Nat) :
    find_operator text op = some m ↔
      (op.isPrefixOf (text.drop m) = true ∧ parenDepth (text.take m) = 0 ∧
       ∀ j < m, ¬(op.isPrefixOf (text.drop j) = true ∧ parenDepth (text.take j) = 0)) := by
  constructor
  · intro h
    obtain ⟨k, hm, hk, hp, hd, hmin⟩ := foAux_some_spec op hne hh text 0 0 m h
    have hmk : m = k := by omega
    subst hmk
    refine ⟨hp, by linarith, ?_⟩
    intro j hj hc
    exact hmin j hj ⟨hc.1, by linarith [hc.2]⟩
  · rintro ⟨hp, hd, hmin⟩
    have h := foAux_some_intro op hne hh text 0 0 m hp (by linarith)
      (fun j hj hc => hmin j hj ⟨hc.1, by linarith [hc.2]⟩)
    simpa using h

theorem find_operator_none_iff (op : List Char) (hne : op ≠ [])
    (hh : ∀ c, op.head? = some c → c ≠ '(' ∧ c ≠ ')') (text : List Char) :
    find_operator text op = none ↔
      ∀ k, ¬(op.isPrefixOf (text.drop k) = true ∧ parenDepth (text.take k) = 0) := by
  constructor
  · intro h k
    rintro ⟨hp, hd⟩
    have hex : ∃ j, op.isPrefixOf (text.drop j) = true ∧ parenDepth (text.take j) = 0 :=
      ⟨k, hp, hd⟩
    have hk0 := Nat.find_spec hex
    have hsome := foAux_some_intro op hne hh text 0 0 (Nat.find hex) hk0.1
      (by linarith [hk0.2])
      (fun j hj hc => Nat.find_min hex hj ⟨hc.1, by linarith [hc.2]⟩)
    rw [find_operator] at h
    rw [h] at hsome
    cases hsome
  · intro hall
    cases hfo : find_operator text op with
    | none => rfl
    | some m =>
      exfalso
      obtain ⟨k, _, _, hp, hd, _⟩ := foAux_some_spec op hne hh text 0 0 m hfo
      exact hall k ⟨hp, by linarith⟩

theorem scanChars_cons_other (fuel : Nat) (x : Char) (xs : List Char) (hx : x ≠ '(') :
    scanChars (fuel + 1) (x :: xs) = (scanChars fuel xs).map (x :: ·) := by
  simp only [scanChars]
  rw [if_neg (by simpa using hx)]
  cases h : scanChars fuel xs <;> rfl

theorem scanChars_cons_group (fuel : Nat) (xs : List Char) (endi : Nat)
    (hf : find_matching_paren ('(' :: xs) 0 = some endi) :
    scanChars (fuel + 1) ('(' :: xs) =
      (do
        let t ← transform_logic fuel ((('(' :: xs).take endi).drop 1)
        let rest ← scanChars fuel (('(' :: xs).drop (endi + 1))
        Except.ok (['('] ++ t ++ [')'] ++ rest)) := by
  simp only [scanChars]
  rw [hf]
  rfl

theorem scanChars_cons_unbalanced (fuel : Nat) (xs : List Char)
    (hf : find_matching_paren ('(' :: xs) 0 = none) :
    scanChars (fuel + 1) ('(' :: xs) = .error "Unbalanced parentheses" := by
  simp only [scanChars]
  rw [hf]
  rfl

theorem scanChars_id : ∀ (fuel : Nat) (l : List Char), l.length < fuel → '(' ∉ l →
    scanChars fuel l = .ok l := by
  intro fuel
  induction fuel with
  | zero => intro l hl _; exact absurd hl (Nat.not_lt_zero _)
  | succ fuel ih =>
    intro l hl hmem
    cases l with
    | nil => rfl
    | cons x xs =>
      have hx : x ≠ '(' := fun h => hmem (h ▸ List.mem_cons_self _ _)
      rw [scanChars_cons_other fuel x xs hx,
        ih xs (by simpa using hl) (fun h => hmem (List.mem_cons_of_mem _ h))]
      rfl

theorem dropWhile_length_le (p : Char → Bool) :
    ∀ l : List Char, (l.dropWhile p).length ≤ l.length := by
  intro l
  induction l with
  | nil => exact le_refl _
  | cons x xs ih =>
    simp only [List.dropWhile]
    cases h : p x
    · simp
    · simp only [List.length_cons]
      exact le_trans ih (Nat.le_succ _)

theorem pyStrip_length_le (s : List Char) : (pyStrip s).length ≤ s.length := by
  unfold pyStrip
  simp only [List.length_reverse]
  exact le_trans (dropWhile_length_le _ _)
    (by simpa using dropWhile_length_le pySpace s)

theorem enclosed_two_le (e : List Char) (h : is_fully_enclosed e = true) :
    2 ≤ e.length := by
  obtain ⟨inner, rfl, _, _⟩ := (is_fully_enclosed_iff e).mp h
  simp only [List.length_cons, List.length_append, List.length_singleton]
  omega

theorem strip_outer_not_enclosed : ∀ (n : Nat) (e : List Char), e.length ≤ n →
    is_fully_enclosed (strip_outer n e) = false := by
  intro n
  induction n with
  | zero =>
    intro e hl
    have he : e = [] := List.length_eq_zero.mp (Nat.le_zero.mp hl)
    subst he
    rfl
  | succ n ih =>
    intro e hl
    simp only [strip_outer]
    by_cases he : is_fully_enclosed e = true
    · rw [if_pos he]
      apply ih
      have h2 := enclosed_two_le e he
      have h3 := pyStrip_length_le ((e.drop 1).dropLast)
      have h4 : ((e.drop 1).dropLast).length = e.length - 2 := by
        simp only [List.length_dropLast, List.length_drop]
        omega
      omega
    · rw [if_neg he]
      simpa using he

theorem stripped_not_enclosed (expr : List Char) :
    is_fully_enclosed (stripped expr) = false :=
  strip_outer_not_enclosed (pyStrip expr).length (pyStrip expr) (le_refl _)

theorem transform_logic_succ_bicond (fuel : Nat) (expr : List Char) (idx : Nat)
    (h : find_operator (stripped expr) ['<', '-', '>'] = some idx) :
    transform_logic (fuel + 1) expr =
      (do
        let l ← transform_logic fuel ((stripped expr).take idx)
        let r ← transform_logic fuel ((stripped expr).drop (idx + 3))
        Except.ok (['('] ++ l ++ " == ".toList ++ r ++ [')'])) := by
  simp only [transform_logic, h]

theorem transform_logic_succ_imp (fuel : Nat) (expr : List Char) (idx : Nat)
    (h1 : find_operator (stripped expr) ['<', '-', '>'] = none)
    (h2 : find_operator (stripped expr) ['-', '>'] = some idx) :
    transform_logic (fuel + 1) expr =
      (do
        let l ← transform_logic fuel ((stripped expr).take idx)
        let r ← transform_logic fuel ((stripped expr).drop (idx + 2))
        Except.ok ("(not ".toList ++ l ++ " or ".toList ++ r ++ [')'])) := by
  simp only [transform_logic, h1, h2]

theorem transform_logic_succ_scan (fuel : Nat) (expr : List Char)
    (h1 : find_operator (stripped expr) ['<', '-', '>'] = none)
    (h2 : find_operator (stripped expr) ['-', '>'] = none) :
    transform_logic (fuel + 1) expr = scanChars fuel (stripped expr) := by
  simp only [transform_logic, h1, h2]

/-- C6: structure of the recursive transformer, per call.
(1) The stripping test accepts exactly genuinely matching fully-enclosing
parenthesis pairs; (2) the strip stage runs until no such pair remains;
(3)/(4) `find_operator` returns exactly the leftmost depth-zero occurrence
of the operator (and `none` exactly when no depth-zero occurrence exists);
(5) a depth-zero `<->` splits the stripped string at that leftmost index and
rewrites the whole to equality of the recursively transformed sides;
(6) otherwise a depth-zero `->` rewrites to NOT(left) OR right;
(7) otherwise the stripped string goes to the character scan, which
(8) passes every non-`(` character (`v`, `^`, `~`, variables, ...) through
unchanged in its original relative position, (9) recursively transforms and
re-wraps each parenthesized group, and (10) is the identity on
parenthesis-free strings — so only `->` and `<->` are structurally
rewritten. -/
theorem C6_transformer_structure :
    (∀ text : List Char, is_fully_enclosed text = true ↔ GenuinelyEnclosed text) ∧
    (∀ expr : List Char, is_fully_enclosed (stripped expr) = false) ∧
    (∀ op : List Char, op = ['<', '-', '>'] ∨ op = ['-', '>'] →
      ∀ (text : List Char) (m : Nat),
        find_operator text op = some m ↔
          (op.isPrefixOf (text.drop m) = true ∧ parenDepth (text.take m) = 0 ∧
           ∀ j < m, ¬(op.isPrefixOf (text.drop j) = true ∧
             parenDepth (text.take j) = 0))) ∧
    (∀ op : List Char, op = ['<', '-', '>'] ∨ op = ['-', '>'] →
      ∀ text : List Char,
        find_operator text op = none ↔
          ∀ k, ¬(op.isPrefixOf (text.drop k) = true ∧
            parenDepth (text.take k) = 0)) ∧
    (∀ (fuel : Nat) (expr : List Char) (idx : Nat),
      find_operator (stripped expr) ['<', '-', '>'] = some idx →
      transform_logic (fuel + 1) expr =
        (do
          let l ← transform_logic fuel ((stripped expr).take idx)
          let r ← transform_logic fuel ((stripped expr).drop (idx + 3))
          Except.ok (['('] ++ l ++ " == ".toList ++ r ++ [')']))) ∧
    (∀ (fuel : Nat) (expr : List Char) (idx : Nat),
      find_operator (stripped expr) ['<', '-', '>'] = none →
      find_operator (stripped expr) ['-', '>'] = some idx →
      transform_logic (fuel + 1) expr =
        (do
          let l ← transform_logic fuel ((stripped expr).take idx)
          let r ← transform_logic fuel ((stripped expr).drop (idx + 2))
          Except.ok ("(not ".toList ++ l ++ " or ".toList ++ r ++ [')']))) ∧
    (∀ (fuel : Nat) (expr : List Char),
      find_operator (stripped expr) ['<', '-', '>'] = none →
      find_operator (stripped expr) ['-', '>'] = none →
      transform_logic (fuel + 1) expr = scanChars fuel (stripped expr)) ∧
    (∀ (fuel : Nat) (x : Char) (xs : List Char), x ≠ '(' →
      scanChars (fuel + 1) (x :: xs) = (scanChars fuel xs).map (x :: ·)) ∧
    (∀ (fuel : Nat) (xs : List Char) (endi : Nat),
      find_matching_paren ('(' :: xs) 0 = some endi →
      scanChars (fuel + 1) ('(' :: xs) =
        (do
          let t ← transform_logic fuel ((('(' :: xs).take endi).drop 1)
          let rest ← scanChars fuel (('(' :: xs).drop (endi + 1))
          Except.ok (['('] ++ t ++ [')'] ++ rest))) ∧
    (∀ (fuel : Nat) (l : List Char), l.length < fuel → '(' ∉ l →
      scanChars fuel l = .ok l) := by
  have hop1 : (['<', '-', '>'] : List Char) ≠ [] := by decide
  have hop2 : (['-', '>'] : List Char) ≠ [] := by decide
  have hh1 : ∀ c, (['<', '-', '>'] : List Char).head? = some c → c ≠ '(' ∧ c ≠ ')' := by
    intro c hc
    cases hc
    exact ⟨by decide, by decide⟩
  have hh2 : ∀ c, (['-', '>'] : List Char).head? = some c → c ≠ '(' ∧ c ≠ ')' := by
    intro c hc
    cases hc
    exact ⟨by decide, by decide⟩
  refine ⟨is_fully_enclosed_iff, stripped_not_enclosed, ?_, ?_,
    transform_logic_succ_bicond, transform_logic_succ_imp, transform_logic_succ_scan,
    scanChars_cons_other, scanChars_cons_group, scanChars_id⟩
  · rintro op (rfl | rfl) text m
    · exact find_operator_some_iff _ hop1 hh1 text m
    · exact find_operator_some_iff _ hop2 hh2 text m
  · rintro op (rfl | rfl) text
    · exact find_operator_none_iff _ hop1 hh1 text
    · exact find_operator_none_iff _ hop2 hh2 text

/-- Witness for C6 at concrete inputs: the enclosure test on `"(p)"`, the
biconditional split of `"p<->q"`, the pass-through of `~`, and the identity
scan of `"~p"`. -/
theorem C6_transformer_structure_witness :
    (is_fully_enclosed "(p)".toList = true ↔ GenuinelyEnclosed "(p)".toList) ∧
    (transform_logic 9 "p<->q".toList =
      (do
        let l ← transform_logic 8 ((stripped "p<->q".toList).take 1)
        let r ← transform_logic 8 ((stripped "p<->q".toList).drop (1 + 3))
        Except.ok (['('] ++ l ++ " == ".toList ++ r ++ [')']))) ∧
    (scanChars 4 ('~' :: "p".toList) = (scanChars 3 "p".toList).map ('~' :: ·)) ∧
    (scanChars 4 "~p".toList = Except.ok "~p".toList) := by
  obtain ⟨h1, _, _, _, h5, _, _, h8, _, h10⟩ := C6_transformer_structure
  exact ⟨h1 "(p)".toList, h5 8 "p<->q".toList 1 rfl,
    h8 3 '~' "p".toList (by decide), h10 4 "~p".toList (by decide) (by decide)⟩

end LogicCheck

namespace LogicCheck

/-! ### C9, stage 1: shapes, characters and depths of the renderings -/

theorem char_eq_of_toNat (c d : Char) (h : c.toNat = d.toNat) : c = d := by
  have hc := Char.ofNat_toNat c
  rw [h, Char.ofNat_toNat d] at hc
  exact hc.symm

theorem varOK_val (c : Char) (h : varOK c = true) :
    112 ≤ c.toNat ∧ c.toNat ≤ 122 ∧ c.toNat ≠ 118 := by
  unfold varOK at h
  simp only [Bool.and_eq_true, Bool.not_eq_true', beq_eq_false_iff_ne, ne_eq,
    decide_eq_true_eq] at h
  obtain ⟨⟨h1, h2⟩, h3⟩ := h
  exact ⟨h1, h2, fun hv => h3 (char_eq_of_toNat c 'v' hv)⟩

theorem varOK_ne_lit (c : Char) (h : varOK c = true) (d : Char)
    (hd : d.toNat < 112 ∨ 122 < d.toNat ∨ d.toNat = 118) : c ≠ d := by
  obtain ⟨h1, h2, h3⟩ := varOK_val c h
  intro he
  subst he
  rcases hd with hd | hd | hd <;> omega

theorem varOK_parenDelta (c : Char) (h : varOK c = true) : parenDelta c = 0 := by
  apply parenDelta_other
  · exact varOK_ne_lit c h '(' (by left; decide)
  · exact varOK_ne_lit c h ')' (by left; decide)

theorem varOK_toLower (c : Char) (h : varOK c = true) : c.toLower = c := by
  obtain ⟨h1, _, _⟩ := varOK_val c h
  unfold Char.toLower
  rw [if_neg]
  omega

theorem varOK_not_space (c : Char) (h : varOK c = true) : pySpace c = false := by
  obtain ⟨h1, h2, _⟩ := varOK_val c h
  unfold pySpace
  have : ∀ d : Char, d.toNat ≤ 64 → (c == d) = false := by
    intro d hd
    simp only [beq_eq_false_iff_ne, ne_eq]
    intro he
    subst he
    omega
  rw [this ' ' (by decide), this '\t' (by decide), this '\n' (by decide),
    this '\r' (by decide), this '\x0b' (by decide), this '\x0c' (by decide)]
  rfl

theorem varOK_isWord (c : Char) (h : varOK c = true) : isWordChar c = true := by
  obtain ⟨h1, h2, _⟩ := varOK_val c h
  unfold isWordChar
  have : c.isAlpha = true := by
    unfold Char.isAlpha Char.isLower
    apply Bool.or_eq_true_iff.mpr
    right
    simp only [Bool.and_eq_true, decide_eq_true_eq]
    exact ⟨by exact h1.trans' (by decide), by exact h2.trans (by decide)⟩
  simp [this]

theorem print_length_pos (t : PropForm) : 1 ≤ (print t).length := by
  cases t <;> simp [print]

theorem print_shape (t : PropForm) :
    (∃ c, t = PropForm.var c ∧ print t = [c] ∧ printCore t = [c]) ∨
      print t = '(' :: printCore t ++ [')'] := by
  cases t with
  | var c => exact Or.inl ⟨c, rfl, rfl, rfl⟩
  | pnot a => right; rfl
  | pand a b => right; simp [print, printCore]
  | por a b => right; simp [print, printCore]
  | pimp a b => right; simp [print, printCore]
  | piff a b => right; simp [print, printCore]

theorem printCore_length_pos (t : PropForm) : 1 ≤ (printCore t).length := by
  cases t <;> simp [printCore] <;> omega

theorem print_length (t : PropForm) :
    (print t).length = (printCore t).length ∨
      (print t).length = (printCore t).length + 2 := by
  rcases print_shape t with ⟨c, _, h1, h2⟩ | h
  · left; rw [h1, h2]
  · right; rw [h]; simp

theorem printCore_length_le (t : PropForm) :
    (printCore t).length ≤ (print t).length := by
  rcases print_length t with h | h <;> omega

theorem parenDepth_take_append (u w : List Char) (j : Nat) :
    parenDepth ((u ++ w).take j) =
      parenDepth (u.take j) + parenDepth (w.take (j - u.length)) := by
  rw [List.take_append_eq_append_take, parenDepth_append]

theorem parenDepth_take_of_balanced (u : List Char) (h0 : parenDepth u = 0)
    (j : Nat) (hj : u.length ≤ j) : parenDepth (u.take j) = 0 := by
  rw [List.take_of_length_le hj, h0]

theorem concat_take_nonneg (u w : List Char) (_h0 : parenDepth u = 0)
    (hu : ∀ j, 0 ≤ parenDepth (u.take j)) (hw : ∀ j, 0 ≤ parenDepth (w.take j)) :
    ∀ j, 0 ≤ parenDepth ((u ++ w).take j) := by
  intro j
  rw [parenDepth_take_append]
  have h1 : 0 ≤ parenDepth (u.take j) := hu j
  have h2 : 0 ≤ parenDepth (w.take (j - u.length)) := hw _
  omega

theorem cons_take_nonneg (c : Char) (hc : parenDelta c = 0) (w : List Char)
    (hw : ∀ j, 0 ≤ parenDepth (w.take j)) :
    ∀ j, 0 ≤ parenDepth ((c :: w).take j) := by
  intro j
  cases j with
  | zero => simp [parenDepth]
  | succ k =>
    rw [List.take_succ_cons]
    show 0 ≤ parenDelta c + parenDepth (w.take k)
    have := hw k
    omega

theorem single_take_nonneg (c : Char) (hc : parenDelta c = 0) :
    ∀ j, 0 ≤ parenDepth (([c] : List Char).take j) := by
  intro j
  cases j with
  | zero => simp [parenDepth]
  | succ k =>
    rw [List.take_succ_cons]
    show 0 ≤ parenDelta c + parenDepth (List.take k [])
    simp [hc, parenDepth]

theorem wrap_depth (z : List Char) (h0 : parenDepth z = 0)
    (hz : ∀ j, 0 ≤ parenDepth (z.take j)) :
    parenDepth ('(' :: z ++ [')']) = 0 ∧
      ∀ j, 0 ≤ parenDepth (('(' :: z ++ [')']).take j) := by
  constructor
  · show parenDelta '(' + parenDepth (z ++ [')']) = 0
    rw [parenDepth_append, h0]
    decide
  · intro j
    rw [parenDepth_take_append]
    have h1 : 1 ≤ parenDepth (('(' :: z).take j) ∨ ('(' :: z).take j = [] := by
      cases j with
      | zero => right; rfl
      | succ k =>
        left
        rw [List.take_succ_cons]
        show 1 ≤ parenDelta '(' + parenDepth (z.take k)
        have := hz k
        have h3 : parenDelta '(' = 1 := by decide
        omega
    have h2 : -1 ≤ parenDepth (([')'] : List Char).take (j - ('(' :: z).length)) := by
      cases hm : j - ('(' :: z).length with
      | zero => simp [parenDepth]
      | succ m =>
        rw [List.take_succ_cons]
        show -1 ≤ parenDelta ')' + parenDepth (List.take m [])
        simp [parenDepth]
        decide
    have h4 : parenDepth (([')'] : List Char).take (j - ('(' :: z).length)) ≤ 0 := by
      cases hm : j - ('(' :: z).length with
      | zero => simp [parenDepth]
      | succ m =>
        rw [List.take_succ_cons]
        show parenDelta ')' + parenDepth (List.take m []) ≤ 0
        simp [parenDepth]
        decide
    rcases h1 with h1 | h1
    · omega
    · rw [h1]
      simp only [parenDepth]
      have hj : j = 0 := by
        by_contra hj
        have : ('(' :: z).take j ≠ [] := by
          cases j with
          | zero => exact absurd rfl hj
          | succ k => simp [List.take_succ_cons]
        exact this h1
      subst hj
      simp [parenDepth]

theorem print_depth (t : PropForm) (hwf : t.wf = true) :
    (parenDepth (printCore t) = 0 ∧ ∀ j, 0 ≤ parenDepth ((printCore t).take j)) ∧
      parenDepth (print t) = 0 ∧ ∀ j, 0 ≤ parenDepth ((print t).take j) := by
  induction t with
  | var c =>
    have hd : parenDelta c = 0 := varOK_parenDelta c hwf
    have hc : parenDepth ([c] : List Char) = 0 := by
      show parenDelta c + parenDepth [] = 0
      simp [parenDepth, hd]
    exact ⟨⟨hc, single_take_nonneg c hd⟩, hc, single_take_nonneg c hd⟩
  | pnot a iha =>
    have hwa : a.wf = true := hwf
    obtain ⟨_, hpa0, hpan⟩ := iha hwa
    have hcore0 : parenDepth (printCore (PropForm.pnot a)) = 0 := by
      show parenDelta '~' + parenDepth (print a) = 0
      rw [hpa0]; decide
    have hcoren : ∀ j, 0 ≤ parenDepth ((printCore (PropForm.pnot a)).take j) :=
      cons_take_nonneg '~' (by decide) (print a) hpan
    have hw := wrap_depth (printCore (PropForm.pnot a)) hcore0 hcoren
    exact ⟨⟨hcore0, hcoren⟩, hw.1, hw.2⟩
  | pand a b iha ihb =>
    rw [show (PropForm.pand a b).wf = (a.wf && b.wf) from rfl, Bool.and_eq_true] at hwf
    obtain ⟨_, hpa0, hpan⟩ := iha hwf.1
    obtain ⟨_, hpb0, hpbn⟩ := ihb hwf.2
    have hcore0 : parenDepth (printCore (PropForm.pand a b)) = 0 := by
      show parenDepth (print a ++ '^' :: print b) = 0
      rw [parenDepth_append, hpa0]
      show 0 + (parenDelta '^' + parenDepth (print b)) = 0
      rw [hpb0]; decide
    have hcoren : ∀ j, 0 ≤ parenDepth ((printCore (PropForm.pand a b)).take j) :=
      concat_take_nonneg (print a) _ hpa0 hpan
        (cons_take_nonneg '^' (by decide) (print b) hpbn)
    have hw := wrap_depth (printCore (PropForm.pand a b)) hcore0 hcoren
    refine ⟨⟨hcore0, hcoren⟩, ?_, ?_⟩
    · show parenDepth ('(' :: printCore (PropForm.pand a b) ++ [')']) = 0
      exact hw.1
    · show ∀ j, 0 ≤ parenDepth (('(' :: printCore (PropForm.pand a b) ++ [')']).take j)
      exact hw.2
  | por a b iha ihb =>
    rw [show (PropForm.por a b).wf = (a.wf && b.wf) from rfl, Bool.and_eq_true] at hwf
    obtain ⟨_, hpa0, hpan⟩ := iha hwf.1
    obtain ⟨_, hpb0, hpbn⟩ := ihb hwf.2
    have hcore0 : parenDepth (printCore (PropForm.por a b)) = 0 := by
      show parenDepth (print a ++ ' ' :: 'v' :: ' ' :: print b) = 0
      rw [parenDepth_append, hpa0]
      show 0 + (parenDelta ' ' + (parenDelta 'v' + (parenDelta ' ' + parenDepth (print b)))) = 0
      rw [hpb0]; decide
    have hcoren : ∀ j, 0 ≤ parenDepth ((printCore (PropForm.por a b)).take j) :=
      concat_take_nonneg (print a) _ hpa0 hpan
        (cons_take_nonneg ' ' (by decide) _
          (cons_take_nonneg 'v' (by decide) _
            (cons_take_nonneg ' ' (by decide) (print b) hpbn)))
    have hw := wrap_depth (printCore (PropForm.por a b)) hcore0 hcoren
    refine ⟨⟨hcore0, hcoren⟩, ?_, ?_⟩
    · show parenDepth ('(' :: printCore (PropForm.por a b) ++ [')']) = 0
      exact hw.1
    · show ∀ j, 0 ≤ parenDepth (('(' :: printCore (PropForm.por a b) ++ [')']).take j)
      exact hw.2
  | pimp a b iha ihb =>
    rw [show (PropForm.pimp a b).wf = (a.wf && b.wf) from rfl, Bool.and_eq_true] at hwf
    obtain ⟨_, hpa0, hpan⟩ := iha hwf.1
    obtain ⟨_, hpb0, hpbn⟩ := ihb hwf.2
    have hcore0 : parenDepth (printCore (PropForm.pimp a b)) = 0 := by
      show parenDepth (print a ++ '-' :: '>' :: print b) = 0
      rw [parenDepth_append, hpa0]
      show 0 + (parenDelta '-' + (parenDelta '>' + parenDepth (print b))) = 0
      rw [hpb0]; decide
    have hcoren : ∀ j, 0 ≤ parenDepth ((printCore (PropForm.pimp a b)).take j) :=
      concat_take_nonneg (print a) _ hpa0 hpan
        (cons_take_nonneg '-' (by decide) _
          (cons_take_nonneg '>' (by decide) (print b) hpbn))
    have hw := wrap_depth (printCore (PropForm.pimp a b)) hcore0 hcoren
    refine ⟨⟨hcore0, hcoren⟩, ?_, ?_⟩
    · show parenDepth ('(' :: printCore (PropForm.pimp a b) ++ [')']) = 0
      exact hw.1
    · show ∀ j, 0 ≤ parenDepth (('(' :: printCore (PropForm.pimp a b) ++ [')']).take j)
      exact hw.2
  | piff a b iha ihb =>
    rw [show (PropForm.piff a b).wf = (a.wf && b.wf) from rfl, Bool.and_eq_true] at hwf
    obtain ⟨_, hpa0, hpan⟩ := iha hwf.1
    obtain ⟨_, hpb0, hpbn⟩ := ihb hwf.2
    have hcore0 : parenDepth (printCore (PropForm.piff a b)) = 0 := by
      show parenDepth (print a ++ '<' :: '-' :: '>' :: print b) = 0
      rw [parenDepth_append, hpa0]
      show 0 + (parenDelta '<' + (parenDelta '-' + (parenDelta '>' + parenDepth (print b)))) = 0
      rw [hpb0]; decide
    have hcoren : ∀ j, 0 ≤ parenDepth ((printCore (PropForm.piff a b)).take j) :=
      concat_take_nonneg (print a) _ hpa0 hpan
        (cons_take_nonneg '<' (by decide) _
          (cons_take_nonneg '-' (by decide) _
            (cons_take_nonneg '>' (by decide) (print b) hpbn)))
    have hw := wrap_depth (printCore (PropForm.piff a b)) hcore0 hcoren
    refine ⟨⟨hcore0, hcoren⟩, ?_, ?_⟩
    · show parenDepth ('(' :: printCore (PropForm.piff a b) ++ [')']) = 0
      exact hw.1
    · show ∀ j, 0 ≤ parenDepth (('(' :: printCore (PropForm.piff a b) ++ [')']).take j)
      exact hw.2

end LogicCheck

namespace LogicCheck

/-! ### C9, stage 2: edge characters, stripping and enclosure of the renderings -/

theorem pyStrip_eq_self (l : List Char)
    (h1 : ∀ c, l.head? = some c → pySpace c = false)
    (h2 : ∀ c, l.getLast? = some c → pySpace c = false) :
    pyStrip l = l := by
  unfold pyStrip
  have hd : l.dropWhile pySpace = l := by
    cases l with
    | nil => rfl
    | cons a l' =>
      rw [List.dropWhile_cons, h1 a rfl]
      rfl
  rw [hd]
  have hrev : l.reverse.dropWhile pySpace = l.reverse := by
    cases hr : l.reverse with
    | nil => rfl
    | cons b r' =>
      have hb : l.getLast? = some b := by
        rw [← List.head?_reverse, hr]
        rfl
      rw [List.dropWhile_cons, h2 b hb]
      rfl
  rw [hrev, List.reverse_reverse]

theorem print_head_char (t : PropForm) (hwf : t.wf = true) :
    ∃ c, (print t).head? = some c ∧ pySpace c = false ∧
      (c = '(' ∨ varOK c = true) := by
  rcases print_shape t with ⟨c, ht, h1, _⟩ | h
  · subst ht
    exact ⟨c, by rw [h1]; rfl, varOK_not_space c hwf, Or.inr hwf⟩
  · exact ⟨'(', by rw [h]; rfl, by decide, Or.inl rfl⟩

theorem print_last_char (t : PropForm) (hwf : t.wf = true) :
    ∃ c, (print t).getLast? = some c ∧ pySpace c = false ∧
      (c = ')' ∨ varOK c = true) := by
  rcases print_shape t with ⟨c, ht, h1, _⟩ | h
  · subst ht
    exact ⟨c, by rw [h1]; rfl, varOK_not_space c hwf, Or.inr hwf⟩
  · refine ⟨')', ?_, by decide, Or.inl rfl⟩
    rw [h, List.getLast?_concat]

theorem print_ne_nil (t : PropForm) : print t ≠ [] := by
  have := print_length_pos t
  intro h
  rw [h] at this
  simp at this

theorem head_append_of_ne_nil (u w : List Char) (h : u ≠ []) :
    (u ++ w).head? = u.head? := by
  cases u with
  | nil => exact absurd rfl h
  | cons a u' => rfl

theorem getLast_append_of_ne_nil (u w : List Char) (h : w ≠ []) :
    (u ++ w).getLast? = w.getLast? := by
  rw [← List.head?_reverse, List.reverse_append,
    head_append_of_ne_nil _ _ (by simpa using h), List.head?_reverse]

theorem printCore_head_char (t : PropForm) (hwf : t.wf = true) :
    ∃ c, (printCore t).head? = some c ∧ pySpace c = false := by
  cases t with
  | var c => exact ⟨c, rfl, varOK_not_space c hwf⟩
  | pnot a => exact ⟨'~', rfl, by decide⟩
  | pand a b =>
    obtain ⟨c, hc, hs, _⟩ := print_head_char a (Bool.and_eq_true _ _ |>.mp hwf).1
    exact ⟨c, by rw [show printCore (PropForm.pand a b) = print a ++ '^' :: print b from rfl,
      head_append_of_ne_nil _ _ (print_ne_nil a)]; exact hc, hs⟩
  | por a b =>
    obtain ⟨c, hc, hs, _⟩ := print_head_char a (Bool.and_eq_true _ _ |>.mp hwf).1
    exact ⟨c, by rw [show printCore (PropForm.por a b) = print a ++ ' ' :: 'v' :: ' ' :: print b
      from rfl, head_append_of_ne_nil _ _ (print_ne_nil a)]; exact hc, hs⟩
  | pimp a b =>
    obtain ⟨c, hc, hs, _⟩ := print_head_char a (Bool.and_eq_true _ _ |>.mp hwf).1
    exact ⟨c, by rw [show printCore (PropForm.pimp a b) = print a ++ '-' :: '>' :: print b
      from rfl, head_append_of_ne_nil _ _ (print_ne_nil a)]; exact hc, hs⟩
  | piff a b =>
    obtain ⟨c, hc, hs, _⟩ := print_head_char a (Bool.and_eq_true _ _ |>.mp hwf).1
    exact ⟨c, by rw [show printCore (PropForm.piff a b) = print a ++ '<' :: '-' :: '>' :: print b
      from rfl, head_append_of_ne_nil _ _ (print_ne_nil a)]; exact hc, hs⟩

theorem getLast_cons_of_ne_nil (a : Char) (l : List Char) (h : l ≠ []) :
    (a :: l).getLast? = l.getLast? := by
  rw [show (a :: l : List Char) = [a] ++ l from rfl]
  exact getLast_append_of_ne_nil [a] l h

theorem printCore_last_char (t : PropForm) (hwf : t.wf = true) :
    ∃ c, (printCore t).getLast? = some c ∧ pySpace c = false := by
  cases t with
  | var c => exact ⟨c, rfl, varOK_not_space c hwf⟩
  | pnot a =>
    obtain ⟨c, hc, hs, _⟩ := print_last_char a hwf
    exact ⟨c, by rw [show printCore (PropForm.pnot a) = '~' :: print a from rfl,
      getLast_cons_of_ne_nil _ _ (print_ne_nil a)]; exact hc, hs⟩
  | pand a b =>
    obtain ⟨c, hc, hs, _⟩ := print_last_char b (Bool.and_eq_true _ _ |>.mp hwf).2
    refine ⟨c, ?_, hs⟩
    rw [show printCore (PropForm.pand a b) = print a ++ '^' :: print b from rfl,
      getLast_append_of_ne_nil _ ('^' :: print b) (by simp),
      getLast_cons_of_ne_nil _ _ (print_ne_nil b)]
    exact hc
  | por a b =>
    obtain ⟨c, hc, hs, _⟩ := print_last_char b (Bool.and_eq_true _ _ |>.mp hwf).2
    refine ⟨c, ?_, hs⟩
    rw [show printCore (PropForm.por a b) = print a ++ ' ' :: 'v' :: ' ' :: print b from rfl,
      getLast_append_of_ne_nil _ _ (by simp),
      getLast_cons_of_ne_nil _ _ (by simp),
      getLast_cons_of_ne_nil _ _ (by simp),
      getLast_cons_of_ne_nil _ _ (print_ne_nil b)]
    exact hc
  | pimp a b =>
    obtain ⟨c, hc, hs, _⟩ := print_last_char b (Bool.and_eq_true _ _ |>.mp hwf).2
    refine ⟨c, ?_, hs⟩
    rw [show printCore (PropForm.pimp a b) = print a ++ '-' :: '>' :: print b from rfl,
      getLast_append_of_ne_nil _ _ (by simp),
      getLast_cons_of_ne_nil _ _ (by simp),
      getLast_cons_of_ne_nil _ _ (print_ne_nil b)]
    exact hc
  | piff a b =>
    obtain ⟨c, hc, hs, _⟩ := print_last_char b (Bool.and_eq_true _ _ |>.mp hwf).2
    refine ⟨c, ?_, hs⟩
    rw [show printCore (PropForm.piff a b) = print a ++ '<' :: '-' :: '>' :: print b from rfl,
      getLast_append_of_ne_nil _ _ (by simp),
      getLast_cons_of_ne_nil _ _ (by simp),
      getLast_cons_of_ne_nil _ _ (by simp),
      getLast_cons_of_ne_nil _ _ (print_ne_nil b)]
    exact hc

theorem pyStrip_print (t : PropForm) (hwf : t.wf = true) :
    pyStrip (print t) = print t := by
  obtain ⟨c1, h1, hs1, _⟩ := print_head_char t hwf
  obtain ⟨c2, h2, hs2, _⟩ := print_last_char t hwf
  exact pyStrip_eq_self _ (fun c hc => by rw [h1] at hc; cases hc; exact hs1)
    (fun c hc => by rw [h2] at hc; cases hc; exact hs2)

theorem pyStrip_printCore (t : PropForm) (hwf : t.wf = true) :
    pyStrip (printCore t) = printCore t := by
  obtain ⟨c1, h1, hs1⟩ := printCore_head_char t hwf
  obtain ⟨c2, h2, hs2⟩ := printCore_last_char t hwf
  exact pyStrip_eq_self _ (fun c hc => by rw [h1] at hc; cases hc; exact hs1)
    (fun c hc => by rw [h2] at hc; cases hc; exact hs2)

theorem notGen (z w : List Char) (h0 : parenDepth z = 0) (hw : w ≠ []) :
    ¬GenuinelyEnclosed (('(' :: z) ++ [')'] ++ w) := by
  rintro ⟨inner, heq, _, hpos⟩
  have heq2 : z ++ [')'] ++ w = inner ++ [')'] := by
    have h' : ('(' :: (z ++ [')'] ++ w) : List Char) = '(' :: (inner ++ [')']) := by
      simpa using heq
    injection h'
  have hlen : z.length + 1 ≤ inner.length := by
    have := congrArg List.length heq2
    simp only [List.length_append, List.length_singleton] at this
    cases w with
    | nil => exact absurd rfl hw
    | cons x xs => simp at this ⊢; omega
  have htake : inner.take (z.length + 1) = z ++ [')'] := by
    have h3 : ((z ++ [')']) ++ w).take (z.length + 1) = z ++ [')'] := by
      rw [List.take_append_eq_append_take,
        List.take_of_length_le (by simp),
        show z.length + 1 - (z ++ [')']).length = 0 from by simp]
      simp
    rw [show (z ++ [')']) ++ w = z ++ [')'] ++ w from by simp, heq2,
      List.take_append_eq_append_take,
      show z.length + 1 - inner.length = 0 from by omega, List.take_zero,
      List.append_nil] at h3
    exact h3
  have := hpos (z.length + 1)
  rw [htake, parenDepth_append, h0] at this
  simp [parenDepth, parenDelta] at this

theorem not_enclosed_of_head (l : List Char) (h : l.head? ≠ some '(') :
    is_fully_enclosed l = false := by
  unfold is_fully_enclosed
  rw [if_neg]
  intro hc
  rw [Bool.and_eq_true] at hc
  exact h (by simpa using hc.1)

theorem print_enclosed (t : PropForm) (hwf : t.wf = true)
    (h : print t = ('(' :: printCore t) ++ [')']) :
    is_fully_enclosed (print t) = true := by
  rw [is_fully_enclosed_iff]
  obtain ⟨⟨h0, hn⟩, _, _⟩ := print_depth t hwf
  refine ⟨printCore t, by rw [h]; simp, h0, ?_⟩
  intro j
  have := hn j
  omega

theorem enclosed_false_of_notGen (l : List Char) (h : ¬GenuinelyEnclosed l) :
    is_fully_enclosed l = false := by
  cases he : is_fully_enclosed l
  · rfl
  · exact absurd ((is_fully_enclosed_iff l).mp he) h

theorem printCore_not_enclosed (t : PropForm) (hwf : t.wf = true) :
    is_fully_enclosed (printCore t) = false := by
  cases t with
  | var c =>
    exact not_enclosed_of_head _ (by
      show some c ≠ some '('
      simpa using varOK_ne_lit c hwf '(' (by left; decide))
  | pnot a => exact not_enclosed_of_head ('~' :: print a) (by simp)
  | pand a b =>
    have hwa := (Bool.and_eq_true _ _ |>.mp hwf).1
    rcases print_shape a with ⟨c, ht, h1, _⟩ | h
    · refine not_enclosed_of_head _ ?_
      rw [show printCore (PropForm.pand a b) = print a ++ '^' :: print b from rfl,
        head_append_of_ne_nil _ _ (print_ne_nil a), h1]
      subst ht
      simpa using varOK_ne_lit c hwa '(' (by left; decide)
    · apply enclosed_false_of_notGen
      rw [show printCore (PropForm.pand a b) = print a ++ '^' :: print b from rfl, h]
      exact notGen (printCore a) ('^' :: print b) (print_depth a hwa).1.1 (by simp)
  | por a b =>
    have hwa := (Bool.and_eq_true _ _ |>.mp hwf).1
    rcases print_shape a with ⟨c, ht, h1, _⟩ | h
    · refine not_enclosed_of_head _ ?_
      rw [show printCore (PropForm.por a b) = print a ++ ' ' :: 'v' :: ' ' :: print b from rfl,
        head_append_of_ne_nil _ _ (print_ne_nil a), h1]
      subst ht
      simpa using varOK_ne_lit c hwa '(' (by left; decide)
    · apply enclosed_false_of_notGen
      rw [show printCore (PropForm.por a b) = print a ++ ' ' :: 'v' :: ' ' :: print b from rfl, h]
      exact notGen (printCore a) (' ' :: 'v' :: ' ' :: print b) (print_depth a hwa).1.1 (by simp)
  | pimp a b =>
    have hwa := (Bool.and_eq_true _ _ |>.mp hwf).1
    rcases print_shape a with ⟨c, ht, h1, _⟩ | h
    · refine not_enclosed_of_head _ ?_
      rw [show printCore (PropForm.pimp a b) = print a ++ '-' :: '>' :: print b from rfl,
        head_append_of_ne_nil _ _ (print_ne_nil a), h1]
      subst ht
      simpa using varOK_ne_lit c hwa '(' (by left; decide)
    · apply enclosed_false_of_notGen
      rw [show printCore (PropForm.pimp a b) = print a ++ '-' :: '>' :: print b from rfl, h]
      exact notGen (printCore a) ('-' :: '>' :: print b) (print_depth a hwa).1.1 (by simp)
  | piff a b =>
    have hwa := (Bool.and_eq_true _ _ |>.mp hwf).1
    rcases print_shape a with ⟨c, ht, h1, _⟩ | h
    · refine not_enclosed_of_head _ ?_
      rw [show printCore (PropForm.piff a b) = print a ++ '<' :: '-' :: '>' :: print b from rfl,
        head_append_of_ne_nil _ _ (print_ne_nil a), h1]
      subst ht
      simpa using varOK_ne_lit c hwa '(' (by left; decide)
    · apply enclosed_false_of_notGen
      rw [show printCore (PropForm.piff a b) = print a ++ '<' :: '-' :: '>' :: print b from rfl, h]
      exact notGen (printCore a) ('<' :: '-' :: '>' :: print b) (print_depth a hwa).1.1 (by simp)

theorem strip_outer_of_not_enclosed (n : Nat) (e : List Char)
    (h : is_fully_enclosed e = false) : strip_outer n e = e := by
  cases n with
  | zero => rfl
  | succ n =>
    show (if is_fully_enclosed e then strip_outer n (pyStrip (e.drop 1).dropLast) else e) = e
    rw [h]
    rfl

theorem stripped_printCore (t : PropForm) (hwf : t.wf = true) :
    stripped (printCore t) = printCore t := by
  unfold stripped
  rw [pyStrip_printCore t hwf]
  exact strip_outer_of_not_enclosed _ _ (printCore_not_enclosed t hwf)

theorem stripped_print (t : PropForm) (hwf : t.wf = true) :
    stripped (print t) = printCore t := by
  rcases print_shape t with ⟨c, ht, h1, h2⟩ | h
  · rw [show print t = printCore t from by rw [h1, h2]]
    exact stripped_printCore t hwf
  · unfold stripped
    rw [pyStrip_print t hwf, h]
    have hlen : (('(' :: printCore t) ++ [')']).length = (printCore t).length + 2 := by simp
    rw [hlen]
    show strip_outer ((printCore t).length + 1 + 1) (('(' :: printCore t) ++ [')']) = _
    rw [show strip_outer ((printCore t).length + 1 + 1) (('(' :: printCore t) ++ [')']) =
      if is_fully_enclosed (('(' :: printCore t) ++ [')'])
      then strip_outer ((printCore t).length + 1)
        (pyStrip (((('(' :: printCore t) ++ [')']).drop 1).dropLast))
      else ('(' :: printCore t) ++ [')'] from rfl]
    rw [← h, print_enclosed t hwf h, h]
    simp only [if_true]
    have hdrop : ((('(' :: printCore t) ++ [')']).drop 1).dropLast = printCore t := by
      rw [show ('(' :: printCore t) ++ [')'] = '(' :: (printCore t ++ [')']) from by simp,
        List.drop_succ_cons, List.drop_zero, List.dropLast_concat]
    rw [hdrop, pyStrip_printCore t hwf]
    exact strip_outer_of_not_enclosed _ _ (printCore_not_enclosed t hwf)

end LogicCheck

namespace LogicCheck

/-! ### C9, stage 3: operator search on the rendered cores -/

theorem isPrefixOf_nil_false (o : Char) (op' : List Char) :
    (o :: op').isPrefixOf ([] : List Char) = false := rfl

theorem prefix_head_eq (o : Char) (op' : List Char) (x : Char) (xs : List Char)
    (h : (o :: op').isPrefixOf (x :: xs) = true) : o = x := by
  simp only [List.isPrefixOf, Bool.and_eq_true, beq_iff_eq] at h
  exact h.1

theorem print_take_pos (a : PropForm) (hwa : a.wf = true)
    (hsh : print a = ('(' :: printCore a) ++ [')']) (k : Nat) (h1 : 1 ≤ k)
    (h2 : k < (print a).length) : 1 ≤ parenDepth ((print a).take k) := by
  obtain ⟨⟨_, hcn⟩, _, _⟩ := print_depth a hwa
  have hlen : (print a).length = (printCore a).length + 2 := by rw [hsh]; simp
  rw [hsh, parenDepth_take_append,
    show k - ('(' :: printCore a).length = 0 from by simp; omega, List.take_zero]
  have hmain : 1 ≤ parenDepth (('(' :: printCore a).take k) := by
    cases k with
    | zero => omega
    | succ k' =>
      rw [List.take_succ_cons]
      show 1 ≤ parenDelta '(' + parenDepth ((printCore a).take k')
      have := hcn k'
      have hd : parenDelta '(' = 1 := by decide
      omega
  have h3 : parenDepth ([] : List Char) = 0 := rfl
  omega

theorem print_no_arrow (a : PropForm) (hwa : a.wf = true) (o : Char) (op' : List Char)
    (ho : o = '<' ∨ o = '-') (w : List Char) (k : Nat) (hk : k < (print a).length) :
    ¬((o :: op').isPrefixOf ((print a ++ w).drop k) = true ∧
      parenDepth ((print a ++ w).take k) = 0) := by
  rintro ⟨hp, hd⟩
  cases k with
  | zero =>
    rw [List.drop_zero] at hp
    obtain ⟨c, hc, _, hcc⟩ := print_head_char a hwa
    cases hpa : print a with
    | nil => exact print_ne_nil a hpa
    | cons x xs =>
      have hx : x = c := by rw [hpa] at hc; simpa using hc
      rw [hpa] at hp
      have hox := prefix_head_eq o op' x (xs ++ w) (by simpa using hp)
      rcases hcc with hcp | hcv
      · rcases ho with rfl | rfl <;> (rw [hx, hcp] at hox; cases hox)
      · have : c ≠ o := by
          apply varOK_ne_lit c hcv
          rcases ho with rfl | rfl
          · left; decide
          · left; decide
        exact this (hox ▸ hx.symm)
  | succ k' =>
    rcases print_shape a with ⟨c, hta, h1, _⟩ | hsh
    · rw [h1] at hk; simp at hk
    · have hpos := print_take_pos a hwa hsh (k' + 1) (by omega) hk
      rw [parenDepth_take_append,
        show k' + 1 - (print a).length = 0 from by omega, List.take_zero] at hd
      have h3 : parenDepth ([] : List Char) = 0 := rfl
      omega

theorem region_b_no_arrow (bb : PropForm) (hwb : bb.wf = true) (o : Char) (op' : List Char)
    (ho : o = '<' ∨ o = '-') (A M : List Char) (hA : parenDepth A = 0)
    (hM : parenDepth M = 0) (k : Nat) (hk : A.length + M.length ≤ k) :
    ¬((o :: op').isPrefixOf ((A ++ (M ++ print bb)).drop k) = true ∧
      parenDepth ((A ++ (M ++ print bb)).take k) = 0) := by
  rintro ⟨hp, hd⟩
  have hdrop : (A ++ (M ++ print bb)).drop k = (print bb).drop (k - A.length - M.length) := by
    rw [List.drop_append_eq_append_drop, List.drop_of_length_le (by omega),
      List.nil_append, List.drop_append_eq_append_drop,
      List.drop_of_length_le (by omega), List.nil_append]
  have htake : parenDepth ((A ++ (M ++ print bb)).take k) =
      parenDepth ((print bb).take (k - A.length - M.length)) := by
    rw [parenDepth_take_append, parenDepth_take_append,
      parenDepth_take_of_balanced A hA _ (by omega),
      parenDepth_take_of_balanced M hM _ (by omega)]
    ring
  by_cases hlt : k - A.length - M.length < (print bb).length
  · refine print_no_arrow bb hwb o op' ho [] (k - A.length - M.length) hlt ⟨?_, ?_⟩
    · rw [List.append_nil, ← hdrop]; exact hp
    · rw [List.append_nil, ← htake]; exact hd
  · rw [hdrop, List.drop_of_length_le (by omega), isPrefixOf_nil_false] at hp
    cases hp

end LogicCheck

namespace LogicCheck

/-! ### C9, stage 3b: `find_operator` on each rendered core -/

theorem drop_append_exact (A M' : List Char) (i : Nat) :
    (A ++ M').drop (A.length + i) = M'.drop i := by
  rw [List.drop_append_eq_append_drop, List.drop_of_length_le (by omega), List.nil_append,
    show A.length + i - A.length = i from by omega]

theorem opHead_ok : ∀ c, (['<', '-', '>'] : List Char).head? = some c → c ≠ '(' ∧ c ≠ ')' :=
  fun c hc => by cases hc; exact ⟨by decide, by decide⟩

theorem opHead_ok2 : ∀ c, (['-', '>'] : List Char).head? = some c → c ≠ '(' ∧ c ≠ ')' :=
  fun c hc => by cases hc; exact ⟨by decide, by decide⟩

theorem fo_var_none (c : Char) (o : Char) (o2 : Char) (op' : List Char) :
    find_operator (printCore (PropForm.var c)) (o :: o2 :: op') = none := by
  show foAux (o :: o2 :: op') [c] 0 0 = none
  unfold foAux
  have h1 : (o :: o2 :: op').isPrefixOf [c] = false := by
    simp [List.isPrefixOf]
  rw [h1]
  simp [foAux]

theorem fo_pnot_none (a : PropForm) (hwa : a.wf = true) (o : Char) (op' : List Char)
    (ho : o = '<' ∨ o = '-') :
    find_operator (printCore (PropForm.pnot a)) (o :: op') = none := by
  have hop : (o :: op') ≠ [] := by simp
  have hh : ∀ c, (o :: op').head? = some c → c ≠ '(' ∧ c ≠ ')' := by
    intro c hc
    cases hc
    rcases ho with rfl | rfl <;> exact ⟨by decide, by decide⟩
  rw [find_operator_none_iff _ hop hh]
  intro k
  rintro ⟨hp, hd⟩
  have hcore : printCore (PropForm.pnot a) = ([] : List Char) ++ (['~'] ++ print a) := rfl
  rcases Nat.lt_or_ge k 1 with h1 | h1
  · have hk : k = 0 := by omega
    subst hk
    rw [List.drop_zero] at hp
    have := prefix_head_eq o op' '~' (print a) hp
    rcases ho with rfl | rfl <;> cases this
  · rcases Nat.lt_or_ge (k - 1) (print a).length with h2 | h2
    · refine print_no_arrow a hwa o op' ho [] (k - 1) h2 ⟨?_, ?_⟩
      · rw [List.append_nil]
        rw [show printCore (PropForm.pnot a) = '~' :: print a from rfl] at hp
        cases k with
        | zero => omega
        | succ k' => rw [List.drop_succ_cons] at hp; simpa using hp
      · rw [List.append_nil]
        rw [show printCore (PropForm.pnot a) = '~' :: print a from rfl] at hd
        cases k with
        | zero => omega
        | succ k' =>
          rw [List.take_succ_cons] at hd
          rw [show parenDepth ('~' :: (print a).take k') =
            parenDelta '~' + parenDepth ((print a).take k') from rfl] at hd
          have : parenDelta '~' = 0 := by decide
          simp only [this, zero_add] at hd
          simpa using hd
    · rw [show printCore (PropForm.pnot a) = '~' :: print a from rfl] at hp
      cases k with
      | zero => omega
      | succ k' =>
        rw [List.drop_succ_cons, List.drop_of_length_le (by omega),
          isPrefixOf_nil_false] at hp
        cases hp

theorem fo_binop_none (a b : PropForm) (hwa : a.wf = true) (hwb : b.wf = true)
    (M : List Char) (hM : parenDepth M = 0) (o : Char) (op' : List Char)
    (ho : o = '<' ∨ o = '-') (hmid : ∀ i, i < M.length → (M.drop i).head? ≠ some o) :
    find_operator (print a ++ (M ++ print b)) (o :: op') = none := by
  have hop : (o :: op') ≠ [] := by simp
  have hh : ∀ c, (o :: op').head? = some c → c ≠ '(' ∧ c ≠ ')' := by
    intro c hc
    cases hc
    rcases ho with rfl | rfl <;> exact ⟨by decide, by decide⟩
  rw [find_operator_none_iff _ hop hh]
  intro k
  rintro ⟨hp, hd⟩
  rcases Nat.lt_or_ge k (print a).length with h1 | h1
  · exact print_no_arrow a hwa o op' ho (M ++ print b) k h1 ⟨hp, hd⟩
  · rcases Nat.lt_or_ge k ((print a).length + M.length) with h2 | h2
    · set i := k - (print a).length with hi
      have hdrop : (print a ++ (M ++ print b)).drop k = (M ++ print b).drop i := by
        rw [show k = (print a).length + i from by omega, drop_append_exact]
      rw [hdrop] at hp
      have hlt : i < M.length := by omega
      have hdrop2 : (M ++ print b).drop i = M.drop i ++ print b := by
        rw [List.drop_append_eq_append_drop, show i - M.length = 0 from by omega,
          List.drop_zero]
      rw [hdrop2] at hp
      cases hmd : M.drop i with
      | nil => rw [hmd] at hp; simp at hmd; omega
      | cons x xs =>
        rw [hmd] at hp
        have hxo := prefix_head_eq o op' x (xs ++ print b) (by simpa using hp)
        have hhd := hmid i hlt
        rw [hmd] at hhd
        exact hhd (by rw [show x = o from hxo.symm]; rfl)
    · exact region_b_no_arrow b hwb o op' ho (print a) M (print_depth a hwa).2.1 hM k h2
        ⟨hp, hd⟩

theorem fo_pand_none (a b : PropForm) (hwa : a.wf = true) (hwb : b.wf = true)
    (o : Char) (op' : List Char) (ho : o = '<' ∨ o = '-') :
    find_operator (printCore (PropForm.pand a b)) (o :: op') = none := by
  have : printCore (PropForm.pand a b) = print a ++ (['^'] ++ print b) := rfl
  rw [this]
  refine fo_binop_none a b hwa hwb ['^'] (by decide) o op' ho ?_
  intro i hi
  simp only [List.length_cons, List.length_nil] at hi
  interval_cases i
  · rcases ho with rfl | rfl <;> simp

theorem fo_por_none (a b : PropForm) (hwa : a.wf = true) (hwb : b.wf = true)
    (o : Char) (op' : List Char) (ho : o = '<' ∨ o = '-') :
    find_operator (printCore (PropForm.por a b)) (o :: op') = none := by
  have : printCore (PropForm.por a b) = print a ++ ([' ', 'v', ' '] ++ print b) := rfl
  rw [this]
  refine fo_binop_none a b hwa hwb [' ', 'v', ' '] (by decide) o op' ho ?_
  intro i hi
  simp only [List.length_cons, List.length_nil] at hi
  interval_cases i <;> (rcases ho with rfl | rfl <;> simp)

theorem fo_pimp_none_bic (a b : PropForm) (hwa : a.wf = true) (hwb : b.wf = true) :
    find_operator (printCore (PropForm.pimp a b)) ['<', '-', '>'] = none := by
  have : printCore (PropForm.pimp a b) = print a ++ (['-', '>'] ++ print b) := rfl
  rw [this]
  refine fo_binop_none a b hwa hwb ['-', '>'] (by decide) '<' ['-', '>'] (Or.inl rfl) ?_
  intro i hi
  simp only [List.length_cons, List.length_nil] at hi
  interval_cases i <;> simp

theorem fo_some_at_seam (a : PropForm) (hwa : a.wf = true) (M R : List Char)
    (o : Char) (op' : List Char) (ho : o = '<' ∨ o = '-')
    (hpfx : (o :: op').isPrefixOf (M ++ R) = true) :
    find_operator (print a ++ (M ++ R)) (o :: op') = some (print a).length := by
  have hop : (o :: op') ≠ [] := by simp
  have hh : ∀ c, (o :: op').head? = some c → c ≠ '(' ∧ c ≠ ')' := by
    intro c hc
    cases hc
    rcases ho with rfl | rfl <;> exact ⟨by decide, by decide⟩
  rw [find_operator_some_iff _ hop hh]
  refine ⟨?_, ?_, ?_⟩
  · rw [show (print a).length = (print a).length + 0 from by omega, drop_append_exact,
      List.drop_zero]
    exact hpfx
  · rw [parenDepth_take_append, show (print a).length - (print a).length = 0 from by omega,
      List.take_zero, List.take_of_length_le (le_refl _), (print_depth a hwa).2.1]
    rfl
  · intro j hj
    exact print_no_arrow a hwa o op' ho (M ++ R) j hj

theorem fo_piff_some (a b : PropForm) (hwa : a.wf = true) :
    find_operator (printCore (PropForm.piff a b)) ['<', '-', '>'] = some (print a).length := by
  have : printCore (PropForm.piff a b) = print a ++ (['<', '-', '>'] ++ print b) := rfl
  rw [this]
  exact fo_some_at_seam a hwa ['<', '-', '>'] (print b) '<' ['-', '>'] (Or.inl rfl)
    (by simp [List.isPrefixOf])

theorem fo_pimp_some (a b : PropForm) (hwa : a.wf = true) :
    find_operator (printCore (PropForm.pimp a b)) ['-', '>'] = some (print a).length := by
  have : printCore (PropForm.pimp a b) = print a ++ (['-', '>'] ++ print b) := rfl
  rw [this]
  exact fo_some_at_seam a hwa ['-', '>'] (print b) '-' ['>'] (Or.inr rfl)
    (by simp [List.isPrefixOf])

end LogicCheck

namespace LogicCheck

/-! ### C9, stage 4: the transformer on `print t` produces `TC t` -/

theorem fmp_group (z rest : List Char) (h0 : parenDepth z = 0)
    (hz : ∀ j, 0 ≤ parenDepth (z.take j)) :
    find_matching_paren ('(' :: (z ++ (')' :: rest))) 0 = some (z.length + 1) := by
  unfold find_matching_paren
  rw [List.drop_succ_cons, List.drop_zero]
  have hres := fmpAux_some_intro (z ++ (')' :: rest)) 1 1 z.length
    (by simp)
    (by
      rw [parenDepth_take_append, List.take_of_length_le (by omega),
        show z.length + 1 - z.length = 1 from by omega, h0]
      have : parenDepth ((')' :: rest).take 1) = -1 := by
        rw [show (')' :: rest).take 1 = [')'] from by cases rest <;> rfl]
        decide
      rw [this]
      ring)
    (by
      intro j hj
      rw [parenDepth_take_append, show j + 1 - z.length = 0 from by omega, List.take_zero]
      have h1 := hz (j + 1)
      have h2 : parenDepth ([] : List Char) = 0 := rfl
      omega)
  rw [hres]
  congr 1
  omega

theorem TC_pnot_eq (a : PropForm) : TC (PropForm.pnot a) = '~' :: TCwrap a := by
  cases a <;> rfl

theorem TC_pand_eq (a b : PropForm) :
    TC (PropForm.pand a b) = TCwrap a ++ '^' :: TCwrap b := by
  cases a <;> cases b <;> rfl

theorem TC_por_eq (a b : PropForm) :
    TC (PropForm.por a b) = TCwrap a ++ ' ' :: 'v' :: ' ' :: TCwrap b := by
  cases a <;> cases b <;> rfl

theorem TCwrap_compound (a : PropForm) (h : print a = ('(' :: printCore a) ++ [')']) :
    TCwrap a = '(' :: TC a ++ [')'] := by
  cases a with
  | var c =>
    have := congrArg List.length h
    simp [print, printCore] at this
  | pnot a => rfl
  | pand a b => rfl
  | por a b => rfl
  | pimp a b => rfl
  | piff a b => rfl

theorem scanSeg (a : PropForm) (hwa : a.wf = true)
    (htr : ∀ (fuel : Nat) (e : List Char), stripped e = printCore a →
      2 * (printCore a).length + 2 ≤ fuel → transform_logic fuel e = .ok (TC a))
    (suffix rs : List Char)
    (hsuf : ∀ g, 2 * suffix.length + 1 ≤ g → scanChars g suffix = .ok rs) :
    ∀ fuel, 2 * ((print a).length + suffix.length) + 1 ≤ fuel →
      scanChars fuel (print a ++ suffix) = .ok (TCwrap a ++ rs) := by
  intro fuel hfuel
  rcases print_shape a with ⟨c, hta, h1, h2⟩ | hsh
  · obtain ⟨g, rfl⟩ : ∃ g, fuel = g + 1 := ⟨fuel - 1, by omega⟩
    rw [h1, show ([c] ++ suffix : List Char) = c :: suffix from rfl,
      scanChars_cons_other g c suffix
        (by subst hta; exact varOK_ne_lit c hwa '(' (by left; decide)),
      hsuf g (by rw [h1] at hfuel; simp at hfuel; omega)]
    subst hta
    rfl
  · have hassoc : print a ++ suffix = '(' :: (printCore a ++ (')' :: suffix)) := by
      rw [hsh]; simp
    obtain ⟨g, rfl⟩ : ∃ g, fuel = g + 1 := ⟨fuel - 1, by omega⟩
    obtain ⟨⟨h0, hn⟩, _, _⟩ := print_depth a hwa
    have hfmp := fmp_group (printCore a) suffix h0 hn
    rw [hassoc, scanChars_cons_group g _ _ hfmp]
    have hlen : (print a).length = (printCore a).length + 2 := by rw [hsh]; simp
    have hinner :
        ((('(' :: (printCore a ++ (')' :: suffix))).take ((printCore a).length + 1)).drop 1)
          = printCore a := by
      rw [List.take_succ_cons, List.drop_succ_cons, List.drop_zero,
        List.take_append_eq_append_take, List.take_of_length_le (le_refl _),
        show (printCore a).length - (printCore a).length = 0 from by omega,
        List.take_zero, List.append_nil]
    rw [hinner, htr g (printCore a) (stripped_printCore a hwa) (by omega)]
    have hrest : ('(' :: (printCore a ++ (')' :: suffix))).drop ((printCore a).length + 1 + 1)
        = suffix := by
      rw [List.drop_succ_cons,
        show (printCore a).length + 1 = (printCore a).length + 1 from rfl,
        List.drop_append_eq_append_drop, List.drop_of_length_le (by omega),
        List.nil_append,
        show (printCore a).length + 1 - (printCore a).length = 1 from by omega,
        List.drop_succ_cons, List.drop_zero]
    rw [hrest, hsuf g (by omega)]
    rw [TCwrap_compound a hsh]
    show Except.ok (['('] ++ TC a ++ [')'] ++ rs) = _
    congr 1

theorem transform_core : ∀ (t : PropForm), t.wf = true →
    ∀ (fuel : Nat) (e : List Char), stripped e = printCore t →
      2 * (printCore t).length + 2 ≤ fuel →
      transform_logic fuel e = .ok (TC t) := by
  intro t
  induction t with
  | var c =>
    intro hwf fuel e hstrip hfuel
    obtain ⟨g, rfl⟩ : ∃ g, fuel = g + 1 := ⟨fuel - 1, by omega⟩
    rw [transform_logic_succ_scan g e
      (by rw [hstrip]; exact fo_var_none c '<' '-' ['>'])
      (by rw [hstrip]; exact fo_var_none c '-' '>' []),
      hstrip]
    rw [show printCore (PropForm.var c) = [c] from rfl] at hfuel ⊢
    exact scanChars_id g [c] (by simp at hfuel ⊢; omega)
      (by simpa using (varOK_ne_lit c hwf '(' (by left; decide)).symm)
  | pnot a iha =>
    intro hwf fuel e hstrip hfuel
    have hwa : a.wf = true := hwf
    have htr := iha hwa
    obtain ⟨g, rfl⟩ : ∃ g, fuel = g + 1 := ⟨fuel - 1, by omega⟩
    rw [transform_logic_succ_scan g e
      (by rw [hstrip]; exact fo_pnot_none a hwa '<' ['-', '>'] (Or.inl rfl))
      (by rw [hstrip]; exact fo_pnot_none a hwa '-' ['>'] (Or.inr rfl)),
      hstrip]
    have hclen : (printCore (PropForm.pnot a)).length = (print a).length + 1 := by
      rw [show printCore (PropForm.pnot a) = '~' :: print a from rfl]; simp
    obtain ⟨h, rfl⟩ : ∃ h, g = h + 1 := ⟨g - 1, by omega⟩
    rw [show printCore (PropForm.pnot a) = '~' :: print a from rfl,
      scanChars_cons_other h '~' (print a) (by decide)]
    have hseg := scanSeg a hwa htr [] []
      (fun g' hg' => by
        obtain ⟨m, rfl⟩ : ∃ m, g' = m + 1 := ⟨g' - 1, by omega⟩
        rfl)
      h (by rw [hclen] at hfuel; simp; omega)
    rw [show print a ++ ([] : List Char) = print a from by simp] at hseg
    rw [hseg, TC_pnot_eq]
    show Except.ok ('~' :: (TCwrap a ++ [])) = Except.ok ('~' :: TCwrap a)
    simp
  | pand a b iha ihb =>
    intro hwf fuel e hstrip hfuel
    rw [show (PropForm.pand a b).wf = (a.wf && b.wf) from rfl, Bool.and_eq_true] at hwf
    have htra := iha hwf.1
    have htrb := ihb hwf.2
    obtain ⟨g, rfl⟩ : ∃ g, fuel = g + 1 := ⟨fuel - 1, by omega⟩
    rw [transform_logic_succ_scan g e
      (by rw [hstrip]; exact fo_pand_none a b hwf.1 hwf.2 '<' ['-', '>'] (Or.inl rfl))
      (by rw [hstrip]; exact fo_pand_none a b hwf.1 hwf.2 '-' ['>'] (Or.inr rfl)),
      hstrip]
    have hclen : (printCore (PropForm.pand a b)).length
        = (print a).length + (print b).length + 1 := by
      rw [show printCore (PropForm.pand a b) = print a ++ '^' :: print b from rfl]
      simp
      omega
    have hsufb : ∀ g', 2 * ('^' :: print b).length + 1 ≤ g' →
        scanChars g' ('^' :: print b) = .ok ('^' :: TCwrap b) := by
      intro g' hg'
      simp only [List.length_cons] at hg'
      obtain ⟨m, rfl⟩ : ∃ m, g' = m + 1 := ⟨g' - 1, by omega⟩
      rw [scanChars_cons_other m '^' (print b) (by decide)]
      have hsegb := scanSeg b hwf.2 htrb [] []
        (fun g2 hg2 => by
          obtain ⟨m2, rfl⟩ : ∃ m2, g2 = m2 + 1 := ⟨g2 - 1, by omega⟩
          rfl)
        m (by simp; omega)
      rw [show print b ++ ([] : List Char) = print b from by simp] at hsegb
      rw [hsegb]
      show Except.ok ('^' :: (TCwrap b ++ [])) = Except.ok ('^' :: TCwrap b)
      simp
    have hseg := scanSeg a hwf.1 htra ('^' :: print b) ('^' :: TCwrap b) hsufb g
      (by rw [hclen] at hfuel; simp at hfuel ⊢; omega)
    rw [show printCore (PropForm.pand a b) = print a ++ '^' :: print b from rfl, hseg,
      TC_pand_eq]
  | por a b iha ihb =>
    intro hwf fuel e hstrip hfuel
    rw [show (PropForm.por a b).wf = (a.wf && b.wf) from rfl, Bool.and_eq_true] at hwf
    have htra := iha hwf.1
    have htrb := ihb hwf.2
    obtain ⟨g, rfl⟩ : ∃ g, fuel = g + 1 := ⟨fuel - 1, by omega⟩
    rw [transform_logic_succ_scan g e
      (by rw [hstrip]; exact fo_por_none a b hwf.1 hwf.2 '<' ['-', '>'] (Or.inl rfl))
      (by rw [hstrip]; exact fo_por_none a b hwf.1 hwf.2 '-' ['>'] (Or.inr rfl)),
      hstrip]
    have hclen : (printCore (PropForm.por a b)).length
        = (print a).length + (print b).length + 3 := by
      rw [show printCore (PropForm.por a b) = print a ++ ' ' :: 'v' :: ' ' :: print b
        from rfl]
      simp
      omega
    have hsufb : ∀ g', 2 * (' ' :: 'v' :: ' ' :: print b).length + 1 ≤ g' →
        scanChars g' (' ' :: 'v' :: ' ' :: print b)
          = .ok (' ' :: 'v' :: ' ' :: TCwrap b) := by
      intro g' hg'
      simp only [List.length_cons] at hg'
      obtain ⟨m1, rfl⟩ : ∃ m, g' = m + 1 := ⟨g' - 1, by omega⟩
      rw [scanChars_cons_other m1 ' ' _ (by decide)]
      obtain ⟨m2, rfl⟩ : ∃ m, m1 = m + 1 := ⟨m1 - 1, by omega⟩
      rw [scanChars_cons_other m2 'v' _ (by decide)]
      obtain ⟨m3, rfl⟩ : ∃ m, m2 = m + 1 := ⟨m2 - 1, by omega⟩
      rw [scanChars_cons_other m3 ' ' _ (by decide)]
      have hsegb := scanSeg b hwf.2 htrb [] []
        (fun g2 hg2 => by
          obtain ⟨m4, rfl⟩ : ∃ m, g2 = m + 1 := ⟨g2 - 1, by omega⟩
          rfl)
        m3 (by simp; omega)
      rw [show print b ++ ([] : List Char) = print b from by simp] at hsegb
      rw [hsegb]
      show Except.ok (' ' :: 'v' :: ' ' :: (TCwrap b ++ []))
        = Except.ok (' ' :: 'v' :: ' ' :: TCwrap b)
      simp
    have hseg := scanSeg a hwf.1 htra (' ' :: 'v' :: ' ' :: print b)
      (' ' :: 'v' :: ' ' :: TCwrap b) hsufb g
      (by rw [hclen] at hfuel; simp at hfuel ⊢; omega)
    rw [show printCore (PropForm.por a b) = print a ++ ' ' :: 'v' :: ' ' :: print b
      from rfl, hseg, TC_por_eq]
  | pimp a b iha ihb =>
    intro hwf fuel e hstrip hfuel
    rw [show (PropForm.pimp a b).wf = (a.wf && b.wf) from rfl, Bool.and_eq_true] at hwf
    obtain ⟨g, rfl⟩ : ∃ g, fuel = g + 1 := ⟨fuel - 1, by omega⟩
    rw [transform_logic_succ_imp g e (print a).length
      (by rw [hstrip]; exact fo_pimp_none_bic a b hwf.1 hwf.2)
      (by rw [hstrip]; exact fo_pimp_some a b hwf.1),
      hstrip]
    have hcore : printCore (PropForm.pimp a b)
        = print a ++ (['-', '>'] ++ print b) := rfl
    have hclen : (printCore (PropForm.pimp a b)).length
        = (print a).length + (print b).length + 2 := by
      rw [hcore]; simp; omega
    have htake : (printCore (PropForm.pimp a b)).take (print a).length = print a := by
      rw [hcore, List.take_append_eq_append_take, List.take_length,
        show (print a).length - (print a).length = 0 from by omega, List.take_zero,
        List.append_nil]
    have hdrop : (printCore (PropForm.pimp a b)).drop ((print a).length + 2)
        = print b := by
      rw [hcore, drop_append_exact]
      rfl
    rw [htake, hdrop]
    have ha := iha hwf.1 g (print a) (stripped_print a hwf.1) (by
      have := printCore_length_le a
      rw [hclen] at hfuel
      omega)
    have hb := ihb hwf.2 g (print b) (stripped_print b hwf.2) (by
      have := printCore_length_le b
      rw [hclen] at hfuel
      omega)
    rw [ha, hb]
    show Except.ok ("(not ".toList ++ TC a ++ " or ".toList ++ TC b ++ [')'])
      = Except.ok (TC (PropForm.pimp a b))
    congr 1
    show ['(', 'n', 'o', 't', ' '] ++ TC a ++ [' ', 'o', 'r', ' '] ++ TC b ++ [')'] = _
    rw [show TC (PropForm.pimp a b)
      = '(' :: ('n' :: 'o' :: 't' :: ' ' :: TC a) ++ (' ' :: 'o' :: 'r' :: ' ' :: TC b)
        ++ [')'] from rfl]
    simp
  | piff a b iha ihb =>
    intro hwf fuel e hstrip hfuel
    rw [show (PropForm.piff a b).wf = (a.wf && b.wf) from rfl, Bool.and_eq_true] at hwf
    obtain ⟨g, rfl⟩ : ∃ g, fuel = g + 1 := ⟨fuel - 1, by omega⟩
    rw [transform_logic_succ_bicond g e (print a).length
      (by rw [hstrip]; exact fo_piff_some a b hwf.1),
      hstrip]
    have hcore : printCore (PropForm.piff a b)
        = print a ++ (['<', '-', '>'] ++ print b) := rfl
    have hclen : (printCore (PropForm.piff a b)).length
        = (print a).length + (print b).length + 3 := by
      rw [hcore]; simp; omega
    have htake : (printCore (PropForm.piff a b)).take (print a).length = print a := by
      rw [hcore, List.take_append_eq_append_take, List.take_length,
        show (print a).length - (print a).length = 0 from by omega, List.take_zero,
        List.append_nil]
    have hdrop : (printCore (PropForm.piff a b)).drop ((print a).length + 3)
        = print b := by
      rw [hcore, drop_append_exact]
      rfl
    rw [htake, hdrop]
    have ha := iha hwf.1 g (print a) (stripped_print a hwf.1) (by
      have := printCore_length_le a
      rw [hclen] at hfuel
      omega)
    have hb := ihb hwf.2 g (print b) (stripped_print b hwf.2) (by
      have := printCore_length_le b
      rw [hclen] at hfuel
      omega)
    rw [ha, hb]
    show Except.ok (['('] ++ TC a ++ " == ".toList ++ TC b ++ [')'])
      = Except.ok (TC (PropForm.piff a b))
    congr 1
    show ['('] ++ TC a ++ [' ', '=', '=', ' '] ++ TC b ++ [')'] = _
    rw [show TC (PropForm.piff a b)
      = '(' :: TC a ++ (' ' :: '=' :: '=' :: ' ' :: TC b) ++ [')'] from rfl]
    simp

end LogicCheck

namespace LogicCheck

/-! ### C9, stage 5: structure of the `TC` images -/

theorem transformTop_print (t : PropForm) (hwf : t.wf = true) :
    transformTop (print t) = .ok (TC t) := by
  unfold transformTop
  exact transform_core t hwf _ (print t) (stripped_print t hwf)
    (by have h1 := printCore_length_le t; omega)

theorem TCwrap_shape (t : PropForm) :
    (∃ c, t = PropForm.var c ∧ TCwrap t = [c]) ∨ TCwrap t = ('(' :: TC t) ++ [')'] := by
  cases t with
  | var c => exact Or.inl ⟨c, rfl, rfl⟩
  | pnot a => right; rfl
  | pand a b => right; rfl
  | por a b => right; rfl
  | pimp a b => right; rfl
  | piff a b => right; rfl

theorem TCbody_eq_self (t : PropForm)
    (h : (∃ c, t = PropForm.var c) ∨ (∃ a, t = PropForm.pnot a) ∨
      (∃ a b, t = PropForm.pand a b) ∨ ∃ a b, t = PropForm.por a b) :
    TCbody t = TC t := by
  rcases h with ⟨c, rfl⟩ | ⟨a, rfl⟩ | ⟨a, b, rfl⟩ | ⟨a, b, rfl⟩ <;> rfl

theorem TC_shape_imp (a b : PropForm) :
    TC (PropForm.pimp a b) = ('(' :: TCbody (PropForm.pimp a b)) ++ [')'] := by
  show ('(' :: ('n' :: 'o' :: 't' :: ' ' :: TC a)) ++ (' ' :: 'o' :: 'r' :: ' ' :: TC b)
      ++ [')'] = _
  rw [show TCbody (PropForm.pimp a b)
    = ('n' :: 'o' :: 't' :: ' ' :: TC a) ++ (' ' :: 'o' :: 'r' :: ' ' :: TC b) from rfl]
  simp

theorem TC_shape_iff (a b : PropForm) :
    TC (PropForm.piff a b) = ('(' :: TCbody (PropForm.piff a b)) ++ [')'] := by
  show ('(' :: TC a) ++ (' ' :: '=' :: '=' :: ' ' :: TC b) ++ [')'] = _
  rw [show TCbody (PropForm.piff a b)
    = TC a ++ (' ' :: '=' :: '=' :: ' ' :: TC b) from rfl]
  simp

theorem TC_length_pos (t : PropForm) : 1 ≤ (TC t).length := by
  cases t with
  | var c => simp [TC]
  | pnot a => rw [TC_pnot_eq]; simp
  | pand a b => rw [TC_pand_eq]; simp; omega
  | por a b => rw [TC_por_eq]; simp; omega
  | pimp a b => rw [TC_shape_imp]; simp
  | piff a b => rw [TC_shape_iff]; simp

theorem TC_ne_nil (t : PropForm) : TC t ≠ [] := by
  have := TC_length_pos t
  intro h
  rw [h] at this
  simp at this

theorem TCwrap_ne_nil (t : PropForm) : TCwrap t ≠ [] := by
  rcases TCwrap_shape t with ⟨c, _, h⟩ | h <;> rw [h] <;> simp

theorem TCwrap_depth (a : PropForm) (hwa : a.wf = true)
    (h0 : parenDepth (TC a) = 0) (hn : ∀ j, 0 ≤ parenDepth ((TC a).take j)) :
    parenDepth (TCwrap a) = 0 ∧ ∀ j, 0 ≤ parenDepth ((TCwrap a).take j) := by
  rcases TCwrap_shape a with ⟨c, hta, h1⟩ | h1
  · subst hta
    rw [h1]
    have hd := varOK_parenDelta c hwa
    constructor
    · show parenDelta c + parenDepth [] = 0
      simp [parenDepth, hd]
    · exact single_take_nonneg c hd
  · rw [h1]
    exact wrap_depth _ h0 hn

theorem TC_depth (t : PropForm) (hwf : t.wf = true) :
    parenDepth (TC t) = 0 ∧ ∀ j, 0 ≤ parenDepth ((TC t).take j) := by
  induction t with
  | var c =>
    have hd := varOK_parenDelta c hwf
    constructor
    · show parenDelta c + parenDepth [] = 0
      simp [parenDepth, hd]
    · exact single_take_nonneg c hd
  | pnot a iha =>
    have hwa : a.wf = true := hwf
    obtain ⟨h0, hn⟩ := iha hwa
    obtain ⟨hw0, hwn⟩ := TCwrap_depth a hwa h0 hn
    rw [TC_pnot_eq]
    constructor
    · show parenDelta '~' + parenDepth (TCwrap a) = 0
      rw [hw0]
      decide
    · exact cons_take_nonneg '~' (by decide) _ hwn
  | pand a b iha ihb =>
    rw [show (PropForm.pand a b).wf = (a.wf && b.wf) from rfl, Bool.and_eq_true] at hwf
    obtain ⟨ha0, han⟩ := iha hwf.1
    obtain ⟨hb0, hbn⟩ := ihb hwf.2
    obtain ⟨hwa0, hwan⟩ := TCwrap_depth a hwf.1 ha0 han
    obtain ⟨hwb0, hwbn⟩ := TCwrap_depth b hwf.2 hb0 hbn
    rw [TC_pand_eq]
    constructor
    · rw [parenDepth_append, hwa0]
      show 0 + (parenDelta '^' + parenDepth (TCwrap b)) = 0
      rw [hwb0]
      decide
    · exact concat_take_nonneg _ _ hwa0 hwan
        (cons_take_nonneg '^' (by decide) _ hwbn)
  | por a b iha ihb =>
    rw [show (PropForm.por a b).wf = (a.wf && b.wf) from rfl, Bool.and_eq_true] at hwf
    obtain ⟨ha0, han⟩ := iha hwf.1
    obtain ⟨hb0, hbn⟩ := ihb hwf.2
    obtain ⟨hwa0, hwan⟩ := TCwrap_depth a hwf.1 ha0 han
    obtain ⟨hwb0, hwbn⟩ := TCwrap_depth b hwf.2 hb0 hbn
    rw [TC_por_eq]
    constructor
    · rw [parenDepth_append, hwa0]
      show 0 + (parenDelta ' ' + (parenDelta 'v' + (parenDelta ' ' + parenDepth (TCwrap b)))) = 0
      rw [hwb0]
      decide
    · exact concat_take_nonneg _ _ hwa0 hwan
        (cons_take_nonneg ' ' (by decide) _
          (cons_take_nonneg 'v' (by decide) _
            (cons_take_nonneg ' ' (by decide) _ hwbn)))
  | pimp a b iha ihb =>
    rw [show (PropForm.pimp a b).wf = (a.wf && b.wf) from rfl, Bool.and_eq_true] at hwf
    obtain ⟨ha0, han⟩ := iha hwf.1
    obtain ⟨hb0, hbn⟩ := ihb hwf.2
    have hbody0 : parenDepth (TCbody (PropForm.pimp a b)) = 0 := by
      show parenDepth (('n' :: 'o' :: 't' :: ' ' :: TC a)
        ++ (' ' :: 'o' :: 'r' :: ' ' :: TC b)) = 0
      rw [parenDepth_append]
      show (parenDelta 'n' + (parenDelta 'o' + (parenDelta 't' + (parenDelta ' '
        + parenDepth (TC a))))) + (parenDelta ' ' + (parenDelta 'o' + (parenDelta 'r'
        + (parenDelta ' ' + parenDepth (TC b))))) = 0
      rw [ha0, hb0]
      decide
    have hbodyn : ∀ j, 0 ≤ parenDepth ((TCbody (PropForm.pimp a b)).take j) := by
      show ∀ j, 0 ≤ parenDepth ((('n' :: 'o' :: 't' :: ' ' :: TC a)
        ++ (' ' :: 'o' :: 'r' :: ' ' :: TC b)).take j)
      refine concat_take_nonneg _ _ ?_ ?_ ?_
      · show parenDelta 'n' + (parenDelta 'o' + (parenDelta 't' + (parenDelta ' '
          + parenDepth (TC a)))) = 0
        rw [ha0]
        decide
      · exact cons_take_nonneg 'n' (by decide) _
          (cons_take_nonneg 'o' (by decide) _
            (cons_take_nonneg 't' (by decide) _
              (cons_take_nonneg ' ' (by decide) _ han)))
      · exact cons_take_nonneg ' ' (by decide) _
          (cons_take_nonneg 'o' (by decide) _
            (cons_take_nonneg 'r' (by decide) _
              (cons_take_nonneg ' ' (by decide) _ hbn)))
    rw [TC_shape_imp]
    exact wrap_depth _ hbody0 hbodyn
  | piff a b iha ihb =>
    rw [show (PropForm.piff a b).wf = (a.wf && b.wf) from rfl, Bool.and_eq_true] at hwf
    obtain ⟨ha0, han⟩ := iha hwf.1
    obtain ⟨hb0, hbn⟩ := ihb hwf.2
    have hbody0 : parenDepth (TCbody (PropForm.piff a b)) = 0 := by
      show parenDepth (TC a ++ (' ' :: '=' :: '=' :: ' ' :: TC b)) = 0
      rw [parenDepth_append, ha0]
      show 0 + (parenDelta ' ' + (parenDelta '=' + (parenDelta '='
        + (parenDelta ' ' + parenDepth (TC b))))) = 0
      rw [hb0]
      decide
    have hbodyn : ∀ j, 0 ≤ parenDepth ((TCbody (PropForm.piff a b)).take j) := by
      show ∀ j, 0 ≤ parenDepth ((TC a ++ (' ' :: '=' :: '=' :: ' ' :: TC b)).take j)
      exact concat_take_nonneg _ _ ha0 han
        (cons_take_nonneg ' ' (by decide) _
          (cons_take_nonneg '=' (by decide) _
            (cons_take_nonneg '=' (by decide) _
              (cons_take_nonneg ' ' (by decide) _ hbn))))
    rw [TC_shape_iff]
    exact wrap_depth _ hbody0 hbodyn

theorem TCbody_depth (t : PropForm) (hwf : t.wf = true) :
    parenDepth (TCbody t) = 0 ∧ ∀ j, 0 ≤ parenDepth ((TCbody t).take j) := by
  cases t with
  | var c => exact TC_depth (PropForm.var c) hwf
  | pnot a => exact TC_depth (PropForm.pnot a) hwf
  | pand a b => exact TC_depth (PropForm.pand a b) hwf
  | por a b => exact TC_depth (PropForm.por a b) hwf
  | pimp a b =>
    rw [show (PropForm.pimp a b).wf = (a.wf && b.wf) from rfl, Bool.and_eq_true] at hwf
    obtain ⟨ha0, han⟩ := TC_depth a hwf.1
    obtain ⟨hb0, hbn⟩ := TC_depth b hwf.2
    constructor
    · show parenDepth (('n' :: 'o' :: 't' :: ' ' :: TC a)
        ++ (' ' :: 'o' :: 'r' :: ' ' :: TC b)) = 0
      rw [parenDepth_append]
      show (parenDelta 'n' + (parenDelta 'o' + (parenDelta 't' + (parenDelta ' '
        + parenDepth (TC a))))) + (parenDelta ' ' + (parenDelta 'o' + (parenDelta 'r'
        + (parenDelta ' ' + parenDepth (TC b))))) = 0
      rw [ha0, hb0]
      decide
    · show ∀ j, 0 ≤ parenDepth ((('n' :: 'o' :: 't' :: ' ' :: TC a)
        ++ (' ' :: 'o' :: 'r' :: ' ' :: TC b)).take j)
      refine concat_take_nonneg _ _ ?_ ?_ ?_
      · show parenDelta 'n' + (parenDelta 'o' + (parenDelta 't' + (parenDelta ' '
          + parenDepth (TC a)))) = 0
        rw [ha0]
        decide
      · exact cons_take_nonneg 'n' (by decide) _
          (cons_take_nonneg 'o' (by decide) _
            (cons_take_nonneg 't' (by decide) _
              (cons_take_nonneg ' ' (by decide) _ han)))
      · exact cons_take_nonneg ' ' (by decide) _
          (cons_take_nonneg 'o' (by decide) _
            (cons_take_nonneg 'r' (by decide) _
              (cons_take_nonneg ' ' (by decide) _ hbn)))
  | piff a b =>
    rw [show (PropForm.piff a b).wf = (a.wf && b.wf) from rfl, Bool.and_eq_true] at hwf
    obtain ⟨ha0, han⟩ := TC_depth a hwf.1
    obtain ⟨hb0, hbn⟩ := TC_depth b hwf.2
    constructor
    · show parenDepth (TC a ++ (' ' :: '=' :: '=' :: ' ' :: TC b)) = 0
      rw [parenDepth_append, ha0]
      show 0 + (parenDelta ' ' + (parenDelta '=' + (parenDelta '='
        + (parenDelta ' ' + parenDepth (TC b))))) = 0
      rw [hb0]
      decide
    · show ∀ j, 0 ≤ parenDepth ((TC a ++ (' ' :: '=' :: '=' :: ' ' :: TC b)).take j)
      exact concat_take_nonneg _ _ ha0 han
        (cons_take_nonneg ' ' (by decide) _
          (cons_take_nonneg '=' (by decide) _
            (cons_take_nonneg '=' (by decide) _
              (cons_take_nonneg ' ' (by decide) _ hbn))))

end LogicCheck

namespace LogicCheck

/-! ### C9, stage 6: stripping behaviour of the `TC` images -/

theorem TCwrap_head_char (a : PropForm) (hwa : a.wf = true) :
    ∃ c, (TCwrap a).head? = some c ∧ pySpace c = false ∧ (c = '(' ∨ varOK c = true) := by
  rcases TCwrap_shape a with ⟨c, hta, h1⟩ | h1
  · subst hta
    exact ⟨c, by rw [h1]; rfl, varOK_not_space c hwa, Or.inr hwa⟩
  · exact ⟨'(', by rw [h1]; rfl, by decide, Or.inl rfl⟩

theorem TCwrap_last_char (a : PropForm) (hwa : a.wf = true) :
    ∃ c, (TCwrap a).getLast? = some c ∧ pySpace c = false ∧ (c = ')' ∨ varOK c = true) := by
  rcases TCwrap_shape a with ⟨c, hta, h1⟩ | h1
  · subst hta
    exact ⟨c, by rw [h1]; rfl, varOK_not_space c hwa, Or.inr hwa⟩
  · exact ⟨')', by rw [h1, List.getLast?_concat], by decide, Or.inl rfl⟩

theorem TC_head_char (t : PropForm) (hwf : t.wf = true) :
    ∃ c, (TC t).head? = some c ∧ pySpace c = false := by
  cases t with
  | var c => exact ⟨c, rfl, varOK_not_space c hwf⟩
  | pnot a => exact ⟨'~', by rw [TC_pnot_eq]; rfl, by decide⟩
  | pand a b =>
    obtain ⟨c, hc, hs, _⟩ := TCwrap_head_char a (Bool.and_eq_true _ _ |>.mp hwf).1
    exact ⟨c, by rw [TC_pand_eq, head_append_of_ne_nil _ _ (TCwrap_ne_nil a)]; exact hc, hs⟩
  | por a b =>
    obtain ⟨c, hc, hs, _⟩ := TCwrap_head_char a (Bool.and_eq_true _ _ |>.mp hwf).1
    exact ⟨c, by rw [TC_por_eq, head_append_of_ne_nil _ _ (TCwrap_ne_nil a)]; exact hc, hs⟩
  | pimp a b => exact ⟨'(', by rw [TC_shape_imp]; rfl, by decide⟩
  | piff a b => exact ⟨'(', by rw [TC_shape_iff]; rfl, by decide⟩

theorem TC_last_char (t : PropForm) (hwf : t.wf = true) :
    ∃ c, (TC t).getLast? = some c ∧ pySpace c = false := by
  cases t with
  | var c => exact ⟨c, rfl, varOK_not_space c hwf⟩
  | pnot a =>
    obtain ⟨c, hc, hs, _⟩ := TCwrap_last_char a hwf
    exact ⟨c, by rw [TC_pnot_eq, getLast_cons_of_ne_nil _ _ (TCwrap_ne_nil a)]; exact hc, hs⟩
  | pand a b =>
    obtain ⟨c, hc, hs, _⟩ := TCwrap_last_char b (Bool.and_eq_true _ _ |>.mp hwf).2
    refine ⟨c, ?_, hs⟩
    rw [TC_pand_eq, getLast_append_of_ne_nil _ _ (by simp),
      getLast_cons_of_ne_nil _ _ (TCwrap_ne_nil b)]
    exact hc
  | por a b =>
    obtain ⟨c, hc, hs, _⟩ := TCwrap_last_char b (Bool.and_eq_true _ _ |>.mp hwf).2
    refine ⟨c, ?_, hs⟩
    rw [TC_por_eq, getLast_append_of_ne_nil _ _ (by simp),
      getLast_cons_of_ne_nil _ _ (by simp),
      getLast_cons_of_ne_nil _ _ (by simp),
      getLast_cons_of_ne_nil _ _ (TCwrap_ne_nil b)]
    exact hc
  | pimp a b => exact ⟨')', by rw [TC_shape_imp, List.getLast?_concat], by decide⟩
  | piff a b => exact ⟨')', by rw [TC_shape_iff, List.getLast?_concat], by decide⟩

theorem pyStrip_TC (t : PropForm) (hwf : t.wf = true) : pyStrip (TC t) = TC t := by
  obtain ⟨c1, h1, hs1⟩ := TC_head_char t hwf
  obtain ⟨c2, h2, hs2⟩ := TC_last_char t hwf
  exact pyStrip_eq_self _ (fun c hc => by rw [h1] at hc; cases hc; exact hs1)
    (fun c hc => by rw [h2] at hc; cases hc; exact hs2)

theorem TCbody_head_char (t : PropForm) (hwf : t.wf = true) :
    ∃ c, (TCbody t).head? = some c ∧ pySpace c = false := by
  cases t with
  | var c => exact TC_head_char (PropForm.var c) hwf
  | pnot a => exact TC_head_char (PropForm.pnot a) hwf
  | pand a b => exact TC_head_char (PropForm.pand a b) hwf
  | por a b => exact TC_head_char (PropForm.por a b) hwf
  | pimp a b => exact ⟨'n', rfl, by decide⟩
  | piff a b =>
    obtain ⟨c, hc, hs⟩ := TC_head_char a (Bool.and_eq_true _ _ |>.mp hwf).1
    refine ⟨c, ?_, hs⟩
    rw [show TCbody (PropForm.piff a b) = TC a ++ (' ' :: '=' :: '=' :: ' ' :: TC b)
      from rfl, head_append_of_ne_nil _ _ (TC_ne_nil a)]
    exact hc

theorem TCbody_last_char (t : PropForm) (hwf : t.wf = true) :
    ∃ c, (TCbody t).getLast? = some c ∧ pySpace c = false := by
  cases t with
  | var c => exact TC_last_char (PropForm.var c) hwf
  | pnot a => exact TC_last_char (PropForm.pnot a) hwf
  | pand a b => exact TC_last_char (PropForm.pand a b) hwf
  | por a b => exact TC_last_char (PropForm.por a b) hwf
  | pimp a b =>
    obtain ⟨c, hc, hs⟩ := TC_last_char b (Bool.and_eq_true _ _ |>.mp hwf).2
    refine ⟨c, ?_, hs⟩
    rw [show TCbody (PropForm.pimp a b)
      = ('n' :: 'o' :: 't' :: ' ' :: TC a) ++ (' ' :: 'o' :: 'r' :: ' ' :: TC b) from rfl,
      getLast_append_of_ne_nil _ _ (by simp),
      getLast_cons_of_ne_nil _ _ (by simp),
      getLast_cons_of_ne_nil _ _ (by simp),
      getLast_cons_of_ne_nil _ _ (by simp),
      getLast_cons_of_ne_nil _ _ (TC_ne_nil b)]
    exact hc
  | piff a b =>
    obtain ⟨c, hc, hs⟩ := TC_last_char b (Bool.and_eq_true _ _ |>.mp hwf).2
    refine ⟨c, ?_, hs⟩
    rw [show TCbody (PropForm.piff a b) = TC a ++ (' ' :: '=' :: '=' :: ' ' :: TC b)
      from rfl,
      getLast_append_of_ne_nil _ _ (by simp),
      getLast_cons_of_ne_nil _ _ (by simp),
      getLast_cons_of_ne_nil _ _ (by simp),
      getLast_cons_of_ne_nil _ _ (by simp),
      getLast_cons_of_ne_nil _ _ (TC_ne_nil b)]
    exact hc

theorem pyStrip_TCbody (t : PropForm) (hwf : t.wf = true) :
    pyStrip (TCbody t) = TCbody t := by
  obtain ⟨c1, h1, hs1⟩ := TCbody_head_char t hwf
  obtain ⟨c2, h2, hs2⟩ := TCbody_last_char t hwf
  exact pyStrip_eq_self _ (fun c hc => by rw [h1] at hc; cases hc; exact hs1)
    (fun c hc => by rw [h2] at hc; cases hc; exact hs2)

theorem TC_append_not_enclosed (t : PropForm) (hwf : t.wf = true) (rest : List Char)
    (hrest : rest ≠ []) : is_fully_enclosed (TC t ++ rest) = false := by
  cases t with
  | var c =>
    refine not_enclosed_of_head _ ?_
    rw [show (TC (PropForm.var c) ++ rest : List Char) = c :: rest from rfl]
    simpa using (varOK_ne_lit c hwf '(' (by left; decide))
  | pnot a =>
    refine not_enclosed_of_head _ ?_
    rw [TC_pnot_eq]
    simp
  | pand a b =>
    have hwa := (Bool.and_eq_true _ _ |>.mp hwf).1
    rw [TC_pand_eq]
    rcases TCwrap_shape a with ⟨c, hta, h1⟩ | h1
    · refine not_enclosed_of_head _ ?_
      rw [h1]
      subst hta
      simpa using (varOK_ne_lit c hwa '(' (by left; decide))
    · apply enclosed_false_of_notGen
      rw [h1, List.append_assoc (('(' :: TC a) ++ [')']) ('^' :: TCwrap b) rest]
      exact notGen (TC a) ('^' :: TCwrap b ++ rest) (TC_depth a hwa).1 (by simp)
  | por a b =>
    have hwa := (Bool.and_eq_true _ _ |>.mp hwf).1
    rw [TC_por_eq]
    rcases TCwrap_shape a with ⟨c, hta, h1⟩ | h1
    · refine not_enclosed_of_head _ ?_
      rw [h1]
      subst hta
      simpa using (varOK_ne_lit c hwa '(' (by left; decide))
    · apply enclosed_false_of_notGen
      rw [h1, List.append_assoc (('(' :: TC a) ++ [')']) (' ' :: 'v' :: ' ' :: TCwrap b) rest]
      exact notGen (TC a) (' ' :: 'v' :: ' ' :: TCwrap b ++ rest) (TC_depth a hwa).1 (by simp)
  | pimp a b =>
    apply enclosed_false_of_notGen
    rw [TC_shape_imp]
    exact notGen (TCbody (PropForm.pimp a b)) rest (TCbody_depth _ hwf).1 hrest
  | piff a b =>
    apply enclosed_false_of_notGen
    rw [TC_shape_iff]
    exact notGen (TCbody (PropForm.piff a b)) rest (TCbody_depth _ hwf).1 hrest

theorem TC_not_enclosed_nonimp (t : PropForm) (hwf : t.wf = true)
    (h : (∃ c, t = PropForm.var c) ∨ (∃ a, t = PropForm.pnot a) ∨
      (∃ a b, t = PropForm.pand a b) ∨ ∃ a b, t = PropForm.por a b) :
    is_fully_enclosed (TC t) = false := by
  rcases h with ⟨c, rfl⟩ | ⟨a, rfl⟩ | ⟨a, b, rfl⟩ | ⟨a, b, rfl⟩
  · refine not_enclosed_of_head _ ?_
    show (TC (PropForm.var c)).head? ≠ some '('
    rw [show TC (PropForm.var c) = [c] from rfl]
    simpa using (varOK_ne_lit c hwf '(' (by left; decide))
  · refine not_enclosed_of_head _ ?_
    rw [TC_pnot_eq]
    simp
  · have hwa := (Bool.and_eq_true _ _ |>.mp hwf).1
    rw [TC_pand_eq]
    rcases TCwrap_shape a with ⟨c, hta, h1⟩ | h1
    · refine not_enclosed_of_head _ ?_
      rw [h1]
      subst hta
      simpa using (varOK_ne_lit c hwa '(' (by left; decide))
    · apply enclosed_false_of_notGen
      rw [h1]
      exact notGen (TC a) ('^' :: TCwrap b) (TC_depth a hwa).1 (by simp)
  · have hwa := (Bool.and_eq_true _ _ |>.mp hwf).1
    rw [TC_por_eq]
    rcases TCwrap_shape a with ⟨c, hta, h1⟩ | h1
    · refine not_enclosed_of_head _ ?_
      rw [h1]
      subst hta
      simpa using (varOK_ne_lit c hwa '(' (by left; decide))
    · apply enclosed_false_of_notGen
      rw [h1]
      exact notGen (TC a) (' ' :: 'v' :: ' ' :: TCwrap b) (TC_depth a hwa).1 (by simp)

theorem TCbody_not_enclosed (t : PropForm) (hwf : t.wf = true) :
    is_fully_enclosed (TCbody t) = false := by
  cases t with
  | var c => exact TC_not_enclosed_nonimp _ hwf (Or.inl ⟨c, rfl⟩)
  | pnot a => exact TC_not_enclosed_nonimp _ hwf (Or.inr (Or.inl ⟨a, rfl⟩))
  | pand a b => exact TC_not_enclosed_nonimp _ hwf (Or.inr (Or.inr (Or.inl ⟨a, b, rfl⟩)))
  | por a b => exact TC_not_enclosed_nonimp _ hwf (Or.inr (Or.inr (Or.inr ⟨a, b, rfl⟩)))
  | pimp a b => exact not_enclosed_of_head _ (by
      rw [show TCbody (PropForm.pimp a b)
        = ('n' :: 'o' :: 't' :: ' ' :: TC a) ++ (' ' :: 'o' :: 'r' :: ' ' :: TC b) from rfl]
      simp)
  | piff a b =>
    have hwa := (Bool.and_eq_true _ _ |>.mp hwf).1
    rw [show TCbody (PropForm.piff a b) = TC a ++ (' ' :: '=' :: '=' :: ' ' :: TC b)
      from rfl]
    exact TC_append_not_enclosed a hwa _ (by simp)

theorem stripped_TCbody (t : PropForm) (hwf : t.wf = true) :
    stripped (TCbody t) = TCbody t := by
  unfold stripped
  rw [pyStrip_TCbody t hwf]
  exact strip_outer_of_not_enclosed _ _ (TCbody_not_enclosed t hwf)

theorem stripped_wrap (z : List Char) (hz0 : parenDepth z = 0)
    (hzn : ∀ j, 0 ≤ parenDepth (z.take j)) (hpz : pyStrip z = z)
    (hnotz : is_fully_enclosed z = false) :
    stripped (('(' :: z) ++ [')']) = z := by
  unfold stripped
  have hps : pyStrip (('(' :: z) ++ [')']) = ('(' :: z) ++ [')'] := by
    refine pyStrip_eq_self _ ?_ ?_
    · intro c hc
      rw [show ((('(' :: z) ++ [')']).head? : Option Char) = some '(' from rfl] at hc
      cases hc
      decide
    · intro c hc
      rw [List.getLast?_concat] at hc
      cases hc
      decide
  rw [hps]
  have hlen : (('(' :: z) ++ [')']).length = z.length + 2 := by simp
  rw [hlen]
  have henc : is_fully_enclosed (('(' :: z) ++ [')']) = true := by
    rw [is_fully_enclosed_iff]
    exact ⟨z, by simp, hz0, fun j => by have := hzn j; omega⟩
  show strip_outer (z.length + 1 + 1) (('(' :: z) ++ [')']) = z
  rw [show strip_outer (z.length + 1 + 1) (('(' :: z) ++ [')'])
    = if is_fully_enclosed (('(' :: z) ++ [')'])
      then strip_outer (z.length + 1) (pyStrip (((('(' :: z) ++ [')']).drop 1).dropLast))
      else ('(' :: z) ++ [')'] from rfl, henc]
  simp only [if_true]
  have hdrop : ((('(' :: z) ++ [')']).drop 1).dropLast = z := by
    rw [show ('(' :: z) ++ [')'] = '(' :: (z ++ [')']) from by simp,
      List.drop_succ_cons, List.drop_zero, List.dropLast_concat]
  rw [hdrop, hpz]
  exact strip_outer_of_not_enclosed _ _ hnotz

theorem stripped_TC (t : PropForm) (hwf : t.wf = true) :
    stripped (TC t) = TCbody t := by
  cases t with
  | var c => exact stripped_TCbody (PropForm.var c) hwf
  | pnot a => exact stripped_TCbody (PropForm.pnot a) hwf
  | pand a b => exact stripped_TCbody (PropForm.pand a b) hwf
  | por a b => exact stripped_TCbody (PropForm.por a b) hwf
  | pimp a b =>
    rw [TC_shape_imp]
    exact stripped_wrap _ (TCbody_depth _ hwf).1 (TCbody_depth _ hwf).2
      (pyStrip_TCbody _ hwf) (TCbody_not_enclosed _ hwf)
  | piff a b =>
    rw [TC_shape_iff]
    exact stripped_wrap _ (TCbody_depth _ hwf).1 (TCbody_depth _ hwf).2
      (pyStrip_TCbody _ hwf) (TCbody_not_enclosed _ hwf)

end LogicCheck

namespace LogicCheck

/-! ### C9, stage 7: the second transform -/

theorem TCwrap_subset (a : PropForm) (x : Char) (h : x ∈ TCwrap a) :
    x = '(' ∨ x = ')' ∨ x ∈ TC a := by
  rcases TCwrap_shape a with ⟨c, hta, h1⟩ | h1
  · subst hta
    rw [h1] at h
    exact Or.inr (Or.inr h)
  · rw [h1] at h
    rcases List.mem_append.mp h with h | h
    · rcases List.mem_cons.mp h with h | h
      · exact Or.inl h
      · exact Or.inr (Or.inr h)
    · rcases List.mem_singleton.mp h with rfl
      exact Or.inr (Or.inl rfl)

theorem TC_no_arrow (t : PropForm) (hwf : t.wf = true) :
    '<' ∉ TC t ∧ '-' ∉ TC t := by
  induction t with
  | var c =>
    constructor <;> intro h <;> rw [show TC (PropForm.var c) = [c] from rfl] at h <;>
      rcases List.mem_singleton.mp h with rfl
    · exact varOK_ne_lit '<' hwf '<' (by left; decide) rfl
    · exact varOK_ne_lit '-' hwf '-' (by left; decide) rfl
  | pnot a iha =>
    obtain ⟨h1, h2⟩ := iha hwf
    rw [TC_pnot_eq]
    constructor <;> intro h <;> rcases List.mem_cons.mp h with h | h
    · exact absurd h (by decide)
    · rcases TCwrap_subset a _ h with h | h | h
      · exact absurd h (by decide)
      · exact absurd h (by decide)
      · exact h1 h
    · exact absurd h (by decide)
    · rcases TCwrap_subset a _ h with h | h | h
      · exact absurd h (by decide)
      · exact absurd h (by decide)
      · exact h2 h
  | pand a b iha ihb =>
    rw [show (PropForm.pand a b).wf = (a.wf && b.wf) from rfl, Bool.and_eq_true] at hwf
    obtain ⟨ha1, ha2⟩ := iha hwf.1
    obtain ⟨hb1, hb2⟩ := ihb hwf.2
    rw [TC_pand_eq]
    constructor <;> intro h <;> rcases List.mem_append.mp h with h | h
    · rcases TCwrap_subset a _ h with h | h | h
      · exact absurd h (by decide)
      · exact absurd h (by decide)
      · exact ha1 h
    · rcases List.mem_cons.mp h with h | h
      · exact absurd h (by decide)
      · rcases TCwrap_subset b _ h with h | h | h
        · exact absurd h (by decide)
        · exact absurd h (by decide)
        · exact hb1 h
    · rcases TCwrap_subset a _ h with h | h | h
      · exact absurd h (by decide)
      · exact absurd h (by decide)
      · exact ha2 h
    · rcases List.mem_cons.mp h with h | h
      · exact absurd h (by decide)
      · rcases TCwrap_subset b _ h with h | h | h
        · exact absurd h (by decide)
        · exact absurd h (by decide)
        · exact hb2 h
  | por a b iha ihb =>
    rw [show (PropForm.por a b).wf = (a.wf && b.wf) from rfl, Bool.and_eq_true] at hwf
    obtain ⟨ha1, ha2⟩ := iha hwf.1
    obtain ⟨hb1, hb2⟩ := ihb hwf.2
    rw [TC_por_eq]
    constructor <;> intro h <;> rcases List.mem_append.mp h with h | h
    · rcases TCwrap_subset a _ h with h | h | h
      · exact absurd h (by decide)
      · exact absurd h (by decide)
      · exact ha1 h
    · rcases List.mem_cons.mp h with h | h
      · exact absurd h (by decide)
      · rcases List.mem_cons.mp h with h | h
        · exact absurd h (by decide)
        · rcases List.mem_cons.mp h with h | h
          · exact absurd h (by decide)
          · rcases TCwrap_subset b _ h with h | h | h
            · exact absurd h (by decide)
            · exact absurd h (by decide)
            · exact hb1 h
    · rcases TCwrap_subset a _ h with h | h | h
      · exact absurd h (by decide)
      · exact absurd h (by decide)
      · exact ha2 h
    · rcases List.mem_cons.mp h with h | h
      · exact absurd h (by decide)
      · rcases List.mem_cons.mp h with h | h
        · exact absurd h (by decide)
        · rcases List.mem_cons.mp h with h | h
          · exact absurd h (by decide)
          · rcases TCwrap_subset b _ h with h | h | h
            · exact absurd h (by decide)
            · exact absurd h (by decide)
            · exact hb2 h
  | pimp a b iha ihb =>
    rw [show (PropForm.pimp a b).wf = (a.wf && b.wf) from rfl, Bool.and_eq_true] at hwf
    obtain ⟨ha1, ha2⟩ := iha hwf.1
    obtain ⟨hb1, hb2⟩ := ihb hwf.2
    rw [TC_shape_imp]
    have hmem : ∀ x : Char, x ∈ TCbody (PropForm.pimp a b) →
        x ∈ TC a ∨ x ∈ TC b ∨ x = 'n' ∨ x = 'o' ∨ x = 't' ∨ x = ' ' ∨ x = 'r' := by
      intro x hx
      rw [show TCbody (PropForm.pimp a b)
        = ('n' :: 'o' :: 't' :: ' ' :: TC a) ++ (' ' :: 'o' :: 'r' :: ' ' :: TC b)
        from rfl] at hx
      rcases List.mem_append.mp hx with hx | hx <;>
        simp only [List.mem_cons] at hx <;>
        rcases hx with rfl | rfl | rfl | rfl | hx <;> tauto
    constructor <;> intro h <;> rcases List.mem_append.mp h with h | h
    · rcases List.mem_cons.mp h with h | h
      · exact absurd h (by decide)
      · rcases hmem '<' h with h | h | h | h | h | h | h
        · exact ha1 h
        · exact hb1 h
        · exact absurd h (by decide)
        · exact absurd h (by decide)
        · exact absurd h (by decide)
        · exact absurd h (by decide)
        · exact absurd h (by decide)
    · exact absurd (List.mem_singleton.mp h) (by decide)
    · rcases List.mem_cons.mp h with h | h
      · exact absurd h (by decide)
      · rcases hmem '-' h with h | h | h | h | h | h | h
        · exact ha2 h
        · exact hb2 h
        · exact absurd h (by decide)
        · exact absurd h (by decide)
        · exact absurd h (by decide)
        · exact absurd h (by decide)
        · exact absurd h (by decide)
    · exact absurd (List.mem_singleton.mp h) (by decide)
  | piff a b iha ihb =>
    rw [show (PropForm.piff a b).wf = (a.wf && b.wf) from rfl, Bool.and_eq_true] at hwf
    obtain ⟨ha1, ha2⟩ := iha hwf.1
    obtain ⟨hb1, hb2⟩ := ihb hwf.2
    rw [TC_shape_iff]
    have hmem : ∀ x : Char, x ∈ TCbody (PropForm.piff a b) →
        x ∈ TC a ∨ x ∈ TC b ∨ x = ' ' ∨ x = '=' := by
      intro x hx
      rw [show TCbody (PropForm.piff a b)
        = TC a ++ (' ' :: '=' :: '=' :: ' ' :: TC b) from rfl] at hx
      rcases List.mem_append.mp hx with hx | hx
      · tauto
      · simp only [List.mem_cons] at hx
        rcases hx with rfl | rfl | rfl | rfl | hx <;> tauto
    constructor <;> intro h <;> rcases List.mem_append.mp h with h | h
    · rcases List.mem_cons.mp h with h | h
      · exact absurd h (by decide)
      · rcases hmem '<' h with h | h | h | h
        · exact ha1 h
        · exact hb1 h
        · exact absurd h (by decide)
        · exact absurd h (by decide)
    · exact absurd (List.mem_singleton.mp h) (by decide)
    · rcases List.mem_cons.mp h with h | h
      · exact absurd h (by decide)
      · rcases hmem '-' h with h | h | h | h
        · exact ha2 h
        · exact hb2 h
        · exact absurd h (by decide)
        · exact absurd h (by decide)
    · exact absurd (List.mem_singleton.mp h) (by decide)

theorem TCbody_no_arrow (t : PropForm) (hwf : t.wf = true) :
    '<' ∉ TCbody t ∧ '-' ∉ TCbody t := by
  obtain ⟨h1, h2⟩ := TC_no_arrow t hwf
  cases t with
  | var c => exact ⟨h1, h2⟩
  | pnot a => exact ⟨h1, h2⟩
  | pand a b => exact ⟨h1, h2⟩
  | por a b => exact ⟨h1, h2⟩
  | pimp a b =>
    rw [TC_shape_imp] at h1 h2
    constructor <;> intro h <;>
      [exact h1 (List.mem_append.mpr (Or.inl (List.mem_cons_of_mem _ h)));
       exact h2 (List.mem_append.mpr (Or.inl (List.mem_cons_of_mem _ h)))]
  | piff a b =>
    rw [TC_shape_iff] at h1 h2
    constructor <;> intro h <;>
      [exact h1 (List.mem_append.mpr (Or.inl (List.mem_cons_of_mem _ h)));
       exact h2 (List.mem_append.mpr (Or.inl (List.mem_cons_of_mem _ h)))]

theorem fo_of_not_mem (l : List Char) (o : Char) (op' : List Char)
    (ho : o ≠ '(' ∧ o ≠ ')') (h : o ∉ l) : find_operator l (o :: op') = none := by
  rw [find_operator_none_iff _ (by simp) (fun c hc => by cases hc; exact ho)]
  intro k
  rintro ⟨hp, _⟩
  cases hd : l.drop k with
  | nil => rw [hd, isPrefixOf_nil_false] at hp; cases hp
  | cons x xs =>
    rw [hd] at hp
    have hox := prefix_head_eq o op' x xs hp
    subst hox
    exact h (List.mem_of_mem_drop (n := k) (by rw [hd]; exact List.mem_cons_self _ _))

end LogicCheck

namespace LogicCheck

/-! ### C9, stage 8: the transformer on `TC t` produces `TD t` -/

theorem TDseg_pnot_eq (a : PropForm) : TDseg (PropForm.pnot a) = '~' :: TDwrap a := by
  cases a <;> rfl

theorem TDseg_pand_eq (a b : PropForm) :
    TDseg (PropForm.pand a b) = TDwrap a ++ '^' :: TDwrap b := by
  cases a <;> cases b <;> rfl

theorem TDseg_por_eq (a b : PropForm) :
    TDseg (PropForm.por a b) = TDwrap a ++ ' ' :: 'v' :: ' ' :: TDwrap b := by
  cases a <;> cases b <;> rfl

theorem TD_imp_eq (a b : PropForm) :
    TD (PropForm.pimp a b)
      = ('n' :: 'o' :: 't' :: ' ' :: TDseg a) ++ (' ' :: 'o' :: 'r' :: ' ' :: TDseg b) := rfl

theorem TD_iff_eq (a b : PropForm) :
    TD (PropForm.piff a b) = TDseg a ++ (' ' :: '=' :: '=' :: ' ' :: TDseg b) := rfl

theorem TDseg_imp_shape (a b : PropForm) :
    TDseg (PropForm.pimp a b) = ('(' :: TD (PropForm.pimp a b)) ++ [')'] := by
  rw [TD_imp_eq]
  show ('(' :: ('n' :: 'o' :: 't' :: ' ' :: TDseg a)) ++ (' ' :: 'o' :: 'r' :: ' ' :: TDseg b)
    ++ [')'] = _
  simp

theorem TDseg_iff_shape (a b : PropForm) :
    TDseg (PropForm.piff a b) = ('(' :: TD (PropForm.piff a b)) ++ [')'] := by
  rw [TD_iff_eq]
  show ('(' :: TDseg a) ++ (' ' :: '=' :: '=' :: ' ' :: TDseg b) ++ [')'] = _
  simp

theorem TD_eq_TDseg_var (c : Char) : TD (PropForm.var c) = TDseg (PropForm.var c) := rfl

theorem TD_eq_TDseg_pnot (a : PropForm) : TD (PropForm.pnot a) = TDseg (PropForm.pnot a) := rfl

theorem TD_eq_TDseg_pand (a b : PropForm) :
    TD (PropForm.pand a b) = TDseg (PropForm.pand a b) := rfl

theorem TD_eq_TDseg_por (a b : PropForm) :
    TD (PropForm.por a b) = TDseg (PropForm.por a b) := rfl

theorem TDwrap_compound_eq (x : PropForm) (h : TCwrap x = ('(' :: TC x) ++ [')']) :
    TDwrap x = ('(' :: TD x) ++ [')'] := by
  cases x with
  | var c =>
    have := congrArg List.length h
    rw [show TCwrap (PropForm.var c) = [c] from rfl] at this
    rw [show TC (PropForm.var c) = [c] from rfl] at this
    simp at this
  | pnot a => rfl
  | pand a b => rfl
  | por a b => rfl
  | pimp a b => exact TDseg_imp_shape a b
  | piff a b => exact TDseg_iff_shape a b

theorem TCwrap_length_bounds (x : PropForm) :
    (TC x).length ≤ (TCwrap x).length ∧ (TCwrap x).length ≤ (TC x).length + 2 := by
  rcases TCwrap_shape x with ⟨c, htx, h1⟩ | h1
  · subst htx
    rw [h1, show TC (PropForm.var c) = [c] from rfl]
    simp
  · rw [h1]
    simp
    omega

theorem TCbody_length_bounds (t : PropForm) :
    (TCbody t).length ≤ (TC t).length ∧ (TC t).length ≤ (TCbody t).length + 2 := by
  cases t with
  | var c => exact ⟨le_refl _, Nat.le_add_right _ _⟩
  | pnot a => exact ⟨le_refl _, Nat.le_add_right _ _⟩
  | pand a b => exact ⟨le_refl _, Nat.le_add_right _ _⟩
  | por a b => exact ⟨le_refl _, Nat.le_add_right _ _⟩
  | pimp a b =>
    rw [TC_shape_imp]
    simp
    omega
  | piff a b =>
    rw [TC_shape_iff]
    simp
    omega

theorem scanWrapTC (x : PropForm) (hwx : x.wf = true)
    (htr : ∀ (fuel : Nat) (e : List Char), stripped e = TCbody x →
      2 * (TCbody x).length + 2 ≤ fuel → transform_logic fuel e = .ok (TD x))
    (suffix rs : List Char)
    (hsuf : ∀ g, 2 * suffix.length + 1 ≤ g → scanChars g suffix = .ok rs) :
    ∀ fuel, 2 * ((TCwrap x).length + suffix.length) + 1 ≤ fuel →
      scanChars fuel (TCwrap x ++ suffix) = .ok (TDwrap x ++ rs) := by
  intro fuel hfuel
  rcases TCwrap_shape x with ⟨c, htx, h1⟩ | h1
  · obtain ⟨g, rfl⟩ : ∃ g, fuel = g + 1 := ⟨fuel - 1, by omega⟩
    rw [h1, show ([c] ++ suffix : List Char) = c :: suffix from rfl,
      scanChars_cons_other g c suffix
        (by subst htx; exact varOK_ne_lit c hwx '(' (by left; decide)),
      hsuf g (by rw [h1] at hfuel; simp at hfuel; omega)]
    subst htx
    rfl
  · have hassoc : TCwrap x ++ suffix = '(' :: (TC x ++ (')' :: suffix)) := by
      rw [h1]
      simp
    obtain ⟨g, rfl⟩ : ∃ g, fuel = g + 1 := ⟨fuel - 1, by omega⟩
    obtain ⟨h0, hn⟩ := TC_depth x hwx
    have hwlen : (TCwrap x).length = (TC x).length + 2 := by rw [h1]; simp
    rw [hassoc, scanChars_cons_group g _ _ (fmp_group (TC x) suffix h0 hn)]
    have hinner :
        ((('(' :: (TC x ++ (')' :: suffix))).take ((TC x).length + 1)).drop 1) = TC x := by
      rw [List.take_succ_cons, List.drop_succ_cons, List.drop_zero,
        List.take_append_eq_append_take, List.take_of_length_le (le_refl _),
        show (TC x).length - (TC x).length = 0 from by omega,
        List.take_zero, List.append_nil]
    have hbb := TCbody_length_bounds x
    rw [hinner, htr g (TC x) (stripped_TC x hwx) (by omega)]
    have hrest : ('(' :: (TC x ++ (')' :: suffix))).drop ((TC x).length + 1 + 1)
        = suffix := by
      rw [List.drop_succ_cons, List.drop_append_eq_append_drop,
        List.drop_of_length_le (by omega), List.nil_append,
        show (TC x).length + 1 - (TC x).length = 1 from by omega,
        List.drop_succ_cons, List.drop_zero]
    rw [hrest, hsuf g (by omega)]
    rw [TDwrap_compound_eq x h1]
    show Except.ok (['('] ++ TD x ++ [')'] ++ rs) = _
    congr 1

theorem scanSegTC (a : PropForm) (hwa : a.wf = true)
    (htr : ∀ x : PropForm, sizeOf x ≤ sizeOf a → x.wf = true →
      ∀ (fuel : Nat) (e : List Char), stripped e = TCbody x →
        2 * (TCbody x).length + 2 ≤ fuel → transform_logic fuel e = .ok (TD x))
    (suffix rs : List Char)
    (hsuf : ∀ g, 2 * suffix.length + 1 ≤ g → scanChars g suffix = .ok rs) :
    ∀ fuel, 2 * ((TC a).length + suffix.length) + 1 ≤ fuel →
      scanChars fuel (TC a ++ suffix) = .ok (TDseg a ++ rs) := by
  intro fuel hfuel
  cases a with
  | var c =>
    obtain ⟨g, rfl⟩ : ∃ g, fuel = g + 1 := ⟨fuel - 1, by omega⟩
    have hf2 : 2 * suffix.length + 1 ≤ g := by
      rw [show TC (PropForm.var c) = [c] from rfl] at hfuel
      simp at hfuel
      omega
    rw [show (TC (PropForm.var c) ++ suffix : List Char) = c :: suffix from rfl,
      scanChars_cons_other g c suffix (varOK_ne_lit c hwa '(' (by left; decide)),
      hsuf g hf2]
    rfl
  | pnot x =>
    have hwx : x.wf = true := hwa
    obtain ⟨g, rfl⟩ : ∃ g, fuel = g + 1 := ⟨fuel - 1, by omega⟩
    have hlen : (TC (PropForm.pnot x)).length = (TCwrap x).length + 1 := by
      rw [TC_pnot_eq]; simp
    rw [TC_pnot_eq, show ('~' :: TCwrap x) ++ suffix = '~' :: (TCwrap x ++ suffix) from
      by simp, scanChars_cons_other g '~' _ (by decide)]
    have hw := scanWrapTC x hwx
      (fun fuel e h1 h2 => htr x (by simp) hwx fuel e h1 h2)
      suffix rs hsuf g (by rw [hlen] at hfuel; omega)
    rw [hw, TDseg_pnot_eq]
    rfl
  | pand x y =>
    rw [show (PropForm.pand x y).wf = (x.wf && y.wf) from rfl, Bool.and_eq_true] at hwa
    have hlen : (TC (PropForm.pand x y)).length
        = (TCwrap x).length + (TCwrap y).length + 1 := by
      rw [TC_pand_eq]; simp; omega
    have hsuf2 : ∀ g, 2 * ('^' :: (TCwrap y ++ suffix)).length + 1 ≤ g →
        scanChars g ('^' :: (TCwrap y ++ suffix)) = .ok ('^' :: (TDwrap y ++ rs)) := by
      intro g hg
      simp only [List.length_cons, List.length_append] at hg
      obtain ⟨m, rfl⟩ : ∃ m, g = m + 1 := ⟨g - 1, by omega⟩
      rw [scanChars_cons_other m '^' _ (by decide)]
      have hw := scanWrapTC y hwa.2
        (fun fuel e h1 h2 => htr y (by simp) hwa.2 fuel e h1 h2)
        suffix rs hsuf m (by omega)
      rw [hw]
      rfl
    have hw := scanWrapTC x hwa.1
      (fun fuel e h1 h2 => htr x (by simp; omega) hwa.1 fuel e h1 h2)
      ('^' :: (TCwrap y ++ suffix)) ('^' :: (TDwrap y ++ rs)) hsuf2 fuel
      (by simp only [List.length_cons, List.length_append]; rw [hlen] at hfuel; omega)
    rw [TC_pand_eq, show (TCwrap x ++ '^' :: TCwrap y) ++ suffix
      = TCwrap x ++ ('^' :: (TCwrap y ++ suffix)) from by simp, hw, TDseg_pand_eq]
    congr 1
    simp
  | por x y =>
    rw [show (PropForm.por x y).wf = (x.wf && y.wf) from rfl, Bool.and_eq_true] at hwa
    have hlen : (TC (PropForm.por x y)).length
        = (TCwrap x).length + (TCwrap y).length + 3 := by
      rw [TC_por_eq]; simp; omega
    have hsuf2 : ∀ g, 2 * (' ' :: 'v' :: ' ' :: (TCwrap y ++ suffix)).length + 1 ≤ g →
        scanChars g (' ' :: 'v' :: ' ' :: (TCwrap y ++ suffix))
          = .ok (' ' :: 'v' :: ' ' :: (TDwrap y ++ rs)) := by
      intro g hg
      simp only [List.length_cons, List.length_append] at hg
      obtain ⟨m1, rfl⟩ : ∃ m, g = m + 1 := ⟨g - 1, by omega⟩
      rw [scanChars_cons_other m1 ' ' _ (by decide)]
      obtain ⟨m2, rfl⟩ : ∃ m, m1 = m + 1 := ⟨m1 - 1, by omega⟩
      rw [scanChars_cons_other m2 'v' _ (by decide)]
      obtain ⟨m3, rfl⟩ : ∃ m, m2 = m + 1 := ⟨m2 - 1, by omega⟩
      rw [scanChars_cons_other m3 ' ' _ (by decide)]
      have hw := scanWrapTC y hwa.2
        (fun fuel e h1 h2 => htr y (by simp) hwa.2 fuel e h1 h2)
        suffix rs hsuf m3 (by omega)
      rw [hw]
      rfl
    have hw := scanWrapTC x hwa.1
      (fun fuel e h1 h2 => htr x (by simp; omega) hwa.1 fuel e h1 h2)
      (' ' :: 'v' :: ' ' :: (TCwrap y ++ suffix)) (' ' :: 'v' :: ' ' :: (TDwrap y ++ rs))
      hsuf2 fuel
      (by simp only [List.length_cons, List.length_append]; rw [hlen] at hfuel; omega)
    rw [TC_por_eq, show (TCwrap x ++ ' ' :: 'v' :: ' ' :: TCwrap y) ++ suffix
      = TCwrap x ++ (' ' :: 'v' :: ' ' :: (TCwrap y ++ suffix)) from by simp, hw,
      TDseg_por_eq]
    congr 1
    simp
  | pimp x y =>
    obtain ⟨g, rfl⟩ : ∃ g, fuel = g + 1 := ⟨fuel - 1, by omega⟩
    have hassoc : TC (PropForm.pimp x y) ++ suffix
        = '(' :: (TCbody (PropForm.pimp x y) ++ (')' :: suffix)) := by
      rw [TC_shape_imp]; simp
    obtain ⟨h0, hn⟩ := TCbody_depth (PropForm.pimp x y) hwa
    have hlen : (TC (PropForm.pimp x y)).length
        = (TCbody (PropForm.pimp x y)).length + 2 := by
      rw [TC_shape_imp]; simp
    rw [hassoc, scanChars_cons_group g _ _
      (fmp_group (TCbody (PropForm.pimp x y)) suffix h0 hn)]
    have hinner :
        ((('(' :: (TCbody (PropForm.pimp x y) ++ (')' :: suffix))).take
          ((TCbody (PropForm.pimp x y)).length + 1)).drop 1) = TCbody (PropForm.pimp x y) := by
      rw [List.take_succ_cons, List.drop_succ_cons, List.drop_zero,
        List.take_append_eq_append_take, List.take_of_length_le (le_refl _),
        show (TCbody (PropForm.pimp x y)).length - (TCbody (PropForm.pimp x y)).length = 0
          from by omega,
        List.take_zero, List.append_nil]
    rw [hinner, htr (PropForm.pimp x y) (le_refl _) hwa g (TCbody (PropForm.pimp x y))
      (stripped_TCbody _ hwa) (by omega)]
    have hrest : ('(' :: (TCbody (PropForm.pimp x y) ++ (')' :: suffix))).drop
        ((TCbody (PropForm.pimp x y)).length + 1 + 1) = suffix := by
      rw [List.drop_succ_cons, List.drop_append_eq_append_drop,
        List.drop_of_length_le (by omega), List.nil_append,
        show (TCbody (PropForm.pimp x y)).length + 1 - (TCbody (PropForm.pimp x y)).length = 1
          from by omega,
        List.drop_succ_cons, List.drop_zero]
    rw [hrest, hsuf g (by omega), TDseg_imp_shape]
    show Except.ok (['('] ++ TD (PropForm.pimp x y) ++ [')'] ++ rs) = _
    congr 1
  | piff x y =>
    obtain ⟨g, rfl⟩ : ∃ g, fuel = g + 1 := ⟨fuel - 1, by omega⟩
    have hassoc : TC (PropForm.piff x y) ++ suffix
        = '(' :: (TCbody (PropForm.piff x y) ++ (')' :: suffix)) := by
      rw [TC_shape_iff]; simp
    obtain ⟨h0, hn⟩ := TCbody_depth (PropForm.piff x y) hwa
    have hlen : (TC (PropForm.piff x y)).length
        = (TCbody (PropForm.piff x y)).length + 2 := by
      rw [TC_shape_iff]; simp
    rw [hassoc, scanChars_cons_group g _ _
      (fmp_group (TCbody (PropForm.piff x y)) suffix h0 hn)]
    have hinner :
        ((('(' :: (TCbody (PropForm.piff x y) ++ (')' :: suffix))).take
          ((TCbody (PropForm.piff x y)).length + 1)).drop 1) = TCbody (PropForm.piff x y) := by
      rw [List.take_succ_cons, List.drop_succ_cons, List.drop_zero,
        List.take_append_eq_append_take, List.take_of_length_le (le_refl _),
        show (TCbody (PropForm.piff x y)).length - (TCbody (PropForm.piff x y)).length = 0
          from by omega,
        List.take_zero, List.append_nil]
    rw [hinner, htr (PropForm.piff x y) (le_refl _) hwa g (TCbody (PropForm.piff x y))
      (stripped_TCbody _ hwa) (by omega)]
    have hrest : ('(' :: (TCbody (PropForm.piff x y) ++ (')' :: suffix))).drop
        ((TCbody (PropForm.piff x y)).length + 1 + 1) = suffix := by
      rw [List.drop_succ_cons, List.drop_append_eq_append_drop,
        List.drop_of_length_le (by omega), List.nil_append,
        show (TCbody (PropForm.piff x y)).length + 1 - (TCbody (PropForm.piff x y)).length = 1
          from by omega,
        List.drop_succ_cons, List.drop_zero]
    rw [hrest, hsuf g (by omega), TDseg_iff_shape]
    show Except.ok (['('] ++ TD (PropForm.piff x y) ++ [')'] ++ rs) = _
    congr 1

end LogicCheck

namespace LogicCheck

theorem transform_TC : ∀ (n : Nat) (t : PropForm), sizeOf t < n → t.wf = true →
    ∀ (fuel : Nat) (e : List Char), stripped e = TCbody t →
      2 * (TCbody t).length + 2 ≤ fuel → transform_logic fuel e = .ok (TD t) := by
  intro n
  induction n with
  | zero => intro t ht; omega
  | succ n ihn =>
    intro t ht hwf fuel e hstrip hfuel
    obtain ⟨g, rfl⟩ : ∃ g, fuel = g + 1 := ⟨fuel - 1, by omega⟩
    rw [transform_logic_succ_scan g e
      (by
        rw [hstrip]
        exact fo_of_not_mem _ '<' ['-', '>'] ⟨by decide, by decide⟩
          (TCbody_no_arrow t hwf).1)
      (by
        rw [hstrip]
        exact fo_of_not_mem _ '-' ['>'] ⟨by decide, by decide⟩
          (TCbody_no_arrow t hwf).2),
      hstrip]
    cases t with
    | var c =>
      rw [show TCbody (PropForm.var c) = [c] from rfl] at hfuel ⊢
      exact scanChars_id g [c] (by simp at hfuel ⊢; omega)
        (by simpa using (varOK_ne_lit c hwf '(' (by left; decide)).symm)
    | pnot a =>
      have hwa : a.wf = true := hwf
      have hbody : TCbody (PropForm.pnot a) = '~' :: TCwrap a := by
        rw [show TCbody (PropForm.pnot a) = TC (PropForm.pnot a) from rfl, TC_pnot_eq]
      obtain ⟨h2, rfl⟩ : ∃ h2, g = h2 + 1 := ⟨g - 1, by omega⟩
      rw [hbody, scanChars_cons_other h2 '~' _ (by decide)]
      have hsz : sizeOf a < n := by
        have : sizeOf a < sizeOf (PropForm.pnot a) := by simp
        omega
      have hw := scanWrapTC a hwa
        (fun fuel e h1 h3 => ihn a hsz hwa fuel e h1 h3) [] []
        (fun g' hg' => by
          obtain ⟨m, rfl⟩ : ∃ m, g' = m + 1 := ⟨g' - 1, by omega⟩
          rfl)
        h2 (by
          rw [hbody] at hfuel
          have := TCwrap_length_bounds a
          simp at hfuel
          simp
          omega)
      rw [show TCwrap a ++ ([] : List Char) = TCwrap a from by simp] at hw
      rw [hw]
      show Except.ok ('~' :: (TDwrap a ++ [])) = Except.ok (TD (PropForm.pnot a))
      rw [TD_eq_TDseg_pnot, TDseg_pnot_eq]
      simp
    | pand a b =>
      rw [show (PropForm.pand a b).wf = (a.wf && b.wf) from rfl, Bool.and_eq_true] at hwf
      have hbody : TCbody (PropForm.pand a b) = TCwrap a ++ '^' :: TCwrap b := by
        rw [show TCbody (PropForm.pand a b) = TC (PropForm.pand a b) from rfl, TC_pand_eq]
      have hsza : sizeOf a < n := by
        have : sizeOf a < sizeOf (PropForm.pand a b) := by simp only [PropForm.pand.sizeOf_spec]; omega
        omega
      have hszb : sizeOf b < n := by
        have : sizeOf b < sizeOf (PropForm.pand a b) := by simp only [PropForm.pand.sizeOf_spec]; omega
        omega
      have hsufb : ∀ g', 2 * ('^' :: (TCwrap b ++ [])).length + 1 ≤ g' →
          scanChars g' ('^' :: (TCwrap b ++ [])) = .ok ('^' :: (TDwrap b ++ [])) := by
        intro g' hg'
        simp only [List.length_cons, List.length_append, List.length_nil] at hg'
        obtain ⟨m, rfl⟩ : ∃ m, g' = m + 1 := ⟨g' - 1, by omega⟩
        rw [scanChars_cons_other m '^' _ (by decide)]
        have hw := scanWrapTC b hwf.2
          (fun fuel e h1 h3 => ihn b hszb hwf.2 fuel e h1 h3) [] []
          (fun g2 hg2 => by
            obtain ⟨m2, rfl⟩ : ∃ m2, g2 = m2 + 1 := ⟨g2 - 1, by omega⟩
            rfl)
          m (by simp at hg' ⊢; omega)
        rw [hw]
        rfl
      have hw := scanWrapTC a hwf.1
        (fun fuel e h1 h3 => ihn a hsza hwf.1 fuel e h1 h3)
        ('^' :: (TCwrap b ++ [])) ('^' :: (TDwrap b ++ [])) hsufb g
        (by
          rw [hbody] at hfuel
          simp only [List.length_cons, List.length_append, List.length_nil] at hfuel ⊢
          omega)
      rw [hbody, show TCwrap a ++ '^' :: TCwrap b
        = TCwrap a ++ ('^' :: (TCwrap b ++ [])) from by simp, hw]
      rw [show TD (PropForm.pand a b) = TDseg (PropForm.pand a b) from rfl, TDseg_pand_eq]
      show Except.ok (TDwrap a ++ ('^' :: (TDwrap b ++ [])))
        = Except.ok (TDwrap a ++ '^' :: TDwrap b)
      simp
    | por a b =>
      rw [show (PropForm.por a b).wf = (a.wf && b.wf) from rfl, Bool.and_eq_true] at hwf
      have hbody : TCbody (PropForm.por a b)
          = TCwrap a ++ ' ' :: 'v' :: ' ' :: TCwrap b := by
        rw [show TCbody (PropForm.por a b) = TC (PropForm.por a b) from rfl, TC_por_eq]
      have hsza : sizeOf a < n := by
        have : sizeOf a < sizeOf (PropForm.por a b) := by simp only [PropForm.por.sizeOf_spec]; omega
        omega
      have hszb : sizeOf b < n := by
        have : sizeOf b < sizeOf (PropForm.por a b) := by simp only [PropForm.por.sizeOf_spec]; omega
        omega
      have hsufb : ∀ g', 2 * (' ' :: 'v' :: ' ' :: (TCwrap b ++ [])).length + 1 ≤ g' →
          scanChars g' (' ' :: 'v' :: ' ' :: (TCwrap b ++ []))
            = .ok (' ' :: 'v' :: ' ' :: (TDwrap b ++ [])) := by
        intro g' hg'
        simp only [List.length_cons, List.length_append, List.length_nil] at hg'
        obtain ⟨m1, rfl⟩ : ∃ m, g' = m + 1 := ⟨g' - 1, by omega⟩
        rw [scanChars_cons_other m1 ' ' _ (by decide)]
        obtain ⟨m2, rfl⟩ : ∃ m, m1 = m + 1 := ⟨m1 - 1, by omega⟩
        rw [scanChars_cons_other m2 'v' _ (by decide)]
        obtain ⟨m3, rfl⟩ : ∃ m, m2 = m + 1 := ⟨m2 - 1, by omega⟩
        rw [scanChars_cons_other m3 ' ' _ (by decide)]
        have hw := scanWrapTC b hwf.2
          (fun fuel e h1 h3 => ihn b hszb hwf.2 fuel e h1 h3) [] []
          (fun g2 hg2 => by
            obtain ⟨m4, rfl⟩ : ∃ m4, g2 = m4 + 1 := ⟨g2 - 1, by omega⟩
            rfl)
          m3 (by simp at hg' ⊢; omega)
        rw [hw]
        rfl
      have hw := scanWrapTC a hwf.1
        (fun fuel e h1 h3 => ihn a hsza hwf.1 fuel e h1 h3)
        (' ' :: 'v' :: ' ' :: (TCwrap b ++ [])) (' ' :: 'v' :: ' ' :: (TDwrap b ++ []))
        hsufb g
        (by
          rw [hbody] at hfuel
          simp only [List.length_cons, List.length_append, List.length_nil] at hfuel ⊢
          omega)
      rw [hbody, show TCwrap a ++ ' ' :: 'v' :: ' ' :: TCwrap b
        = TCwrap a ++ (' ' :: 'v' :: ' ' :: (TCwrap b ++ [])) from by simp, hw]
      rw [show TD (PropForm.por a b) = TDseg (PropForm.por a b) from rfl, TDseg_por_eq]
      show Except.ok (TDwrap a ++ (' ' :: 'v' :: ' ' :: (TDwrap b ++ [])))
        = Except.ok (TDwrap a ++ ' ' :: 'v' :: ' ' :: TDwrap b)
      simp
    | pimp a b =>
      rw [show (PropForm.pimp a b).wf = (a.wf && b.wf) from rfl, Bool.and_eq_true] at hwf
      have hbody : TCbody (PropForm.pimp a b)
          = ('n' :: 'o' :: 't' :: ' ' :: TC a) ++ (' ' :: 'o' :: 'r' :: ' ' :: TC b) := rfl
      have hsza : sizeOf a < n := by
        have : sizeOf a < sizeOf (PropForm.pimp a b) := by simp only [PropForm.pimp.sizeOf_spec]; omega
        omega
      have hszb : sizeOf b < n := by
        have : sizeOf b < sizeOf (PropForm.pimp a b) := by simp only [PropForm.pimp.sizeOf_spec]; omega
        omega
      have htra : ∀ x : PropForm, sizeOf x ≤ sizeOf a → x.wf = true →
          ∀ (fuel : Nat) (e : List Char), stripped e = TCbody x →
            2 * (TCbody x).length + 2 ≤ fuel → transform_logic fuel e = .ok (TD x) :=
        fun x hx hwx => ihn x (by omega) hwx
      have htrb : ∀ x : PropForm, sizeOf x ≤ sizeOf b → x.wf = true →
          ∀ (fuel : Nat) (e : List Char), stripped e = TCbody x →
            2 * (TCbody x).length + 2 ≤ fuel → transform_logic fuel e = .ok (TD x) :=
        fun x hx hwx => ihn x (by omega) hwx
      have hsufb : ∀ g', 2 * (' ' :: 'o' :: 'r' :: ' ' :: (TC b ++ [])).length + 1 ≤ g' →
          scanChars g' (' ' :: 'o' :: 'r' :: ' ' :: (TC b ++ []))
            = .ok (' ' :: 'o' :: 'r' :: ' ' :: (TDseg b ++ [])) := by
        intro g' hg'
        simp only [List.length_cons, List.length_append, List.length_nil] at hg'
        obtain ⟨m1, rfl⟩ : ∃ m, g' = m + 1 := ⟨g' - 1, by omega⟩
        rw [scanChars_cons_other m1 ' ' _ (by decide)]
        obtain ⟨m2, rfl⟩ : ∃ m, m1 = m + 1 := ⟨m1 - 1, by omega⟩
        rw [scanChars_cons_other m2 'o' _ (by decide)]
        obtain ⟨m3, rfl⟩ : ∃ m, m2 = m + 1 := ⟨m2 - 1, by omega⟩
        rw [scanChars_cons_other m3 'r' _ (by decide)]
        obtain ⟨m4, rfl⟩ : ∃ m, m3 = m + 1 := ⟨m3 - 1, by omega⟩
        rw [scanChars_cons_other m4 ' ' _ (by decide)]
        have hsegb := scanSegTC b hwf.2 htrb [] []
          (fun g2 hg2 => by
            obtain ⟨m5, rfl⟩ : ∃ m5, g2 = m5 + 1 := ⟨g2 - 1, by omega⟩
            rfl)
          m4 (by simp at hg' ⊢; omega)
        rw [hsegb]
        rfl
      have hsega := scanSegTC a hwf.1 htra
        (' ' :: 'o' :: 'r' :: ' ' :: (TC b ++ [])) (' ' :: 'o' :: 'r' :: ' ' :: (TDseg b ++ []))
        hsufb
      obtain ⟨m1, rfl⟩ : ∃ m, g = m + 1 := ⟨g - 1, by
        rw [hbody] at hfuel
        simp only [List.length_append, List.length_cons, List.length_nil] at hfuel
        omega⟩
      rw [hbody, show ('n' :: 'o' :: 't' :: ' ' :: TC a) ++ (' ' :: 'o' :: 'r' :: ' ' :: TC b)
        = 'n' :: 'o' :: 't' :: ' ' :: (TC a ++ (' ' :: 'o' :: 'r' :: ' ' :: (TC b ++ [])))
        from by simp]
      rw [scanChars_cons_other m1 'n' _ (by decide)]
      obtain ⟨m2, rfl⟩ : ∃ m, m1 = m + 1 := ⟨m1 - 1, by
        rw [hbody] at hfuel
        simp only [List.length_append, List.length_cons, List.length_nil] at hfuel
        omega⟩
      rw [scanChars_cons_other m2 'o' _ (by decide)]
      obtain ⟨m3, rfl⟩ : ∃ m, m2 = m + 1 := ⟨m2 - 1, by
        rw [hbody] at hfuel
        simp only [List.length_append, List.length_cons, List.length_nil] at hfuel
        omega⟩
      rw [scanChars_cons_other m3 't' _ (by decide)]
      obtain ⟨m4, rfl⟩ : ∃ m, m3 = m + 1 := ⟨m3 - 1, by
        rw [hbody] at hfuel
        simp only [List.length_append, List.length_cons, List.length_nil] at hfuel
        omega⟩
      rw [scanChars_cons_other m4 ' ' _ (by decide)]
      rw [hsega m4 (by
        rw [hbody] at hfuel
        simp only [List.length_append, List.length_cons, List.length_nil] at hfuel ⊢
        omega)]
      rw [TD_imp_eq]
      show Except.ok ('n' :: 'o' :: 't' :: ' '
          :: (TDseg a ++ (' ' :: 'o' :: 'r' :: ' ' :: (TDseg b ++ []))))
        = _
      simp
    | piff a b =>
      rw [show (PropForm.piff a b).wf = (a.wf && b.wf) from rfl, Bool.and_eq_true] at hwf
      have hbody : TCbody (PropForm.piff a b)
          = TC a ++ (' ' :: '=' :: '=' :: ' ' :: TC b) := rfl
      have hsza : sizeOf a < n := by
        have : sizeOf a < sizeOf (PropForm.piff a b) := by simp only [PropForm.piff.sizeOf_spec]; omega
        omega
      have hszb : sizeOf b < n := by
        have : sizeOf b < sizeOf (PropForm.piff a b) := by simp only [PropForm.piff.sizeOf_spec]; omega
        omega
      have htra : ∀ x : PropForm, sizeOf x ≤ sizeOf a → x.wf = true →
          ∀ (fuel : Nat) (e : List Char), stripped e = TCbody x →
            2 * (TCbody x).length + 2 ≤ fuel → transform_logic fuel e = .ok (TD x) :=
        fun x hx hwx => ihn x (by omega) hwx
      have htrb : ∀ x : PropForm, sizeOf x ≤ sizeOf b → x.wf = true →
          ∀ (fuel : Nat) (e : List Char), stripped e = TCbody x →
            2 * (TCbody x).length + 2 ≤ fuel → transform_logic fuel e = .ok (TD x) :=
        fun x hx hwx => ihn x (by omega) hwx
      have hsufb : ∀ g', 2 * (' ' :: '=' :: '=' :: ' ' :: (TC b ++ [])).length + 1 ≤ g' →
          scanChars g' (' ' :: '=' :: '=' :: ' ' :: (TC b ++ []))
            = .ok (' ' :: '=' :: '=' :: ' ' :: (TDseg b ++ [])) := by
        intro g' hg'
        simp only [List.length_cons, List.length_append, List.length_nil] at hg'
        obtain ⟨m1, rfl⟩ : ∃ m, g' = m + 1 := ⟨g' - 1, by omega⟩
        rw [scanChars_cons_other m1 ' ' _ (by decide)]
        obtain ⟨m2, rfl⟩ : ∃ m, m1 = m + 1 := ⟨m1 - 1, by omega⟩
        rw [scanChars_cons_other m2 '=' _ (by decide)]
        obtain ⟨m3, rfl⟩ : ∃ m, m2 = m + 1 := ⟨m2 - 1, by omega⟩
        rw [scanChars_cons_other m3 '=' _ (by decide)]
        obtain ⟨m4, rfl⟩ : ∃ m, m3 = m + 1 := ⟨m3 - 1, by omega⟩
        rw [scanChars_cons_other m4 ' ' _ (by decide)]
        have hsegb := scanSegTC b hwf.2 htrb [] []
          (fun g2 hg2 => by
            obtain ⟨m5, rfl⟩ : ∃ m5, g2 = m5 + 1 := ⟨g2 - 1, by omega⟩
            rfl)
          m4 (by simp at hg' ⊢; omega)
        rw [hsegb]
        rfl
      have hsega := scanSegTC a hwf.1 htra
        (' ' :: '=' :: '=' :: ' ' :: (TC b ++ [])) (' ' :: '=' :: '=' :: ' ' :: (TDseg b ++ []))
        hsufb g
        (by
          rw [hbody] at hfuel
          simp only [List.length_append, List.length_cons, List.length_nil] at hfuel ⊢
          omega)
      rw [hbody, show TC a ++ (' ' :: '=' :: '=' :: ' ' :: TC b)
        = TC a ++ (' ' :: '=' :: '=' :: ' ' :: (TC b ++ [])) from by simp, hsega]
      rw [TD_iff_eq]
      show Except.ok (TDseg a ++ (' ' :: '=' :: '=' :: ' ' :: (TDseg b ++ [])))
        = _
      simp

theorem transformTop_TC (t : PropForm) (hwf : t.wf = true) :
    transformTop (TC t) = .ok (TD t) := by
  unfold transformTop
  exact transform_TC (sizeOf t + 1) t (by omega) hwf _ (TC t) (stripped_TC t hwf)
    (by have := TCbody_length_bounds t; omega)

end LogicCheck

namespace LogicCheck

/-! ### C9, stage 9: variable extraction on the two renderings -/

theorem vm_cons_eval (prev : Option Char) (x : Char) (rest : List Char) :
    varMatches prev (x :: rest) =
      (if ('p' ≤ x && x ≤ 'z') && !wordAt prev && !wordAt rest.head? then [x] else [])
        ++ varMatches (some x) rest := rfl

theorem vm_cons_notpz (prev : Option Char) (x : Char) (rest : List Char)
    (hx : ('p' ≤ x && x ≤ 'z') = false) :
    varMatches prev (x :: rest) = varMatches (some x) rest := by
  rw [vm_cons_eval, hx]
  rfl

theorem getLast_cons_ne_none (y : Char) (u : List Char) :
    (y :: u).getLast? ≠ none := by
  induction u generalizing y with
  | nil => simp
  | cons z u' ih =>
    rw [getLast_cons_of_ne_nil y (z :: u') (by simp)]
    exact ih z

theorem vm_append : ∀ (u w : List Char) (prev : Option Char),
    (wordAt w.head? = false ∨
      ∀ c, u.getLast? = some c → ('p' ≤ c && c ≤ 'z') = false) →
    varMatches prev (u ++ w) = varMatches prev u ++ varMatches (u.getLast?.or prev) w := by
  intro u
  induction u with
  | nil =>
    intro w prev _
    simp [varMatches, Option.or]
  | cons x u' ih =>
    intro w prev hc
    cases u' with
    | nil =>
      simp only [List.cons_append, List.nil_append]
      rw [vm_cons_eval, vm_cons_eval]
      rcases hc with hc | hc
      · rw [show (w.head?) = w.head? from rfl]
        have h1 : wordAt ([] : List Char).head? = false := rfl
        rw [hc, h1]
        show _ ++ varMatches (some x) w
          = ((if ('p' ≤ x && x ≤ 'z') && !wordAt prev && !false then [x] else [])
            ++ varMatches (some x) []) ++ varMatches (([x] : List Char).getLast?.or prev) w
        simp [varMatches, Option.or]
      · have hx := hc x rfl
        rw [hx]
        show ((if false && !wordAt prev && !wordAt w.head? then [x] else [])
            ++ varMatches (some x) w)
          = ((if false && !wordAt prev && !wordAt ([] : List Char).head? then [x] else [])
            ++ varMatches (some x) []) ++ varMatches (([x] : List Char).getLast?.or prev) w
        simp [varMatches, Option.or]
    | cons y u'' =>
      have hlast : (x :: y :: u'').getLast? = (y :: u'').getLast? :=
        getLast_cons_of_ne_nil x (y :: u'') (by simp)
      have hih := ih w (some x) (by
        rcases hc with hc | hc
        · exact Or.inl hc
        · right
          intro c hcl
          exact hc c (by rw [hlast]; exact hcl))
      show varMatches prev (x :: ((y :: u'') ++ w)) = _
      rw [vm_cons_eval, vm_cons_eval prev x (y :: u'')]
      have hhead : ((y :: u'') ++ w).head? = (y :: u'').head? := rfl
      rw [hhead, hih]
      have hor : (x :: y :: u'').getLast?.or prev = (y :: u'').getLast?.or (some x) := by
        rw [hlast]
        cases hgl : (y :: u'').getLast? with
        | none => exact absurd hgl (getLast_cons_ne_none y u'')
        | some c => rfl
      rw [hor]
      simp

theorem vm_prev (l : List Char) : ∀ (p1 p2 : Option Char), wordAt p1 = wordAt p2 →
    varMatches p1 l = varMatches p2 l := by
  cases l with
  | nil => intro p1 p2 _; rfl
  | cons x rest =>
    intro p1 p2 h
    rw [vm_cons_eval, vm_cons_eval, h]

end LogicCheck

namespace LogicCheck

theorem wordAt_cons (x : Char) (rest : List Char) :
    wordAt ((x :: rest).head?) = isWordChar x := rfl

theorem vm_cons_wordprev (p : Char) (hp : isWordChar p = true) (x : Char)
    (rest : List Char) :
    varMatches (some p) (x :: rest) = varMatches (some x) rest := by
  rw [vm_cons_eval]
  rw [show wordAt (some p) = isWordChar p from rfl, hp]
  simp

theorem vm_nil_seg (p : Option Char) : varMatches p ([')'] : List Char) = [] := by
  rw [vm_cons_notpz _ _ _ (by decide)]
  rfl

theorem vm_print (t : PropForm) (hwf : t.wf = true) :
    ∀ prev : Option Char, wordAt prev = false →
      varMatches prev (print t) = occSeq t := by
  induction t with
  | var c =>
    intro prev hprev
    have hpz : ('p' ≤ c && c ≤ 'z') = true := (Bool.and_eq_true _ _ |>.mp hwf).1
    rw [show print (PropForm.var c) = [c] from rfl, vm_cons_eval, hpz, hprev]
    rfl
  | pnot a iha =>
    intro prev hprev
    rw [show print (PropForm.pnot a) = '(' :: '~' :: (print a ++ [')']) from by
      simp [print]]
    rw [vm_cons_notpz _ _ _ (by decide), vm_cons_notpz _ _ _ (by decide),
      vm_append (print a) [')'] (some '~') (Or.inl (by decide)),
      iha hwf (some '~') (by decide), vm_nil_seg]
    simp [occSeq]
  | pand a b iha ihb =>
    rw [show (PropForm.pand a b).wf = (a.wf && b.wf) from rfl, Bool.and_eq_true] at hwf
    intro prev hprev
    rw [show print (PropForm.pand a b)
      = '(' :: ((print a ++ ('^' :: print b)) ++ [')']) from by simp [print]]
    rw [vm_cons_notpz _ _ _ (by decide),
      vm_append _ [')'] (some '(') (Or.inl (by decide)),
      vm_append (print a) ('^' :: print b) (some '(') (Or.inl (by rw [wordAt_cons]; decide)),
      iha hwf.1 (some '(') (by decide), vm_nil_seg,
      vm_cons_notpz _ _ _ (by decide),
      ihb hwf.2 (some '^') (by decide)]
    simp [occSeq]
  | por a b iha ihb =>
    rw [show (PropForm.por a b).wf = (a.wf && b.wf) from rfl, Bool.and_eq_true] at hwf
    intro prev hprev
    rw [show print (PropForm.por a b)
      = '(' :: ((print a ++ (' ' :: 'v' :: ' ' :: print b)) ++ [')']) from by simp [print]]
    rw [vm_cons_notpz _ _ _ (by decide),
      vm_append _ [')'] (some '(') (Or.inl (by decide)),
      vm_append (print a) (' ' :: 'v' :: ' ' :: print b) (some '(') (Or.inl (by rw [wordAt_cons]; decide)),
      iha hwf.1 (some '(') (by decide), vm_nil_seg,
      vm_cons_notpz _ _ _ (by decide), vm_cons_eval,
      vm_cons_notpz _ _ _ (by decide),
      ihb hwf.2 (some ' ') (by decide)]
    rw [wordAt_cons ' ' (print b)]
    rw [show ((('p' ≤ 'v' && 'v' ≤ 'z') && !wordAt (some ' ')
      && !isWordChar ' ') = true) from by decide]
    simp [occSeq]
  | pimp a b iha ihb =>
    rw [show (PropForm.pimp a b).wf = (a.wf && b.wf) from rfl, Bool.and_eq_true] at hwf
    intro prev hprev
    rw [show print (PropForm.pimp a b)
      = '(' :: ((print a ++ ('-' :: '>' :: print b)) ++ [')']) from by simp [print]]
    rw [vm_cons_notpz _ _ _ (by decide),
      vm_append _ [')'] (some '(') (Or.inl (by decide)),
      vm_append (print a) ('-' :: '>' :: print b) (some '(') (Or.inl (by rw [wordAt_cons]; decide)),
      iha hwf.1 (some '(') (by decide), vm_nil_seg,
      vm_cons_notpz _ _ _ (by decide), vm_cons_notpz _ _ _ (by decide),
      ihb hwf.2 (some '>') (by decide)]
    simp [occSeq]
  | piff a b iha ihb =>
    rw [show (PropForm.piff a b).wf = (a.wf && b.wf) from rfl, Bool.and_eq_true] at hwf
    intro prev hprev
    rw [show print (PropForm.piff a b)
      = '(' :: ((print a ++ ('<' :: '-' :: '>' :: print b)) ++ [')']) from by simp [print]]
    rw [vm_cons_notpz _ _ _ (by decide),
      vm_append _ [')'] (some '(') (Or.inl (by decide)),
      vm_append (print a) ('<' :: '-' :: '>' :: print b) (some '(') (Or.inl (by rw [wordAt_cons]; decide)),
      iha hwf.1 (some '(') (by decide), vm_nil_seg,
      vm_cons_notpz _ _ _ (by decide), vm_cons_notpz _ _ _ (by decide),
      vm_cons_notpz _ _ _ (by decide),
      ihb hwf.2 (some '>') (by decide)]
    simp [occSeq]

theorem vm_TCwrap (a : PropForm) (hwa : a.wf = true)
    (hIH : ∀ prev : Option Char, wordAt prev = false →
      varMatches prev (TC a) = occSeq a) :
    ∀ prev : Option Char, wordAt prev = false →
      varMatches prev (TCwrap a) = occSeq a := by
  intro prev hprev
  rcases TCwrap_shape a with ⟨c, hta, h1⟩ | h1
  · rw [h1, show ([c] : List Char) = TC a from by subst hta; rfl]
    exact hIH prev hprev
  · rw [h1, show ('(' :: TC a) ++ [')'] = '(' :: (TC a ++ [')']) from by simp,
      vm_cons_notpz _ _ _ (by decide),
      vm_append (TC a) [')'] (some '(') (Or.inl (by decide)),
      hIH (some '(') (by decide), vm_nil_seg]
    simp

theorem vm_TC (t : PropForm) (hwf : t.wf = true) :
    ∀ prev : Option Char, wordAt prev = false →
      varMatches prev (TC t) = occSeq t := by
  induction t with
  | var c =>
    intro prev hprev
    have hpz : ('p' ≤ c && c ≤ 'z') = true := (Bool.and_eq_true _ _ |>.mp hwf).1
    rw [show TC (PropForm.var c) = [c] from rfl, vm_cons_eval, hpz, hprev]
    rfl
  | pnot a iha =>
    intro prev hprev
    rw [TC_pnot_eq, vm_cons_notpz _ _ _ (by decide),
      vm_TCwrap a hwf (iha hwf) (some '~') (by decide)]
    rfl
  | pand a b iha ihb =>
    rw [show (PropForm.pand a b).wf = (a.wf && b.wf) from rfl, Bool.and_eq_true] at hwf
    intro prev hprev
    rw [TC_pand_eq,
      vm_append (TCwrap a) ('^' :: TCwrap b) prev (Or.inl (by rw [wordAt_cons]; decide)),
      vm_TCwrap a hwf.1 (iha hwf.1) prev hprev,
      vm_cons_notpz _ _ _ (by decide),
      vm_TCwrap b hwf.2 (ihb hwf.2) (some '^') (by decide)]
    rfl
  | por a b iha ihb =>
    rw [show (PropForm.por a b).wf = (a.wf && b.wf) from rfl, Bool.and_eq_true] at hwf
    intro prev hprev
    rw [TC_por_eq,
      vm_append (TCwrap a) (' ' :: 'v' :: ' ' :: TCwrap b) prev (Or.inl (by rw [wordAt_cons]; decide)),
      vm_TCwrap a hwf.1 (iha hwf.1) prev hprev,
      vm_cons_notpz _ _ _ (by decide), vm_cons_eval,
      vm_cons_notpz _ _ _ (by decide),
      vm_TCwrap b hwf.2 (ihb hwf.2) (some ' ') (by decide)]
    have hhd : (' ' :: TCwrap b).head? = some ' ' := rfl
    rw [hhd]
    rw [show ((('p' ≤ 'v' && 'v' ≤ 'z') && !wordAt (some ' ')
      && !wordAt (some ' ')) = true) from by decide]
    rfl
  | pimp a b iha ihb =>
    rw [show (PropForm.pimp a b).wf = (a.wf && b.wf) from rfl, Bool.and_eq_true] at hwf
    intro prev hprev
    rw [show TC (PropForm.pimp a b)
      = '(' :: 'n' :: 'o' :: 't' :: ' '
        :: (TC a ++ (' ' :: 'o' :: 'r' :: ' ' :: (TC b ++ [')']))) from by
      rw [TC_shape_imp]
      rw [show TCbody (PropForm.pimp a b)
        = ('n' :: 'o' :: 't' :: ' ' :: TC a) ++ (' ' :: 'o' :: 'r' :: ' ' :: TC b)
        from rfl]
      simp]
    rw [vm_cons_notpz _ _ _ (by decide), vm_cons_notpz _ _ _ (by decide),
      vm_cons_notpz _ _ _ (by decide), vm_cons_wordprev 'o' (by decide),
      vm_cons_notpz _ _ _ (by decide),
      vm_append (TC a) _ (some ' ') (Or.inl (by rw [wordAt_cons]; decide)),
      iha hwf.1 (some ' ') (by decide),
      vm_cons_notpz _ _ _ (by decide), vm_cons_notpz _ _ _ (by decide),
      vm_cons_wordprev 'o' (by decide), vm_cons_notpz _ _ _ (by decide),
      vm_append (TC b) [')'] (some ' ') (Or.inl (by decide)),
      ihb hwf.2 (some ' ') (by decide), vm_nil_seg]
    simp [occSeq]
  | piff a b iha ihb =>
    rw [show (PropForm.piff a b).wf = (a.wf && b.wf) from rfl, Bool.and_eq_true] at hwf
    intro prev hprev
    rw [show TC (PropForm.piff a b)
      = '(' :: (TC a ++ (' ' :: '=' :: '=' :: ' ' :: (TC b ++ [')']))) from by
      rw [TC_shape_iff]
      rw [show TCbody (PropForm.piff a b)
        = TC a ++ (' ' :: '=' :: '=' :: ' ' :: TC b) from rfl]
      simp]
    rw [vm_cons_notpz _ _ _ (by decide),
      vm_append (TC a) _ (some '(') (Or.inl (by rw [wordAt_cons]; decide)),
      iha hwf.1 (some '(') (by decide),
      vm_cons_notpz _ _ _ (by decide), vm_cons_notpz _ _ _ (by decide),
      vm_cons_notpz _ _ _ (by decide), vm_cons_notpz _ _ _ (by decide),
      vm_append (TC b) [')'] (some ' ') (Or.inl (by decide)),
      ihb hwf.2 (some ' ') (by decide), vm_nil_seg]
    simp [occSeq]

end LogicCheck

namespace LogicCheck

theorem map_eq_self_of_mem (f : Char → Char) :
    ∀ (l : List Char), (∀ c ∈ l, f c = c) → l.map f = l := by
  intro l
  induction l with
  | nil => intro _; rfl
  | cons x rest ih =>
    intro h
    rw [List.map_cons, h x (List.mem_cons_self _ _),
      ih (fun c hc => h c (List.mem_cons_of_mem _ hc))]

theorem print_chars (t : PropForm) (hwf : t.wf = true) :
    ∀ x ∈ print t, x ∈ (['(', ')', '~', '^', 'v', ' ', '-', '>', '<'] : List Char)
      ∨ varOK x = true := by
  induction t with
  | var c =>
    intro x hx
    rcases List.mem_singleton.mp hx with rfl
    exact Or.inr hwf
  | pnot a iha =>
    intro x hx
    rw [show print (PropForm.pnot a) = '(' :: '~' :: (print a ++ [')']) from by
      simp [print]] at hx
    rcases List.mem_cons.mp hx with rfl | hx
    · left; decide
    rcases List.mem_cons.mp hx with rfl | hx
    · left; decide
    rcases List.mem_append.mp hx with hx | hx
    · exact iha hwf x hx
    · rcases List.mem_singleton.mp hx with rfl
      left; decide
  | pand a b iha ihb =>
    rw [show (PropForm.pand a b).wf = (a.wf && b.wf) from rfl, Bool.and_eq_true] at hwf
    intro x hx
    rw [show print (PropForm.pand a b)
      = '(' :: ((print a ++ ('^' :: print b)) ++ [')']) from by simp [print]] at hx
    rcases List.mem_cons.mp hx with rfl | hx
    · left; decide
    rcases List.mem_append.mp hx with hx | hx
    · rcases List.mem_append.mp hx with hx | hx
      · exact iha hwf.1 x hx
      · rcases List.mem_cons.mp hx with rfl | hx
        · left; decide
        · exact ihb hwf.2 x hx
    · rcases List.mem_singleton.mp hx with rfl
      left; decide
  | por a b iha ihb =>
    rw [show (PropForm.por a b).wf = (a.wf && b.wf) from rfl, Bool.and_eq_true] at hwf
    intro x hx
    rw [show print (PropForm.por a b)
      = '(' :: ((print a ++ (' ' :: 'v' :: ' ' :: print b)) ++ [')']) from by
      simp [print]] at hx
    rcases List.mem_cons.mp hx with rfl | hx
    · left; decide
    rcases List.mem_append.mp hx with hx | hx
    · rcases List.mem_append.mp hx with hx | hx
      · exact iha hwf.1 x hx
      · rcases List.mem_cons.mp hx with rfl | hx
        · left; decide
        rcases List.mem_cons.mp hx with rfl | hx
        · left; decide
        rcases List.mem_cons.mp hx with rfl | hx
        · left; decide
        · exact ihb hwf.2 x hx
    · rcases List.mem_singleton.mp hx with rfl
      left; decide
  | pimp a b iha ihb =>
    rw [show (PropForm.pimp a b).wf = (a.wf && b.wf) from rfl, Bool.and_eq_true] at hwf
    intro x hx
    rw [show print (PropForm.pimp a b)
      = '(' :: ((print a ++ ('-' :: '>' :: print b)) ++ [')']) from by
      simp [print]] at hx
    rcases List.mem_cons.mp hx with rfl | hx
    · left; decide
    rcases List.mem_append.mp hx with hx | hx
    · rcases List.mem_append.mp hx with hx | hx
      · exact iha hwf.1 x hx
      · rcases List.mem_cons.mp hx with rfl | hx
        · left; decide
        rcases List.mem_cons.mp hx with rfl | hx
        · left; decide
        · exact ihb hwf.2 x hx
    · rcases List.mem_singleton.mp hx with rfl
      left; decide
  | piff a b iha ihb =>
    rw [show (PropForm.piff a b).wf = (a.wf && b.wf) from rfl, Bool.and_eq_true] at hwf
    intro x hx
    rw [show print (PropForm.piff a b)
      = '(' :: ((print a ++ ('<' :: '-' :: '>' :: print b)) ++ [')']) from by
      simp [print]] at hx
    rcases List.mem_cons.mp hx with rfl | hx
    · left; decide
    rcases List.mem_append.mp hx with hx | hx
    · rcases List.mem_append.mp hx with hx | hx
      · exact iha hwf.1 x hx
      · rcases List.mem_cons.mp hx with rfl | hx
        · left; decide
        rcases List.mem_cons.mp hx with rfl | hx
        · left; decide
        rcases List.mem_cons.mp hx with rfl | hx
        · left; decide
        · exact ihb hwf.2 x hx
    · rcases List.mem_singleton.mp hx with rfl
      left; decide

theorem TC_chars (t : PropForm) (hwf : t.wf = true) :
    ∀ x ∈ TC t, x ∈ (['(', ')', '~', '^', 'v', ' ', 'n', 'o', 't', 'r', '='] : List Char)
      ∨ varOK x = true := by
  induction t with
  | var c =>
    intro x hx
    rcases List.mem_singleton.mp hx with rfl
    exact Or.inr hwf
  | pnot a iha =>
    intro x hx
    rw [TC_pnot_eq] at hx
    rcases List.mem_cons.mp hx with rfl | hx
    · left; decide
    rcases TCwrap_subset a x hx with rfl | rfl | hx
    · left; decide
    · left; decide
    · exact iha hwf x hx
  | pand a b iha ihb =>
    rw [show (PropForm.pand a b).wf = (a.wf && b.wf) from rfl, Bool.and_eq_true] at hwf
    intro x hx
    rw [TC_pand_eq] at hx
    rcases List.mem_append.mp hx with hx | hx
    · rcases TCwrap_subset a x hx with rfl | rfl | hx
      · left; decide
      · left; decide
      · exact iha hwf.1 x hx
    · rcases List.mem_cons.mp hx with rfl | hx
      · left; decide
      · rcases TCwrap_subset b x hx with rfl | rfl | hx
        · left; decide
        · left; decide
        · exact ihb hwf.2 x hx
  | por a b iha ihb =>
    rw [show (PropForm.por a b).wf = (a.wf && b.wf) from rfl, Bool.and_eq_true] at hwf
    intro x hx
    rw [TC_por_eq] at hx
    rcases List.mem_append.mp hx with hx | hx
    · rcases TCwrap_subset a x hx with rfl | rfl | hx
      · left; decide
      · left; decide
      · exact iha hwf.1 x hx
    · rcases List.mem_cons.mp hx with rfl | hx
      · left; decide
      rcases List.mem_cons.mp hx with rfl | hx
      · left; decide
      rcases List.mem_cons.mp hx with rfl | hx
      · left; decide
      · rcases TCwrap_subset b x hx with rfl | rfl | hx
        · left; decide
        · left; decide
        · exact ihb hwf.2 x hx
  | pimp a b iha ihb =>
    rw [show (PropForm.pimp a b).wf = (a.wf && b.wf) from rfl, Bool.and_eq_true] at hwf
    intro x hx
    rw [show TC (PropForm.pimp a b)
      = '(' :: 'n' :: 'o' :: 't' :: ' '
        :: (TC a ++ (' ' :: 'o' :: 'r' :: ' ' :: (TC b ++ [')']))) from by
      rw [TC_shape_imp, show TCbody (PropForm.pimp a b)
        = ('n' :: 'o' :: 't' :: ' ' :: TC a) ++ (' ' :: 'o' :: 'r' :: ' ' :: TC b)
        from rfl]
      simp] at hx
    iterate 5 (rcases List.mem_cons.mp hx with rfl | hx; · left; decide)
    rcases List.mem_append.mp hx with hx | hx
    · exact iha hwf.1 x hx
    iterate 4 (rcases List.mem_cons.mp hx with rfl | hx; · left; decide)
    rcases List.mem_append.mp hx with hx | hx
    · exact ihb hwf.2 x hx
    · rcases List.mem_singleton.mp hx with rfl
      left; decide
  | piff a b iha ihb =>
    rw [show (PropForm.piff a b).wf = (a.wf && b.wf) from rfl, Bool.and_eq_true] at hwf
    intro x hx
    rw [show TC (PropForm.piff a b)
      = '(' :: (TC a ++ (' ' :: '=' :: '=' :: ' ' :: (TC b ++ [')']))) from by
      rw [TC_shape_iff, show TCbody (PropForm.piff a b)
        = TC a ++ (' ' :: '=' :: '=' :: ' ' :: TC b) from rfl]
      simp] at hx
    rcases List.mem_cons.mp hx with rfl | hx
    · left; decide
    rcases List.mem_append.mp hx with hx | hx
    · exact iha hwf.1 x hx
    iterate 4 (rcases List.mem_cons.mp hx with rfl | hx; · left; decide)
    rcases List.mem_append.mp hx with hx | hx
    · exact ihb hwf.2 x hx
    · rcases List.mem_singleton.mp hx with rfl
      left; decide

theorem map_toLower_print (t : PropForm) (hwf : t.wf = true) :
    (print t).map Char.toLower = print t := by
  apply map_eq_self_of_mem
  intro c hc
  rcases print_chars t hwf c hc with hc2 | hc2
  · fin_cases hc2 <;> decide
  · exact varOK_toLower c hc2

theorem map_toLower_TC (t : PropForm) (hwf : t.wf = true) :
    (TC t).map Char.toLower = TC t := by
  apply map_eq_self_of_mem
  intro c hc
  rcases TC_chars t hwf c hc with hc2 | hc2
  · fin_cases hc2 <;> decide
  · exact varOK_toLower c hc2

theorem extract_print (t : PropForm) (hwf : t.wf = true) :
    extract_variables (String.mk (print t)) = (occSeq t).dedup := by
  unfold extract_variables
  rw [show (String.mk (print t)).toList = print t from rfl, map_toLower_print t hwf,
    vm_print t hwf none rfl]

theorem extract_TC (t : PropForm) (hwf : t.wf = true) :
    extract_variables (String.mk (TC t)) = (occSeq t).dedup := by
  unfold extract_variables
  rw [show (String.mk (TC t)).toList = TC t from rfl, map_toLower_TC t hwf,
    vm_TC t hwf none rfl]

/-! ### The operator-replacement stage on the transformed images -/

theorem rc_cons (c : Char) (r : List Char) (x : Char) (xs : List Char) :
    replaceChar c r (x :: xs) = (if x == c then r else [x]) ++ replaceChar c r xs := rfl

theorem rc_append (c : Char) (r : List Char) (u w : List Char) :
    replaceChar c r (u ++ w) = replaceChar c r u ++ replaceChar c r w := by
  induction u with
  | nil => rfl
  | cons x xs ih => simp only [List.cons_append, rc_cons, ih, List.append_assoc]

theorem replOps_append (u w : List Char) :
    replOps (u ++ w) = replOps u ++ replOps w := by
  simp only [replOps, rc_append]

theorem replOps_cons (x : Char) (xs : List Char) :
    replOps (x :: xs) = replOps [x] ++ replOps xs :=
  replOps_append [x] xs

theorem replOps_other (x : Char) (h : x ≠ 'v' ∧ x ≠ '^' ∧ x ≠ '~') :
    replOps [x] = [x] := by
  have h1 : (x == 'v') = false := beq_eq_false_iff_ne.mpr h.1
  have h2 : (x == '^') = false := beq_eq_false_iff_ne.mpr h.2.1
  have h3 : (x == '~') = false := beq_eq_false_iff_ne.mpr h.2.2
  simp [replOps, replaceChar, h1, h2, h3]

theorem replOps_pass (x : Char) (xs : List Char) (h : x ≠ 'v' ∧ x ≠ '^' ∧ x ≠ '~') :
    replOps (x :: xs) = x :: replOps xs := by
  rw [replOps_cons, replOps_other x h, List.singleton_append]

theorem replOps_var (c : Char) (h : varOK c = true) : replOps [c] = [c] :=
  replOps_other c
    ⟨varOK_ne_lit c h 'v' (by right; right; decide),
     varOK_ne_lit c h '^' (by left; decide),
     varOK_ne_lit c h '~' (by right; left; decide)⟩

theorem replOps_var_cons (c : Char) (h : varOK c = true) (xs : List Char) :
    replOps (c :: xs) = c :: replOps xs :=
  replOps_pass c xs
    ⟨varOK_ne_lit c h 'v' (by right; right; decide),
     varOK_ne_lit c h '^' (by left; decide),
     varOK_ne_lit c h '~' (by right; left; decide)⟩

theorem replOps_tilde : replOps ['~'] = [' ', 'n', 'o', 't', ' '] := by decide

theorem replOps_caret : replOps ['^'] = [' ', 'a', 'n', 'd', ' '] := by decide

theorem replOps_vee : replOps ['v'] = [' ', 'o', 'r', ' '] := by decide

theorem replOps_rpar : replOps [')'] = [')'] := replOps_other ')' (by decide)

theorem replOps_tilde_cons (xs : List Char) :
    replOps ('~' :: xs) = ' ' :: 'n' :: 'o' :: 't' :: ' ' :: replOps xs := by
  rw [replOps_cons, replOps_tilde]
  rfl

theorem replOps_caret_cons (xs : List Char) :
    replOps ('^' :: xs) = ' ' :: 'a' :: 'n' :: 'd' :: ' ' :: replOps xs := by
  rw [replOps_cons, replOps_caret]
  rfl

theorem replOps_vee_cons (xs : List Char) :
    replOps ('v' :: xs) = ' ' :: 'o' :: 'r' :: ' ' :: replOps xs := by
  rw [replOps_cons, replOps_vee]
  rfl

theorem replOps_notseg (X : List Char) :
    replOps ('n' :: 'o' :: 't' :: ' ' :: X) = 'n' :: 'o' :: 't' :: ' ' :: replOps X := by
  rw [replOps_pass 'n' _ (by decide), replOps_pass 'o' _ (by decide),
    replOps_pass 't' _ (by decide), replOps_pass ' ' _ (by decide)]

theorem replOps_orseg (X : List Char) :
    replOps (' ' :: 'o' :: 'r' :: ' ' :: X) = ' ' :: 'o' :: 'r' :: ' ' :: replOps X := by
  rw [replOps_pass ' ' _ (by decide), replOps_pass 'o' _ (by decide),
    replOps_pass 'r' _ (by decide), replOps_pass ' ' _ (by decide)]

theorem replOps_eqseg (X : List Char) :
    replOps (' ' :: '=' :: '=' :: ' ' :: X) = ' ' :: '=' :: '=' :: ' ' :: replOps X := by
  rw [replOps_pass ' ' _ (by decide), replOps_pass '=' _ (by decide),
    replOps_pass '=' _ (by decide), replOps_pass ' ' _ (by decide)]

theorem replOps_wrap (X Y : List Char) (h : replOps X = Y) :
    replOps ('(' :: X ++ [')']) = '(' :: Y ++ [')'] := by
  rw [replOps_append, replOps_pass '(' _ (by decide), h, replOps_rpar]

theorem icS_pnot_eq (σ : Char → Option Bool) (a : PropForm) :
    icS σ (PropForm.pnot a) = ' ' :: 'n' :: 'o' :: 't' :: ' ' :: icW σ a := by
  cases a <;> rfl

theorem icS_pand_eq (σ : Char → Option Bool) (a b : PropForm) :
    icS σ (PropForm.pand a b) =
      icW σ a ++ ' ' :: 'a' :: 'n' :: 'd' :: ' ' :: icW σ b := by
  cases a <;> cases b <;> rfl

theorem icS_por_eq (σ : Char → Option Bool) (a b : PropForm) :
    icS σ (PropForm.por a b) =
      icW σ a ++ ' ' :: ' ' :: 'o' :: 'r' :: ' ' :: ' ' :: icW σ b := by
  cases a <;> cases b <;> rfl

theorem idS_pnot_eq (σ : Char → Option Bool) (a : PropForm) :
    idS σ (PropForm.pnot a) = ' ' :: 'n' :: 'o' :: 't' :: ' ' :: idW σ a := by
  cases a <;> rfl

theorem idS_pand_eq (σ : Char → Option Bool) (a b : PropForm) :
    idS σ (PropForm.pand a b) =
      idW σ a ++ ' ' :: 'a' :: 'n' :: 'd' :: ' ' :: idW σ b := by
  cases a <;> cases b <;> rfl

theorem idS_por_eq (σ : Char → Option Bool) (a b : PropForm) :
    idS σ (PropForm.por a b) =
      idW σ a ++ ' ' :: ' ' :: 'o' :: 'r' :: ' ' :: ' ' :: idW σ b := by
  cases a <;> cases b <;> rfl

theorem replOps_TCwrap (a : PropForm) (hwf : a.wf = true)
    (ha : replOps (TC a) = icS (fun _ => none) a) :
    replOps (TCwrap a) = icW (fun _ => none) a := by
  cases a with
  | var c => exact replOps_var c hwf
  | pnot x => exact replOps_wrap _ _ ha
  | pand x y => exact replOps_wrap _ _ ha
  | por x y => exact replOps_wrap _ _ ha
  | pimp x y => exact replOps_wrap _ _ ha
  | piff x y => exact replOps_wrap _ _ ha

theorem replOps_TC (t : PropForm) : t.wf = true →
    replOps (TC t) = icS (fun _ => none) t := by
  induction t with
  | var c =>
    intro h
    exact replOps_var c h
  | pnot a ih =>
    intro h
    rw [TC_pnot_eq, icS_pnot_eq, replOps_tilde_cons, replOps_TCwrap a h (ih h)]
  | pand a b iha ihb =>
    intro h
    simp only [PropForm.wf, Bool.and_eq_true] at h
    rw [TC_pand_eq, icS_pand_eq, replOps_append, replOps_caret_cons,
      replOps_TCwrap a h.1 (iha h.1), replOps_TCwrap b h.2 (ihb h.2)]
  | por a b iha ihb =>
    intro h
    simp only [PropForm.wf, Bool.and_eq_true] at h
    rw [TC_por_eq, icS_por_eq, replOps_append, replOps_pass ' ' _ (by decide),
      replOps_vee_cons, replOps_pass ' ' _ (by decide),
      replOps_TCwrap a h.1 (iha h.1), replOps_TCwrap b h.2 (ihb h.2)]
  | pimp a b iha ihb =>
    intro h
    simp only [PropForm.wf, Bool.and_eq_true] at h
    show replOps ('(' :: ('n' :: 'o' :: 't' :: ' ' :: TC a) ++
        (' ' :: 'o' :: 'r' :: ' ' :: TC b) ++ [')']) =
      '(' :: ('n' :: 'o' :: 't' :: ' ' :: icS (fun _ => none) a) ++
        (' ' :: 'o' :: 'r' :: ' ' :: icS (fun _ => none) b) ++ [')']
    rw [replOps_append, replOps_append, replOps_pass '(' _ (by decide),
      replOps_notseg, replOps_orseg, replOps_rpar, iha h.1, ihb h.2]
  | piff a b iha ihb =>
    intro h
    simp only [PropForm.wf, Bool.and_eq_true] at h
    show replOps ('(' :: TC a ++ (' ' :: '=' :: '=' :: ' ' :: TC b) ++ [')']) =
      '(' :: icS (fun _ => none) a ++
        (' ' :: '=' :: '=' :: ' ' :: icS (fun _ => none) b) ++ [')']
    rw [replOps_append, replOps_append, replOps_pass '(' _ (by decide),
      replOps_eqseg, replOps_rpar, iha h.1, ihb h.2]

theorem replOps_TDwrap (a : PropForm) (hwf : a.wf = true)
    (ha : replOps (TDseg a) = idS (fun _ => none) a) :
    replOps (TDwrap a) = idW (fun _ => none) a := by
  cases a with
  | var c => exact replOps_var c hwf
  | pnot x => exact replOps_wrap _ _ ha
  | pand x y => exact replOps_wrap _ _ ha
  | por x y => exact replOps_wrap _ _ ha
  | pimp x y => exact ha
  | piff x y => exact ha

theorem replOps_TDseg (t : PropForm) : t.wf = true →
    replOps (TDseg t) = idS (fun _ => none) t := by
  induction t with
  | var c =>
    intro h
    exact replOps_var c h
  | pnot a ih =>
    intro h
    rw [TDseg_pnot_eq, idS_pnot_eq, replOps_tilde_cons, replOps_TDwrap a h (ih h)]
  | pand a b iha ihb =>
    intro h
    simp only [PropForm.wf, Bool.and_eq_true] at h
    rw [TDseg_pand_eq, idS_pand_eq, replOps_append, replOps_caret_cons,
      replOps_TDwrap a h.1 (iha h.1), replOps_TDwrap b h.2 (ihb h.2)]
  | por a b iha ihb =>
    intro h
    simp only [PropForm.wf, Bool.and_eq_true] at h
    rw [TDseg_por_eq, idS_por_eq, replOps_append, replOps_pass ' ' _ (by decide),
      replOps_vee_cons, replOps_pass ' ' _ (by decide),
      replOps_TDwrap a h.1 (iha h.1), replOps_TDwrap b h.2 (ihb h.2)]
  | pimp a b iha ihb =>
    intro h
    simp only [PropForm.wf, Bool.and_eq_true] at h
    show replOps ('(' :: ('n' :: 'o' :: 't' :: ' ' :: TDseg a) ++
        (' ' :: 'o' :: 'r' :: ' ' :: TDseg b) ++ [')']) =
      '(' :: ('n' :: 'o' :: 't' :: ' ' :: idS (fun _ => none) a) ++
        (' ' :: 'o' :: 'r' :: ' ' :: idS (fun _ => none) b) ++ [')']
    rw [replOps_append, replOps_append, replOps_pass '(' _ (by decide),
      replOps_notseg, replOps_orseg, replOps_rpar, iha h.1, ihb h.2]
  | piff a b iha ihb =>
    intro h
    simp only [PropForm.wf, Bool.and_eq_true] at h
    show replOps ('(' :: TDseg a ++ (' ' :: '=' :: '=' :: ' ' :: TDseg b) ++ [')']) =
      '(' :: idS (fun _ => none) a ++
        (' ' :: '=' :: '=' :: ' ' :: idS (fun _ => none) b) ++ [')']
    rw [replOps_append, replOps_append, replOps_pass '(' _ (by decide),
      replOps_eqseg, replOps_rpar, iha h.1, ihb h.2]

theorem replOps_TD (t : PropForm) (hwf : t.wf = true) :
    replOps (TD t) = idTop (fun _ => none) t := by
  cases t with
  | var c => exact replOps_TDseg (PropForm.var c) hwf
  | pnot a => exact replOps_TDseg (PropForm.pnot a) hwf
  | pand a b => exact replOps_TDseg (PropForm.pand a b) hwf
  | por a b => exact replOps_TDseg (PropForm.por a b) hwf
  | pimp a b =>
    simp only [PropForm.wf, Bool.and_eq_true] at hwf
    show replOps (('n' :: 'o' :: 't' :: ' ' :: TDseg a) ++
        (' ' :: 'o' :: 'r' :: ' ' :: TDseg b)) =
      ('n' :: 'o' :: 't' :: ' ' :: idS (fun _ => none) a) ++
        (' ' :: 'o' :: 'r' :: ' ' :: idS (fun _ => none) b)
    rw [replOps_append, replOps_notseg, replOps_orseg,
      replOps_TDseg a hwf.1, replOps_TDseg b hwf.2]
  | piff a b =>
    simp only [PropForm.wf, Bool.and_eq_true] at hwf
    show replOps (TDseg a ++ (' ' :: '=' :: '=' :: ' ' :: TDseg b)) =
      idS (fun _ => none) a ++ (' ' :: '=' :: '=' :: ' ' :: idS (fun _ => none) b)
    rw [replOps_append, replOps_eqseg, replOps_TDseg a hwf.1, replOps_TDseg b hwf.2]

theorem substAll_eq (values : Assign) (t : List Char) :
    substAll values t =
      values.foldl (fun acc vb => substWord vb.1 ((pyBoolStr vb.2).toList) acc)
        (replOps t) := rfl

end LogicCheck

namespace LogicCheck

/-! ### C9: variable substitution on the replaced images -/

theorem sw_cons_eval (c : Char) (r : List Char) (prev : Option Char) (x : Char)
    (xs : List Char) :
    substWordAux c r prev (x :: xs) =
      (if x == c && (wordAt prev != isWordChar x) && (isWordChar x != wordAt xs.head?)
       then r else [x]) ++ substWordAux c r (some x) xs := rfl

theorem sw_skip (c : Char) (r : List Char) (prev : Option Char) (x : Char)
    (xs : List Char) (h : (x == c) = false) :
    substWordAux c r prev (x :: xs) = x :: substWordAux c r (some x) xs := by
  rw [sw_cons_eval, h]
  rfl

theorem sw_word_word (c : Char) (r : List Char) (p x : Char) (xs : List Char)
    (hp : isWordChar p = true) (hx : isWordChar x = true) :
    substWordAux c r (some p) (x :: xs) = x :: substWordAux c r (some x) xs := by
  have h2 : (wordAt (some p) != isWordChar x) = false := by
    rw [show wordAt (some p) = isWordChar p from rfl, hp, hx]
    rfl
  rw [sw_cons_eval, h2, Bool.and_false, Bool.false_and]
  rfl

theorem sw_match (c : Char) (r : List Char) (prev : Option Char) (xs : List Char)
    (hc : isWordChar c = true) (hprev : wordAt prev = false)
    (hxs : wordAt xs.head? = false) :
    substWordAux c r prev (c :: xs) = r ++ substWordAux c r (some c) xs := by
  rw [sw_cons_eval, hprev, hxs, hc]
  simp

theorem swAux_prev (c : Char) (r : List Char) (p q : Option Char)
    (h : wordAt p = wordAt q) : ∀ l, substWordAux c r p l = substWordAux c r q l
  | [] => rfl
  | x :: xs => by rw [sw_cons_eval, sw_cons_eval, h]

theorem swAux_single_append (c : Char) (r : List Char) (x : Char) (w : List Char)
    (prev : Option Char) (h : wordAt w.head? = false ∨ x ≠ c) :
    substWordAux c r prev (x :: w) =
      substWordAux c r prev [x] ++ substWordAux c r (some x) w := by
  rw [sw_cons_eval, sw_cons_eval]
  have hpiece :
      (if x == c && (wordAt prev != isWordChar x) && (isWordChar x != wordAt w.head?)
       then r else [x])
      = (if x == c && (wordAt prev != isWordChar x)
            && (isWordChar x != wordAt ([] : List Char).head?)
         then r else [x]) := by
    rcases h with h | h
    · rw [h]
      rfl
    · have hx : (x == c) = false := beq_eq_false_iff_ne.mpr h
      rw [hx]
      rfl
  rw [hpiece]
  simp [substWordAux]

theorem swAux_append (c : Char) (r : List Char) : ∀ (u w : List Char) (prev : Option Char),
    (wordAt w.head? = false ∨ ∀ ch, u.getLast? = some ch → ch ≠ c) →
    substWordAux c r prev (u ++ w) =
      substWordAux c r prev u ++ substWordAux c r (u.getLast?.or prev) w := by
  intro u
  induction u with
  | nil =>
    intro w prev _
    simp [substWordAux, Option.or]
  | cons x u' ih =>
    intro w prev hc
    cases u' with
    | nil =>
      have h1 : wordAt w.head? = false ∨ x ≠ c := by
        rcases hc with hc | hc
        · exact Or.inl hc
        · exact Or.inr (hc x rfl)
      simp only [List.cons_append, List.nil_append]
      rw [swAux_single_append c r x w prev h1]
      rfl
    | cons y u'' =>
      have hlast : (x :: y :: u'').getLast? = (y :: u'').getLast? :=
        getLast_cons_of_ne_nil x (y :: u'') (by simp)
      have hih := ih w (some x) (by
        rcases hc with hc | hc
        · exact Or.inl hc
        · right
          intro ch hcl
          exact hc ch (by rw [hlast]; exact hcl))
      show substWordAux c r prev (x :: ((y :: u'') ++ w)) = _
      rw [sw_cons_eval c r prev x ((y :: u'') ++ w), sw_cons_eval c r prev x (y :: u'')]
      have hhead : ((y :: u'') ++ w).head? = (y :: u'').head? := rfl
      rw [hhead, hih]
      have hor : (x :: y :: u'').getLast?.or prev = (y :: u'').getLast?.or (some x) := by
        rw [hlast]
        cases hgl : (y :: u'').getLast? with
        | none => exact absurd hgl (getLast_cons_ne_none y u'')
        | some ch => rfl
      rw [hor]
      simp

theorem sw_lit (c : Char) (hcv : varOK c = true) (x : Char)
    (hx : x.toNat < 112 ∨ 122 < x.toNat ∨ x.toNat = 118) (r : List Char)
    (prev : Option Char) (xs : List Char) :
    substWordAux c r prev (x :: xs) = x :: substWordAux c r (some x) xs :=
  sw_skip c r prev x xs (beq_eq_false_iff_ne.mpr (Ne.symm (varOK_ne_lit c hcv x hx)))

theorem sw_rpar (c : Char) (hcv : varOK c = true) (r : List Char) (prev : Option Char) :
    substWordAux c r prev [')'] = [')'] := by
  rw [sw_lit c hcv ')' (by left; decide)]
  rfl

theorem sw_boolChars (c : Char) (hcv : varOK c = true) (r : List Char)
    (prev : Option Char) (b : Bool) :
    substWordAux c r prev (boolChars b) = boolChars b := by
  cases b
  · show substWordAux c r prev ['F', 'a', 'l', 's', 'e'] = ['F', 'a', 'l', 's', 'e']
    rw [sw_lit c hcv 'F' (by left; decide),
      sw_word_word c r 'F' 'a' _ (by decide) (by decide),
      sw_word_word c r 'a' 'l' _ (by decide) (by decide),
      sw_word_word c r 'l' 's' _ (by decide) (by decide),
      sw_word_word c r 's' 'e' _ (by decide) (by decide)]
    rfl
  · show substWordAux c r prev ['T', 'r', 'u', 'e'] = ['T', 'r', 'u', 'e']
    rw [sw_lit c hcv 'T' (by left; decide),
      sw_word_word c r 'T' 'r' _ (by decide) (by decide),
      sw_word_word c r 'r' 'u' _ (by decide) (by decide),
      sw_word_word c r 'u' 'e' _ (by decide) (by decide)]
    rfl

theorem sw_andmid (c : Char) (hcv : varOK c = true) (r : List Char) (prev : Option Char)
    (X : List Char) :
    substWordAux c r prev (' ' :: 'a' :: 'n' :: 'd' :: ' ' :: X) =
      ' ' :: 'a' :: 'n' :: 'd' :: ' ' :: substWordAux c r (some ' ') X := by
  rw [sw_lit c hcv ' ' (by left; decide), sw_lit c hcv 'a' (by left; decide),
    sw_lit c hcv 'n' (by left; decide), sw_lit c hcv 'd' (by left; decide),
    sw_lit c hcv ' ' (by left; decide)]

theorem sw_ormid2 (c : Char) (hcv : varOK c = true) (r : List Char) (prev : Option Char)
    (X : List Char) :
    substWordAux c r prev (' ' :: ' ' :: 'o' :: 'r' :: ' ' :: ' ' :: X) =
      ' ' :: ' ' :: 'o' :: 'r' :: ' ' :: ' ' :: substWordAux c r (some ' ') X := by
  rw [sw_lit c hcv ' ' (by left; decide), sw_lit c hcv ' ' (by left; decide),
    sw_lit c hcv 'o' (by left; decide),
    sw_word_word c r 'o' 'r' _ (by decide) (by decide),
    sw_lit c hcv ' ' (by left; decide), sw_lit c hcv ' ' (by left; decide)]

theorem sw_notmid (c : Char) (hcv : varOK c = true) (r : List Char) (prev : Option Char)
    (X : List Char) :
    substWordAux c r prev (' ' :: 'n' :: 'o' :: 't' :: ' ' :: X) =
      ' ' :: 'n' :: 'o' :: 't' :: ' ' :: substWordAux c r (some ' ') X := by
  rw [sw_lit c hcv ' ' (by left; decide), sw_lit c hcv 'n' (by left; decide),
    sw_lit c hcv 'o' (by left; decide),
    sw_word_word c r 'o' 't' _ (by decide) (by decide),
    sw_lit c hcv ' ' (by left; decide)]

theorem sw_orseg (c : Char) (hcv : varOK c = true) (r : List Char) (prev : Option Char)
    (X : List Char) :
    substWordAux c r prev (' ' :: 'o' :: 'r' :: ' ' :: X) =
      ' ' :: 'o' :: 'r' :: ' ' :: substWordAux c r (some ' ') X := by
  rw [sw_lit c hcv ' ' (by left; decide), sw_lit c hcv 'o' (by left; decide),
    sw_word_word c r 'o' 'r' _ (by decide) (by decide),
    sw_lit c hcv ' ' (by left; decide)]

theorem sw_eqmid (c : Char) (hcv : varOK c = true) (r : List Char) (prev : Option Char)
    (X : List Char) :
    substWordAux c r prev (' ' :: '=' :: '=' :: ' ' :: X) =
      ' ' :: '=' :: '=' :: ' ' :: substWordAux c r (some ' ') X := by
  rw [sw_lit c hcv ' ' (by left; decide), sw_lit c hcv '=' (by left; decide),
    sw_lit c hcv '=' (by left; decide), sw_lit c hcv ' ' (by left; decide)]

theorem varImg_some (σ : Char → Option Bool) (d : Char) (b' : Bool)
    (h : σ d = some b') : varImg σ d = boolChars b' := by
  unfold varImg
  rw [h]

theorem varImg_none (σ : Char → Option Bool) (d : Char) (h : σ d = none) :
    varImg σ d = [d] := by
  unfold varImg
  rw [h]

end LogicCheck

namespace LogicCheck

theorem swAux_varImg (c : Char) (b : Bool) (hcv : varOK c = true)
    (σ : Char → Option Bool) (hσ : σ c = none) (d : Char) :
    ∀ prev, wordAt prev = false →
      substWordAux c (boolChars b) prev (varImg σ d) =
        varImg (fun e => if e = c then some b else σ e) d := by
  intro prev hprev
  by_cases hdc : d = c
  · subst hdc
    rw [varImg_none σ d hσ,
      sw_match d (boolChars b) prev [] (varOK_isWord d hcv) hprev rfl,
      varImg_some (fun e => if e = d then some b else σ e) d b (by simp)]
    simp [substWordAux]
  · cases hσd : σ d with
    | some b' =>
      rw [varImg_some σ d b' hσd, sw_boolChars c hcv (boolChars b) prev b',
        varImg_some (fun e => if e = c then some b else σ e) d b' (by simp [hdc, hσd])]
    | none =>
      rw [varImg_none σ d hσd,
        sw_skip c (boolChars b) prev d [] (beq_eq_false_iff_ne.mpr hdc),
        varImg_none (fun e => if e = c then some b else σ e) d (by simp [hdc, hσd])]
      rfl

theorem swAux_wrapP (c : Char) (b : Bool) (hcv : varOK c = true) (X Y : List Char)
    (hX : ∀ prev, wordAt prev = false → substWordAux c (boolChars b) prev X = Y) :
    ∀ prev, wordAt prev = false →
      substWordAux c (boolChars b) prev ('(' :: X ++ [')']) = '(' :: Y ++ [')'] := by
  intro prev hprev
  show substWordAux c (boolChars b) prev ('(' :: (X ++ [')'])) = _
  rw [sw_lit c hcv '(' (by left; decide),
    swAux_append c (boolChars b) X [')'] (some '(') (Or.inl (by decide)),
    hX (some '(') (by decide), sw_rpar c hcv (boolChars b) _]
  rfl

theorem swAux_icW (c : Char) (b : Bool) (hcv : varOK c = true)
    (σ : Char → Option Bool) (hσ : σ c = none) (a : PropForm)
    (ha : ∀ prev, wordAt prev = false →
      substWordAux c (boolChars b) prev (icS σ a) =
        icS (fun e => if e = c then some b else σ e) a) :
    ∀ prev, wordAt prev = false →
      substWordAux c (boolChars b) prev (icW σ a) =
        icW (fun e => if e = c then some b else σ e) a := by
  cases a with
  | var d => exact swAux_varImg c b hcv σ hσ d
  | pnot x => exact swAux_wrapP c b hcv _ _ ha
  | pand x y => exact swAux_wrapP c b hcv _ _ ha
  | por x y => exact swAux_wrapP c b hcv _ _ ha
  | pimp x y => exact swAux_wrapP c b hcv _ _ ha
  | piff x y => exact swAux_wrapP c b hcv _ _ ha

theorem swAux_icS (c : Char) (b : Bool) (hcv : varOK c = true)
    (σ : Char → Option Bool) (hσ : σ c = none) :
    ∀ (t : PropForm) (prev : Option Char), wordAt prev = false →
      substWordAux c (boolChars b) prev (icS σ t) =
        icS (fun e => if e = c then some b else σ e) t := by
  intro t
  induction t with
  | var d => exact swAux_varImg c b hcv σ hσ d
  | pnot a ih =>
    intro prev hprev
    rw [icS_pnot_eq, icS_pnot_eq, sw_notmid c hcv (boolChars b) prev _,
      swAux_icW c b hcv σ hσ a ih (some ' ') (by decide)]
  | pand a b' iha ihb =>
    intro prev hprev
    rw [icS_pand_eq, icS_pand_eq,
      swAux_append c (boolChars b) (icW σ a)
        (' ' :: 'a' :: 'n' :: 'd' :: ' ' :: icW σ b') prev
        (Or.inl (by rw [wordAt_cons]; decide)),
      swAux_icW c b hcv σ hσ a iha prev hprev, sw_andmid c hcv (boolChars b) _ _,
      swAux_icW c b hcv σ hσ b' ihb (some ' ') (by decide)]
  | por a b' iha ihb =>
    intro prev hprev
    rw [icS_por_eq, icS_por_eq,
      swAux_append c (boolChars b) (icW σ a)
        (' ' :: ' ' :: 'o' :: 'r' :: ' ' :: ' ' :: icW σ b') prev
        (Or.inl (by rw [wordAt_cons]; decide)),
      swAux_icW c b hcv σ hσ a iha prev hprev, sw_ormid2 c hcv (boolChars b) _ _,
      swAux_icW c b hcv σ hσ b' ihb (some ' ') (by decide)]
  | pimp a b' iha ihb =>
    intro prev hprev
    show substWordAux c (boolChars b) prev
        (('(' :: ('n' :: 'o' :: 't' :: ' ' :: icS σ a)) ++
          (' ' :: 'o' :: 'r' :: ' ' :: icS σ b') ++ [')']) = _
    rw [swAux_append c (boolChars b)
        (('(' :: ('n' :: 'o' :: 't' :: ' ' :: icS σ a)) ++
          (' ' :: 'o' :: 'r' :: ' ' :: icS σ b')) [')'] prev (Or.inl (by decide)),
      swAux_append c (boolChars b) ('(' :: ('n' :: 'o' :: 't' :: ' ' :: icS σ a))
        (' ' :: 'o' :: 'r' :: ' ' :: icS σ b') prev
        (Or.inl (by rw [wordAt_cons]; decide)),
      sw_lit c hcv '(' (by left; decide), sw_lit c hcv 'n' (by left; decide),
      sw_lit c hcv 'o' (by left; decide),
      sw_word_word c (boolChars b) 'o' 't' _ (by decide) (by decide),
      sw_lit c hcv ' ' (by left; decide), iha (some ' ') (by decide),
      sw_orseg c hcv (boolChars b) _ _, ihb (some ' ') (by decide),
      sw_rpar c hcv (boolChars b) _]
    rfl
  | piff a b' iha ihb =>
    intro prev hprev
    show substWordAux c (boolChars b) prev
        (('(' :: icS σ a) ++ (' ' :: '=' :: '=' :: ' ' :: icS σ b') ++ [')']) = _
    rw [swAux_append c (boolChars b)
        (('(' :: icS σ a) ++ (' ' :: '=' :: '=' :: ' ' :: icS σ b')) [')'] prev
        (Or.inl (by decide)),
      swAux_append c (boolChars b) ('(' :: icS σ a)
        (' ' :: '=' :: '=' :: ' ' :: icS σ b') prev
        (Or.inl (by rw [wordAt_cons]; decide)),
      sw_lit c hcv '(' (by left; decide), iha (some '(') (by decide),
      sw_eqmid c hcv (boolChars b) _ _, ihb (some ' ') (by decide),
      sw_rpar c hcv (boolChars b) _]
    rfl

theorem swAux_idW (c : Char) (b : Bool) (hcv : varOK c = true)
    (σ : Char → Option Bool) (hσ : σ c = none) (a : PropForm)
    (ha : ∀ prev, wordAt prev = false →
      substWordAux c (boolChars b) prev (idS σ a) =
        idS (fun e => if e = c then some b else σ e) a) :
    ∀ prev, wordAt prev = false →
      substWordAux c (boolChars b) prev (idW σ a) =
        idW (fun e => if e = c then some b else σ e) a := by
  cases a with
  | var d => exact swAux_varImg c b hcv σ hσ d
  | pnot x => exact swAux_wrapP c b hcv _ _ ha
  | pand x y => exact swAux_wrapP c b hcv _ _ ha
  | por x y => exact swAux_wrapP c b hcv _ _ ha
  | pimp x y => exact ha
  | piff x y => exact ha

theorem swAux_idS (c : Char) (b : Bool) (hcv : varOK c = true)
    (σ : Char → Option Bool) (hσ : σ c = none) :
    ∀ (t : PropForm) (prev : Option Char), wordAt prev = false →
      substWordAux c (boolChars b) prev (idS σ t) =
        idS (fun e => if e = c then some b else σ e) t := by
  intro t
  induction t with
  | var d => exact swAux_varImg c b hcv σ hσ d
  | pnot a ih =>
    intro prev hprev
    rw [idS_pnot_eq, idS_pnot_eq, sw_notmid c hcv (boolChars b) prev _,
      swAux_idW c b hcv σ hσ a ih (some ' ') (by decide)]
  | pand a b' iha ihb =>
    intro prev hprev
    rw [idS_pand_eq, idS_pand_eq,
      swAux_append c (boolChars b) (idW σ a)
        (' ' :: 'a' :: 'n' :: 'd' :: ' ' :: idW σ b') prev
        (Or.inl (by rw [wordAt_cons]; decide)),
      swAux_idW c b hcv σ hσ a iha prev hprev, sw_andmid c hcv (boolChars b) _ _,
      swAux_idW c b hcv σ hσ b' ihb (some ' ') (by decide)]
  | por a b' iha ihb =>
    intro prev hprev
    rw [idS_por_eq, idS_por_eq,
      swAux_append c (boolChars b) (idW σ a)
        (' ' :: ' ' :: 'o' :: 'r' :: ' ' :: ' ' :: idW σ b') prev
        (Or.inl (by rw [wordAt_cons]; decide)),
      swAux_idW c b hcv σ hσ a iha prev hprev, sw_ormid2 c hcv (boolChars b) _ _,
      swAux_idW c b hcv σ hσ b' ihb (some ' ') (by decide)]
  | pimp a b' iha ihb =>
    intro prev hprev
    show substWordAux c (boolChars b) prev
        (('(' :: ('n' :: 'o' :: 't' :: ' ' :: idS σ a)) ++
          (' ' :: 'o' :: 'r' :: ' ' :: idS σ b') ++ [')']) = _
    rw [swAux_append c (boolChars b)
        (('(' :: ('n' :: 'o' :: 't' :: ' ' :: idS σ a)) ++
          (' ' :: 'o' :: 'r' :: ' ' :: idS σ b')) [')'] prev (Or.inl (by decide)),
      swAux_append c (boolChars b) ('(' :: ('n' :: 'o' :: 't' :: ' ' :: idS σ a))
        (' ' :: 'o' :: 'r' :: ' ' :: idS σ b') prev
        (Or.inl (by rw [wordAt_cons]; decide)),
      sw_lit c hcv '(' (by left; decide), sw_lit c hcv 'n' (by left; decide),
      sw_lit c hcv 'o' (by left; decide),
      sw_word_word c (boolChars b) 'o' 't' _ (by decide) (by decide),
      sw_lit c hcv ' ' (by left; decide), iha (some ' ') (by decide),
      sw_orseg c hcv (boolChars b) _ _, ihb (some ' ') (by decide),
      sw_rpar c hcv (boolChars b) _]
    rfl
  | piff a b' iha ihb =>
    intro prev hprev
    show substWordAux c (boolChars b) prev
        (('(' :: idS σ a) ++ (' ' :: '=' :: '=' :: ' ' :: idS σ b') ++ [')']) = _
    rw [swAux_append c (boolChars b)
        (('(' :: idS σ a) ++ (' ' :: '=' :: '=' :: ' ' :: idS σ b')) [')'] prev
        (Or.inl (by decide)),
      swAux_append c (boolChars b) ('(' :: idS σ a)
        (' ' :: '=' :: '=' :: ' ' :: idS σ b') prev
        (Or.inl (by rw [wordAt_cons]; decide)),
      sw_lit c hcv '(' (by left; decide), iha (some '(') (by decide),
      sw_eqmid c hcv (boolChars b) _ _, ihb (some ' ') (by decide),
      sw_rpar c hcv (boolChars b) _]
    rfl

theorem swAux_idTop (c : Char) (b : Bool) (hcv : varOK c = true)
    (σ : Char → Option Bool) (hσ : σ c = none) (t : PropForm) :
    ∀ prev, wordAt prev = false →
      substWordAux c (boolChars b) prev (idTop σ t) =
        idTop (fun e => if e = c then some b else σ e) t := by
  cases t with
  | var d => exact swAux_idS c b hcv σ hσ (PropForm.var d)
  | pnot a => exact swAux_idS c b hcv σ hσ (PropForm.pnot a)
  | pand a b' => exact swAux_idS c b hcv σ hσ (PropForm.pand a b')
  | por a b' => exact swAux_idS c b hcv σ hσ (PropForm.por a b')
  | pimp a b' =>
    intro prev hprev
    show substWordAux c (boolChars b) prev
        (('n' :: 'o' :: 't' :: ' ' :: idS σ a) ++
          (' ' :: 'o' :: 'r' :: ' ' :: idS σ b')) = _
    rw [swAux_append c (boolChars b) ('n' :: 'o' :: 't' :: ' ' :: idS σ a)
        (' ' :: 'o' :: 'r' :: ' ' :: idS σ b') prev
        (Or.inl (by rw [wordAt_cons]; decide)),
      sw_lit c hcv 'n' (by left; decide), sw_lit c hcv 'o' (by left; decide),
      sw_word_word c (boolChars b) 'o' 't' _ (by decide) (by decide),
      sw_lit c hcv ' ' (by left; decide),
      swAux_idS c b hcv σ hσ a (some ' ') (by decide),
      sw_orseg c hcv (boolChars b) _ _,
      swAux_idS c b hcv σ hσ b' (some ' ') (by decide)]
    rfl
  | piff a b' =>
    intro prev hprev
    show substWordAux c (boolChars b) prev
        (idS σ a ++ (' ' :: '=' :: '=' :: ' ' :: idS σ b')) = _
    rw [swAux_append c (boolChars b) (idS σ a)
        (' ' :: '=' :: '=' :: ' ' :: idS σ b') prev
        (Or.inl (by rw [wordAt_cons]; decide)),
      swAux_idS c b hcv σ hσ a prev hprev, sw_eqmid c hcv (boolChars b) _ _,
      swAux_idS c b hcv σ hσ b' (some ' ') (by decide)]
    rfl

end LogicCheck

namespace LogicCheck

theorem pyBoolStr_toList (b : Bool) : (pyBoolStr b).toList = boolChars b := by
  cases b <;> rfl

theorem v_not_mem_varImg (σ : Char → Option Bool) (d : Char) (hd : varOK d = true) :
    'v' ∉ varImg σ d := by
  cases hσd : σ d with
  | some b' =>
    rw [varImg_some σ d b' hσd]
    cases b' <;> decide
  | none =>
    rw [varImg_none σ d hσd]
    intro h
    exact absurd (List.mem_singleton.mp h).symm
      (varOK_ne_lit d hd 'v' (by right; right; decide))

theorem v_not_mem_wrapP (X : List Char) (hX : 'v' ∉ X) : 'v' ∉ ('(' :: X ++ [')']) := by
  intro h
  rw [List.cons_append] at h
  rcases List.mem_cons.mp h with h | h
  · exact absurd h (by decide)
  · rcases List.mem_append.mp h with h | h
    · exact hX h
    · exact absurd h (by decide)

theorem v_not_mem_icW_of (σ : Char → Option Bool) (a : PropForm) (hwf : a.wf = true)
    (ha : 'v' ∉ icS σ a) : 'v' ∉ icW σ a := by
  cases a with
  | var d => exact v_not_mem_varImg σ d hwf
  | pnot x => exact v_not_mem_wrapP _ ha
  | pand x y => exact v_not_mem_wrapP _ ha
  | por x y => exact v_not_mem_wrapP _ ha
  | pimp x y => exact v_not_mem_wrapP _ ha
  | piff x y => exact v_not_mem_wrapP _ ha

theorem v_not_mem_icS (σ : Char → Option Bool) :
    ∀ t : PropForm, t.wf = true → 'v' ∉ icS σ t := by
  intro t
  induction t with
  | var d =>
    intro hwf
    exact v_not_mem_varImg σ d hwf
  | pnot a ih =>
    intro hwf
    rw [icS_pnot_eq]
    intro h
    simp only [List.mem_cons] at h
    rcases h with h | h | h | h | h | h
    · exact absurd h (by decide)
    · exact absurd h (by decide)
    · exact absurd h (by decide)
    · exact absurd h (by decide)
    · exact absurd h (by decide)
    · exact v_not_mem_icW_of σ a hwf (ih hwf) h
  | pand a b ha hb =>
    intro hwf
    simp only [PropForm.wf, Bool.and_eq_true] at hwf
    rw [icS_pand_eq]
    intro h
    rcases List.mem_append.mp h with h | h
    · exact v_not_mem_icW_of σ a hwf.1 (ha hwf.1) h
    · simp only [List.mem_cons] at h
      rcases h with h | h | h | h | h | h
      · exact absurd h (by decide)
      · exact absurd h (by decide)
      · exact absurd h (by decide)
      · exact absurd h (by decide)
      · exact absurd h (by decide)
      · exact v_not_mem_icW_of σ b hwf.2 (hb hwf.2) h
  | por a b ha hb =>
    intro hwf
    simp only [PropForm.wf, Bool.and_eq_true] at hwf
    rw [icS_por_eq]
    intro h
    rcases List.mem_append.mp h with h | h
    · exact v_not_mem_icW_of σ a hwf.1 (ha hwf.1) h
    · simp only [List.mem_cons] at h
      rcases h with h | h | h | h | h | h | h
      · exact absurd h (by decide)
      · exact absurd h (by decide)
      · exact absurd h (by decide)
      · exact absurd h (by decide)
      · exact absurd h (by decide)
      · exact absurd h (by decide)
      · exact v_not_mem_icW_of σ b hwf.2 (hb hwf.2) h
  | pimp a b ha hb =>
    intro hwf
    simp only [PropForm.wf, Bool.and_eq_true] at hwf
    intro h
    rcases List.mem_append.mp h with h | h
    · rcases List.mem_append.mp h with h | h
      · simp only [List.mem_cons] at h
        rcases h with h | h | h | h | h | h
        · exact absurd h (by decide)
        · exact absurd h (by decide)
        · exact absurd h (by decide)
        · exact absurd h (by decide)
        · exact absurd h (by decide)
        · exact ha hwf.1 h
      · simp only [List.mem_cons] at h
        rcases h with h | h | h | h | h
        · exact absurd h (by decide)
        · exact absurd h (by decide)
        · exact absurd h (by decide)
        · exact absurd h (by decide)
        · exact hb hwf.2 h
    · exact absurd h (by decide)
  | piff a b ha hb =>
    intro hwf
    simp only [PropForm.wf, Bool.and_eq_true] at hwf
    intro h
    rcases List.mem_append.mp h with h | h
    · rcases List.mem_append.mp h with h | h
      · rcases List.mem_cons.mp h with h | h
        · exact absurd h (by decide)
        · exact ha hwf.1 h
      · simp only [List.mem_cons] at h
        rcases h with h | h | h | h | h
        · exact absurd h (by decide)
        · exact absurd h (by decide)
        · exact absurd h (by decide)
        · exact absurd h (by decide)
        · exact hb hwf.2 h
    · exact absurd h (by decide)

theorem v_not_mem_idW_of (σ : Char → Option Bool) (a : PropForm) (hwf : a.wf = true)
    (ha : 'v' ∉ idS σ a) : 'v' ∉ idW σ a := by
  cases a with
  | var d => exact v_not_mem_varImg σ d hwf
  | pnot x => exact v_not_mem_wrapP _ ha
  | pand x y => exact v_not_mem_wrapP _ ha
  | por x y => exact v_not_mem_wrapP _ ha
  | pimp x y => exact ha
  | piff x y => exact ha

theorem v_not_mem_idS (σ : Char → Option Bool) :
    ∀ t : PropForm, t.wf = true → 'v' ∉ idS σ t := by
  intro t
  induction t with
  | var d =>
    intro hwf
    exact v_not_mem_varImg σ d hwf
  | pnot a ih =>
    intro hwf
    rw [idS_pnot_eq]
    intro h
    simp only [List.mem_cons] at h
    rcases h with h | h | h | h | h | h
    · exact absurd h (by decide)
    · exact absurd h (by decide)
    · exact absurd h (by decide)
    · exact absurd h (by decide)
    · exact absurd h (by decide)
    · exact v_not_mem_idW_of σ a hwf (ih hwf) h
  | pand a b ha hb =>
    intro hwf
    simp only [PropForm.wf, Bool.and_eq_true] at hwf
    rw [idS_pand_eq]
    intro h
    rcases List.mem_append.mp h with h | h
    · exact v_not_mem_idW_of σ a hwf.1 (ha hwf.1) h
    · simp only [List.mem_cons] at h
      rcases h with h | h | h | h | h | h
      · exact absurd h (by decide)
      · exact absurd h (by decide)
      · exact absurd h (by decide)
      · exact absurd h (by decide)
      · exact absurd h (by decide)
      · exact v_not_mem_idW_of σ b hwf.2 (hb hwf.2) h
  | por a b ha hb =>
    intro hwf
    simp only [PropForm.wf, Bool.and_eq_true] at hwf
    rw [idS_por_eq]
    intro h
    rcases List.mem_append.mp h with h | h
    · exact v_not_mem_idW_of σ a hwf.1 (ha hwf.1) h
    · simp only [List.mem_cons] at h
      rcases h with h | h | h | h | h | h | h
      · exact absurd h (by decide)
      · exact absurd h (by decide)
      · exact absurd h (by decide)
      · exact absurd h (by decide)
      · exact absurd h (by decide)
      · exact absurd h (by decide)
      · exact v_not_mem_idW_of σ b hwf.2 (hb hwf.2) h
  | pimp a b ha hb =>
    intro hwf
    simp only [PropForm.wf, Bool.and_eq_true] at hwf
    intro h
    rcases List.mem_append.mp h with h | h
    · rcases List.mem_append.mp h with h | h
      · simp only [List.mem_cons] at h
        rcases h with h | h | h | h | h | h
        · exact absurd h (by decide)
        · exact absurd h (by decide)
        · exact absurd h (by decide)
        · exact absurd h (by decide)
        · exact absurd h (by decide)
        · exact ha hwf.1 h
      · simp only [List.mem_cons] at h
        rcases h with h | h | h | h | h
        · exact absurd h (by decide)
        · exact absurd h (by decide)
        · exact absurd h (by decide)
        · exact absurd h (by decide)
        · exact hb hwf.2 h
    · exact absurd h (by decide)
  | piff a b ha hb =>
    intro hwf
    simp only [PropForm.wf, Bool.and_eq_true] at hwf
    intro h
    rcases List.mem_append.mp h with h | h
    · rcases List.mem_append.mp h with h | h
      · rcases List.mem_cons.mp h with h | h
        · exact absurd h (by decide)
        · exact ha hwf.1 h
      · simp only [List.mem_cons] at h
        rcases h with h | h | h | h | h
        · exact absurd h (by decide)
        · exact absurd h (by decide)
        · exact absurd h (by decide)
        · exact absurd h (by decide)
        · exact hb hwf.2 h
    · exact absurd h (by decide)

theorem v_not_mem_idTop (σ : Char → Option Bool) (t : PropForm) (hwf : t.wf = true) :
    'v' ∉ idTop σ t := by
  cases t with
  | var d => exact v_not_mem_idS σ (PropForm.var d) hwf
  | pnot a => exact v_not_mem_idS σ (PropForm.pnot a) hwf
  | pand a b => exact v_not_mem_idS σ (PropForm.pand a b) hwf
  | por a b => exact v_not_mem_idS σ (PropForm.por a b) hwf
  | pimp a b =>
    simp only [PropForm.wf, Bool.and_eq_true] at hwf
    intro h
    rcases List.mem_append.mp h with h | h
    · simp only [List.mem_cons] at h
      rcases h with h | h | h | h | h
      · exact absurd h (by decide)
      · exact absurd h (by decide)
      · exact absurd h (by decide)
      · exact absurd h (by decide)
      · exact v_not_mem_idS σ a hwf.1 h
    · simp only [List.mem_cons] at h
      rcases h with h | h | h | h | h
      · exact absurd h (by decide)
      · exact absurd h (by decide)
      · exact absurd h (by decide)
      · exact absurd h (by decide)
      · exact v_not_mem_idS σ b hwf.2 h
  | piff a b =>
    simp only [PropForm.wf, Bool.and_eq_true] at hwf
    intro h
    rcases List.mem_append.mp h with h | h
    · exact v_not_mem_idS σ a hwf.1 h
    · simp only [List.mem_cons] at h
      rcases h with h | h | h | h | h
      · exact absurd h (by decide)
      · exact absurd h (by decide)
      · exact absurd h (by decide)
      · exact absurd h (by decide)
      · exact v_not_mem_idS σ b hwf.2 h

end LogicCheck

namespace LogicCheck

theorem lookup_cons_hit (c : Char) (b : Bool) (rest : Assign) :
    ((c, b) :: rest).lookup c = some b := by
  simp [List.lookup]

theorem lookup_cons_miss (e c : Char) (b : Bool) (rest : Assign) (h : e ≠ c) :
    ((c, b) :: rest).lookup e = rest.lookup e := by
  simp [List.lookup, beq_eq_false_iff_ne.mpr h]

theorem lookup_eq_none_of_not_mem (e : Char) : ∀ rest : Assign,
    e ∉ rest.map Prod.fst → rest.lookup e = none := by
  intro rest
  induction rest with
  | nil =>
    intro _
    rfl
  | cons p rest ih =>
    intro h
    obtain ⟨c, b⟩ := p
    simp only [List.map_cons, List.mem_cons] at h
    push_neg at h
    rw [lookup_cons_miss e c b rest h.1]
    exact ih h.2

theorem foldl_subst_gen (F : (Char → Option Bool) → List Char)
    (hstepF : ∀ (c : Char) (b : Bool), varOK c = true → ∀ σ, σ c = none →
      substWord c (boolChars b) (F σ) = F (fun e => if e = c then some b else σ e))
    (hvF : ∀ σ, 'v' ∉ F σ) :
    ∀ (vals : Assign) (σ : Char → Option Bool),
      (∀ p ∈ vals, varOK p.1 = true ∨ p.1 = 'v') →
      (∀ p ∈ vals, σ p.1 = none) →
      (vals.map Prod.fst).Nodup →
      ∃ σ2, (∀ e, e ≠ 'v' → σ2 e = (vals.lookup e).or (σ e)) ∧
        vals.foldl (fun acc vb => substWord vb.1 ((pyBoolStr vb.2).toList) acc)
          (F σ) = F σ2 := by
  intro vals
  induction vals with
  | nil =>
    intro σ _ _ _
    exact ⟨σ, fun e _ => rfl, rfl⟩
  | cons p rest ih =>
    intro σ hkeys hσ hnd
    obtain ⟨c, b⟩ := p
    simp only [List.map_cons, List.nodup_cons] at hnd
    rcases hkeys (c, b) (List.mem_cons_self _ _) with hvc | hvc
    · have hσc : σ c = none := hσ (c, b) (List.mem_cons_self _ _)
      have hstep : substWord c ((pyBoolStr b).toList) (F σ) =
          F (fun e => if e = c then some b else σ e) := by
        rw [pyBoolStr_toList]
        exact hstepF c b hvc σ hσc
      obtain ⟨σ2, hσ2, hfold⟩ := ih (fun e => if e = c then some b else σ e)
        (fun q hq => hkeys q (List.mem_cons_of_mem _ hq))
        (fun q hq => by
          have hqc : q.1 ≠ c := by
            intro he
            exact hnd.1 (he ▸ List.mem_map.mpr ⟨q, hq, rfl⟩)
          simp only [if_neg hqc]
          exact hσ q (List.mem_cons_of_mem _ hq))
        hnd.2
      refine ⟨σ2, ?_, ?_⟩
      · intro e he
        by_cases hec : e = c
        · subst hec
          rw [hσ2 e he, lookup_eq_none_of_not_mem e rest hnd.1, lookup_cons_hit]
          simp
        · rw [hσ2 e he, lookup_cons_miss e c b rest hec]
          simp only [if_neg hec]
      · show List.foldl _ (substWord c ((pyBoolStr b).toList) (F σ)) rest = F σ2
        rw [hstep]
        exact hfold
    · have hstep : substWord c ((pyBoolStr b).toList) (F σ) = F σ := by
        subst hvc
        exact substWordAux_id_of_not_mem 'v' _ (F σ) none (hvF σ)
      obtain ⟨σ2, hσ2, hfold⟩ := ih σ
        (fun q hq => hkeys q (List.mem_cons_of_mem _ hq))
        (fun q hq => hσ q (List.mem_cons_of_mem _ hq))
        hnd.2
      refine ⟨σ2, ?_, ?_⟩
      · intro e he
        rw [hσ2 e he, lookup_cons_miss e c b rest (fun hec => he (hec.trans hvc))]
      · show List.foldl _ (substWord c ((pyBoolStr b).toList) (F σ)) rest = F σ2
        rw [hstep]
        exact hfold

theorem substAll_TC (t : PropForm) (hwf : t.wf = true) (vals : Assign)
    (hkeys : ∀ p ∈ vals, varOK p.1 = true ∨ p.1 = 'v')
    (hnd : (vals.map Prod.fst).Nodup) :
    ∃ σ2, (∀ e, e ≠ 'v' → σ2 e = vals.lookup e) ∧
      substAll vals (TC t) = icS σ2 t := by
  rw [substAll_eq, replOps_TC t hwf]
  obtain ⟨σ2, h1, h2⟩ := foldl_subst_gen (fun σ => icS σ t)
    (fun c b hcv σ hσc => swAux_icS c b hcv σ hσc t none rfl)
    (fun σ => v_not_mem_icS σ t hwf)
    vals (fun _ => none) hkeys (fun _ _ => rfl) hnd
  refine ⟨σ2, ?_, h2⟩
  intro e he
  rw [h1 e he]
  cases vals.lookup e <;> rfl

theorem substAll_TD (t : PropForm) (hwf : t.wf = true) (vals : Assign)
    (hkeys : ∀ p ∈ vals, varOK p.1 = true ∨ p.1 = 'v')
    (hnd : (vals.map Prod.fst).Nodup) :
    ∃ σ2, (∀ e, e ≠ 'v' → σ2 e = vals.lookup e) ∧
      substAll vals (TD t) = idTop σ2 t := by
  rw [substAll_eq, replOps_TD t hwf]
  obtain ⟨σ2, h1, h2⟩ := foldl_subst_gen (fun σ => idTop σ t)
    (fun c b hcv σ hσc => swAux_idTop c b hcv σ hσc t none rfl)
    (fun σ => v_not_mem_idTop σ t hwf)
    vals (fun _ => none) hkeys (fun _ _ => rfl) hnd
  refine ⟨σ2, ?_, h2⟩
  intro e he
  rw [h1 e he]
  cases vals.lookup e <;> rfl

end LogicCheck

namespace LogicCheck

/-! ### C9: tokenizing the substituted images -/

theorem alpha_val (c : Char) (h : c.isAlpha = true) :
    (65 ≤ c.toNat ∧ c.toNat ≤ 90) ∨ (97 ≤ c.toNat ∧ c.toNat ≤ 122) := by
  unfold Char.isAlpha Char.isUpper Char.isLower at h
  simp only [Bool.or_eq_true, Bool.and_eq_true, decide_eq_true_eq] at h
  rcases h with ⟨h1, h2⟩ | ⟨h1, h2⟩
  · exact Or.inl ⟨h1, h2⟩
  · exact Or.inr ⟨h1, h2⟩

theorem alpha_ne (c : Char) (h : c.isAlpha = true) (d : Char)
    (hd : d.toNat < 65 ∨ (90 < d.toNat ∧ d.toNat < 97) ∨ 122 < d.toNat) :
    (c == d) = false := by
  simp only [beq_eq_false_iff_ne, ne_eq]
  intro he
  subst he
  rcases alpha_val c h with ⟨h1, h2⟩ | ⟨h1, h2⟩ <;>
    rcases hd with hd | ⟨hd1, hd2⟩ | hd <;> omega

theorem alpha_not_special (c : Char) (h : c.isAlpha = true) :
    pySpace c = false ∧ (c == '(') = false ∧ (c == ')') = false ∧
      (c == '=') = false := by
  refine ⟨?_, alpha_ne c h '(' (by left; decide), alpha_ne c h ')' (by left; decide),
    alpha_ne c h '=' (by left; decide)⟩
  unfold pySpace
  rw [alpha_ne c h ' ' (by left; decide), alpha_ne c h '\t' (by left; decide),
    alpha_ne c h '\n' (by left; decide), alpha_ne c h '\r' (by left; decide),
    alpha_ne c h '\x0b' (by left; decide), alpha_ne c h '\x0c' (by left; decide)]
  rfl

theorem takeWhile_append_all (p : Char → Bool) : ∀ (u w : List Char),
    (∀ ch ∈ u, p ch = true) → (∀ ch, w.head? = some ch → p ch = false) →
    (u ++ w).takeWhile p = u ∧ (u ++ w).dropWhile p = w := by
  intro u
  induction u with
  | nil =>
    intro w _ hw
    cases w with
    | nil => exact ⟨rfl, rfl⟩
    | cons ch w' =>
      have := hw ch rfl
      constructor
      · simp [List.takeWhile_cons, this]
      · simp [List.dropWhile_cons, this]
  | cons y u' ih =>
    intro w hu hw
    have hy : p y = true := hu y (List.mem_cons_self _ _)
    have := ih w (fun ch hch => hu ch (List.mem_cons_of_mem _ hch)) hw
    constructor
    · simp only [List.cons_append, List.takeWhile_cons, hy, if_true, this.1]
    · simp only [List.cons_append, List.dropWhile_cons, hy, if_true, this.2]

theorem tok_nil (fuel : Nat) : tokenize (fuel + 1) [] = .ok [] := rfl

theorem tok_space_cons (fuel : Nat) (X : List Char) :
    tokenize (fuel + 1) (' ' :: X) = tokenize fuel X := rfl

theorem tok_lpar (fuel : Nat) (X : List Char) :
    tokenize (fuel + 1) ('(' :: X) = (PyTok.lpar :: ·) <$> tokenize fuel X := rfl

theorem tok_rpar (fuel : Nat) (X : List Char) :
    tokenize (fuel + 1) (')' :: X) = (PyTok.rpar :: ·) <$> tokenize fuel X := rfl

theorem tok_word (fuel : Nat) (x : Char) (xs rest : List Char)
    (hx : x.isAlpha = true) (hxs : ∀ ch ∈ xs, ch.isAlpha = true)
    (hr : ∀ ch, rest.head? = some ch → ch.isAlpha = false) :
    tokenize (fuel + 1) ((x :: xs) ++ rest) =
      (if x :: xs = "not".toList then (PyTok.tknot :: ·) <$> tokenize fuel rest
       else if x :: xs = "and".toList then (PyTok.tkand :: ·) <$> tokenize fuel rest
       else if x :: xs = "or".toList then (PyTok.tkor :: ·) <$> tokenize fuel rest
       else if x :: xs = "True".toList then (PyTok.tktrue :: ·) <$> tokenize fuel rest
       else if x :: xs = "False".toList then (PyTok.tkfalse :: ·) <$> tokenize fuel rest
       else .error "NameError") := by
  obtain ⟨hsp, hlp, hrp, heq⟩ := alpha_not_special x hx
  obtain ⟨htw, hdw⟩ := takeWhile_append_all Char.isAlpha xs rest hxs hr
  show tokenize (fuel + 1) (x :: (xs ++ rest)) = _
  simp only [tokenize, hsp, hlp, hrp, heq, hx, Bool.false_eq_true, if_false, if_true,
    htw, hdw]

theorem tok_notmid (fuel : Nat) (X : List Char) :
    tokenize (fuel + 3) (' ' :: 'n' :: 'o' :: 't' :: ' ' :: X) =
      (PyTok.tknot :: ·) <$> tokenize fuel X := rfl

theorem tok_notword (fuel : Nat) (X : List Char) :
    tokenize (fuel + 2) ('n' :: 'o' :: 't' :: ' ' :: X) =
      (PyTok.tknot :: ·) <$> tokenize fuel X := rfl

theorem tok_andmid (fuel : Nat) (X : List Char) :
    tokenize (fuel + 3) (' ' :: 'a' :: 'n' :: 'd' :: ' ' :: X) =
      (PyTok.tkand :: ·) <$> tokenize fuel X := rfl

theorem tok_ormid2 (fuel : Nat) (X : List Char) :
    tokenize (fuel + 5) (' ' :: ' ' :: 'o' :: 'r' :: ' ' :: ' ' :: X) =
      (PyTok.tkor :: ·) <$> tokenize fuel X := rfl

theorem tok_orseg (fuel : Nat) (X : List Char) :
    tokenize (fuel + 3) (' ' :: 'o' :: 'r' :: ' ' :: X) =
      (PyTok.tkor :: ·) <$> tokenize fuel X := rfl

theorem tok_eqmid (fuel : Nat) (X : List Char) :
    tokenize (fuel + 3) (' ' :: '=' :: '=' :: ' ' :: X) =
      (PyTok.eqeq :: ·) <$> tokenize fuel X := rfl

theorem tok_boolChars (fuel : Nat) (b : Bool) (X : List Char)
    (hX : ∀ ch, X.head? = some ch → ch.isAlpha = false) :
    tokenize (fuel + 1) (boolChars b ++ X) =
      ((if b then PyTok.tktrue else PyTok.tkfalse) :: ·) <$> tokenize fuel X := by
  cases b
  · rw [show boolChars false = 'F' :: ['a', 'l', 's', 'e'] from rfl,
      tok_word fuel 'F' ['a', 'l', 's', 'e'] X (by decide) (by decide) hX]
    rfl
  · rw [show boolChars true = 'T' :: ['r', 'u', 'e'] from rfl,
      tok_word fuel 'T' ['r', 'u', 'e'] X (by decide) (by decide) hX]
    rfl

end LogicCheck

namespace LogicCheck

theorem tkS_pnot_eq (d : Char → Bool) (a : PropForm) :
    tkS d (PropForm.pnot a) = PyTok.tknot :: tkW d a := by
  cases a <;> rfl

theorem tkS_pand_eq (d : Char → Bool) (a b : PropForm) :
    tkS d (PropForm.pand a b) = tkW d a ++ PyTok.tkand :: tkW d b := by
  cases a <;> cases b <;> rfl

theorem tkS_por_eq (d : Char → Bool) (a b : PropForm) :
    tkS d (PropForm.por a b) = tkW d a ++ PyTok.tkor :: tkW d b := by
  cases a <;> cases b <;> rfl

theorem tkS_pimp_eq (d : Char → Bool) (a b : PropForm) :
    tkS d (PropForm.pimp a b) =
      PyTok.lpar :: PyTok.tknot :: tkS d a ++ (PyTok.tkor :: tkS d b) ++ [PyTok.rpar] := rfl

theorem tkS_piff_eq (d : Char → Bool) (a b : PropForm) :
    tkS d (PropForm.piff a b) =
      PyTok.lpar :: tkS d a ++ (PyTok.eqeq :: tkS d b) ++ [PyTok.rpar] := rfl

theorem tkD_pnot_eq (d : Char → Bool) (a : PropForm) :
    tkD d (PropForm.pnot a) = PyTok.tknot :: tkDW d a := by
  cases a <;> rfl

theorem tkD_pand_eq (d : Char → Bool) (a b : PropForm) :
    tkD d (PropForm.pand a b) = tkDW d a ++ PyTok.tkand :: tkDW d b := by
  cases a <;> cases b <;> rfl

theorem tkD_por_eq (d : Char → Bool) (a b : PropForm) :
    tkD d (PropForm.por a b) = tkDW d a ++ PyTok.tkor :: tkDW d b := by
  cases a <;> cases b <;> rfl

theorem icS_pimp_eq (σ : Char → Option Bool) (a b : PropForm) :
    icS σ (PropForm.pimp a b) =
      ('(' :: ('n' :: 'o' :: 't' :: ' ' :: icS σ a)) ++
        (' ' :: 'o' :: 'r' :: ' ' :: icS σ b) ++ [')'] := rfl

theorem icS_piff_eq (σ : Char → Option Bool) (a b : PropForm) :
    icS σ (PropForm.piff a b) =
      ('(' :: icS σ a) ++ (' ' :: '=' :: '=' :: ' ' :: icS σ b) ++ [')'] := rfl

theorem idS_pimp_eq (σ : Char → Option Bool) (a b : PropForm) :
    idS σ (PropForm.pimp a b) =
      ('(' :: ('n' :: 'o' :: 't' :: ' ' :: idS σ a)) ++
        (' ' :: 'o' :: 'r' :: ' ' :: idS σ b) ++ [')'] := rfl

theorem idS_piff_eq (σ : Char → Option Bool) (a b : PropForm) :
    idS σ (PropForm.piff a b) =
      ('(' :: idS σ a) ++ (' ' :: '=' :: '=' :: ' ' :: idS σ b) ++ [')'] := rfl

theorem tok_varImg (d : Char → Bool) (σ : Char → Option Bool) (e : Char)
    (hσe : σ e = some (d e)) (suffix : List Char) (rts : List PyTok)
    (hhead : ∀ ch, suffix.head? = some ch → ch.isAlpha = false)
    (hsuf : ∀ g, suffix.length + 1 ≤ g → tokenize g suffix = .ok rts)
    (fuel : Nat) (hfuel : (varImg σ e).length + suffix.length + 1 ≤ fuel) :
    tokenize fuel (varImg σ e ++ suffix) = .ok (varTok d e :: rts) := by
  rw [varImg_some σ e (d e) hσe] at hfuel ⊢
  have h4 : 1 ≤ (boolChars (d e)).length := by cases d e <;> decide
  obtain ⟨m, rfl⟩ : ∃ m, fuel = m + 1 := ⟨fuel - 1, by omega⟩
  rw [tok_boolChars m (d e) suffix hhead, hsuf m (by omega)]
  rfl

theorem tok_wrapP (X : List Char) (TS : List PyTok)
    (hX : ∀ (suffix : List Char) (rts : List PyTok),
      (∀ ch, suffix.head? = some ch → ch.isAlpha = false) →
      (∀ g, suffix.length + 1 ≤ g → tokenize g suffix = .ok rts) →
      ∀ fuel, X.length + suffix.length + 1 ≤ fuel →
        tokenize fuel (X ++ suffix) = .ok (TS ++ rts)) :
    ∀ (suffix : List Char) (rts : List PyTok),
      (∀ ch, suffix.head? = some ch → ch.isAlpha = false) →
      (∀ g, suffix.length + 1 ≤ g → tokenize g suffix = .ok rts) →
      ∀ fuel, ('(' :: X ++ [')']).length + suffix.length + 1 ≤ fuel →
        tokenize fuel (('(' :: X ++ [')']) ++ suffix) =
          .ok ((PyTok.lpar :: TS ++ [PyTok.rpar]) ++ rts) := by
  intro suffix rts hhead hsuf fuel hfuel
  simp only [List.length_cons, List.length_append, List.length_nil] at hfuel
  obtain ⟨m, rfl⟩ : ∃ m, fuel = m + 1 := ⟨fuel - 1, by omega⟩
  rw [show (('(' :: X) ++ [')']) ++ suffix = '(' :: (X ++ (')' :: suffix)) from by simp,
    tok_lpar m,
    hX (')' :: suffix) (PyTok.rpar :: rts)
      (by
        intro ch h
        simp only [List.head?_cons, Option.some.injEq] at h
        exact h ▸ (by decide))
      (by
        intro g hg
        simp only [List.length_cons] at hg
        obtain ⟨g2, rfl⟩ : ∃ g2, g = g2 + 1 := ⟨g - 1, by omega⟩
        rw [tok_rpar g2, hsuf g2 (by omega)]
        rfl)
      m (by simp only [List.length_cons]; omega)]
  simp

theorem tok_icW_of (d : Char → Bool) (σ : Char → Option Bool) (a : PropForm)
    (hσ : ∀ e ∈ tvars a, σ e = some (d e))
    (ha : ∀ (suffix : List Char) (rts : List PyTok),
      (∀ ch, suffix.head? = some ch → ch.isAlpha = false) →
      (∀ g, suffix.length + 1 ≤ g → tokenize g suffix = .ok rts) →
      ∀ fuel, (icS σ a).length + suffix.length + 1 ≤ fuel →
        tokenize fuel (icS σ a ++ suffix) = .ok (tkS d a ++ rts)) :
    ∀ (suffix : List Char) (rts : List PyTok),
      (∀ ch, suffix.head? = some ch → ch.isAlpha = false) →
      (∀ g, suffix.length + 1 ≤ g → tokenize g suffix = .ok rts) →
      ∀ fuel, (icW σ a).length + suffix.length + 1 ≤ fuel →
        tokenize fuel (icW σ a ++ suffix) = .ok (tkW d a ++ rts) := by
  cases a with
  | var e =>
    intro suffix rts hhead hsuf fuel hfuel
    exact tok_varImg d σ e (hσ e (List.mem_singleton.mpr rfl)) suffix rts hhead hsuf
      fuel hfuel
  | pnot x => exact tok_wrapP _ _ ha
  | pand x y => exact tok_wrapP _ _ ha
  | por x y => exact tok_wrapP _ _ ha
  | pimp x y => exact tok_wrapP _ _ ha
  | piff x y => exact tok_wrapP _ _ ha

theorem tok_icS (d : Char → Bool) :
    ∀ (t : PropForm) (σ : Char → Option Bool),
      (∀ e ∈ tvars t, σ e = some (d e)) →
      ∀ (suffix : List Char) (rts : List PyTok),
        (∀ ch, suffix.head? = some ch → ch.isAlpha = false) →
        (∀ g, suffix.length + 1 ≤ g → tokenize g suffix = .ok rts) →
        ∀ fuel, (icS σ t).length + suffix.length + 1 ≤ fuel →
          tokenize fuel (icS σ t ++ suffix) = .ok (tkS d t ++ rts) := by
  intro t
  induction t with
  | var e =>
    intro σ hσ suffix rts hhead hsuf fuel hfuel
    exact tok_varImg d σ e (hσ e (List.mem_singleton.mpr rfl)) suffix rts hhead hsuf
      fuel hfuel
  | pnot a ih =>
    intro σ hσ suffix rts hhead hsuf fuel hfuel
    rw [icS_pnot_eq] at hfuel ⊢
    rw [tkS_pnot_eq]
    simp only [List.length_cons] at hfuel
    obtain ⟨m, rfl⟩ : ∃ m, fuel = m + 3 := ⟨fuel - 3, by omega⟩
    rw [show (' ' :: 'n' :: 'o' :: 't' :: ' ' :: icW σ a) ++ suffix
        = ' ' :: 'n' :: 'o' :: 't' :: ' ' :: (icW σ a ++ suffix) from rfl,
      tok_notmid m,
      tok_icW_of d σ a (fun e he => hσ e he) (ih σ (fun e he => hσ e he)) suffix rts
        hhead hsuf m (by omega)]
    rfl
  | pand a b iha ihb =>
    intro σ hσ suffix rts hhead hsuf fuel hfuel
    have hσa : ∀ e ∈ tvars a, σ e = some (d e) :=
      fun e he => hσ e (List.mem_append_left _ he)
    have hσb : ∀ e ∈ tvars b, σ e = some (d e) :=
      fun e he => hσ e (List.mem_append_right _ he)
    rw [icS_pand_eq] at hfuel ⊢
    rw [tkS_pand_eq]
    simp only [List.length_append, List.length_cons] at hfuel
    rw [show (icW σ a ++ ' ' :: 'a' :: 'n' :: 'd' :: ' ' :: icW σ b) ++ suffix
        = icW σ a ++ (' ' :: 'a' :: 'n' :: 'd' :: ' ' :: (icW σ b ++ suffix)) from by simp,
      tok_icW_of d σ a hσa (iha σ hσa)
        (' ' :: 'a' :: 'n' :: 'd' :: ' ' :: (icW σ b ++ suffix))
        (PyTok.tkand :: (tkW d b ++ rts))
        (by
          intro ch h
          simp only [List.head?_cons, Option.some.injEq] at h
          exact h ▸ (by decide))
        (by
          intro g hg
          simp only [List.length_cons, List.length_append] at hg
          obtain ⟨g2, rfl⟩ : ∃ g2, g = g2 + 3 := ⟨g - 3, by omega⟩
          rw [tok_andmid g2,
            tok_icW_of d σ b hσb (ihb σ hσb) suffix rts hhead hsuf g2 (by omega)]
          rfl)
        fuel (by simp only [List.length_cons, List.length_append]; omega)]
    simp
  | por a b iha ihb =>
    intro σ hσ suffix rts hhead hsuf fuel hfuel
    have hσa : ∀ e ∈ tvars a, σ e = some (d e) :=
      fun e he => hσ e (List.mem_append_left _ he)
    have hσb : ∀ e ∈ tvars b, σ e = some (d e) :=
      fun e he => hσ e (List.mem_append_right _ he)
    rw [icS_por_eq] at hfuel ⊢
    rw [tkS_por_eq]
    simp only [List.length_append, List.length_cons] at hfuel
    rw [show (icW σ a ++ ' ' :: ' ' :: 'o' :: 'r' :: ' ' :: ' ' :: icW σ b) ++ suffix
        = icW σ a ++ (' ' :: ' ' :: 'o' :: 'r' :: ' ' :: ' ' :: (icW σ b ++ suffix))
        from by simp,
      tok_icW_of d σ a hσa (iha σ hσa)
        (' ' :: ' ' :: 'o' :: 'r' :: ' ' :: ' ' :: (icW σ b ++ suffix))
        (PyTok.tkor :: (tkW d b ++ rts))
        (by
          intro ch h
          simp only [List.head?_cons, Option.some.injEq] at h
          exact h ▸ (by decide))
        (by
          intro g hg
          simp only [List.length_cons, List.length_append] at hg
          obtain ⟨g2, rfl⟩ : ∃ g2, g = g2 + 5 := ⟨g - 5, by omega⟩
          rw [tok_ormid2 g2,
            tok_icW_of d σ b hσb (ihb σ hσb) suffix rts hhead hsuf g2 (by omega)]
          rfl)
        fuel (by simp only [List.length_cons, List.length_append]; omega)]
    simp
  | pimp a b iha ihb =>
    intro σ hσ suffix rts hhead hsuf fuel hfuel
    have hσa : ∀ e ∈ tvars a, σ e = some (d e) :=
      fun e he => hσ e (List.mem_append_left _ he)
    have hσb : ∀ e ∈ tvars b, σ e = some (d e) :=
      fun e he => hσ e (List.mem_append_right _ he)
    rw [icS_pimp_eq] at hfuel ⊢
    rw [tkS_pimp_eq]
    simp only [List.length_append, List.length_cons, List.length_nil] at hfuel
    obtain ⟨m, rfl⟩ : ∃ m, fuel = m + 3 := ⟨fuel - 3, by omega⟩
    rw [show (('(' :: ('n' :: 'o' :: 't' :: ' ' :: icS σ a)) ++
          (' ' :: 'o' :: 'r' :: ' ' :: icS σ b) ++ [')']) ++ suffix
        = '(' :: ('n' :: 'o' :: 't' :: ' ' ::
            (icS σ a ++ (' ' :: 'o' :: 'r' :: ' ' :: (icS σ b ++ (')' :: suffix)))))
        from by simp,
      tok_lpar (m + 2), tok_notword m,
      iha σ hσa (' ' :: 'o' :: 'r' :: ' ' :: (icS σ b ++ (')' :: suffix)))
        (PyTok.tkor :: (tkS d b ++ (PyTok.rpar :: rts)))
        (by
          intro ch h
          simp only [List.head?_cons, Option.some.injEq] at h
          exact h ▸ (by decide))
        (by
          intro g hg
          simp only [List.length_cons, List.length_append] at hg
          obtain ⟨g2, rfl⟩ : ∃ g2, g = g2 + 3 := ⟨g - 3, by omega⟩
          rw [tok_orseg g2,
            ihb σ hσb (')' :: suffix) (PyTok.rpar :: rts)
              (by
                intro ch h
                simp only [List.head?_cons, Option.some.injEq] at h
                exact h ▸ (by decide))
              (by
                intro g3 hg3
                simp only [List.length_cons] at hg3
                obtain ⟨g4, rfl⟩ : ∃ g4, g3 = g4 + 1 := ⟨g3 - 1, by omega⟩
                rw [tok_rpar g4, hsuf g4 (by omega)]
                rfl)
              g2 (by simp only [List.length_cons]; omega)]
          rfl)
        m (by simp only [List.length_cons, List.length_append]; omega)]
    simp
  | piff a b iha ihb =>
    intro σ hσ suffix rts hhead hsuf fuel hfuel
    have hσa : ∀ e ∈ tvars a, σ e = some (d e) :=
      fun e he => hσ e (List.mem_append_left _ he)
    have hσb : ∀ e ∈ tvars b, σ e = some (d e) :=
      fun e he => hσ e (List.mem_append_right _ he)
    rw [icS_piff_eq] at hfuel ⊢
    rw [tkS_piff_eq]
    simp only [List.length_append, List.length_cons, List.length_nil] at hfuel
    obtain ⟨m, rfl⟩ : ∃ m, fuel = m + 1 := ⟨fuel - 1, by omega⟩
    rw [show (('(' :: icS σ a) ++ (' ' :: '=' :: '=' :: ' ' :: icS σ b) ++ [')']) ++ suffix
        = '(' :: (icS σ a ++ (' ' :: '=' :: '=' :: ' ' :: (icS σ b ++ (')' :: suffix))))
        from by simp,
      tok_lpar m,
      iha σ hσa (' ' :: '=' :: '=' :: ' ' :: (icS σ b ++ (')' :: suffix)))
        (PyTok.eqeq :: (tkS d b ++ (PyTok.rpar :: rts)))
        (by
          intro ch h
          simp only [List.head?_cons, Option.some.injEq] at h
          exact h ▸ (by decide))
        (by
          intro g hg
          simp only [List.length_cons, List.length_append] at hg
          obtain ⟨g2, rfl⟩ : ∃ g2, g = g2 + 3 := ⟨g - 3, by omega⟩
          rw [tok_eqmid g2,
            ihb σ hσb (')' :: suffix) (PyTok.rpar :: rts)
              (by
                intro ch h
                simp only [List.head?_cons, Option.some.injEq] at h
                exact h ▸ (by decide))
              (by
                intro g3 hg3
                simp only [List.length_cons] at hg3
                obtain ⟨g4, rfl⟩ : ∃ g4, g3 = g4 + 1 := ⟨g3 - 1, by omega⟩
                rw [tok_rpar g4, hsuf g4 (by omega)]
                rfl)
              g2 (by simp only [List.length_cons]; omega)]
          rfl)
        m (by simp only [List.length_cons, List.length_append]; omega)]
    simp

end LogicCheck

namespace LogicCheck

theorem tok_idW_of (d : Char → Bool) (σ : Char → Option Bool) (a : PropForm)
    (hσ : ∀ e ∈ tvars a, σ e = some (d e))
    (ha : ∀ (suffix : List Char) (rts : List PyTok),
      (∀ ch, suffix.head? = some ch → ch.isAlpha = false) →
      (∀ g, suffix.length + 1 ≤ g → tokenize g suffix = .ok rts) →
      ∀ fuel, (idS σ a).length + suffix.length + 1 ≤ fuel →
        tokenize fuel (idS σ a ++ suffix) = .ok (tkD d a ++ rts)) :
    ∀ (suffix : List Char) (rts : List PyTok),
      (∀ ch, suffix.head? = some ch → ch.isAlpha = false) →
      (∀ g, suffix.length + 1 ≤ g → tokenize g suffix = .ok rts) →
      ∀ fuel, (idW σ a).length + suffix.length + 1 ≤ fuel →
        tokenize fuel (idW σ a ++ suffix) = .ok (tkDW d a ++ rts) := by
  cases a with
  | var e =>
    intro suffix rts hhead hsuf fuel hfuel
    exact tok_varImg d σ e (hσ e (List.mem_singleton.mpr rfl)) suffix rts hhead hsuf
      fuel hfuel
  | pnot x => exact tok_wrapP _ _ ha
  | pand x y => exact tok_wrapP _ _ ha
  | por x y => exact tok_wrapP _ _ ha
  | pimp x y => exact ha
  | piff x y => exact ha

theorem tok_idS (d : Char → Bool) :
    ∀ (t : PropForm) (σ : Char → Option Bool),
      (∀ e ∈ tvars t, σ e = some (d e)) →
      ∀ (suffix : List Char) (rts : List PyTok),
        (∀ ch, suffix.head? = some ch → ch.isAlpha = false) →
        (∀ g, suffix.length + 1 ≤ g → tokenize g suffix = .ok rts) →
        ∀ fuel, (idS σ t).length + suffix.length + 1 ≤ fuel →
          tokenize fuel (idS σ t ++ suffix) = .ok (tkD d t ++ rts) := by
  intro t
  induction t with
  | var e =>
    intro σ hσ suffix rts hhead hsuf fuel hfuel
    exact tok_varImg d σ e (hσ e (List.mem_singleton.mpr rfl)) suffix rts hhead hsuf
      fuel hfuel
  | pnot a ih =>
    intro σ hσ suffix rts hhead hsuf fuel hfuel
    rw [idS_pnot_eq] at hfuel ⊢
    rw [tkD_pnot_eq]
    simp only [List.length_cons] at hfuel
    obtain ⟨m, rfl⟩ : ∃ m, fuel = m + 3 := ⟨fuel - 3, by omega⟩
    rw [show (' ' :: 'n' :: 'o' :: 't' :: ' ' :: idW σ a) ++ suffix
        = ' ' :: 'n' :: 'o' :: 't' :: ' ' :: (idW σ a ++ suffix) from rfl,
      tok_notmid m,
      tok_idW_of d σ a (fun e he => hσ e he) (ih σ (fun e he => hσ e he)) suffix rts
        hhead hsuf m (by omega)]
    rfl
  | pand a b iha ihb =>
    intro σ hσ suffix rts hhead hsuf fuel hfuel
    have hσa : ∀ e ∈ tvars a, σ e = some (d e) :=
      fun e he => hσ e (List.mem_append_left _ he)
    have hσb : ∀ e ∈ tvars b, σ e = some (d e) :=
      fun e he => hσ e (List.mem_append_right _ he)
    rw [idS_pand_eq] at hfuel ⊢
    rw [tkD_pand_eq]
    simp only [List.length_append, List.length_cons] at hfuel
    rw [show (idW σ a ++ ' ' :: 'a' :: 'n' :: 'd' :: ' ' :: idW σ b) ++ suffix
        = idW σ a ++ (' ' :: 'a' :: 'n' :: 'd' :: ' ' :: (idW σ b ++ suffix)) from by simp,
      tok_idW_of d σ a hσa (iha σ hσa)
        (' ' :: 'a' :: 'n' :: 'd' :: ' ' :: (idW σ b ++ suffix))
        (PyTok.tkand :: (tkDW d b ++ rts))
        (by
          intro ch h
          simp only [List.head?_cons, Option.some.injEq] at h
          exact h ▸ (by decide))
        (by
          intro g hg
          simp only [List.length_cons, List.length_append] at hg
          obtain ⟨g2, rfl⟩ : ∃ g2, g = g2 + 3 := ⟨g - 3, by omega⟩
          rw [tok_andmid g2,
            tok_idW_of d σ b hσb (ihb σ hσb) suffix rts hhead hsuf g2 (by omega)]
          rfl)
        fuel (by simp only [List.length_cons, List.length_append]; omega)]
    simp
  | por a b iha ihb =>
    intro σ hσ suffix rts hhead hsuf fuel hfuel
    have hσa : ∀ e ∈ tvars a, σ e = some (d e) :=
      fun e he => hσ e (List.mem_append_left _ he)
    have hσb : ∀ e ∈ tvars b, σ e = some (d e) :=
      fun e he => hσ e (List.mem_append_right _ he)
    rw [idS_por_eq] at hfuel ⊢
    rw [tkD_por_eq]
    simp only [List.length_append, List.length_cons] at hfuel
    rw [show (idW σ a ++ ' ' :: ' ' :: 'o' :: 'r' :: ' ' :: ' ' :: idW σ b) ++ suffix
        = idW σ a ++ (' ' :: ' ' :: 'o' :: 'r' :: ' ' :: ' ' :: (idW σ b ++ suffix))
        from by simp,
      tok_idW_of d σ a hσa (iha σ hσa)
        (' ' :: ' ' :: 'o' :: 'r' :: ' ' :: ' ' :: (idW σ b ++ suffix))
        (PyTok.tkor :: (tkDW d b ++ rts))
        (by
          intro ch h
          simp only [List.head?_cons, Option.some.injEq] at h
          exact h ▸ (by decide))
        (by
          intro g hg
          simp only [List.length_cons, List.length_append] at hg
          obtain ⟨g2, rfl⟩ : ∃ g2, g = g2 + 5 := ⟨g - 5, by omega⟩
          rw [tok_ormid2 g2,
            tok_idW_of d σ b hσb (ihb σ hσb) suffix rts hhead hsuf g2 (by omega)]
          rfl)
        fuel (by simp only [List.length_cons, List.length_append]; omega)]
    simp
  | pimp a b iha ihb =>
    intro σ hσ suffix rts hhead hsuf fuel hfuel
    have hσa : ∀ e ∈ tvars a, σ e = some (d e) :=
      fun e he => hσ e (List.mem_append_left _ he)
    have hσb : ∀ e ∈ tvars b, σ e = some (d e) :=
      fun e he => hσ e (List.mem_append_right _ he)
    rw [idS_pimp_eq] at hfuel ⊢
    rw [show tkD d (PropForm.pimp a b) = PyTok.lpar :: PyTok.tknot :: tkD d a ++
        (PyTok.tkor :: tkD d b) ++ [PyTok.rpar] from rfl]
    simp only [List.length_append, List.length_cons, List.length_nil] at hfuel
    obtain ⟨m, rfl⟩ : ∃ m, fuel = m + 3 := ⟨fuel - 3, by omega⟩
    rw [show (('(' :: ('n' :: 'o' :: 't' :: ' ' :: idS σ a)) ++
          (' ' :: 'o' :: 'r' :: ' ' :: idS σ b) ++ [')']) ++ suffix
        = '(' :: ('n' :: 'o' :: 't' :: ' ' ::
            (idS σ a ++ (' ' :: 'o' :: 'r' :: ' ' :: (idS σ b ++ (')' :: suffix)))))
        from by simp,
      tok_lpar (m + 2), tok_notword m,
      iha σ hσa (' ' :: 'o' :: 'r' :: ' ' :: (idS σ b ++ (')' :: suffix)))
        (PyTok.tkor :: (tkD d b ++ (PyTok.rpar :: rts)))
        (by
          intro ch h
          simp only [List.head?_cons, Option.some.injEq] at h
          exact h ▸ (by decide))
        (by
          intro g hg
          simp only [List.length_cons, List.length_append] at hg
          obtain ⟨g2, rfl⟩ : ∃ g2, g = g2 + 3 := ⟨g - 3, by omega⟩
          rw [tok_orseg g2,
            ihb σ hσb (')' :: suffix) (PyTok.rpar :: rts)
              (by
                intro ch h
                simp only [List.head?_cons, Option.some.injEq] at h
                exact h ▸ (by decide))
              (by
                intro g3 hg3
                simp only [List.length_cons] at hg3
                obtain ⟨g4, rfl⟩ : ∃ g4, g3 = g4 + 1 := ⟨g3 - 1, by omega⟩
                rw [tok_rpar g4, hsuf g4 (by omega)]
                rfl)
              g2 (by simp only [List.length_cons]; omega)]
          rfl)
        m (by simp only [List.length_cons, List.length_append]; omega)]
    simp
  | piff a b iha ihb =>
    intro σ hσ suffix rts hhead hsuf fuel hfuel
    have hσa : ∀ e ∈ tvars a, σ e = some (d e) :=
      fun e he => hσ e (List.mem_append_left _ he)
    have hσb : ∀ e ∈ tvars b, σ e = some (d e) :=
      fun e he => hσ e (List.mem_append_right _ he)
    rw [idS_piff_eq] at hfuel ⊢
    rw [show tkD d (PropForm.piff a b) = PyTok.lpar :: tkD d a ++
        (PyTok.eqeq :: tkD d b) ++ [PyTok.rpar] from rfl]
    simp only [List.length_append, List.length_cons, List.length_nil] at hfuel
    obtain ⟨m, rfl⟩ : ∃ m, fuel = m + 1 := ⟨fuel - 1, by omega⟩
    rw [show (('(' :: idS σ a) ++ (' ' :: '=' :: '=' :: ' ' :: idS σ b) ++ [')']) ++ suffix
        = '(' :: (idS σ a ++ (' ' :: '=' :: '=' :: ' ' :: (idS σ b ++ (')' :: suffix))))
        from by simp,
      tok_lpar m,
      iha σ hσa (' ' :: '=' :: '=' :: ' ' :: (idS σ b ++ (')' :: suffix)))
        (PyTok.eqeq :: (tkD d b ++ (PyTok.rpar :: rts)))
        (by
          intro ch h
          simp only [List.head?_cons, Option.some.injEq] at h
          exact h ▸ (by decide))
        (by
          intro g hg
          simp only [List.length_cons, List.length_append] at hg
          obtain ⟨g2, rfl⟩ : ∃ g2, g = g2 + 3 := ⟨g - 3, by omega⟩
          rw [tok_eqmid g2,
            ihb σ hσb (')' :: suffix) (PyTok.rpar :: rts)
              (by
                intro ch h
                simp only [List.head?_cons, Option.some.injEq] at h
                exact h ▸ (by decide))
              (by
                intro g3 hg3
                simp only [List.length_cons] at hg3
                obtain ⟨g4, rfl⟩ : ∃ g4, g3 = g4 + 1 := ⟨g3 - 1, by omega⟩
                rw [tok_rpar g4, hsuf g4 (by omega)]
                rfl)
              g2 (by simp only [List.length_cons]; omega)]
          rfl)
        m (by simp only [List.length_cons, List.length_append]; omega)]
    simp

theorem tok_idTop (d : Char → Bool) (t : PropForm) (σ : Char → Option Bool)
    (hσ : ∀ e ∈ tvars t, σ e = some (d e)) :
    ∀ (suffix : List Char) (rts : List PyTok),
      (∀ ch, suffix.head? = some ch → ch.isAlpha = false) →
      (∀ g, suffix.length + 1 ≤ g → tokenize g suffix = .ok rts) →
      ∀ fuel, (idTop σ t).length + suffix.length + 1 ≤ fuel →
        tokenize fuel (idTop σ t ++ suffix) = .ok (tkDTop d t ++ rts) := by
  cases t with
  | var e => exact tok_idS d (PropForm.var e) σ hσ
  | pnot a => exact tok_idS d (PropForm.pnot a) σ hσ
  | pand a b => exact tok_idS d (PropForm.pand a b) σ hσ
  | por a b => exact tok_idS d (PropForm.por a b) σ hσ
  | pimp a b =>
    intro suffix rts hhead hsuf fuel hfuel
    have hσa : ∀ e ∈ tvars a, σ e = some (d e) :=
      fun e he => hσ e (List.mem_append_left _ he)
    have hσb : ∀ e ∈ tvars b, σ e = some (d e) :=
      fun e he => hσ e (List.mem_append_right _ he)
    rw [show idTop σ (PropForm.pimp a b) = ('n' :: 'o' :: 't' :: ' ' :: idS σ a) ++
        (' ' :: 'o' :: 'r' :: ' ' :: idS σ b) from rfl] at hfuel ⊢
    rw [show tkDTop d (PropForm.pimp a b) =
        PyTok.tknot :: tkD d a ++ (PyTok.tkor :: tkD d b) from rfl]
    simp only [List.length_append, List.length_cons] at hfuel
    obtain ⟨m, rfl⟩ : ∃ m, fuel = m + 2 := ⟨fuel - 2, by omega⟩
    rw [show (('n' :: 'o' :: 't' :: ' ' :: idS σ a) ++
          (' ' :: 'o' :: 'r' :: ' ' :: idS σ b)) ++ suffix
        = 'n' :: 'o' :: 't' :: ' ' ::
            (idS σ a ++ (' ' :: 'o' :: 'r' :: ' ' :: (idS σ b ++ suffix))) from by simp,
      tok_notword m,
      tok_idS d a σ hσa (' ' :: 'o' :: 'r' :: ' ' :: (idS σ b ++ suffix))
        (PyTok.tkor :: (tkD d b ++ rts))
        (by
          intro ch h
          simp only [List.head?_cons, Option.some.injEq] at h
          exact h ▸ (by decide))
        (by
          intro g hg
          simp only [List.length_cons, List.length_append] at hg
          obtain ⟨g2, rfl⟩ : ∃ g2, g = g2 + 3 := ⟨g - 3, by omega⟩
          rw [tok_orseg g2, tok_idS d b σ hσb suffix rts hhead hsuf g2 (by omega)]
          rfl)
        m (by simp only [List.length_cons, List.length_append]; omega)]
    simp
  | piff a b =>
    intro suffix rts hhead hsuf fuel hfuel
    have hσa : ∀ e ∈ tvars a, σ e = some (d e) :=
      fun e he => hσ e (List.mem_append_left _ he)
    have hσb : ∀ e ∈ tvars b, σ e = some (d e) :=
      fun e he => hσ e (List.mem_append_right _ he)
    rw [show idTop σ (PropForm.piff a b) = idS σ a ++
        (' ' :: '=' :: '=' :: ' ' :: idS σ b) from rfl] at hfuel ⊢
    rw [show tkDTop d (PropForm.piff a b) = tkD d a ++ (PyTok.eqeq :: tkD d b) from rfl]
    simp only [List.length_append, List.length_cons] at hfuel
    rw [show (idS σ a ++ (' ' :: '=' :: '=' :: ' ' :: idS σ b)) ++ suffix
        = idS σ a ++ (' ' :: '=' :: '=' :: ' ' :: (idS σ b ++ suffix)) from by simp,
      tok_idS d a σ hσa (' ' :: '=' :: '=' :: ' ' :: (idS σ b ++ suffix))
        (PyTok.eqeq :: (tkD d b ++ rts))
        (by
          intro ch h
          simp only [List.head?_cons, Option.some.injEq] at h
          exact h ▸ (by decide))
        (by
          intro g hg
          simp only [List.length_cons, List.length_append] at hg
          obtain ⟨g2, rfl⟩ : ∃ g2, g = g2 + 3 := ⟨g - 3, by omega⟩
          rw [tok_eqmid g2, tok_idS d b σ hσb suffix rts hhead hsuf g2 (by omega)]
          rfl)
        fuel (by simp only [List.length_cons, List.length_append]; omega)]
    simp

end LogicCheck

namespace LogicCheck

/-! ### C9: parsing the substituted token images -/

theorem parseAtom_true (f : Nat) (rest : List PyTok) :
    parseAtom (f + 1) (PyTok.tktrue :: rest) = .ok (true, rest) := rfl

theorem parseAtom_false (f : Nat) (rest : List PyTok) :
    parseAtom (f + 1) (PyTok.tkfalse :: rest) = .ok (false, rest) := rfl

theorem parseAtom_lpar (f : Nat) (rest : List PyTok) :
    parseAtom (f + 1) (PyTok.lpar :: rest) =
      (do
        let (v, rest') ← parseOrE f rest
        match rest' with
        | PyTok.rpar :: rest'' => Except.ok (v, rest'')
        | _ => Except.error "SyntaxError") := rfl

theorem parseAtom_err_not (f : Nat) (rest : List PyTok) :
    parseAtom (f + 1) (PyTok.tknot :: rest) = .error "SyntaxError" := rfl

theorem cmpRest_eq (f : Nat) (acc last : Bool) (rest : List PyTok) :
    parseCmpRest (f + 1) acc last (PyTok.eqeq :: rest) =
      (do
        let (b, rest') ← parseAtom f rest
        parseCmpRest f (acc && (last == b)) b rest') := rfl

theorem cmpRest_stop (f : Nat) (acc last : Bool) (toks : List PyTok)
    (h : toks.head? ≠ some PyTok.eqeq) :
    parseCmpRest (f + 1) acc last toks = .ok (acc, toks) := by
  cases toks with
  | nil => rfl
  | cons x rest => cases x <;> first | rfl | exact absurd rfl h

theorem parseCmp_succ (f : Nat) (toks : List PyTok) :
    parseCmp (f + 1) toks =
      (do
        let (a, rest) ← parseAtom f toks
        match rest with
        | PyTok.eqeq :: _ => parseCmpRest f true a rest
        | _ => Except.ok (a, rest)) := rfl

theorem parseNotE_not (f : Nat) (rest : List PyTok) :
    parseNotE (f + 1) (PyTok.tknot :: rest) =
      (do
        let (b, rest') ← parseNotE f rest
        Except.ok (!b, rest')) := rfl

theorem notE_other (f : Nat) (toks : List PyTok)
    (h : toks.head? ≠ some PyTok.tknot) :
    parseNotE (f + 1) toks = parseCmp f toks := by
  cases toks with
  | nil => rfl
  | cons x rest => cases x <;> first | rfl | exact absurd rfl h

theorem andRest_and (f : Nat) (acc : Bool) (rest : List PyTok) :
    parseAndRest (f + 1) acc (PyTok.tkand :: rest) =
      (do
        let (b, rest') ← parseNotE f rest
        parseAndRest f (acc && b) rest') := rfl

theorem andRest_stop (f : Nat) (acc : Bool) (toks : List PyTok)
    (h : toks.head? ≠ some PyTok.tkand) :
    parseAndRest (f + 1) acc toks = .ok (acc, toks) := by
  cases toks with
  | nil => rfl
  | cons x rest => cases x <;> first | rfl | exact absurd rfl h

theorem parseAndE_succ (f : Nat) (toks : List PyTok) :
    parseAndE (f + 1) toks =
      (do
        let (a, rest) ← parseNotE f toks
        parseAndRest f a rest) := rfl

theorem orRest_or (f : Nat) (acc : Bool) (rest : List PyTok) :
    parseOrRest (f + 1) acc (PyTok.tkor :: rest) =
      (do
        let (b, rest') ← parseAndE f rest
        parseOrRest f (acc || b) rest') := rfl

theorem orRest_stop (f : Nat) (acc : Bool) (toks : List PyTok)
    (h : toks.head? ≠ some PyTok.tkor) :
    parseOrRest (f + 1) acc toks = .ok (acc, toks) := by
  cases toks with
  | nil => rfl
  | cons x rest => cases x <;> first | rfl | exact absurd rfl h

theorem parseOrE_succ (f : Nat) (toks : List PyTok) :
    parseOrE (f + 1) toks =
      (do
        let (a, rest) ← parseAndE f toks
        parseOrRest f a rest) := rfl

theorem atomB_lit (d : Char → Bool) (e : Char) : AtomB [varTok d e] (d e) := by
  intro f rest hf
  obtain ⟨m, rfl⟩ : ∃ m, f = m + 1 := ⟨f - 1, by omega⟩
  cases hde : d e
  · show parseAtom (m + 1) (varTok d e :: rest) = _
    rw [show varTok d e = PyTok.tkfalse from by rw [varTok, hde]; rfl]
    exact parseAtom_false m rest
  · show parseAtom (m + 1) (varTok d e :: rest) = _
    rw [show varTok d e = PyTok.tktrue from by rw [varTok, hde]; rfl]
    exact parseAtom_true m rest

theorem notCmp_atom (T : List PyTok) (v : Bool) (hA : AtomB T v) (hne : T ≠ [])
    (hhd : T.head? ≠ some PyTok.tknot) :
    ∀ f rest, 5 * T.length + 3 ≤ f → rest.head? ≠ some PyTok.eqeq →
      parseNotE f (T ++ rest) = .ok (v, rest) := by
  intro f rest hf hr
  obtain ⟨m, rfl⟩ : ∃ m, f = m + 1 := ⟨f - 1, by omega⟩
  rw [notE_other m _ (by
    cases T with
    | nil => exact absurd rfl hne
    | cons x xs => exact hhd)]
  obtain ⟨k, rfl⟩ : ∃ k, m = k + 1 := ⟨m - 1, by omega⟩
  rw [parseCmp_succ, hA k rest (by omega)]
  show (match rest with
    | PyTok.eqeq :: _ => parseCmpRest k true v rest
    | _ => Except.ok (v, rest)) = _
  cases rest with
  | nil => rfl
  | cons x rest2 => cases x <;> first | rfl | exact absurd rfl hr

theorem andB_atom (T : List PyTok) (v : Bool) (hA : AtomB T v) (hne : T ≠ [])
    (hhd : T.head? ≠ some PyTok.tknot) :
    ∀ f rest, 5 * T.length + 4 ≤ f → rest.head? ≠ some PyTok.eqeq →
      rest.head? ≠ some PyTok.tkand →
      parseAndE f (T ++ rest) = .ok (v, rest) := by
  intro f rest hf hr1 hr2
  obtain ⟨m, rfl⟩ : ∃ m, f = m + 1 := ⟨f - 1, by omega⟩
  rw [parseAndE_succ, notCmp_atom T v hA hne hhd m rest (by omega) hr1]
  obtain ⟨k, rfl⟩ : ∃ k, m = k + 1 := ⟨m - 1, by omega⟩
  show parseAndRest (k + 1) v rest = _
  exact andRest_stop k v rest hr2

theorem orB_of_atom (T : List PyTok) (v : Bool) (hA : AtomB T v) (hne : T ≠ [])
    (hhd : T.head? ≠ some PyTok.tknot) : OrB T v := by
  intro f rest hf hr1 hr2 hr3
  obtain ⟨m, rfl⟩ : ∃ m, f = m + 1 := ⟨f - 1, by omega⟩
  rw [parseOrE_succ, andB_atom T v hA hne hhd m rest (by omega) hr1 hr2]
  obtain ⟨k, rfl⟩ : ∃ k, m = k + 1 := ⟨m - 1, by omega⟩
  show parseOrRest (k + 1) v rest = _
  exact orRest_stop k v rest hr3

theorem notB_notatom (T : List PyTok) (v : Bool) (hA : AtomB T v) (hne : T ≠ [])
    (hhd : T.head? ≠ some PyTok.tknot) :
    ∀ f rest, 5 * T.length + 4 ≤ f → rest.head? ≠ some PyTok.eqeq →
      parseNotE f ((PyTok.tknot :: T) ++ rest) = .ok (!v, rest) := by
  intro f rest hf hr
  obtain ⟨m, rfl⟩ : ∃ m, f = m + 1 := ⟨f - 1, by omega⟩
  show parseNotE (m + 1) (PyTok.tknot :: (T ++ rest)) = _
  rw [parseNotE_not, notCmp_atom T v hA hne hhd m rest (by omega) hr]
  rfl

theorem orB_not (T : List PyTok) (v : Bool) (hA : AtomB T v) (hne : T ≠ [])
    (hhd : T.head? ≠ some PyTok.tknot) : OrB (PyTok.tknot :: T) (!v) := by
  intro f rest hf hr1 hr2 hr3
  simp only [List.length_cons] at hf
  obtain ⟨m, rfl⟩ : ∃ m, f = m + 1 := ⟨f - 1, by omega⟩
  rw [parseOrE_succ]
  have hand : parseAndE m ((PyTok.tknot :: T) ++ rest) = .ok (!v, rest) := by
    obtain ⟨k, rfl⟩ : ∃ k, m = k + 1 := ⟨m - 1, by omega⟩
    rw [parseAndE_succ, notB_notatom T v hA hne hhd k rest (by omega) hr1]
    obtain ⟨j, rfl⟩ : ∃ j, k = j + 1 := ⟨k - 1, by omega⟩
    show parseAndRest (j + 1) (!v) rest = _
    exact andRest_stop j (!v) rest hr2
  rw [hand]
  obtain ⟨k, rfl⟩ : ∃ k, m = k + 1 := ⟨m - 1, by omega⟩
  show parseOrRest (k + 1) (!v) rest = _
  exact orRest_stop k (!v) rest hr3

theorem orB_and (T1 T2 : List PyTok) (v1 v2 : Bool)
    (h1 : AtomB T1 v1) (hne1 : T1 ≠ []) (hhd1 : T1.head? ≠ some PyTok.tknot)
    (h2 : AtomB T2 v2) (hne2 : T2 ≠ []) (hhd2 : T2.head? ≠ some PyTok.tknot) :
    OrB (T1 ++ PyTok.tkand :: T2) (v1 && v2) := by
  intro f rest hf hr1 hr2 hr3
  simp only [List.length_append, List.length_cons] at hf
  obtain ⟨m, rfl⟩ : ∃ m, f = m + 1 := ⟨f - 1, by omega⟩
  rw [parseOrE_succ]
  have hand : parseAndE m ((T1 ++ PyTok.tkand :: T2) ++ rest)
      = .ok (v1 && v2, rest) := by
    obtain ⟨k, rfl⟩ : ∃ k, m = k + 1 := ⟨m - 1, by omega⟩
    rw [show (T1 ++ PyTok.tkand :: T2) ++ rest
        = T1 ++ (PyTok.tkand :: (T2 ++ rest)) from by simp,
      parseAndE_succ,
      notCmp_atom T1 v1 h1 hne1 hhd1 k _ (by omega) (by simp)]
    obtain ⟨j, rfl⟩ : ∃ j, k = j + 1 := ⟨k - 1, by omega⟩
    show parseAndRest (j + 1) v1 (PyTok.tkand :: (T2 ++ rest)) = _
    rw [andRest_and, notCmp_atom T2 v2 h2 hne2 hhd2 j rest (by omega) hr1]
    obtain ⟨i, rfl⟩ : ∃ i, j = i + 1 := ⟨j - 1, by omega⟩
    show parseAndRest (i + 1) (v1 && v2) rest = _
    exact andRest_stop i _ rest hr2
  rw [hand]
  obtain ⟨k2, rfl⟩ : ∃ k2, m = k2 + 1 := ⟨m - 1, by omega⟩
  show parseOrRest (k2 + 1) (v1 && v2) rest = _
  exact orRest_stop k2 _ rest hr3

theorem orB_or (T1 T2 : List PyTok) (v1 v2 : Bool)
    (h1 : AtomB T1 v1) (hne1 : T1 ≠ []) (hhd1 : T1.head? ≠ some PyTok.tknot)
    (h2 : AtomB T2 v2) (hne2 : T2 ≠ []) (hhd2 : T2.head? ≠ some PyTok.tknot) :
    OrB (T1 ++ PyTok.tkor :: T2) (v1 || v2) := by
  intro f rest hf hr1 hr2 hr3
  simp only [List.length_append, List.length_cons] at hf
  obtain ⟨m, rfl⟩ : ∃ m, f = m + 1 := ⟨f - 1, by omega⟩
  rw [show (T1 ++ PyTok.tkor :: T2) ++ rest
      = T1 ++ (PyTok.tkor :: (T2 ++ rest)) from by simp,
    parseOrE_succ,
    andB_atom T1 v1 h1 hne1 hhd1 m _ (by omega) (by simp) (by simp)]
  obtain ⟨k, rfl⟩ : ∃ k, m = k + 1 := ⟨m - 1, by omega⟩
  show parseOrRest (k + 1) v1 (PyTok.tkor :: (T2 ++ rest)) = _
  rw [orRest_or, andB_atom T2 v2 h2 hne2 hhd2 k rest (by omega) hr1 hr2]
  obtain ⟨j, rfl⟩ : ∃ j, k = j + 1 := ⟨k - 1, by omega⟩
  show parseOrRest (j + 1) (v1 || v2) rest = _
  exact orRest_stop j _ rest hr3

theorem atomB_wrap (T : List PyTok) (v : Bool) (hOr : OrB T v) :
    AtomB (PyTok.lpar :: T ++ [PyTok.rpar]) v := by
  intro f rest hf
  simp only [List.length_cons, List.length_append, List.length_nil] at hf
  obtain ⟨m, rfl⟩ : ∃ m, f = m + 1 := ⟨f - 1, by omega⟩
  rw [show (PyTok.lpar :: T ++ [PyTok.rpar]) ++ rest
      = PyTok.lpar :: (T ++ (PyTok.rpar :: rest)) from by simp,
    parseAtom_lpar,
    hOr m (PyTok.rpar :: rest) (by omega) (by simp) (by simp) (by simp)]
  rfl

theorem errAtom_wrap (T : List PyTok) (hOr : OrErrB T) :
    AtomErrB (PyTok.lpar :: T ++ [PyTok.rpar]) := by
  intro f rest hf
  simp only [List.length_cons, List.length_append, List.length_nil] at hf
  obtain ⟨m, rfl⟩ : ∃ m, f = m + 1 := ⟨f - 1, by omega⟩
  obtain ⟨e, he⟩ := hOr m (PyTok.rpar :: rest) (by omega)
  refine ⟨e, ?_⟩
  rw [show (PyTok.lpar :: T ++ [PyTok.rpar]) ++ rest
      = PyTok.lpar :: (T ++ (PyTok.rpar :: rest)) from by simp,
    parseAtom_lpar, he]
  rfl

theorem errNot_atom (T : List PyTok) (hA : AtomErrB T) (hne : T ≠ [])
    (hhd : T.head? ≠ some PyTok.tknot) :
    ∀ f rest, 5 * T.length + 3 ≤ f → ∃ e, parseNotE f (T ++ rest) = .error e := by
  intro f rest hf
  obtain ⟨m, rfl⟩ : ∃ m, f = m + 1 := ⟨f - 1, by omega⟩
  rw [notE_other m _ (by
    cases T with
    | nil => exact absurd rfl hne
    | cons x xs => exact hhd)]
  obtain ⟨k, rfl⟩ : ∃ k, m = k + 1 := ⟨m - 1, by omega⟩
  obtain ⟨e, he⟩ := hA k rest (by omega)
  exact ⟨e, by rw [parseCmp_succ, he]; rfl⟩

theorem errOr_atom (T : List PyTok) (hA : AtomErrB T) (hne : T ≠ [])
    (hhd : T.head? ≠ some PyTok.tknot) : OrErrB T := by
  intro f rest hf
  obtain ⟨m, rfl⟩ : ∃ m, f = m + 2 := ⟨f - 2, by omega⟩
  obtain ⟨e, he⟩ := errNot_atom T hA hne hhd m rest (by omega)
  refine ⟨e, ?_⟩
  show parseOrE (m + 1 + 1) (T ++ rest) = _
  rw [parseOrE_succ, parseAndE_succ, he]
  rfl

theorem cmpRest_chain_atom (WB : List PyTok) (vb : Bool) (hB : AtomB WB vb) :
    ∀ f acc last rest, 5 * WB.length + 2 ≤ f → rest.head? ≠ some PyTok.eqeq →
      parseCmpRest f acc last ((PyTok.eqeq :: WB) ++ rest) =
        .ok (acc && (last == vb), rest) := by
  intro f acc last rest hf hr
  obtain ⟨m, rfl⟩ : ∃ m, f = m + 1 := ⟨f - 1, by omega⟩
  show parseCmpRest (m + 1) acc last (PyTok.eqeq :: (WB ++ rest)) = _
  rw [cmpRest_eq, hB m rest (by omega)]
  obtain ⟨k, rfl⟩ : ∃ k, m = k + 1 := ⟨m - 1, by omega⟩
  show parseCmpRest (k + 1) (acc && (last == vb)) vb rest = _
  exact cmpRest_stop k _ vb rest hr

theorem cmpRest_chain_err (X : List PyTok) :
    ∀ f acc last rest, 2 ≤ f →
      ∃ e, parseCmpRest f acc last ((PyTok.eqeq :: PyTok.tknot :: X) ++ rest)
        = .error e := by
  intro f acc last rest hf
  obtain ⟨m, rfl⟩ : ∃ m, f = m + 2 := ⟨f - 2, by omega⟩
  refine ⟨"SyntaxError", ?_⟩
  show parseCmpRest (m + 1 + 1) acc last
    (PyTok.eqeq :: (PyTok.tknot :: (X ++ rest))) = _
  rw [cmpRest_eq, parseAtom_err_not]
  rfl

theorem cmpRest_chain_errAtom (WB : List PyTok) (hB : AtomErrB WB) :
    ∀ f acc last rest, 5 * WB.length + 2 ≤ f →
      ∃ e, parseCmpRest f acc last ((PyTok.eqeq :: WB) ++ rest) = .error e := by
  intro f acc last rest hf
  obtain ⟨m, rfl⟩ : ∃ m, f = m + 1 := ⟨f - 1, by omega⟩
  obtain ⟨e, he⟩ := hB m rest (by omega)
  refine ⟨e, ?_⟩
  show parseCmpRest (m + 1) acc last (PyTok.eqeq :: (WB ++ rest)) = _
  rw [cmpRest_eq, he]
  rfl

end LogicCheck

namespace LogicCheck

theorem segW_var_eq (d : Char → Bool) (W : PropForm → List PyTok) (c : Char) :
    segW d W (PropForm.var c) = [varTok d c] := rfl

theorem segW_pnot_eq (d : Char → Bool) (W : PropForm → List PyTok) (a : PropForm) :
    segW d W (PropForm.pnot a) = PyTok.tknot :: W a := rfl

theorem segW_pand_eq (d : Char → Bool) (W : PropForm → List PyTok) (a b : PropForm) :
    segW d W (PropForm.pand a b) = W a ++ PyTok.tkand :: W b := rfl

theorem segW_por_eq (d : Char → Bool) (W : PropForm → List PyTok) (a b : PropForm) :
    segW d W (PropForm.por a b) = W a ++ PyTok.tkor :: W b := rfl

theorem segW_pimp_eq (d : Char → Bool) (W : PropForm → List PyTok) (a b : PropForm) :
    segW d W (PropForm.pimp a b) =
      PyTok.lpar :: PyTok.tknot :: segW d W a ++ (PyTok.tkor :: segW d W b)
        ++ [PyTok.rpar] := rfl

theorem segW_piff_eq (d : Char → Bool) (W : PropForm → List PyTok) (a b : PropForm) :
    segW d W (PropForm.piff a b) =
      PyTok.lpar :: segW d W a ++ (PyTok.eqeq :: segW d W b) ++ [PyTok.rpar] := rfl

theorem varTok_ne_not (d : Char → Bool) (c : Char) :
    ([varTok d c] : List PyTok).head? ≠ some PyTok.tknot := by
  cases hdc : d c <;> simp [varTok, hdc]

theorem segW_impiff_head (d : Char → Bool) (W : PropForm → List PyTok) (s : PropForm)
    (hi : isImpIff s = true) :
    segW d W s ≠ [] ∧ (segW d W s).head? ≠ some PyTok.tknot := by
  cases s with
  | pimp a b =>
    rw [segW_pimp_eq]
    exact ⟨by simp, by simp⟩
  | piff a b =>
    rw [segW_piff_eq]
    exact ⟨by simp, by simp⟩
  | var c => simp [isImpIff] at hi
  | pnot a => simp [isImpIff] at hi
  | pand a b => simp [isImpIff] at hi
  | por a b => simp [isImpIff] at hi

theorem W_facts (d : Char → Bool) (W : PropForm → List PyTok)
    (HW : ∀ s, W s = PyTok.lpar :: segW d W s ++ [PyTok.rpar] ∨
      (isImpIff s = true ∧ W s = segW d W s) ∨
      (∃ c, s = PropForm.var c ∧ W s = [varTok d c])) (s : PropForm) :
    W s ≠ [] ∧ (W s).head? ≠ some PyTok.tknot := by
  rcases HW s with h | ⟨hi, h⟩ | ⟨c, rfl, h⟩
  · rw [h]
    exact ⟨by simp, by simp⟩
  · rw [h]
    exact segW_impiff_head d W s hi
  · rw [h]
    exact ⟨by simp, varTok_ne_not d c⟩

theorem pv_var (d : Char → Bool) (c : Char) : pv d (PropForm.var c) = d c := rfl

theorem pv_pnot (d : Char → Bool) (a : PropForm) :
    pv d (PropForm.pnot a) = !(pv d a) := rfl

theorem pv_pand (d : Char → Bool) (a b : PropForm) :
    pv d (PropForm.pand a b) = (pv d a && pv d b) := rfl

theorem pv_por (d : Char → Bool) (a b : PropForm) :
    pv d (PropForm.por a b) = (pv d a || pv d b) := rfl

theorem pv_pimp (d : Char → Bool) (a b : PropForm) :
    pv d (PropForm.pimp a b) = ((pvP d a).nh || pv d b) := rfl

theorem pv_piff (d : Char → Bool) (a b : PropForm) :
    pv d (PropForm.piff a b) =
      (pvP d b).orTail ((pvP d a).orCtx ((pvP d b).andTail
        ((pvP d a).chainL (pvP d b).hb))) := rfl

theorem nh_var (d : Char → Bool) (c : Char) : (pvP d (PropForm.var c)).nh = !(d c) := rfl

theorem nh_pnot (d : Char → Bool) (a : PropForm) :
    (pvP d (PropForm.pnot a)).nh = pv d a := rfl

theorem nh_pand (d : Char → Bool) (a b : PropForm) :
    (pvP d (PropForm.pand a b)).nh = (!(pv d a) && pv d b) := rfl

theorem nh_por (d : Char → Bool) (a b : PropForm) :
    (pvP d (PropForm.por a b)).nh = (!(pv d a) || pv d b) := rfl

theorem nh_pimp (d : Char → Bool) (a b : PropForm) :
    (pvP d (PropForm.pimp a b)).nh = !(pv d (PropForm.pimp a b)) := rfl

theorem nh_piff (d : Char → Bool) (a b : PropForm) :
    (pvP d (PropForm.piff a b)).nh = !(pv d (PropForm.piff a b)) := rfl

end LogicCheck

namespace LogicCheck

theorem pok_atomW (d : Char → Bool) (W : PropForm → List PyTok) (s : PropForm)
    (h : ParseOK d W s) (hs : safe s = true) : AtomB (W s) (pv d s) := (h.1 hs).1

theorem pok_orseg (d : Char → Bool) (W : PropForm → List PyTok) (s : PropForm)
    (h : ParseOK d W s) (hs : safe s = true) : OrB (segW d W s) (pv d s) := (h.1 hs).2.1

theorem pok_atomseg (d : Char → Bool) (W : PropForm → List PyTok) (s : PropForm)
    (h : ParseOK d W s) (hs : safe s = true) (hi : isImpIff s = true) :
    AtomB (segW d W s) (pv d s) := (h.1 hs).2.2 hi

theorem pok_errW (d : Char → Bool) (W : PropForm → List PyTok) (s : PropForm)
    (h : ParseOK d W s) (hs : safe s = false) : AtomErrB (W s) := (h.2 hs).1

theorem pok_errseg (d : Char → Bool) (W : PropForm → List PyTok) (s : PropForm)
    (h : ParseOK d W s) (hs : safe s = false) : OrErrB (segW d W s) := (h.2 hs).2.1

theorem pok_erratomseg (d : Char → Bool) (W : PropForm → List PyTok) (s : PropForm)
    (h : ParseOK d W s) (hs : safe s = false) (hi : isImpIff s = true) :
    AtomErrB (segW d W s) := (h.2 hs).2.2 hi

theorem safe_pand_iff (a b : PropForm) (h : safe (PropForm.pand a b) = true) :
    safe a = true ∧ safe b = true := by
  simp only [safe, Bool.and_eq_true] at h
  exact h

theorem safe_por_iff (a b : PropForm) (h : safe (PropForm.por a b) = true) :
    safe a = true ∧ safe b = true := by
  simp only [safe, Bool.and_eq_true] at h
  exact h

theorem safe_pimp_iff (a b : PropForm) (h : safe (PropForm.pimp a b) = true) :
    safe a = true ∧ safe b = true := by
  simp only [safe, Bool.and_eq_true] at h
  exact h

theorem safe_piff_iff (a b : PropForm) (h : safe (PropForm.piff a b) = true) :
    safe a = true ∧ safe b = true ∧ isNotNode b = false := by
  simp only [safe, Bool.and_eq_true, Bool.not_eq_true'] at h
  exact ⟨h.1.1, h.1.2, h.2⟩

theorem andB_not (T : List PyTok) (v : Bool) (hA : AtomB T v) (hne : T ≠ [])
    (hhd : T.head? ≠ some PyTok.tknot) :
    ∀ f rest, 5 * T.length + 6 ≤ f → rest.head? ≠ some PyTok.eqeq →
      rest.head? ≠ some PyTok.tkand →
      parseAndE f ((PyTok.tknot :: T) ++ rest) = .ok (!v, rest) := by
  intro f rest hf hr1 hr2
  obtain ⟨k, rfl⟩ : ∃ k, f = k + 1 := ⟨f - 1, by omega⟩
  rw [parseAndE_succ, notB_notatom T v hA hne hhd k rest (by omega) hr1]
  obtain ⟨j, rfl⟩ : ∃ j, k = j + 1 := ⟨k - 1, by omega⟩
  show parseAndRest (j + 1) (!v) rest = _
  exact andRest_stop j (!v) rest hr2

theorem andB_and (T1 T2 : List PyTok) (v1 v2 : Bool)
    (h1 : AtomB T1 v1) (hne1 : T1 ≠ []) (hhd1 : T1.head? ≠ some PyTok.tknot)
    (h2 : AtomB T2 v2) (hne2 : T2 ≠ []) (hhd2 : T2.head? ≠ some PyTok.tknot) :
    ∀ f rest, 5 * (T1.length + T2.length) + 10 ≤ f →
      rest.head? ≠ some PyTok.eqeq → rest.head? ≠ some PyTok.tkand →
      parseAndE f ((T1 ++ PyTok.tkand :: T2) ++ rest) = .ok (v1 && v2, rest) := by
  intro f rest hf hr1 hr2
  obtain ⟨k, rfl⟩ : ∃ k, f = k + 1 := ⟨f - 1, by omega⟩
  rw [show (T1 ++ PyTok.tkand :: T2) ++ rest
      = T1 ++ (PyTok.tkand :: (T2 ++ rest)) from by simp,
    parseAndE_succ,
    notCmp_atom T1 v1 h1 hne1 hhd1 k _ (by omega) (by simp)]
  obtain ⟨j, rfl⟩ : ∃ j, k = j + 1 := ⟨k - 1, by omega⟩
  show parseAndRest (j + 1) v1 (PyTok.tkand :: (T2 ++ rest)) = _
  rw [andRest_and, notCmp_atom T2 v2 h2 hne2 hhd2 j rest (by omega) hr1]
  obtain ⟨i, rfl⟩ : ∃ i, j = i + 1 := ⟨j - 1, by omega⟩
  show parseAndRest (i + 1) (v1 && v2) rest = _
  exact andRest_stop i _ rest hr2

theorem segW_notAnd (d : Char → Bool) (W : PropForm → List PyTok)
    (HW : ∀ s, W s = PyTok.lpar :: segW d W s ++ [PyTok.rpar] ∨
      (isImpIff s = true ∧ W s = segW d W s) ∨
      (∃ c, s = PropForm.var c ∧ W s = [varTok d c]))
    (a : PropForm) (hsub : ∀ s, sizeOf s ≤ sizeOf a → ParseOK d W s)
    (hs : safe a = true) :
    ∀ f rest, 5 * (segW d W a).length + 10 ≤ f →
      rest.head? ≠ some PyTok.eqeq → rest.head? ≠ some PyTok.tkand →
      parseAndE f ((PyTok.tknot :: segW d W a) ++ rest) =
        (match a with
          | PropForm.por x y => .ok (!(pv d x), PyTok.tkor :: (W y ++ rest))
          | _ => .ok ((pvP d a).nh, rest)) := by
  intro f rest hf hr1 hr2
  cases a with
  | var c =>
    exact andB_not [varTok d c] (d c) (atomB_lit d c) (by simp) (varTok_ne_not d c)
      f rest
      (by simp only [segW_var_eq, List.length_cons, List.length_nil] at hf ⊢; omega)
      hr1 hr2
  | pnot x =>
    show parseAndE f ((PyTok.tknot :: segW d W (PropForm.pnot x)) ++ rest)
        = Except.ok ((pvP d (PropForm.pnot x)).nh, rest)
    rw [segW_pnot_eq] at hf ⊢
    simp only [List.length_cons] at hf
    have hx := pok_atomW d W x (hsub x (by simp only [PropForm.pnot.sizeOf_spec]; omega)) hs
    obtain ⟨hxne, hxhd⟩ := W_facts d W HW x
    obtain ⟨k, rfl⟩ : ∃ k, f = k + 1 := ⟨f - 1, by omega⟩
    obtain ⟨j, rfl⟩ : ∃ j, k = j + 1 := ⟨k - 1, by omega⟩
    rw [show (PyTok.tknot :: (PyTok.tknot :: W x)) ++ rest
        = PyTok.tknot :: ((PyTok.tknot :: W x) ++ rest) from rfl,
      parseAndE_succ, parseNotE_not,
      notB_notatom (W x) (pv d x) hx hxne hxhd j rest (by omega) hr1]
    show parseAndRest (j + 1) (!!(pv d x)) rest = _
    rw [Bool.not_not]
    exact andRest_stop j _ rest hr2
  | pand x y =>
    show parseAndE f ((PyTok.tknot :: segW d W (PropForm.pand x y)) ++ rest)
        = Except.ok ((pvP d (PropForm.pand x y)).nh, rest)
    rw [segW_pand_eq] at hf ⊢
    simp only [List.length_append, List.length_cons] at hf
    obtain ⟨hsx, hsy⟩ := safe_pand_iff x y hs
    have hx := pok_atomW d W x
      (hsub x (by simp only [PropForm.pand.sizeOf_spec]; omega)) hsx
    have hy := pok_atomW d W y
      (hsub y (by simp only [PropForm.pand.sizeOf_spec]; omega)) hsy
    obtain ⟨hxne, hxhd⟩ := W_facts d W HW x
    obtain ⟨hyne, hyhd⟩ := W_facts d W HW y
    obtain ⟨k, rfl⟩ : ∃ k, f = k + 1 := ⟨f - 1, by omega⟩
    obtain ⟨j, rfl⟩ : ∃ j, k = j + 1 := ⟨k - 1, by omega⟩
    rw [show (PyTok.tknot :: (W x ++ PyTok.tkand :: W y)) ++ rest
        = PyTok.tknot :: (W x ++ (PyTok.tkand :: (W y ++ rest))) from by simp,
      parseAndE_succ, parseNotE_not,
      notCmp_atom (W x) (pv d x) hx hxne hxhd j _ (by omega) (by simp)]
    show parseAndRest (j + 1) (!(pv d x)) (PyTok.tkand :: (W y ++ rest)) = _
    rw [andRest_and, notCmp_atom (W y) (pv d y) hy hyne hyhd j rest (by omega) hr1]
    obtain ⟨i, rfl⟩ : ∃ i, j = i + 1 := ⟨j - 1, by omega⟩
    show parseAndRest (i + 1) (!(pv d x) && pv d y) rest = _
    exact andRest_stop i _ rest hr2
  | por x y =>
    show parseAndE f ((PyTok.tknot :: segW d W (PropForm.por x y)) ++ rest)
        = Except.ok (!(pv d x), PyTok.tkor :: (W y ++ rest))
    rw [segW_por_eq] at hf ⊢
    simp only [List.length_append, List.length_cons] at hf
    obtain ⟨hsx, hsy⟩ := safe_por_iff x y hs
    have hx := pok_atomW d W x
      (hsub x (by simp only [PropForm.por.sizeOf_spec]; omega)) hsx
    obtain ⟨hxne, hxhd⟩ := W_facts d W HW x
    obtain ⟨k, rfl⟩ : ∃ k, f = k + 1 := ⟨f - 1, by omega⟩
    obtain ⟨j, rfl⟩ : ∃ j, k = j + 1 := ⟨k - 1, by omega⟩
    rw [show (PyTok.tknot :: (W x ++ PyTok.tkor :: W y)) ++ rest
        = PyTok.tknot :: (W x ++ (PyTok.tkor :: (W y ++ rest))) from by simp,
      parseAndE_succ, parseNotE_not,
      notCmp_atom (W x) (pv d x) hx hxne hxhd j _ (by omega) (by simp)]
    show parseAndRest (j + 1) (!(pv d x)) (PyTok.tkor :: (W y ++ rest)) = _
    exact andRest_stop j _ _ (by simp)
  | pimp x y =>
    have ha := pok_atomseg d W (PropForm.pimp x y) (hsub _ (by omega)) hs rfl
    obtain ⟨hne, hhd⟩ := segW_impiff_head d W (PropForm.pimp x y) rfl
    exact andB_not _ _ ha hne hhd f rest (by omega) hr1 hr2
  | piff x y =>
    have ha := pok_atomseg d W (PropForm.piff x y) (hsub _ (by omega)) hs rfl
    obtain ⟨hne, hhd⟩ := segW_impiff_head d W (PropForm.piff x y) rfl
    exact andB_not _ _ ha hne hhd f rest (by omega) hr1 hr2

theorem segW_orCont (d : Char → Bool) (W : PropForm → List PyTok)
    (HW : ∀ s, W s = PyTok.lpar :: segW d W s ++ [PyTok.rpar] ∨
      (isImpIff s = true ∧ W s = segW d W s) ∨
      (∃ c, s = PropForm.var c ∧ W s = [varTok d c]))
    (b : PropForm) (hsub : ∀ s, sizeOf s ≤ sizeOf b → ParseOK d W s)
    (hs : safe b = true) :
    ∀ f acc rest, 5 * (segW d W b).length + 10 ≤ f →
      rest.head? ≠ some PyTok.eqeq → rest.head? ≠ some PyTok.tkand →
      rest.head? ≠ some PyTok.tkor →
      parseOrRest f acc ((PyTok.tkor :: segW d W b) ++ rest) =
        .ok (acc || pv d b, rest) := by
  intro f acc rest hf hr1 hr2 hr3
  obtain ⟨k, rfl⟩ : ∃ k, f = k + 1 := ⟨f - 1, by omega⟩
  show parseOrRest (k + 1) acc (PyTok.tkor :: (segW d W b ++ rest)) = _
  rw [orRest_or]
  cases b with
  | var c =>
    simp only [segW_var_eq, List.length_cons, List.length_nil] at hf
    rw [show segW d W (PropForm.var c) ++ rest = [varTok d c] ++ rest from rfl,
      andB_atom [varTok d c] (d c) (atomB_lit d c) (by simp) (varTok_ne_not d c)
        k rest (by simp only [List.length_cons, List.length_nil]; omega) hr1 hr2]
    obtain ⟨j, rfl⟩ : ∃ j, k = j + 1 := ⟨k - 1, by omega⟩
    show parseOrRest (j + 1) (acc || d c) rest = _
    exact orRest_stop j _ rest hr3
  | pnot x =>
    simp only [segW_pnot_eq, List.length_cons] at hf
    have hx := pok_atomW d W x (hsub x (by simp only [PropForm.pnot.sizeOf_spec]; omega)) hs
    obtain ⟨hxne, hxhd⟩ := W_facts d W HW x
    rw [show segW d W (PropForm.pnot x) ++ rest = (PyTok.tknot :: W x) ++ rest from rfl,
      andB_not (W x) (pv d x) hx hxne hxhd k rest (by omega) hr1 hr2]
    obtain ⟨j, rfl⟩ : ∃ j, k = j + 1 := ⟨k - 1, by omega⟩
    show parseOrRest (j + 1) (acc || !(pv d x)) rest = _
    exact orRest_stop j _ rest hr3
  | pand x y =>
    simp only [segW_pand_eq, List.length_append, List.length_cons] at hf
    obtain ⟨hsx, hsy⟩ := safe_pand_iff x y hs
    have hx := pok_atomW d W x
      (hsub x (by simp only [PropForm.pand.sizeOf_spec]; omega)) hsx
    have hy := pok_atomW d W y
      (hsub y (by simp only [PropForm.pand.sizeOf_spec]; omega)) hsy
    obtain ⟨hxne, hxhd⟩ := W_facts d W HW x
    obtain ⟨hyne, hyhd⟩ := W_facts d W HW y
    rw [show segW d W (PropForm.pand x y) ++ rest
        = (W x ++ PyTok.tkand :: W y) ++ rest from rfl,
      andB_and (W x) (W y) (pv d x) (pv d y) hx hxne hxhd hy hyne hyhd
        k rest (by omega) hr1 hr2]
    obtain ⟨j, rfl⟩ : ∃ j, k = j + 1 := ⟨k - 1, by omega⟩
    show parseOrRest (j + 1) (acc || (pv d x && pv d y)) rest = _
    exact orRest_stop j _ rest hr3
  | por x y =>
    simp only [segW_por_eq, List.length_append, List.length_cons] at hf
    obtain ⟨hsx, hsy⟩ := safe_por_iff x y hs
    have hx := pok_atomW d W x
      (hsub x (by simp only [PropForm.por.sizeOf_spec]; omega)) hsx
    have hy := pok_atomW d W y
      (hsub y (by simp only [PropForm.por.sizeOf_spec]; omega)) hsy
    obtain ⟨hxne, hxhd⟩ := W_facts d W HW x
    obtain ⟨hyne, hyhd⟩ := W_facts d W HW y
    rw [show segW d W (PropForm.por x y) ++ rest
        = W x ++ (PyTok.tkor :: (W y ++ rest)) from by rw [segW_por_eq]; simp,
      andB_atom (W x) (pv d x) hx hxne hxhd k _ (by omega) (by simp) (by simp)]
    obtain ⟨j, rfl⟩ : ∃ j, k = j + 1 := ⟨k - 1, by omega⟩
    show parseOrRest (j + 1) (acc || pv d x) (PyTok.tkor :: (W y ++ rest)) = _
    rw [orRest_or,
      andB_atom (W y) (pv d y) hy hyne hyhd j rest (by omega) hr1 hr2]
    obtain ⟨i, rfl⟩ : ∃ i, j = i + 1 := ⟨j - 1, by omega⟩
    show parseOrRest (i + 1) ((acc || pv d x) || pv d y) rest = _
    rw [orRest_stop i _ rest hr3, pv_por, Bool.or_assoc]
  | pimp x y =>
    have ha := pok_atomseg d W (PropForm.pimp x y) (hsub _ (by omega)) hs rfl
    obtain ⟨hne, hhd⟩ := segW_impiff_head d W (PropForm.pimp x y) rfl
    rw [andB_atom _ _ ha hne hhd k rest (by omega) hr1 hr2]
    obtain ⟨j, rfl⟩ : ∃ j, k = j + 1 := ⟨k - 1, by omega⟩
    show parseOrRest (j + 1) (acc || pv d (PropForm.pimp x y)) rest = _
    exact orRest_stop j _ rest hr3
  | piff x y =>
    have ha := pok_atomseg d W (PropForm.piff x y) (hsub _ (by omega)) hs rfl
    obtain ⟨hne, hhd⟩ := segW_impiff_head d W (PropForm.piff x y) rfl
    rw [andB_atom _ _ ha hne hhd k rest (by omega) hr1 hr2]
    obtain ⟨j, rfl⟩ : ∃ j, k = j + 1 := ⟨k - 1, by omega⟩
    show parseOrRest (j + 1) (acc || pv d (PropForm.piff x y)) rest = _
    exact orRest_stop j _ rest hr3

end LogicCheck

namespace LogicCheck

theorem segW_chain (d : Char → Bool) (W : PropForm → List PyTok)
    (HW : ∀ s, W s = PyTok.lpar :: segW d W s ++ [PyTok.rpar] ∨
      (isImpIff s = true ∧ W s = segW d W s) ∨
      (∃ c, s = PropForm.var c ∧ W s = [varTok d c]))
    (b : PropForm) (hsub : ∀ s, sizeOf s ≤ sizeOf b → ParseOK d W s)
    (hsb : safe b = true) (hnb : isNotNode b = false) :
    ∀ f acc last rest, 5 * (segW d W b).length + 10 ≤ f →
      rest.head? ≠ some PyTok.eqeq →
      parseCmpRest f acc last ((PyTok.eqeq :: segW d W b) ++ rest) =
        .ok (acc && (last == (pvP d b).hb), chainTail W rest b) := by
  intro f acc last rest hf hr1
  cases b with
  | var c =>
    exact cmpRest_chain_atom [varTok d c] (d c) (atomB_lit d c) f acc last rest
      (by simp only [segW_var_eq, List.length_cons, List.length_nil] at hf ⊢; omega) hr1
  | pnot x => simp [isNotNode] at hnb
  | pand x y =>
    show parseCmpRest f acc last ((PyTok.eqeq :: segW d W (PropForm.pand x y)) ++ rest)
        = Except.ok (acc && (last == pv d x), PyTok.tkand :: (W y ++ rest))
    rw [segW_pand_eq] at hf ⊢
    simp only [List.length_append, List.length_cons] at hf
    obtain ⟨hsx, hsy⟩ := safe_pand_iff x y hsb
    have hx := pok_atomW d W x
      (hsub x (by simp only [PropForm.pand.sizeOf_spec]; omega)) hsx
    obtain ⟨m, rfl⟩ : ∃ m, f = m + 1 := ⟨f - 1, by omega⟩
    rw [show (PyTok.eqeq :: (W x ++ PyTok.tkand :: W y)) ++ rest
        = PyTok.eqeq :: (W x ++ (PyTok.tkand :: (W y ++ rest))) from by simp,
      cmpRest_eq, hx m _ (by omega)]
    obtain ⟨k, rfl⟩ : ∃ k, m = k + 1 := ⟨m - 1, by omega⟩
    show parseCmpRest (k + 1) (acc && (last == pv d x)) (pv d x)
      (PyTok.tkand :: (W y ++ rest)) = _
    exact cmpRest_stop k _ _ _ (by simp)
  | por x y =>
    show parseCmpRest f acc last ((PyTok.eqeq :: segW d W (PropForm.por x y)) ++ rest)
        = Except.ok (acc && (last == pv d x), PyTok.tkor :: (W y ++ rest))
    rw [segW_por_eq] at hf ⊢
    simp only [List.length_append, List.length_cons] at hf
    obtain ⟨hsx, hsy⟩ := safe_por_iff x y hsb
    have hx := pok_atomW d W x
      (hsub x (by simp only [PropForm.por.sizeOf_spec]; omega)) hsx
    obtain ⟨m, rfl⟩ : ∃ m, f = m + 1 := ⟨f - 1, by omega⟩
    rw [show (PyTok.eqeq :: (W x ++ PyTok.tkor :: W y)) ++ rest
        = PyTok.eqeq :: (W x ++ (PyTok.tkor :: (W y ++ rest))) from by simp,
      cmpRest_eq, hx m _ (by omega)]
    obtain ⟨k, rfl⟩ : ∃ k, m = k + 1 := ⟨m - 1, by omega⟩
    show parseCmpRest (k + 1) (acc && (last == pv d x)) (pv d x)
      (PyTok.tkor :: (W y ++ rest)) = _
    exact cmpRest_stop k _ _ _ (by simp)
  | pimp x y =>
    have ha := pok_atomseg d W (PropForm.pimp x y) (hsub _ (by omega)) hsb rfl
    exact cmpRest_chain_atom _ _ ha f acc last rest (by omega) hr1
  | piff x y =>
    have ha := pok_atomseg d W (PropForm.piff x y) (hsub _ (by omega)) hsb rfl
    exact cmpRest_chain_atom _ _ ha f acc last rest (by omega) hr1

theorem segW_tailAnd (d : Char → Bool) (W : PropForm → List PyTok)
    (HW : ∀ s, W s = PyTok.lpar :: segW d W s ++ [PyTok.rpar] ∨
      (isImpIff s = true ∧ W s = segW d W s) ∨
      (∃ c, s = PropForm.var c ∧ W s = [varTok d c]))
    (b : PropForm) (hsub : ∀ s, sizeOf s ≤ sizeOf b → ParseOK d W s)
    (hsb : safe b = true) :
    ∀ f acc rest, 5 * (segW d W b).length + 10 ≤ f →
      rest.head? ≠ some PyTok.eqeq → rest.head? ≠ some PyTok.tkand →
      parseAndRest f acc (chainTail W rest b) =
        .ok ((pvP d b).andTail acc, orTailSeg W rest b) := by
  intro f acc rest hf hr1 hr2
  cases b with
  | var c =>
    obtain ⟨m, rfl⟩ : ∃ m, f = m + 1 := ⟨f - 1, by omega⟩
    exact andRest_stop m acc rest hr2
  | pnot x =>
    obtain ⟨m, rfl⟩ : ∃ m, f = m + 1 := ⟨f - 1, by omega⟩
    exact andRest_stop m acc rest hr2
  | pand x y =>
    rw [segW_pand_eq] at hf
    simp only [List.length_append, List.length_cons] at hf
    obtain ⟨hsx, hsy⟩ := safe_pand_iff x y hsb
    have hy := pok_atomW d W y
      (hsub y (by simp only [PropForm.pand.sizeOf_spec]; omega)) hsy
    obtain ⟨hyne, hyhd⟩ := W_facts d W HW y
    obtain ⟨m, rfl⟩ : ∃ m, f = m + 1 := ⟨f - 1, by omega⟩
    show parseAndRest (m + 1) acc (PyTok.tkand :: (W y ++ rest))
        = Except.ok (acc && pv d y, rest)
    rw [andRest_and, notCmp_atom (W y) (pv d y) hy hyne hyhd m rest (by omega) hr1]
    obtain ⟨k, rfl⟩ : ∃ k, m = k + 1 := ⟨m - 1, by omega⟩
    show parseAndRest (k + 1) (acc && pv d y) rest = _
    exact andRest_stop k _ rest hr2
  | por x y =>
    obtain ⟨m, rfl⟩ : ∃ m, f = m + 1 := ⟨f - 1, by omega⟩
    show parseAndRest (m + 1) acc (PyTok.tkor :: (W y ++ rest))
        = Except.ok (acc, PyTok.tkor :: (W y ++ rest))
    exact andRest_stop m acc _ (by simp)
  | pimp x y =>
    obtain ⟨m, rfl⟩ : ∃ m, f = m + 1 := ⟨f - 1, by omega⟩
    exact andRest_stop m acc rest hr2
  | piff x y =>
    obtain ⟨m, rfl⟩ : ∃ m, f = m + 1 := ⟨f - 1, by omega⟩
    exact andRest_stop m acc rest hr2

theorem segW_tailOr (d : Char → Bool) (W : PropForm → List PyTok)
    (HW : ∀ s, W s = PyTok.lpar :: segW d W s ++ [PyTok.rpar] ∨
      (isImpIff s = true ∧ W s = segW d W s) ∨
      (∃ c, s = PropForm.var c ∧ W s = [varTok d c]))
    (b : PropForm) (hsub : ∀ s, sizeOf s ≤ sizeOf b → ParseOK d W s)
    (hsb : safe b = true) :
    ∀ f acc rest, 5 * (segW d W b).length + 10 ≤ f →
      rest.head? ≠ some PyTok.eqeq → rest.head? ≠ some PyTok.tkand →
      rest.head? ≠ some PyTok.tkor →
      parseOrRest f acc (orTailSeg W rest b) =
        .ok ((pvP d b).orTail acc, rest) := by
  intro f acc rest hf hr1 hr2 hr3
  cases b with
  | var c =>
    obtain ⟨m, rfl⟩ : ∃ m, f = m + 1 := ⟨f - 1, by omega⟩
    exact orRest_stop m acc rest hr3
  | pnot x =>
    obtain ⟨m, rfl⟩ : ∃ m, f = m + 1 := ⟨f - 1, by omega⟩
    exact orRest_stop m acc rest hr3
  | pand x y =>
    obtain ⟨m, rfl⟩ : ∃ m, f = m + 1 := ⟨f - 1, by omega⟩
    exact orRest_stop m acc rest hr3
  | por x y =>
    rw [segW_por_eq] at hf
    simp only [List.length_append, List.length_cons] at hf
    obtain ⟨hsx, hsy⟩ := safe_por_iff x y hsb
    have hy := pok_atomW d W y
      (hsub y (by simp only [PropForm.por.sizeOf_spec]; omega)) hsy
    obtain ⟨hyne, hyhd⟩ := W_facts d W HW y
    obtain ⟨m, rfl⟩ : ∃ m, f = m + 1 := ⟨f - 1, by omega⟩
    show parseOrRest (m + 1) acc (PyTok.tkor :: (W y ++ rest))
        = Except.ok (acc || pv d y, rest)
    rw [orRest_or, andB_atom (W y) (pv d y) hy hyne hyhd m rest (by omega) hr1 hr2]
    obtain ⟨k, rfl⟩ : ∃ k, m = k + 1 := ⟨m - 1, by omega⟩
    show parseOrRest (k + 1) (acc || pv d y) rest = _
    exact orRest_stop k _ rest hr3
  | pimp x y =>
    obtain ⟨m, rfl⟩ : ∃ m, f = m + 1 := ⟨f - 1, by omega⟩
    exact orRest_stop m acc rest hr3
  | piff x y =>
    obtain ⟨m, rfl⟩ : ∃ m, f = m + 1 := ⟨f - 1, by omega⟩
    exact orRest_stop m acc rest hr3

end LogicCheck

namespace LogicCheck

theorem chain_res_eq (d : Char → Bool) (W : PropForm → List PyTok) (b : PropForm)
    (A L : Bool) (rest : List PyTok) :
    (match b with
      | PropForm.pand x y =>
          Except.ok (A && (L == pv d x), PyTok.tkand :: (W y ++ rest))
      | PropForm.por x y =>
          Except.ok (A && (L == pv d x), PyTok.tkor :: (W y ++ rest))
      | _ => (Except.ok (A && (L == (pvP d b).hb), rest) :
          Except String (Bool × List PyTok))) =
    Except.ok (A && (L == (pvP d b).hb),
      (match b with
        | PropForm.pand x y => PyTok.tkand :: (W y ++ rest)
        | PropForm.por x y => PyTok.tkor :: (W y ++ rest)
        | _ => rest)) := by
  cases b <;> rfl

theorem segW_iff_atomleft (d : Char → Bool) (W : PropForm → List PyTok)
    (HW : ∀ s, W s = PyTok.lpar :: segW d W s ++ [PyTok.rpar] ∨
      (isImpIff s = true ∧ W s = segW d W s) ∨
      (∃ c, s = PropForm.var c ∧ W s = [varTok d c]))
    (b : PropForm) (hsubB : ∀ s, sizeOf s ≤ sizeOf b → ParseOK d W s)
    (hsb : safe b = true) (hnb : isNotNode b = false)
    (TA : List PyTok) (va : Bool) (hA : AtomB TA va) (hne : TA ≠ [])
    (hhd : TA.head? ≠ some PyTok.tknot) :
    OrB (TA ++ (PyTok.eqeq :: segW d W b))
      ((pvP d b).orTail ((pvP d b).andTail (va == (pvP d b).hb))) := by
  intro f rest hf hr1 hr2 hr3
  simp only [List.length_append, List.length_cons] at hf
  have hTA : 1 ≤ TA.length := List.length_pos.mpr hne
  obtain ⟨m, rfl⟩ : ∃ m, f = m + 1 := ⟨f - 1, by omega⟩
  rw [show (TA ++ (PyTok.eqeq :: segW d W b)) ++ rest
      = TA ++ (PyTok.eqeq :: (segW d W b ++ rest)) from by simp,
    parseOrE_succ]
  obtain ⟨k, rfl⟩ : ∃ k, m = k + 1 := ⟨m - 1, by omega⟩
  rw [parseAndE_succ]
  obtain ⟨j, rfl⟩ : ∃ j, k = j + 1 := ⟨k - 1, by omega⟩
  rw [notE_other j _ (by
    cases TA with
    | nil => exact absurd rfl hne
    | cons t ts => exact hhd)]
  obtain ⟨i, rfl⟩ : ∃ i, j = i + 1 := ⟨j - 1, by omega⟩
  rw [parseCmp_succ, hA i _ (by omega)]
  show (do
      let (a0, r0) ← (do
        let (a1, r1) ← parseCmpRest i true va (PyTok.eqeq :: (segW d W b ++ rest))
        (parseAndRest (i + 1 + 1) a1 r1 : Except String (Bool × List PyTok)))
      parseOrRest (i + 1 + 1 + 1) a0 r0) = _
  rw [show PyTok.eqeq :: (segW d W b ++ rest)
      = (PyTok.eqeq :: segW d W b) ++ rest from rfl,
    segW_chain d W HW b hsubB hsb hnb i true va rest (by omega) hr1]
  show (do
      let (a0, r0) ← parseAndRest (i + 1 + 1) (va == (pvP d b).hb)
        (chainTail W rest b)
      parseOrRest (i + 1 + 1 + 1) a0 r0) = _
  rw [segW_tailAnd d W HW b hsubB hsb (i + 1 + 1) _ rest (by omega) hr1 hr2]
  show parseOrRest (i + 1 + 1 + 1) ((pvP d b).andTail (va == (pvP d b).hb))
      (orTailSeg W rest b) = _
  rw [segW_tailOr d W HW b hsubB hsb (i + 1 + 1 + 1) _ rest (by omega) hr1 hr2 hr3]

theorem segW_iff_notleft (d : Char → Bool) (W : PropForm → List PyTok)
    (HW : ∀ s, W s = PyTok.lpar :: segW d W s ++ [PyTok.rpar] ∨
      (isImpIff s = true ∧ W s = segW d W s) ∨
      (∃ c, s = PropForm.var c ∧ W s = [varTok d c]))
    (b : PropForm) (hsubB : ∀ s, sizeOf s ≤ sizeOf b → ParseOK d W s)
    (hsb : safe b = true) (hnb : isNotNode b = false)
    (TX : List PyTok) (vx : Bool) (hX : AtomB TX vx) (hne : TX ≠ [])
    (hhd : TX.head? ≠ some PyTok.tknot) :
    OrB ((PyTok.tknot :: TX) ++ (PyTok.eqeq :: segW d W b))
      ((pvP d b).orTail ((pvP d b).andTail (!(vx == (pvP d b).hb)))) := by
  intro f rest hf hr1 hr2 hr3
  simp only [List.length_append, List.length_cons] at hf
  have hTX : 1 ≤ TX.length := List.length_pos.mpr hne
  obtain ⟨m, rfl⟩ : ∃ m, f = m + 1 := ⟨f - 1, by omega⟩
  rw [show ((PyTok.tknot :: TX) ++ (PyTok.eqeq :: segW d W b)) ++ rest
      = PyTok.tknot :: (TX ++ (PyTok.eqeq :: (segW d W b ++ rest))) from by simp,
    parseOrE_succ]
  obtain ⟨k, rfl⟩ : ∃ k, m = k + 1 := ⟨m - 1, by omega⟩
  rw [parseAndE_succ]
  obtain ⟨j, rfl⟩ : ∃ j, k = j + 1 := ⟨k - 1, by omega⟩
  rw [parseNotE_not]
  obtain ⟨i, rfl⟩ : ∃ i, j = i + 1 := ⟨j - 1, by omega⟩
  rw [notE_other i _ (by
    cases TX with
    | nil => exact absurd rfl hne
    | cons t ts => exact hhd)]
  obtain ⟨i2, rfl⟩ : ∃ i2, i = i2 + 1 := ⟨i - 1, by omega⟩
  rw [parseCmp_succ, hX i2 _ (by omega)]
  show (do
      let (a0, r0) ← (do
        let (a1, r1) ← (do
          let (a2, r2) ← parseCmpRest i2 true vx (PyTok.eqeq :: (segW d W b ++ rest))
          (Except.ok (!a2, r2) : Except String (Bool × List PyTok)))
        (parseAndRest (i2 + 1 + 1 + 1) a1 r1 : Except String (Bool × List PyTok)))
      parseOrRest (i2 + 1 + 1 + 1 + 1) a0 r0) = _
  rw [show PyTok.eqeq :: (segW d W b ++ rest)
      = (PyTok.eqeq :: segW d W b) ++ rest from rfl,
    segW_chain d W HW b hsubB hsb hnb i2 true vx rest (by omega) hr1]
  show (do
      let (a0, r0) ← parseAndRest (i2 + 1 + 1 + 1) (!(vx == (pvP d b).hb))
        (chainTail W rest b)
      parseOrRest (i2 + 1 + 1 + 1 + 1) a0 r0) = _
  rw [segW_tailAnd d W HW b hsubB hsb (i2 + 1 + 1 + 1) _ rest (by omega) hr1 hr2]
  show parseOrRest (i2 + 1 + 1 + 1 + 1) ((pvP d b).andTail (!(vx == (pvP d b).hb)))
      (orTailSeg W rest b) = _
  rw [segW_tailOr d W HW b hsubB hsb (i2 + 1 + 1 + 1 + 1) _ rest (by omega) hr1 hr2 hr3]

theorem segW_iff_andleft (d : Char → Bool) (W : PropForm → List PyTok)
    (HW : ∀ s, W s = PyTok.lpar :: segW d W s ++ [PyTok.rpar] ∨
      (isImpIff s = true ∧ W s = segW d W s) ∨
      (∃ c, s = PropForm.var c ∧ W s = [varTok d c]))
    (b : PropForm) (hsubB : ∀ s, sizeOf s ≤ sizeOf b → ParseOK d W s)
    (hsb : safe b = true) (hnb : isNotNode b = false)
    (TX TY : List PyTok) (vx vy : Bool)
    (hX : AtomB TX vx) (hneX : TX ≠ []) (hhdX : TX.head? ≠ some PyTok.tknot)
    (hY : AtomB TY vy) (hneY : TY ≠ []) (hhdY : TY.head? ≠ some PyTok.tknot) :
    OrB ((TX ++ PyTok.tkand :: TY) ++ (PyTok.eqeq :: segW d W b))
      ((pvP d b).orTail ((pvP d b).andTail (vx && (vy == (pvP d b).hb)))) := by
  intro f rest hf hr1 hr2 hr3
  simp only [List.length_append, List.length_cons] at hf
  have hTX : 1 ≤ TX.length := List.length_pos.mpr hneX
  have hTY : 1 ≤ TY.length := List.length_pos.mpr hneY
  obtain ⟨m, rfl⟩ : ∃ m, f = m + 1 := ⟨f - 1, by omega⟩
  rw [show ((TX ++ PyTok.tkand :: TY) ++ (PyTok.eqeq :: segW d W b)) ++ rest
      = TX ++ (PyTok.tkand :: (TY ++ (PyTok.eqeq :: (segW d W b ++ rest)))) from by simp,
    parseOrE_succ]
  obtain ⟨k, rfl⟩ : ∃ k, m = k + 1 := ⟨m - 1, by omega⟩
  rw [parseAndE_succ,
    notCmp_atom TX vx hX hneX hhdX k _ (by omega) (by simp)]
  show (do
      let (a0, r0) ← parseAndRest k vx
        (PyTok.tkand :: (TY ++ (PyTok.eqeq :: (segW d W b ++ rest))))
      parseOrRest (k + 1) a0 r0) = _
  obtain ⟨j, rfl⟩ : ∃ j, k = j + 1 := ⟨k - 1, by omega⟩
  rw [andRest_and]
  obtain ⟨i, rfl⟩ : ∃ i, j = i + 1 := ⟨j - 1, by omega⟩
  rw [notE_other i _ (by
    cases TY with
    | nil => exact absurd rfl hneY
    | cons t ts => exact hhdY)]
  obtain ⟨i2, rfl⟩ : ∃ i2, i = i2 + 1 := ⟨i - 1, by omega⟩
  rw [parseCmp_succ, hY i2 _ (by omega)]
  show (do
      let (a0, r0) ← (do
        let (a1, r1) ← parseCmpRest i2 true vy (PyTok.eqeq :: (segW d W b ++ rest))
        (parseAndRest (i2 + 1 + 1) (vx && a1) r1 : Except String (Bool × List PyTok)))
      parseOrRest (i2 + 1 + 1 + 1 + 1) a0 r0) = _
  rw [show PyTok.eqeq :: (segW d W b ++ rest)
      = (PyTok.eqeq :: segW d W b) ++ rest from rfl,
    segW_chain d W HW b hsubB hsb hnb i2 true vy rest (by omega) hr1]
  show (do
      let (a0, r0) ← parseAndRest (i2 + 1 + 1) (vx && (vy == (pvP d b).hb))
        (chainTail W rest b)
      parseOrRest (i2 + 1 + 1 + 1 + 1) a0 r0) = _
  rw [segW_tailAnd d W HW b hsubB hsb (i2 + 1 + 1) _ rest (by omega) hr1 hr2]
  show parseOrRest (i2 + 1 + 1 + 1 + 1)
      ((pvP d b).andTail (vx && (vy == (pvP d b).hb)))
      (orTailSeg W rest b) = _
  rw [segW_tailOr d W HW b hsubB hsb (i2 + 1 + 1 + 1 + 1) _ rest (by omega) hr1 hr2 hr3]

theorem segW_iff_orleft (d : Char → Bool) (W : PropForm → List PyTok)
    (HW : ∀ s, W s = PyTok.lpar :: segW d W s ++ [PyTok.rpar] ∨
      (isImpIff s = true ∧ W s = segW d W s) ∨
      (∃ c, s = PropForm.var c ∧ W s = [varTok d c]))
    (b : PropForm) (hsubB : ∀ s, sizeOf s ≤ sizeOf b → ParseOK d W s)
    (hsb : safe b = true) (hnb : isNotNode b = false)
    (TX TY : List PyTok) (vx vy : Bool)
    (hX : AtomB TX vx) (hneX : TX ≠ []) (hhdX : TX.head? ≠ some PyTok.tknot)
    (hY : AtomB TY vy) (hneY : TY ≠ []) (hhdY : TY.head? ≠ some PyTok.tknot) :
    OrB ((TX ++ PyTok.tkor :: TY) ++ (PyTok.eqeq :: segW d W b))
      ((pvP d b).orTail (vx || (pvP d b).andTail (vy == (pvP d b).hb))) := by
  intro f rest hf hr1 hr2 hr3
  simp only [List.length_append, List.length_cons] at hf
  have hTX : 1 ≤ TX.length := List.length_pos.mpr hneX
  have hTY : 1 ≤ TY.length := List.length_pos.mpr hneY
  obtain ⟨m, rfl⟩ : ∃ m, f = m + 1 := ⟨f - 1, by omega⟩
  rw [show ((TX ++ PyTok.tkor :: TY) ++ (PyTok.eqeq :: segW d W b)) ++ rest
      = TX ++ (PyTok.tkor :: (TY ++ (PyTok.eqeq :: (segW d W b ++ rest)))) from by simp,
    parseOrE_succ,
    andB_atom TX vx hX hneX hhdX m _ (by omega) (by simp) (by simp)]
  show parseOrRest m vx (PyTok.tkor :: (TY ++ (PyTok.eqeq :: (segW d W b ++ rest)))) = _
  obtain ⟨k, rfl⟩ : ∃ k, m = k + 1 := ⟨m - 1, by omega⟩
  rw [orRest_or]
  obtain ⟨j, rfl⟩ : ∃ j, k = j + 1 := ⟨k - 1, by omega⟩
  rw [parseAndE_succ]
  obtain ⟨i, rfl⟩ : ∃ i, j = i + 1 := ⟨j - 1, by omega⟩
  rw [notE_other i _ (by
    cases TY with
    | nil => exact absurd rfl hneY
    | cons t ts => exact hhdY)]
  obtain ⟨i2, rfl⟩ : ∃ i2, i = i2 + 1 := ⟨i - 1, by omega⟩
  rw [parseCmp_succ, hY i2 _ (by omega)]
  show (do
      let (a0, r0) ← (do
        let (a1, r1) ← parseCmpRest i2 true vy (PyTok.eqeq :: (segW d W b ++ rest))
        (parseAndRest (i2 + 1 + 1) a1 r1 : Except String (Bool × List PyTok)))
      parseOrRest (i2 + 1 + 1 + 1) (vx || a0) r0) = _
  rw [show PyTok.eqeq :: (segW d W b ++ rest)
      = (PyTok.eqeq :: segW d W b) ++ rest from rfl,
    segW_chain d W HW b hsubB hsb hnb i2 true vy rest (by omega) hr1]
  show (do
      let (a0, r0) ← parseAndRest (i2 + 1 + 1) (vy == (pvP d b).hb)
        (chainTail W rest b)
      parseOrRest (i2 + 1 + 1 + 1) (vx || a0) r0) = _
  rw [segW_tailAnd d W HW b hsubB hsb (i2 + 1 + 1) _ rest (by omega) hr1 hr2]
  show parseOrRest (i2 + 1 + 1 + 1)
      (vx || (pvP d b).andTail (vy == (pvP d b).hb))
      (orTailSeg W rest b) = _
  rw [segW_tailOr d W HW b hsubB hsb (i2 + 1 + 1 + 1) _ rest (by omega) hr1 hr2 hr3]

end LogicCheck

namespace LogicCheck

theorem segW_len_pos (d : Char → Bool) (W : PropForm → List PyTok) (b : PropForm) :
    1 ≤ (segW d W b).length := by
  cases b with
  | var c => simp [segW_var_eq]
  | pnot a => simp [segW_pnot_eq]
  | pand a b => simp only [segW_pand_eq, List.length_append, List.length_cons]; omega
  | por a b => simp only [segW_por_eq, List.length_append, List.length_cons]; omega
  | pimp a b => simp [segW_pimp_eq]
  | piff a b => simp [segW_piff_eq]

theorem segW_impOr (d : Char → Bool) (W : PropForm → List PyTok)
    (HW : ∀ s, W s = PyTok.lpar :: segW d W s ++ [PyTok.rpar] ∨
      (isImpIff s = true ∧ W s = segW d W s) ∨
      (∃ c, s = PropForm.var c ∧ W s = [varTok d c]))
    (a b : PropForm)
    (hsubA : ∀ s, sizeOf s ≤ sizeOf a → ParseOK d W s)
    (hsubB : ∀ s, sizeOf s ≤ sizeOf b → ParseOK d W s)
    (hsa : safe a = true) (hsb : safe b = true) :
    OrB ((PyTok.tknot :: segW d W a) ++ (PyTok.tkor :: segW d W b))
      (pv d (PropForm.pimp a b)) := by
  intro f rest hf hr1 hr2 hr3
  simp only [List.length_append, List.length_cons] at hf
  obtain ⟨m, rfl⟩ : ∃ m, f = m + 1 := ⟨f - 1, by omega⟩
  rw [show ((PyTok.tknot :: segW d W a) ++ (PyTok.tkor :: segW d W b)) ++ rest
      = (PyTok.tknot :: segW d W a) ++ ((PyTok.tkor :: segW d W b) ++ rest)
      from by simp,
    parseOrE_succ]
  have hnot := segW_notAnd d W HW a hsubA hsa m ((PyTok.tkor :: segW d W b) ++ rest)
    (by omega) (by simp) (by simp)
  cases a with
  | var c =>
    rw [hnot]
    show parseOrRest m ((pvP d (PropForm.var c)).nh)
      ((PyTok.tkor :: segW d W b) ++ rest) = _
    rw [segW_orCont d W HW b hsubB hsb m _ rest (by omega) hr1 hr2 hr3]
    rfl
  | pnot x =>
    rw [hnot]
    show parseOrRest m ((pvP d (PropForm.pnot x)).nh)
      ((PyTok.tkor :: segW d W b) ++ rest) = _
    rw [segW_orCont d W HW b hsubB hsb m _ rest (by omega) hr1 hr2 hr3]
    rfl
  | pand x y =>
    rw [hnot]
    show parseOrRest m ((pvP d (PropForm.pand x y)).nh)
      ((PyTok.tkor :: segW d W b) ++ rest) = _
    rw [segW_orCont d W HW b hsubB hsb m _ rest (by omega) hr1 hr2 hr3]
    rfl
  | pimp x y =>
    rw [hnot]
    show parseOrRest m ((pvP d (PropForm.pimp x y)).nh)
      ((PyTok.tkor :: segW d W b) ++ rest) = _
    rw [segW_orCont d W HW b hsubB hsb m _ rest (by omega) hr1 hr2 hr3]
    rfl
  | piff x y =>
    rw [hnot]
    show parseOrRest m ((pvP d (PropForm.piff x y)).nh)
      ((PyTok.tkor :: segW d W b) ++ rest) = _
    rw [segW_orCont d W HW b hsubB hsb m _ rest (by omega) hr1 hr2 hr3]
    rfl
  | por x y =>
    rw [hnot]
    show parseOrRest m (!(pv d x))
        (PyTok.tkor :: (W y ++ ((PyTok.tkor :: segW d W b) ++ rest))) = _
    simp only [segW_por_eq, List.length_append, List.length_cons] at hf
    obtain ⟨hsx, hsy⟩ := safe_por_iff x y hsa
    have hy := pok_atomW d W y
      (hsubA y (by simp only [PropForm.por.sizeOf_spec]; omega)) hsy
    obtain ⟨hyne, hyhd⟩ := W_facts d W HW y
    obtain ⟨k, rfl⟩ : ∃ k, m = k + 1 := ⟨m - 1, by omega⟩
    rw [orRest_or,
      andB_atom (W y) (pv d y) hy hyne hyhd k _ (by omega) (by simp) (by simp)]
    show parseOrRest k (!(pv d x) || pv d y) ((PyTok.tkor :: segW d W b) ++ rest) = _
    rw [segW_orCont d W HW b hsubB hsb k _ rest (by omega) hr1 hr2 hr3]
    rfl

theorem segW_iffOr (d : Char → Bool) (W : PropForm → List PyTok)
    (HW : ∀ s, W s = PyTok.lpar :: segW d W s ++ [PyTok.rpar] ∨
      (isImpIff s = true ∧ W s = segW d W s) ∨
      (∃ c, s = PropForm.var c ∧ W s = [varTok d c]))
    (a b : PropForm)
    (hsubA : ∀ s, sizeOf s ≤ sizeOf a → ParseOK d W s)
    (hsubB : ∀ s, sizeOf s ≤ sizeOf b → ParseOK d W s)
    (hsa : safe a = true) (hsb : safe b = true) (hnb : isNotNode b = false) :
    OrB (segW d W a ++ (PyTok.eqeq :: segW d W b)) (pv d (PropForm.piff a b)) := by
  cases a with
  | var c =>
    exact segW_iff_atomleft d W HW b hsubB hsb hnb [varTok d c] (d c)
      (atomB_lit d c) (by simp) (varTok_ne_not d c)
  | pnot x =>
    have hx := pok_atomW d W x
      (hsubA x (by simp only [PropForm.pnot.sizeOf_spec]; omega)) hsa
    obtain ⟨hxne, hxhd⟩ := W_facts d W HW x
    exact segW_iff_notleft d W HW b hsubB hsb hnb (W x) (pv d x) hx hxne hxhd
  | pand x y =>
    obtain ⟨hsx, hsy⟩ := safe_pand_iff x y hsa
    have hx := pok_atomW d W x
      (hsubA x (by simp only [PropForm.pand.sizeOf_spec]; omega)) hsx
    have hy := pok_atomW d W y
      (hsubA y (by simp only [PropForm.pand.sizeOf_spec]; omega)) hsy
    obtain ⟨hxne, hxhd⟩ := W_facts d W HW x
    obtain ⟨hyne, hyhd⟩ := W_facts d W HW y
    exact segW_iff_andleft d W HW b hsubB hsb hnb (W x) (W y) (pv d x) (pv d y)
      hx hxne hxhd hy hyne hyhd
  | por x y =>
    obtain ⟨hsx, hsy⟩ := safe_por_iff x y hsa
    have hx := pok_atomW d W x
      (hsubA x (by simp only [PropForm.por.sizeOf_spec]; omega)) hsx
    have hy := pok_atomW d W y
      (hsubA y (by simp only [PropForm.por.sizeOf_spec]; omega)) hsy
    obtain ⟨hxne, hxhd⟩ := W_facts d W HW x
    obtain ⟨hyne, hyhd⟩ := W_facts d W HW y
    exact segW_iff_orleft d W HW b hsubB hsb hnb (W x) (W y) (pv d x) (pv d y)
      hx hxne hxhd hy hyne hyhd
  | pimp x y =>
    have ha := pok_atomseg d W (PropForm.pimp x y) (hsubA _ (Nat.le_refl _)) hsa rfl
    obtain ⟨hne, hhd⟩ := segW_impiff_head d W (PropForm.pimp x y) rfl
    exact segW_iff_atomleft d W HW b hsubB hsb hnb _ _ ha hne hhd
  | piff x y =>
    have ha := pok_atomseg d W (PropForm.piff x y) (hsubA _ (Nat.le_refl _)) hsa rfl
    obtain ⟨hne, hhd⟩ := segW_impiff_head d W (PropForm.piff x y) rfl
    exact segW_iff_atomleft d W HW b hsubB hsb hnb _ _ ha hne hhd

theorem errAnd_atomT (T : List PyTok) (hA : AtomErrB T) (hne : T ≠ [])
    (hhd : T.head? ≠ some PyTok.tknot) :
    ∀ f rest, 5 * T.length + 4 ≤ f → ∃ e, parseAndE f (T ++ rest) = .error e := by
  intro f rest hf
  obtain ⟨m, rfl⟩ : ∃ m, f = m + 1 := ⟨f - 1, by omega⟩
  obtain ⟨e, he⟩ := errNot_atom T hA hne hhd m rest (by omega)
  refine ⟨e, ?_⟩
  rw [parseAndE_succ, he]
  rfl

theorem errAnd_notT (T : List PyTok) (hA : AtomErrB T) (hne : T ≠ [])
    (hhd : T.head? ≠ some PyTok.tknot) :
    ∀ f rest, 5 * T.length + 6 ≤ f →
      ∃ e, parseAndE f ((PyTok.tknot :: T) ++ rest) = .error e := by
  intro f rest hf
  obtain ⟨m, rfl⟩ : ∃ m, f = m + 1 := ⟨f - 1, by omega⟩
  obtain ⟨k, rfl⟩ : ∃ k, m = k + 1 := ⟨m - 1, by omega⟩
  obtain ⟨e, he⟩ := errNot_atom T hA hne hhd k rest (by omega)
  refine ⟨e, ?_⟩
  show parseAndE (k + 1 + 1) (PyTok.tknot :: (T ++ rest)) = _
  rw [parseAndE_succ, parseNotE_not, he]
  rfl

theorem errAndRest (T : List PyTok) (hA : AtomErrB T) (hne : T ≠ [])
    (hhd : T.head? ≠ some PyTok.tknot) :
    ∀ f acc rest, 5 * T.length + 4 ≤ f →
      ∃ e, parseAndRest f acc ((PyTok.tkand :: T) ++ rest) = .error e := by
  intro f acc rest hf
  obtain ⟨m, rfl⟩ : ∃ m, f = m + 1 := ⟨f - 1, by omega⟩
  obtain ⟨e, he⟩ := errNot_atom T hA hne hhd m rest (by omega)
  refine ⟨e, ?_⟩
  show parseAndRest (m + 1) acc (PyTok.tkand :: (T ++ rest)) = _
  rw [andRest_and, he]
  rfl

theorem errOrRest_atom (T : List PyTok) (hA : AtomErrB T) (hne : T ≠ [])
    (hhd : T.head? ≠ some PyTok.tknot) :
    ∀ f acc rest, 5 * T.length + 5 ≤ f →
      ∃ e, parseOrRest f acc ((PyTok.tkor :: T) ++ rest) = .error e := by
  intro f acc rest hf
  obtain ⟨m, rfl⟩ : ∃ m, f = m + 1 := ⟨f - 1, by omega⟩
  obtain ⟨e, he⟩ := errAnd_atomT T hA hne hhd m rest (by omega)
  refine ⟨e, ?_⟩
  show parseOrRest (m + 1) acc (PyTok.tkor :: (T ++ rest)) = _
  rw [orRest_or, he]
  rfl

theorem orErrB_pre (T : List PyTok) (hA : AtomErrB T) (hne : T ≠ [])
    (hhd : T.head? ≠ some PyTok.tknot) (X : List PyTok) : OrErrB (T ++ X) := by
  intro f rest hf
  simp only [List.length_append] at hf
  rw [List.append_assoc]
  exact errOr_atom T hA hne hhd f (X ++ rest) (by omega)

theorem segW_orContErr (d : Char → Bool) (W : PropForm → List PyTok)
    (HW : ∀ s, W s = PyTok.lpar :: segW d W s ++ [PyTok.rpar] ∨
      (isImpIff s = true ∧ W s = segW d W s) ∨
      (∃ c, s = PropForm.var c ∧ W s = [varTok d c]))
    (b : PropForm) (hsub : ∀ s, sizeOf s ≤ sizeOf b → ParseOK d W s)
    (hs : safe b = false) :
    ∀ f acc rest, 5 * (segW d W b).length + 10 ≤ f →
      ∃ e, parseOrRest f acc ((PyTok.tkor :: segW d W b) ++ rest) = .error e := by
  intro f acc rest hf
  cases b with
  | var c => simp [safe] at hs
  | pnot x =>
    have hAx := pok_errW d W x (hsub x (by simp only [PropForm.pnot.sizeOf_spec]; omega)) hs
    obtain ⟨hxne, hxhd⟩ := W_facts d W HW x
    rw [segW_pnot_eq] at hf
    simp only [List.length_cons] at hf
    obtain ⟨m, rfl⟩ : ∃ m, f = m + 1 := ⟨f - 1, by omega⟩
    obtain ⟨e, he⟩ := errAnd_notT (W x) hAx hxne hxhd m rest (by omega)
    refine ⟨e, ?_⟩
    show parseOrRest (m + 1) acc (PyTok.tkor :: (segW d W (PropForm.pnot x) ++ rest)) = _
    rw [orRest_or, show segW d W (PropForm.pnot x) ++ rest
        = (PyTok.tknot :: W x) ++ rest from rfl, he]
    rfl
  | pand x y =>
    rw [segW_pand_eq] at hf
    simp only [List.length_append, List.length_cons] at hf
    obtain ⟨hxne, hxhd⟩ := W_facts d W HW x
    obtain ⟨hyne, hyhd⟩ := W_facts d W HW y
    obtain ⟨m, rfl⟩ : ∃ m, f = m + 1 := ⟨f - 1, by omega⟩
    cases hsx : safe x with
    | false =>
      have hAx := pok_errW d W x
        (hsub x (by simp only [PropForm.pand.sizeOf_spec]; omega)) hsx
      obtain ⟨e, he⟩ := errAnd_atomT (W x) hAx hxne hxhd m
        ((PyTok.tkand :: W y) ++ rest) (by omega)
      refine ⟨e, ?_⟩
      show parseOrRest (m + 1) acc
        (PyTok.tkor :: (segW d W (PropForm.pand x y) ++ rest)) = _
      rw [orRest_or, show segW d W (PropForm.pand x y) ++ rest
          = W x ++ ((PyTok.tkand :: W y) ++ rest) from by rw [segW_pand_eq]; simp, he]
      rfl
    | true =>
      have hsy : safe y = false := by simpa [safe, hsx] using hs
      have hx := pok_atomW d W x
        (hsub x (by simp only [PropForm.pand.sizeOf_spec]; omega)) hsx
      have hAy := pok_errW d W y
        (hsub y (by simp only [PropForm.pand.sizeOf_spec]; omega)) hsy
      obtain ⟨k, rfl⟩ : ∃ k, m = k + 1 := ⟨m - 1, by omega⟩
      obtain ⟨e, he⟩ := errAndRest (W y) hAy hyne hyhd k (pv d x) rest (by omega)
      refine ⟨e, ?_⟩
      show parseOrRest (k + 1 + 1) acc
        (PyTok.tkor :: (segW d W (PropForm.pand x y) ++ rest)) = _
      rw [orRest_or, show segW d W (PropForm.pand x y) ++ rest
          = W x ++ (PyTok.tkand :: (W y ++ rest)) from by rw [segW_pand_eq]; simp,
        parseAndE_succ,
        notCmp_atom (W x) (pv d x) hx hxne hxhd k _ (by omega) (by simp)]
      show (do
          let (b1, r1) ← parseAndRest k (pv d x) (PyTok.tkand :: (W y ++ rest))
          parseOrRest (k + 1) (acc || b1) r1 : Except String (Bool × List PyTok)) = _
      rw [show PyTok.tkand :: (W y ++ rest) = (PyTok.tkand :: W y) ++ rest from rfl, he]
      rfl
  | por x y =>
    rw [segW_por_eq] at hf
    simp only [List.length_append, List.length_cons] at hf
    obtain ⟨hxne, hxhd⟩ := W_facts d W HW x
    obtain ⟨hyne, hyhd⟩ := W_facts d W HW y
    obtain ⟨m, rfl⟩ : ∃ m, f = m + 1 := ⟨f - 1, by omega⟩
    cases hsx : safe x with
    | false =>
      have hAx := pok_errW d W x
        (hsub x (by simp only [PropForm.por.sizeOf_spec]; omega)) hsx
      obtain ⟨e, he⟩ := errAnd_atomT (W x) hAx hxne hxhd m
        ((PyTok.tkor :: W y) ++ rest) (by omega)
      refine ⟨e, ?_⟩
      show parseOrRest (m + 1) acc
        (PyTok.tkor :: (segW d W (PropForm.por x y) ++ rest)) = _
      rw [orRest_or, show segW d W (PropForm.por x y) ++ rest
          = W x ++ ((PyTok.tkor :: W y) ++ rest) from by rw [segW_por_eq]; simp, he]
      rfl
    | true =>
      have hsy : safe y = false := by simpa [safe, hsx] using hs
      have hx := pok_atomW d W x
        (hsub x (by simp only [PropForm.por.sizeOf_spec]; omega)) hsx
      have hAy := pok_errW d W y
        (hsub y (by simp only [PropForm.por.sizeOf_spec]; omega)) hsy
      obtain ⟨k, rfl⟩ : ∃ k, m = k + 1 := ⟨m - 1, by omega⟩
      obtain ⟨j, rfl⟩ : ∃ j, k = j + 1 := ⟨k - 1, by omega⟩
      obtain ⟨e, he⟩ := errOrRest_atom (W y) hAy hyne hyhd (j + 1 + 1)
        (acc || pv d x) rest (by omega)
      refine ⟨e, ?_⟩
      show parseOrRest (j + 1 + 1 + 1) acc
        (PyTok.tkor :: (segW d W (PropForm.por x y) ++ rest)) = _
      rw [orRest_or, show segW d W (PropForm.por x y) ++ rest
          = W x ++ (PyTok.tkor :: (W y ++ rest)) from by rw [segW_por_eq]; simp,
        parseAndE_succ,
        notCmp_atom (W x) (pv d x) hx hxne hxhd (j + 1) _ (by omega) (by simp)]
      show (do
          let (b1, r1) ← parseAndRest (j + 1) (pv d x) (PyTok.tkor :: (W y ++ rest))
          parseOrRest (j + 1 + 1) (acc || b1) r1 : Except String (Bool × List PyTok)) = _
      rw [andRest_stop j (pv d x) _ (by simp)]
      show parseOrRest (j + 1 + 1) (acc || pv d x) (PyTok.tkor :: (W y ++ rest)) = _
      rw [show PyTok.tkor :: (W y ++ rest) = (PyTok.tkor :: W y) ++ rest from rfl]
      exact he
  | pimp x y =>
    have hA := pok_erratomseg d W (PropForm.pimp x y) (hsub _ (Nat.le_refl _)) hs rfl
    obtain ⟨hne, hhd⟩ := segW_impiff_head d W (PropForm.pimp x y) rfl
    obtain ⟨m, rfl⟩ : ∃ m, f = m + 1 := ⟨f - 1, by omega⟩
    obtain ⟨e, he⟩ := errAnd_atomT (segW d W (PropForm.pimp x y)) hA hne hhd m rest
      (by omega)
    refine ⟨e, ?_⟩
    show parseOrRest (m + 1) acc
      (PyTok.tkor :: (segW d W (PropForm.pimp x y) ++ rest)) = _
    rw [orRest_or, he]
    rfl
  | piff x y =>
    have hA := pok_erratomseg d W (PropForm.piff x y) (hsub _ (Nat.le_refl _)) hs rfl
    obtain ⟨hne, hhd⟩ := segW_impiff_head d W (PropForm.piff x y) rfl
    obtain ⟨m, rfl⟩ : ∃ m, f = m + 1 := ⟨f - 1, by omega⟩
    obtain ⟨e, he⟩ := errAnd_atomT (segW d W (PropForm.piff x y)) hA hne hhd m rest
      (by omega)
    refine ⟨e, ?_⟩
    show parseOrRest (m + 1) acc
      (PyTok.tkor :: (segW d W (PropForm.piff x y) ++ rest)) = _
    rw [orRest_or, he]
    rfl

theorem segW_chainErr (d : Char → Bool) (W : PropForm → List PyTok)
    (HW : ∀ s, W s = PyTok.lpar :: segW d W s ++ [PyTok.rpar] ∨
      (isImpIff s = true ∧ W s = segW d W s) ∨
      (∃ c, s = PropForm.var c ∧ W s = [varTok d c]))
    (b : PropForm) (hsub : ∀ s, sizeOf s ≤ sizeOf b → ParseOK d W s)
    (hbad : safe b = false ∨ isNotNode b = true) :
    ∀ f1 f2 f3 acc last rest, 5 * (segW d W b).length + 10 ≤ f1 → f1 ≤ f2 → f2 ≤ f3 →
      (∃ e, parseCmpRest f1 acc last ((PyTok.eqeq :: segW d W b) ++ rest) = .error e) ∨
      (∃ a1 r1, parseCmpRest f1 acc last ((PyTok.eqeq :: segW d W b) ++ rest)
          = .ok (a1, r1) ∧
        ∀ acc2, (∃ e, parseAndRest f2 acc2 r1 = .error e) ∨
          (∃ a2 r2, parseAndRest f2 acc2 r1 = .ok (a2, r2) ∧
            ∀ acc3, ∃ e, parseOrRest f3 acc3 r2 = .error e)) := by
  intro f1 f2 f3 acc last rest hf1 hf12 hf23
  cases b with
  | var c =>
    rcases hbad with h | h
    · simp [safe] at h
    · simp [isNotNode] at h
  | pnot z =>
    exact Or.inl (cmpRest_chain_err (W z) f1 acc last rest (by omega))
  | pand x y =>
    have hs : safe (PropForm.pand x y) = false := by
      rcases hbad with h | h
      · exact h
      · simp [isNotNode] at h
    rw [segW_pand_eq] at hf1
    simp only [List.length_append, List.length_cons] at hf1
    obtain ⟨hxne, hxhd⟩ := W_facts d W HW x
    obtain ⟨hyne, hyhd⟩ := W_facts d W HW y
    cases hsx : safe x with
    | false =>
      have hAx := pok_errW d W x
        (hsub x (by simp only [PropForm.pand.sizeOf_spec]; omega)) hsx
      obtain ⟨e, he⟩ := cmpRest_chain_errAtom (W x) hAx f1 acc last
        ((PyTok.tkand :: W y) ++ rest) (by omega)
      refine Or.inl ⟨e, ?_⟩
      rw [show (PyTok.eqeq :: segW d W (PropForm.pand x y)) ++ rest
          = (PyTok.eqeq :: W x) ++ ((PyTok.tkand :: W y) ++ rest) from by
        rw [segW_pand_eq]; simp]
      exact he
    | true =>
      have hsy : safe y = false := by simpa [safe, hsx] using hs
      have hx := pok_atomW d W x
        (hsub x (by simp only [PropForm.pand.sizeOf_spec]; omega)) hsx
      have hAy := pok_errW d W y
        (hsub y (by simp only [PropForm.pand.sizeOf_spec]; omega)) hsy
      obtain ⟨m, rfl⟩ : ∃ m, f1 = m + 1 := ⟨f1 - 1, by omega⟩
      refine Or.inr ⟨acc && (last == pv d x), (PyTok.tkand :: W y) ++ rest, ?_, ?_⟩
      · rw [show (PyTok.eqeq :: segW d W (PropForm.pand x y)) ++ rest
            = PyTok.eqeq :: (W x ++ (PyTok.tkand :: (W y ++ rest))) from by
          rw [segW_pand_eq]; simp,
          cmpRest_eq, hx m _ (by omega)]
        obtain ⟨k, rfl⟩ : ∃ k, m = k + 1 := ⟨m - 1, by omega⟩
        show parseCmpRest (k + 1) (acc && (last == pv d x)) (pv d x)
          (PyTok.tkand :: (W y ++ rest)) = _
        rw [cmpRest_stop k _ _ _ (by simp)]
        rfl
      · intro acc2
        obtain ⟨e, he⟩ := errAndRest (W y) hAy hyne hyhd f2 acc2 rest (by omega)
        exact Or.inl ⟨e, he⟩
  | por x y =>
    have hs : safe (PropForm.por x y) = false := by
      rcases hbad with h | h
      · exact h
      · simp [isNotNode] at h
    rw [segW_por_eq] at hf1
    simp only [List.length_append, List.length_cons] at hf1
    obtain ⟨hxne, hxhd⟩ := W_facts d W HW x
    obtain ⟨hyne, hyhd⟩ := W_facts d W HW y
    cases hsx : safe x with
    | false =>
      have hAx := pok_errW d W x
        (hsub x (by simp only [PropForm.por.sizeOf_spec]; omega)) hsx
      obtain ⟨e, he⟩ := cmpRest_chain_errAtom (W x) hAx f1 acc last
        ((PyTok.tkor :: W y) ++ rest) (by omega)
      refine Or.inl ⟨e, ?_⟩
      rw [show (PyTok.eqeq :: segW d W (PropForm.por x y)) ++ rest
          = (PyTok.eqeq :: W x) ++ ((PyTok.tkor :: W y) ++ rest) from by
        rw [segW_por_eq]; simp]
      exact he
    | true =>
      have hsy : safe y = false := by simpa [safe, hsx] using hs
      have hx := pok_atomW d W x
        (hsub x (by simp only [PropForm.por.sizeOf_spec]; omega)) hsx
      have hAy := pok_errW d W y
        (hsub y (by simp only [PropForm.por.sizeOf_spec]; omega)) hsy
      obtain ⟨m, rfl⟩ : ∃ m, f1 = m + 1 := ⟨f1 - 1, by omega⟩
      refine Or.inr ⟨acc && (last == pv d x), (PyTok.tkor :: W y) ++ rest, ?_, ?_⟩
      · rw [show (PyTok.eqeq :: segW d W (PropForm.por x y)) ++ rest
            = PyTok.eqeq :: (W x ++ (PyTok.tkor :: (W y ++ rest))) from by
          rw [segW_por_eq]; simp,
          cmpRest_eq, hx m _ (by omega)]
        obtain ⟨k, rfl⟩ : ∃ k, m = k + 1 := ⟨m - 1, by omega⟩
        show parseCmpRest (k + 1) (acc && (last == pv d x)) (pv d x)
          (PyTok.tkor :: (W y ++ rest)) = _
        rw [cmpRest_stop k _ _ _ (by simp)]
        rfl
      · intro acc2
        obtain ⟨m2, rfl⟩ : ∃ m2, f2 = m2 + 1 := ⟨f2 - 1, by omega⟩
        refine Or.inr ⟨acc2, (PyTok.tkor :: W y) ++ rest, ?_, ?_⟩
        · exact andRest_stop m2 acc2 _ (by simp)
        · intro acc3
          exact errOrRest_atom (W y) hAy hyne hyhd f3 acc3 rest (by omega)
  | pimp x y =>
    have hs : safe (PropForm.pimp x y) = false := by
      rcases hbad with h | h
      · exact h
      · simp [isNotNode] at h
    have hA := pok_erratomseg d W (PropForm.pimp x y) (hsub _ (Nat.le_refl _)) hs rfl
    exact Or.inl (cmpRest_chain_errAtom (segW d W (PropForm.pimp x y)) hA
      f1 acc last rest (by omega))
  | piff x y =>
    have hs : safe (PropForm.piff x y) = false := by
      rcases hbad with h | h
      · exact h
      · simp [isNotNode] at h
    have hA := pok_erratomseg d W (PropForm.piff x y) (hsub _ (Nat.le_refl _)) hs rfl
    exact Or.inl (cmpRest_chain_errAtom (segW d W (PropForm.piff x y)) hA
      f1 acc last rest (by omega))

theorem segW_iffErr_atomleft (d : Char → Bool) (W : PropForm → List PyTok)
    (HW : ∀ s, W s = PyTok.lpar :: segW d W s ++ [PyTok.rpar] ∨
      (isImpIff s = true ∧ W s = segW d W s) ∨
      (∃ c, s = PropForm.var c ∧ W s = [varTok d c]))
    (b : PropForm) (hsubB : ∀ s, sizeOf s ≤ sizeOf b → ParseOK d W s)
    (hbad : safe b = false ∨ isNotNode b = true)
    (TA : List PyTok) (va : Bool) (hA : AtomB TA va) (hne : TA ≠ [])
    (hhd : TA.head? ≠ some PyTok.tknot) :
    OrErrB (TA ++ (PyTok.eqeq :: segW d W b)) := by
  intro f rest hf
  simp only [List.length_append, List.length_cons] at hf
  have hTA : 1 ≤ TA.length := List.length_pos.mpr hne
  obtain ⟨m, rfl⟩ : ∃ m, f = m + 1 := ⟨f - 1, by omega⟩
  obtain ⟨k, rfl⟩ : ∃ k, m = k + 1 := ⟨m - 1, by omega⟩
  obtain ⟨j, rfl⟩ : ∃ j, k = j + 1 := ⟨k - 1, by omega⟩
  obtain ⟨i, rfl⟩ : ∃ i, j = i + 1 := ⟨j - 1, by omega⟩
  have key : parseOrE (i + 1 + 1 + 1 + 1) ((TA ++ (PyTok.eqeq :: segW d W b)) ++ rest)
      = (do
        let (a0, r0) ← (do
          let (a1, r1) ← parseCmpRest i true va ((PyTok.eqeq :: segW d W b) ++ rest)
          (parseAndRest (i + 1 + 1) a1 r1 : Except String (Bool × List PyTok)))
        parseOrRest (i + 1 + 1 + 1) a0 r0) := by
    rw [show (TA ++ (PyTok.eqeq :: segW d W b)) ++ rest
        = TA ++ (PyTok.eqeq :: (segW d W b ++ rest)) from by simp,
      parseOrE_succ, parseAndE_succ,
      notE_other (i + 1) _ (by
        cases TA with
        | nil => exact absurd rfl hne
        | cons t ts => exact hhd),
      parseCmp_succ, hA i _ (by omega)]
    rfl
  rcases segW_chainErr d W HW b hsubB hbad i (i + 1 + 1) (i + 1 + 1 + 1) true va rest
    (by omega) (by omega) (by omega) with ⟨e, he⟩ | ⟨a1, r1, hc, hnext⟩
  · refine ⟨e, ?_⟩
    rw [key, he]
    rfl
  · rcases hnext a1 with ⟨e, he2⟩ | ⟨a2, r2, ha, ho⟩
    · refine ⟨e, ?_⟩
      rw [key, hc]
      show (do
        let (a0, r0) ← parseAndRest (i + 1 + 1) a1 r1
        parseOrRest (i + 1 + 1 + 1) a0 r0 : Except String (Bool × List PyTok)) = _
      rw [he2]
      rfl
    · obtain ⟨e, he3⟩ := ho a2
      refine ⟨e, ?_⟩
      rw [key, hc]
      show (do
        let (a0, r0) ← parseAndRest (i + 1 + 1) a1 r1
        parseOrRest (i + 1 + 1 + 1) a0 r0 : Except String (Bool × List PyTok)) = _
      rw [ha]
      show parseOrRest (i + 1 + 1 + 1) a2 r2 = _
      exact he3

theorem segW_iffErr_notleft (d : Char → Bool) (W : PropForm → List PyTok)
    (HW : ∀ s, W s = PyTok.lpar :: segW d W s ++ [PyTok.rpar] ∨
      (isImpIff s = true ∧ W s = segW d W s) ∨
      (∃ c, s = PropForm.var c ∧ W s = [varTok d c]))
    (b : PropForm) (hsubB : ∀ s, sizeOf s ≤ sizeOf b → ParseOK d W s)
    (hbad : safe b = false ∨ isNotNode b = true)
    (TX : List PyTok) (vx : Bool) (hX : AtomB TX vx) (hne : TX ≠ [])
    (hhd : TX.head? ≠ some PyTok.tknot) :
    OrErrB ((PyTok.tknot :: TX) ++ (PyTok.eqeq :: segW d W b)) := by
  intro f rest hf
  simp only [List.length_append, List.length_cons] at hf
  have hTX : 1 ≤ TX.length := List.length_pos.mpr hne
  obtain ⟨m, rfl⟩ : ∃ m, f = m + 1 := ⟨f - 1, by omega⟩
  obtain ⟨k, rfl⟩ : ∃ k, m = k + 1 := ⟨m - 1, by omega⟩
  obtain ⟨j, rfl⟩ : ∃ j, k = j + 1 := ⟨k - 1, by omega⟩
  obtain ⟨i, rfl⟩ : ∃ i, j = i + 1 := ⟨j - 1, by omega⟩
  obtain ⟨i2, rfl⟩ : ∃ i2, i = i2 + 1 := ⟨i - 1, by omega⟩
  have key : parseOrE (i2 + 1 + 1 + 1 + 1 + 1)
      (((PyTok.tknot :: TX) ++ (PyTok.eqeq :: segW d W b)) ++ rest)
      = (do
        let (a0, r0) ← (do
          let (a1, r1) ← (do
            let (a2, r2) ← parseCmpRest i2 true vx ((PyTok.eqeq :: segW d W b) ++ rest)
            (Except.ok (!a2, r2) : Except String (Bool × List PyTok)))
          (parseAndRest (i2 + 1 + 1 + 1) a1 r1 : Except String (Bool × List PyTok)))
        parseOrRest (i2 + 1 + 1 + 1 + 1) a0 r0) := by
    rw [show ((PyTok.tknot :: TX) ++ (PyTok.eqeq :: segW d W b)) ++ rest
        = PyTok.tknot :: (TX ++ (PyTok.eqeq :: (segW d W b ++ rest))) from by simp,
      parseOrE_succ, parseAndE_succ, parseNotE_not,
      notE_other (i2 + 1) _ (by
        cases TX with
        | nil => exact absurd rfl hne
        | cons t ts => exact hhd),
      parseCmp_succ, hX i2 _ (by omega)]
    rfl
  rcases segW_chainErr d W HW b hsubB hbad i2 (i2 + 1 + 1 + 1) (i2 + 1 + 1 + 1 + 1)
    true vx rest (by omega) (by omega) (by omega) with ⟨e, he⟩ | ⟨a1, r1, hc, hnext⟩
  · refine ⟨e, ?_⟩
    rw [key, he]
    rfl
  · rcases hnext (!a1) with ⟨e, he2⟩ | ⟨a2, r2, ha, ho⟩
    · refine ⟨e, ?_⟩
      rw [key, hc]
      show (do
        let (a0, r0) ← parseAndRest (i2 + 1 + 1 + 1) (!a1) r1
        parseOrRest (i2 + 1 + 1 + 1 + 1) a0 r0 : Except String (Bool × List PyTok)) = _
      rw [he2]
      rfl
    · obtain ⟨e, he3⟩ := ho a2
      refine ⟨e, ?_⟩
      rw [key, hc]
      show (do
        let (a0, r0) ← parseAndRest (i2 + 1 + 1 + 1) (!a1) r1
        parseOrRest (i2 + 1 + 1 + 1 + 1) a0 r0 : Except String (Bool × List PyTok)) = _
      rw [ha]
      show parseOrRest (i2 + 1 + 1 + 1 + 1) a2 r2 = _
      exact he3

theorem segW_iffErr_andleft (d : Char → Bool) (W : PropForm → List PyTok)
    (HW : ∀ s, W s = PyTok.lpar :: segW d W s ++ [PyTok.rpar] ∨
      (isImpIff s = true ∧ W s = segW d W s) ∨
      (∃ c, s = PropForm.var c ∧ W s = [varTok d c]))
    (b : PropForm) (hsubB : ∀ s, sizeOf s ≤ sizeOf b → ParseOK d W s)
    (hbad : safe b = false ∨ isNotNode b = true)
    (TX TY : List PyTok) (vx vy : Bool)
    (hX : AtomB TX vx) (hneX : TX ≠ []) (hhdX : TX.head? ≠ some PyTok.tknot)
    (hY : AtomB TY vy) (hneY : TY ≠ []) (hhdY : TY.head? ≠ some PyTok.tknot) :
    OrErrB ((TX ++ PyTok.tkand :: TY) ++ (PyTok.eqeq :: segW d W b)) := by
  intro f rest hf
  simp only [List.length_append, List.length_cons] at hf
  have hTX : 1 ≤ TX.length := List.length_pos.mpr hneX
  have hTY : 1 ≤ TY.length := List.length_pos.mpr hneY
  obtain ⟨m, rfl⟩ : ∃ m, f = m + 1 := ⟨f - 1, by omega⟩
  obtain ⟨k, rfl⟩ : ∃ k, m = k + 1 := ⟨m - 1, by omega⟩
  obtain ⟨j, rfl⟩ : ∃ j, k = j + 1 := ⟨k - 1, by omega⟩
  obtain ⟨i, rfl⟩ : ∃ i, j = i + 1 := ⟨j - 1, by omega⟩
  obtain ⟨i2, rfl⟩ : ∃ i2, i = i2 + 1 := ⟨i - 1, by omega⟩
  have key : parseOrE (i2 + 1 + 1 + 1 + 1 + 1)
      (((TX ++ PyTok.tkand :: TY) ++ (PyTok.eqeq :: segW d W b)) ++ rest)
      = (do
        let (a0, r0) ← (do
          let (a1, r1) ← parseCmpRest i2 true vy ((PyTok.eqeq :: segW d W b) ++ rest)
          (parseAndRest (i2 + 1 + 1) (vx && a1) r1 : Except String (Bool × List PyTok)))
        parseOrRest (i2 + 1 + 1 + 1 + 1) a0 r0) := by
    rw [show ((TX ++ PyTok.tkand :: TY) ++ (PyTok.eqeq :: segW d W b)) ++ rest
        = TX ++ (PyTok.tkand :: (TY ++ (PyTok.eqeq :: (segW d W b ++ rest)))) from by simp,
      parseOrE_succ, parseAndE_succ,
      notCmp_atom TX vx hX hneX hhdX (i2 + 1 + 1 + 1) _ (by omega) (by simp)]
    show (do
        let (a0, r0) ← parseAndRest (i2 + 1 + 1 + 1) vx
          (PyTok.tkand :: (TY ++ (PyTok.eqeq :: (segW d W b ++ rest))))
        parseOrRest (i2 + 1 + 1 + 1 + 1) a0 r0 : Except String (Bool × List PyTok)) = _
    rw [andRest_and,
      notE_other (i2 + 1) _ (by
        cases TY with
        | nil => exact absurd rfl hneY
        | cons t ts => exact hhdY),
      parseCmp_succ, hY i2 _ (by omega)]
    rfl
  rcases segW_chainErr d W HW b hsubB hbad i2 (i2 + 1 + 1) (i2 + 1 + 1 + 1 + 1)
    true vy rest (by omega) (by omega) (by omega) with ⟨e, he⟩ | ⟨a1, r1, hc, hnext⟩
  · refine ⟨e, ?_⟩
    rw [key, he]
    rfl
  · rcases hnext (vx && a1) with ⟨e, he2⟩ | ⟨a2, r2, ha, ho⟩
    · refine ⟨e, ?_⟩
      rw [key, hc]
      show (do
        let (a0, r0) ← parseAndRest (i2 + 1 + 1) (vx && a1) r1
        parseOrRest (i2 + 1 + 1 + 1 + 1) a0 r0 : Except String (Bool × List PyTok)) = _
      rw [he2]
      rfl
    · obtain ⟨e, he3⟩ := ho a2
      refine ⟨e, ?_⟩
      rw [key, hc]
      show (do
        let (a0, r0) ← parseAndRest (i2 + 1 + 1) (vx && a1) r1
        parseOrRest (i2 + 1 + 1 + 1 + 1) a0 r0 : Except String (Bool × List PyTok)) = _
      rw [ha]
      show parseOrRest (i2 + 1 + 1 + 1 + 1) a2 r2 = _
      exact he3

theorem segW_iffErr_orleft (d : Char → Bool) (W : PropForm → List PyTok)
    (HW : ∀ s, W s = PyTok.lpar :: segW d W s ++ [PyTok.rpar] ∨
      (isImpIff s = true ∧ W s = segW d W s) ∨
      (∃ c, s = PropForm.var c ∧ W s = [varTok d c]))
    (b : PropForm) (hsubB : ∀ s, sizeOf s ≤ sizeOf b → ParseOK d W s)
    (hbad : safe b = false ∨ isNotNode b = true)
    (TX TY : List PyTok) (vx vy : Bool)
    (hX : AtomB TX vx) (hneX : TX ≠ []) (hhdX : TX.head? ≠ some PyTok.tknot)
    (hY : AtomB TY vy) (hneY : TY ≠ []) (hhdY : TY.head? ≠ some PyTok.tknot) :
    OrErrB ((TX ++ PyTok.tkor :: TY) ++ (PyTok.eqeq :: segW d W b)) := by
  intro f rest hf
  simp only [List.length_append, List.length_cons] at hf
  have hTX : 1 ≤ TX.length := List.length_pos.mpr hneX
  have hTY : 1 ≤ TY.length := List.length_pos.mpr hneY
  obtain ⟨m, rfl⟩ : ∃ m, f = m + 1 := ⟨f - 1, by omega⟩
  obtain ⟨k, rfl⟩ : ∃ k, m = k + 1 := ⟨m - 1, by omega⟩
  obtain ⟨j, rfl⟩ : ∃ j, k = j + 1 := ⟨k - 1, by omega⟩
  obtain ⟨i, rfl⟩ : ∃ i, j = i + 1 := ⟨j - 1, by omega⟩
  obtain ⟨i2, rfl⟩ : ∃ i2, i = i2 + 1 := ⟨i - 1, by omega⟩
  have key : parseOrE (i2 + 1 + 1 + 1 + 1 + 1)
      (((TX ++ PyTok.tkor :: TY) ++ (PyTok.eqeq :: segW d W b)) ++ rest)
      = (do
        let (a0, r0) ← (do
          let (a1, r1) ← parseCmpRest i2 true vy ((PyTok.eqeq :: segW d W b) ++ rest)
          (parseAndRest (i2 + 1 + 1) a1 r1 : Except String (Bool × List PyTok)))
        parseOrRest (i2 + 1 + 1 + 1) (vx || a0) r0) := by
    rw [show ((TX ++ PyTok.tkor :: TY) ++ (PyTok.eqeq :: segW d W b)) ++ rest
        = TX ++ (PyTok.tkor :: (TY ++ (PyTok.eqeq :: (segW d W b ++ rest)))) from by simp,
      parseOrE_succ,
      andB_atom TX vx hX hneX hhdX (i2 + 1 + 1 + 1 + 1) _ (by omega) (by simp) (by simp)]
    show parseOrRest (i2 + 1 + 1 + 1 + 1) vx
      (PyTok.tkor :: (TY ++ (PyTok.eqeq :: (segW d W b ++ rest)))) = _
    rw [orRest_or, parseAndE_succ,
      notE_other (i2 + 1) _ (by
        cases TY with
        | nil => exact absurd rfl hneY
        | cons t ts => exact hhdY),
      parseCmp_succ, hY i2 _ (by omega)]
    rfl
  rcases segW_chainErr d W HW b hsubB hbad i2 (i2 + 1 + 1) (i2 + 1 + 1 + 1)
    true vy rest (by omega) (by omega) (by omega) with ⟨e, he⟩ | ⟨a1, r1, hc, hnext⟩
  · refine ⟨e, ?_⟩
    rw [key, he]
    rfl
  · rcases hnext a1 with ⟨e, he2⟩ | ⟨a2, r2, ha, ho⟩
    · refine ⟨e, ?_⟩
      rw [key, hc]
      show (do
        let (a0, r0) ← parseAndRest (i2 + 1 + 1) a1 r1
        parseOrRest (i2 + 1 + 1 + 1) (vx || a0) r0 : Except String (Bool × List PyTok)) = _
      rw [he2]
      rfl
    · obtain ⟨e, he3⟩ := ho (vx || a2)
      refine ⟨e, ?_⟩
      rw [key, hc]
      show (do
        let (a0, r0) ← parseAndRest (i2 + 1 + 1) a1 r1
        parseOrRest (i2 + 1 + 1 + 1) (vx || a0) r0 : Except String (Bool × List PyTok)) = _
      rw [ha]
      show parseOrRest (i2 + 1 + 1 + 1) (vx || a2) r2 = _
      exact he3

theorem errNot_notT (T : List PyTok) (hA : AtomErrB T) (hne : T ≠ [])
    (hhd : T.head? ≠ some PyTok.tknot) :
    ∀ f rest, 5 * T.length + 5 ≤ f →
      ∃ e, parseNotE f ((PyTok.tknot :: T) ++ rest) = .error e := by
  intro f rest hf
  obtain ⟨m, rfl⟩ : ∃ m, f = m + 1 := ⟨f - 1, by omega⟩
  obtain ⟨e, he⟩ := errNot_atom T hA hne hhd m rest (by omega)
  refine ⟨e, ?_⟩
  show parseNotE (m + 1) (PyTok.tknot :: (T ++ rest)) = _
  rw [parseNotE_not, he]
  rfl

theorem segW_impOrErr (d : Char → Bool) (W : PropForm → List PyTok)
    (HW : ∀ s, W s = PyTok.lpar :: segW d W s ++ [PyTok.rpar] ∨
      (isImpIff s = true ∧ W s = segW d W s) ∨
      (∃ c, s = PropForm.var c ∧ W s = [varTok d c]))
    (a b : PropForm)
    (hsubA : ∀ s, sizeOf s ≤ sizeOf a → ParseOK d W s)
    (hsubB : ∀ s, sizeOf s ≤ sizeOf b → ParseOK d W s)
    (hs : safe (PropForm.pimp a b) = false) :
    OrErrB ((PyTok.tknot :: segW d W a) ++ (PyTok.tkor :: segW d W b)) := by
  intro f rest hf
  simp only [List.length_append, List.length_cons] at hf
  cases hsa : safe a with
  | true =>
    have hsb : safe b = false := by simpa [safe, hsa] using hs
    obtain ⟨m, rfl⟩ : ∃ m, f = m + 1 := ⟨f - 1, by omega⟩
    have hnot := segW_notAnd d W HW a hsubA hsa m ((PyTok.tkor :: segW d W b) ++ rest)
      (by omega) (by simp) (by simp)
    cases a with
    | var c =>
      obtain ⟨e, he⟩ := segW_orContErr d W HW b hsubB hsb m
        ((pvP d (PropForm.var c)).nh) rest (by omega)
      refine ⟨e, ?_⟩
      rw [show ((PyTok.tknot :: segW d W (PropForm.var c))
            ++ (PyTok.tkor :: segW d W b)) ++ rest
          = (PyTok.tknot :: segW d W (PropForm.var c))
            ++ ((PyTok.tkor :: segW d W b) ++ rest) from by simp,
        parseOrE_succ, hnot]
      show parseOrRest m ((pvP d (PropForm.var c)).nh)
        ((PyTok.tkor :: segW d W b) ++ rest) = _
      exact he
    | pnot x =>
      obtain ⟨e, he⟩ := segW_orContErr d W HW b hsubB hsb m
        ((pvP d (PropForm.pnot x)).nh) rest (by omega)
      refine ⟨e, ?_⟩
      rw [show ((PyTok.tknot :: segW d W (PropForm.pnot x))
            ++ (PyTok.tkor :: segW d W b)) ++ rest
          = (PyTok.tknot :: segW d W (PropForm.pnot x))
            ++ ((PyTok.tkor :: segW d W b) ++ rest) from by simp,
        parseOrE_succ, hnot]
      show parseOrRest m ((pvP d (PropForm.pnot x)).nh)
        ((PyTok.tkor :: segW d W b) ++ rest) = _
      exact he
    | pand x y =>
      obtain ⟨e, he⟩ := segW_orContErr d W HW b hsubB hsb m
        ((pvP d (PropForm.pand x y)).nh) rest (by omega)
      refine ⟨e, ?_⟩
      rw [show ((PyTok.tknot :: segW d W (PropForm.pand x y))
            ++ (PyTok.tkor :: segW d W b)) ++ rest
          = (PyTok.tknot :: segW d W (PropForm.pand x y))
            ++ ((PyTok.tkor :: segW d W b) ++ rest) from by simp,
        parseOrE_succ, hnot]
      show parseOrRest m ((pvP d (PropForm.pand x y)).nh)
        ((PyTok.tkor :: segW d W b) ++ rest) = _
      exact he
    | pimp x y =>
      obtain ⟨e, he⟩ := segW_orContErr d W HW b hsubB hsb m
        ((pvP d (PropForm.pimp x y)).nh) rest (by omega)
      refine ⟨e, ?_⟩
      rw [show ((PyTok.tknot :: segW d W (PropForm.pimp x y))
            ++ (PyTok.tkor :: segW d W b)) ++ rest
          = (PyTok.tknot :: segW d W (PropForm.pimp x y))
            ++ ((PyTok.tkor :: segW d W b) ++ rest) from by simp,
        parseOrE_succ, hnot]
      show parseOrRest m ((pvP d (PropForm.pimp x y)).nh)
        ((PyTok.tkor :: segW d W b) ++ rest) = _
      exact he
    | piff x y =>
      obtain ⟨e, he⟩ := segW_orContErr d W HW b hsubB hsb m
        ((pvP d (PropForm.piff x y)).nh) rest (by omega)
      refine ⟨e, ?_⟩
      rw [show ((PyTok.tknot :: segW d W (PropForm.piff x y))
            ++ (PyTok.tkor :: segW d W b)) ++ rest
          = (PyTok.tknot :: segW d W (PropForm.piff x y))
            ++ ((PyTok.tkor :: segW d W b) ++ rest) from by simp,
        parseOrE_succ, hnot]
      show parseOrRest m ((pvP d (PropForm.piff x y)).nh)
        ((PyTok.tkor :: segW d W b) ++ rest) = _
      exact he
    | por x y =>
      simp only [segW_por_eq, List.length_append, List.length_cons] at hf
      obtain ⟨hsx, hsy⟩ := safe_por_iff x y hsa
      have hy := pok_atomW d W y
        (hsubA y (by simp only [PropForm.por.sizeOf_spec]; omega)) hsy
      obtain ⟨hyne, hyhd⟩ := W_facts d W HW y
      obtain ⟨k, rfl⟩ : ∃ k, m = k + 1 := ⟨m - 1, by omega⟩
      obtain ⟨e, he⟩ := segW_orContErr d W HW b hsubB hsb k
        (!(pv d x) || pv d y) rest (by omega)
      refine ⟨e, ?_⟩
      rw [show ((PyTok.tknot :: segW d W (PropForm.por x y))
            ++ (PyTok.tkor :: segW d W b)) ++ rest
          = (PyTok.tknot :: segW d W (PropForm.por x y))
            ++ ((PyTok.tkor :: segW d W b) ++ rest) from by simp,
        parseOrE_succ, hnot]
      show parseOrRest (k + 1) (!(pv d x))
        (PyTok.tkor :: (W y ++ ((PyTok.tkor :: segW d W b) ++ rest))) = _
      rw [orRest_or,
        andB_atom (W y) (pv d y) hy hyne hyhd k _ (by omega) (by simp) (by simp)]
      show parseOrRest k (!(pv d x) || pv d y)
        ((PyTok.tkor :: segW d W b) ++ rest) = _
      exact he
  | false =>
    cases a with
    | var c => simp [safe] at hsa
    | pnot x =>
      have hAx := pok_errW d W x
        (hsubA x (by simp only [PropForm.pnot.sizeOf_spec]; omega)) hsa
      obtain ⟨hxne, hxhd⟩ := W_facts d W HW x
      rw [segW_pnot_eq] at hf
      simp only [List.length_cons] at hf
      obtain ⟨m, rfl⟩ : ∃ m, f = m + 1 := ⟨f - 1, by omega⟩
      obtain ⟨k, rfl⟩ : ∃ k, m = k + 1 := ⟨m - 1, by omega⟩
      obtain ⟨j, rfl⟩ : ∃ j, k = j + 1 := ⟨k - 1, by omega⟩
      obtain ⟨e, he⟩ := errNot_notT (W x) hAx hxne hxhd j
        ((PyTok.tkor :: segW d W b) ++ rest) (by omega)
      refine ⟨e, ?_⟩
      rw [show ((PyTok.tknot :: segW d W (PropForm.pnot x))
            ++ (PyTok.tkor :: segW d W b)) ++ rest
          = PyTok.tknot :: ((PyTok.tknot :: W x)
            ++ ((PyTok.tkor :: segW d W b) ++ rest)) from by rw [segW_pnot_eq]; simp,
        parseOrE_succ, parseAndE_succ, parseNotE_not, he]
      rfl
    | pand x y =>
      rw [segW_pand_eq] at hf
      simp only [List.length_append, List.length_cons] at hf
      obtain ⟨hxne, hxhd⟩ := W_facts d W HW x
      obtain ⟨hyne, hyhd⟩ := W_facts d W HW y
      cases hsx : safe x with
      | false =>
        have hAx := pok_errW d W x
          (hsubA x (by simp only [PropForm.pand.sizeOf_spec]; omega)) hsx
        obtain ⟨m, rfl⟩ : ∃ m, f = m + 1 := ⟨f - 1, by omega⟩
        obtain ⟨k, rfl⟩ : ∃ k, m = k + 1 := ⟨m - 1, by omega⟩
        obtain ⟨e, he⟩ := errNot_notT (W x) hAx hxne hxhd k
          ((PyTok.tkand :: W y) ++ ((PyTok.tkor :: segW d W b) ++ rest)) (by omega)
        refine ⟨e, ?_⟩
        rw [show ((PyTok.tknot :: segW d W (PropForm.pand x y))
              ++ (PyTok.tkor :: segW d W b)) ++ rest
            = (PyTok.tknot :: W x) ++ ((PyTok.tkand :: W y)
              ++ ((PyTok.tkor :: segW d W b) ++ rest)) from by rw [segW_pand_eq]; simp,
          parseOrE_succ, parseAndE_succ, he]
        rfl
      | true =>
        have hsy : safe y = false := by simpa [safe, hsx] using hsa
        have hx := pok_atomW d W x
          (hsubA x (by simp only [PropForm.pand.sizeOf_spec]; omega)) hsx
        have hAy := pok_errW d W y
          (hsubA y (by simp only [PropForm.pand.sizeOf_spec]; omega)) hsy
        obtain ⟨m, rfl⟩ : ∃ m, f = m + 1 := ⟨f - 1, by omega⟩
        obtain ⟨k, rfl⟩ : ∃ k, m = k + 1 := ⟨m - 1, by omega⟩
        obtain ⟨j, rfl⟩ : ∃ j, k = j + 1 := ⟨k - 1, by omega⟩
        obtain ⟨e, he⟩ := errAndRest (W y) hAy hyne hyhd (j + 1) (!(pv d x))
          ((PyTok.tkor :: segW d W b) ++ rest) (by omega)
        refine ⟨e, ?_⟩
        rw [show ((PyTok.tknot :: segW d W (PropForm.pand x y))
              ++ (PyTok.tkor :: segW d W b)) ++ rest
            = PyTok.tknot :: (W x ++ (PyTok.tkand :: (W y
              ++ ((PyTok.tkor :: segW d W b) ++ rest)))) from by rw [segW_pand_eq]; simp,
          parseOrE_succ, parseAndE_succ, parseNotE_not,
          notCmp_atom (W x) (pv d x) hx hxne hxhd j _ (by omega) (by simp)]
        show (do
            let (a0, r0) ← parseAndRest (j + 1) (!(pv d x))
              (PyTok.tkand :: (W y ++ ((PyTok.tkor :: segW d W b) ++ rest)))
            parseOrRest (j + 1 + 1) a0 r0 : Except String (Bool × List PyTok)) = _
        rw [show PyTok.tkand :: (W y ++ ((PyTok.tkor :: segW d W b) ++ rest))
            = (PyTok.tkand :: W y) ++ ((PyTok.tkor :: segW d W b) ++ rest) from rfl,
          he]
        rfl
    | por x y =>
      rw [segW_por_eq] at hf
      simp only [List.length_append, List.length_cons] at hf
      obtain ⟨hxne, hxhd⟩ := W_facts d W HW x
      obtain ⟨hyne, hyhd⟩ := W_facts d W HW y
      cases hsx : safe x with
      | false =>
        have hAx := pok_errW d W x
          (hsubA x (by simp only [PropForm.por.sizeOf_spec]; omega)) hsx
        obtain ⟨m, rfl⟩ : ∃ m, f = m + 1 := ⟨f - 1, by omega⟩
        obtain ⟨k, rfl⟩ : ∃ k, m = k + 1 := ⟨m - 1, by omega⟩
        obtain ⟨e, he⟩ := errNot_notT (W x) hAx hxne hxhd k
          ((PyTok.tkor :: W y) ++ ((PyTok.tkor :: segW d W b) ++ rest)) (by omega)
        refine ⟨e, ?_⟩
        rw [show ((PyTok.tknot :: segW d W (PropForm.por x y))
              ++ (PyTok.tkor :: segW d W b)) ++ rest
            = (PyTok.tknot :: W x) ++ ((PyTok.tkor :: W y)
              ++ ((PyTok.tkor :: segW d W b) ++ rest)) from by rw [segW_por_eq]; simp,
          parseOrE_succ, parseAndE_succ, he]
        rfl
      | true =>
        have hsy : safe y = false := by simpa [safe, hsx] using hsa
        have hx := pok_atomW d W x
          (hsubA x (by simp only [PropForm.por.sizeOf_spec]; omega)) hsx
        have hAy := pok_errW d W y
          (hsubA y (by simp only [PropForm.por.sizeOf_spec]; omega)) hsy
        obtain ⟨m, rfl⟩ : ∃ m, f = m + 1 := ⟨f - 1, by omega⟩
        obtain ⟨k, rfl⟩ : ∃ k, m = k + 1 := ⟨m - 1, by omega⟩
        obtain ⟨j, rfl⟩ : ∃ j, k = j + 1 := ⟨k - 1, by omega⟩
        obtain ⟨e, he⟩ := errOrRest_atom (W y) hAy hyne hyhd (j + 1 + 1) (!(pv d x))
          ((PyTok.tkor :: segW d W b) ++ rest) (by omega)
        refine ⟨e, ?_⟩
        rw [show ((PyTok.tknot :: segW d W (PropForm.por x y))
              ++ (PyTok.tkor :: segW d W b)) ++ rest
            = PyTok.tknot :: (W x ++ (PyTok.tkor :: (W y
              ++ ((PyTok.tkor :: segW d W b) ++ rest)))) from by rw [segW_por_eq]; simp,
          parseOrE_succ, parseAndE_succ, parseNotE_not,
          notCmp_atom (W x) (pv d x) hx hxne hxhd j _ (by omega) (by simp)]
        show (do
            let (a0, r0) ← parseAndRest (j + 1) (!(pv d x))
              (PyTok.tkor :: (W y ++ ((PyTok.tkor :: segW d W b) ++ rest)))
            parseOrRest (j + 1 + 1) a0 r0 : Except String (Bool × List PyTok)) = _
        rw [andRest_stop j _ _ (by simp)]
        show parseOrRest (j + 1 + 1) (!(pv d x))
          (PyTok.tkor :: (W y ++ ((PyTok.tkor :: segW d W b) ++ rest))) = _
        rw [show PyTok.tkor :: (W y ++ ((PyTok.tkor :: segW d W b) ++ rest))
            = (PyTok.tkor :: W y) ++ ((PyTok.tkor :: segW d W b) ++ rest) from rfl]
        exact he
    | pimp x y =>
      have hA := pok_erratomseg d W (PropForm.pimp x y) (hsubA _ (Nat.le_refl _)) hsa rfl
      obtain ⟨hne, hhd⟩ := segW_impiff_head d W (PropForm.pimp x y) rfl
      obtain ⟨m, rfl⟩ : ∃ m, f = m + 1 := ⟨f - 1, by omega⟩
      obtain ⟨e, he⟩ := errAnd_notT (segW d W (PropForm.pimp x y)) hA hne hhd m
        ((PyTok.tkor :: segW d W b) ++ rest) (by omega)
      refine ⟨e, ?_⟩
      rw [show ((PyTok.tknot :: segW d W (PropForm.pimp x y))
            ++ (PyTok.tkor :: segW d W b)) ++ rest
          = (PyTok.tknot :: segW d W (PropForm.pimp x y))
            ++ ((PyTok.tkor :: segW d W b) ++ rest) from by simp,
        parseOrE_succ, he]
      rfl
    | piff x y =>
      have hA := pok_erratomseg d W (PropForm.piff x y) (hsubA _ (Nat.le_refl _)) hsa rfl
      obtain ⟨hne, hhd⟩ := segW_impiff_head d W (PropForm.piff x y) rfl
      obtain ⟨m, rfl⟩ : ∃ m, f = m + 1 := ⟨f - 1, by omega⟩
      obtain ⟨e, he⟩ := errAnd_notT (segW d W (PropForm.piff x y)) hA hne hhd m
        ((PyTok.tkor :: segW d W b) ++ rest) (by omega)
      refine ⟨e, ?_⟩
      rw [show ((PyTok.tknot :: segW d W (PropForm.piff x y))
            ++ (PyTok.tkor :: segW d W b)) ++ rest
          = (PyTok.tknot :: segW d W (PropForm.piff x y))
            ++ ((PyTok.tkor :: segW d W b) ++ rest) from by simp,
        parseOrE_succ, he]
      rfl

theorem segW_iffOrErr (d : Char → Bool) (W : PropForm → List PyTok)
    (HW : ∀ s, W s = PyTok.lpar :: segW d W s ++ [PyTok.rpar] ∨
      (isImpIff s = true ∧ W s = segW d W s) ∨
      (∃ c, s = PropForm.var c ∧ W s = [varTok d c]))
    (a b : PropForm)
    (hsubA : ∀ s, sizeOf s ≤ sizeOf a → ParseOK d W s)
    (hsubB : ∀ s, sizeOf s ≤ sizeOf b → ParseOK d W s)
    (hs : safe (PropForm.piff a b) = false) :
    OrErrB (segW d W a ++ (PyTok.eqeq :: segW d W b)) := by
  cases hsa : safe a with
  | true =>
    have hbad : safe b = false ∨ isNotNode b = true := by
      cases hsb : safe b with
      | false => exact Or.inl rfl
      | true =>
        cases hnb : isNotNode b with
        | true => exact Or.inr rfl
        | false =>
          rw [show safe (PropForm.piff a b)
              = (safe a && safe b && !(isNotNode b)) from rfl, hsa, hsb, hnb] at hs
          simp at hs
    cases a with
    | var c =>
      exact segW_iffErr_atomleft d W HW b hsubB hbad [varTok d c] (d c)
        (atomB_lit d c) (by simp) (varTok_ne_not d c)
    | pnot x =>
      have hx := pok_atomW d W x
        (hsubA x (by simp only [PropForm.pnot.sizeOf_spec]; omega)) hsa
      obtain ⟨hxne, hxhd⟩ := W_facts d W HW x
      exact segW_iffErr_notleft d W HW b hsubB hbad (W x) (pv d x) hx hxne hxhd
    | pand x y =>
      obtain ⟨hsx, hsy⟩ := safe_pand_iff x y hsa
      have hx := pok_atomW d W x
        (hsubA x (by simp only [PropForm.pand.sizeOf_spec]; omega)) hsx
      have hy := pok_atomW d W y
        (hsubA y (by simp only [PropForm.pand.sizeOf_spec]; omega)) hsy
      obtain ⟨hxne, hxhd⟩ := W_facts d W HW x
      obtain ⟨hyne, hyhd⟩ := W_facts d W HW y
      exact segW_iffErr_andleft d W HW b hsubB hbad (W x) (W y) (pv d x) (pv d y)
        hx hxne hxhd hy hyne hyhd
    | por x y =>
      obtain ⟨hsx, hsy⟩ := safe_por_iff x y hsa
      have hx := pok_atomW d W x
        (hsubA x (by simp only [PropForm.por.sizeOf_spec]; omega)) hsx
      have hy := pok_atomW d W y
        (hsubA y (by simp only [PropForm.por.sizeOf_spec]; omega)) hsy
      obtain ⟨hxne, hxhd⟩ := W_facts d W HW x
      obtain ⟨hyne, hyhd⟩ := W_facts d W HW y
      exact segW_iffErr_orleft d W HW b hsubB hbad (W x) (W y) (pv d x) (pv d y)
        hx hxne hxhd hy hyne hyhd
    | pimp x y =>
      have ha := pok_atomseg d W (PropForm.pimp x y) (hsubA _ (Nat.le_refl _)) hsa rfl
      obtain ⟨hne, hhd⟩ := segW_impiff_head d W (PropForm.pimp x y) rfl
      exact segW_iffErr_atomleft d W HW b hsubB hbad _ _ ha hne hhd
    | piff x y =>
      have ha := pok_atomseg d W (PropForm.piff x y) (hsubA _ (Nat.le_refl _)) hsa rfl
      obtain ⟨hne, hhd⟩ := segW_impiff_head d W (PropForm.piff x y) rfl
      exact segW_iffErr_atomleft d W HW b hsubB hbad _ _ ha hne hhd
  | false =>
    intro f rest hf
    simp only [List.length_append, List.length_cons] at hf
    cases a with
    | var c => simp [safe] at hsa
    | pnot x =>
      have hAx := pok_errW d W x
        (hsubA x (by simp only [PropForm.pnot.sizeOf_spec]; omega)) hsa
      obtain ⟨hxne, hxhd⟩ := W_facts d W HW x
      rw [segW_pnot_eq] at hf
      simp only [List.length_cons] at hf
      obtain ⟨m, rfl⟩ : ∃ m, f = m + 1 := ⟨f - 1, by omega⟩
      obtain ⟨e, he⟩ := errAnd_notT (W x) hAx hxne hxhd m
        ((PyTok.eqeq :: segW d W b) ++ rest) (by omega)
      refine ⟨e, ?_⟩
      rw [show (segW d W (PropForm.pnot x) ++ (PyTok.eqeq :: segW d W b)) ++ rest
          = (PyTok.tknot :: W x) ++ ((PyTok.eqeq :: segW d W b) ++ rest) from by
        rw [segW_pnot_eq]; simp,
        parseOrE_succ, he]
      rfl
    | pand x y =>
      rw [segW_pand_eq] at hf
      simp only [List.length_append, List.length_cons] at hf
      obtain ⟨hxne, hxhd⟩ := W_facts d W HW x
      obtain ⟨hyne, hyhd⟩ := W_facts d W HW y
      cases hsx : safe x with
      | false =>
        have hAx := pok_errW d W x
          (hsubA x (by simp only [PropForm.pand.sizeOf_spec]; omega)) hsx
        obtain ⟨m, rfl⟩ : ∃ m, f = m + 1 := ⟨f - 1, by omega⟩
        obtain ⟨e, he⟩ := errAnd_atomT (W x) hAx hxne hxhd m
          ((PyTok.tkand :: W y) ++ ((PyTok.eqeq :: segW d W b) ++ rest)) (by omega)
        refine ⟨e, ?_⟩
        rw [show (segW d W (PropForm.pand x y) ++ (PyTok.eqeq :: segW d W b)) ++ rest
            = W x ++ ((PyTok.tkand :: W y)
              ++ ((PyTok.eqeq :: segW d W b) ++ rest)) from by rw [segW_pand_eq]; simp,
          parseOrE_succ, he]
        rfl
      | true =>
        have hsy : safe y = false := by simpa [safe, hsx] using hsa
        have hx := pok_atomW d W x
          (hsubA x (by simp only [PropForm.pand.sizeOf_spec]; omega)) hsx
        have hAy := pok_errW d W y
          (hsubA y (by simp only [PropForm.pand.sizeOf_spec]; omega)) hsy
        obtain ⟨m, rfl⟩ : ∃ m, f = m + 1 := ⟨f - 1, by omega⟩
        obtain ⟨k, rfl⟩ : ∃ k, m = k + 1 := ⟨m - 1, by omega⟩
        obtain ⟨e, he⟩ := errAndRest (W y) hAy hyne hyhd k (pv d x)
          ((PyTok.eqeq :: segW d W b) ++ rest) (by omega)
        refine ⟨e, ?_⟩
        rw [show (segW d W (PropForm.pand x y) ++ (PyTok.eqeq :: segW d W b)) ++ rest
            = W x ++ (PyTok.tkand :: (W y
              ++ ((PyTok.eqeq :: segW d W b) ++ rest))) from by rw [segW_pand_eq]; simp,
          parseOrE_succ, parseAndE_succ,
          notCmp_atom (W x) (pv d x) hx hxne hxhd k _ (by omega) (by simp)]
        show (do
            let (a0, r0) ← parseAndRest k (pv d x)
              (PyTok.tkand :: (W y ++ ((PyTok.eqeq :: segW d W b) ++ rest)))
            parseOrRest (k + 1) a0 r0 : Except String (Bool × List PyTok)) = _
        rw [show PyTok.tkand :: (W y ++ ((PyTok.eqeq :: segW d W b) ++ rest))
            = (PyTok.tkand :: W y) ++ ((PyTok.eqeq :: segW d W b) ++ rest) from rfl,
          he]
        rfl
    | por x y =>
      rw [segW_por_eq] at hf
      simp only [List.length_append, List.length_cons] at hf
      obtain ⟨hxne, hxhd⟩ := W_facts d W HW x
      obtain ⟨hyne, hyhd⟩ := W_facts d W HW y
      cases hsx : safe x with
      | false =>
        have hAx := pok_errW d W x
          (hsubA x (by simp only [PropForm.por.sizeOf_spec]; omega)) hsx
        obtain ⟨m, rfl⟩ : ∃ m, f = m + 1 := ⟨f - 1, by omega⟩
        obtain ⟨e, he⟩ := errAnd_atomT (W x) hAx hxne hxhd m
          ((PyTok.tkor :: W y) ++ ((PyTok.eqeq :: segW d W b) ++ rest)) (by omega)
        refine ⟨e, ?_⟩
        rw [show (segW d W (PropForm.por x y) ++ (PyTok.eqeq :: segW d W b)) ++ rest
            = W x ++ ((PyTok.tkor :: W y)
              ++ ((PyTok.eqeq :: segW d W b) ++ rest)) from by rw [segW_por_eq]; simp,
          parseOrE_succ, he]
        rfl
      | true =>
        have hsy : safe y = false := by simpa [safe, hsx] using hsa
        have hx := pok_atomW d W x
          (hsubA x (by simp only [PropForm.por.sizeOf_spec]; omega)) hsx
        have hAy := pok_errW d W y
          (hsubA y (by simp only [PropForm.por.sizeOf_spec]; omega)) hsy
        obtain ⟨m, rfl⟩ : ∃ m, f = m + 1 := ⟨f - 1, by omega⟩
        obtain ⟨k, rfl⟩ : ∃ k, m = k + 1 := ⟨m - 1, by omega⟩
        obtain ⟨j, rfl⟩ : ∃ j, k = j + 1 := ⟨k - 1, by omega⟩
        obtain ⟨e, he⟩ := errOrRest_atom (W y) hAy hyne hyhd (j + 1 + 1) (pv d x)
          ((PyTok.eqeq :: segW d W b) ++ rest) (by omega)
        refine ⟨e, ?_⟩
        rw [show (segW d W (PropForm.por x y) ++ (PyTok.eqeq :: segW d W b)) ++ rest
            = W x ++ (PyTok.tkor :: (W y
              ++ ((PyTok.eqeq :: segW d W b) ++ rest))) from by rw [segW_por_eq]; simp,
          parseOrE_succ, parseAndE_succ,
          notCmp_atom (W x) (pv d x) hx hxne hxhd (j + 1) _ (by omega) (by simp)]
        show (do
            let (a0, r0) ← parseAndRest (j + 1) (pv d x)
              (PyTok.tkor :: (W y ++ ((PyTok.eqeq :: segW d W b) ++ rest)))
            parseOrRest (j + 1 + 1) a0 r0 : Except String (Bool × List PyTok)) = _
        rw [andRest_stop j _ _ (by simp)]
        show parseOrRest (j + 1 + 1) (pv d x)
          (PyTok.tkor :: (W y ++ ((PyTok.eqeq :: segW d W b) ++ rest))) = _
        rw [show PyTok.tkor :: (W y ++ ((PyTok.eqeq :: segW d W b) ++ rest))
            = (PyTok.tkor :: W y) ++ ((PyTok.eqeq :: segW d W b) ++ rest) from rfl]
        exact he
    | pimp x y =>
      have hA := pok_erratomseg d W (PropForm.pimp x y) (hsubA _ (Nat.le_refl _)) hsa rfl
      obtain ⟨hne, hhd⟩ := segW_impiff_head d W (PropForm.pimp x y) rfl
      obtain ⟨m, rfl⟩ : ∃ m, f = m + 1 := ⟨f - 1, by omega⟩
      obtain ⟨e, he⟩ := errAnd_atomT (segW d W (PropForm.pimp x y)) hA hne hhd m
        ((PyTok.eqeq :: segW d W b) ++ rest) (by omega)
      refine ⟨e, ?_⟩
      rw [show (segW d W (PropForm.pimp x y) ++ (PyTok.eqeq :: segW d W b)) ++ rest
          = segW d W (PropForm.pimp x y)
            ++ ((PyTok.eqeq :: segW d W b) ++ rest) from by simp,
        parseOrE_succ, he]
      rfl
    | piff x y =>
      have hA := pok_erratomseg d W (PropForm.piff x y) (hsubA _ (Nat.le_refl _)) hsa rfl
      obtain ⟨hne, hhd⟩ := segW_impiff_head d W (PropForm.piff x y) rfl
      obtain ⟨m, rfl⟩ : ∃ m, f = m + 1 := ⟨f - 1, by omega⟩
      obtain ⟨e, he⟩ := errAnd_atomT (segW d W (PropForm.piff x y)) hA hne hhd m
        ((PyTok.eqeq :: segW d W b) ++ rest) (by omega)
      refine ⟨e, ?_⟩
      rw [show (segW d W (PropForm.piff x y) ++ (PyTok.eqeq :: segW d W b)) ++ rest
          = segW d W (PropForm.piff x y)
            ++ ((PyTok.eqeq :: segW d W b) ++ rest) from by simp,
        parseOrE_succ, he]
      rfl

theorem W_atom (d : Char → Bool) (W : PropForm → List PyTok)
    (HW : ∀ s, W s = PyTok.lpar :: segW d W s ++ [PyTok.rpar] ∨
      (isImpIff s = true ∧ W s = segW d W s) ∨
      (∃ c, s = PropForm.var c ∧ W s = [varTok d c]))
    (t : PropForm) (hOr : OrB (segW d W t) (pv d t))
    (hSeg : isImpIff t = true → AtomB (segW d W t) (pv d t)) :
    AtomB (W t) (pv d t) := by
  rcases HW t with h | ⟨hi, h⟩ | ⟨c, rfl, h⟩
  · rw [h]
    exact atomB_wrap _ _ hOr
  · rw [h]
    exact hSeg hi
  · rw [h]
    exact atomB_lit d c

theorem W_err (d : Char → Bool) (W : PropForm → List PyTok)
    (HW : ∀ s, W s = PyTok.lpar :: segW d W s ++ [PyTok.rpar] ∨
      (isImpIff s = true ∧ W s = segW d W s) ∨
      (∃ c, s = PropForm.var c ∧ W s = [varTok d c]))
    (t : PropForm) (hOrE : OrErrB (segW d W t))
    (hSegE : isImpIff t = true → AtomErrB (segW d W t))
    (hnv : ∀ c, t ≠ PropForm.var c) : AtomErrB (W t) := by
  rcases HW t with h | ⟨hi, h⟩ | ⟨c, heq, h⟩
  · rw [h]
    exact errAtom_wrap _ hOrE
  · rw [h]
    exact hSegE hi
  · exact absurd heq (hnv c)

theorem parse_segW (d : Char → Bool) (W : PropForm → List PyTok)
    (HW : ∀ s, W s = PyTok.lpar :: segW d W s ++ [PyTok.rpar] ∨
      (isImpIff s = true ∧ W s = segW d W s) ∨
      (∃ c, s = PropForm.var c ∧ W s = [varTok d c])) :
    ∀ n t, sizeOf t ≤ n → ParseOK d W t := by
  intro n
  induction n with
  | zero =>
    intro t ht
    exfalso
    cases t <;> simp at ht <;> omega
  | succ n ih =>
    intro t ht
    cases t with
    | var c =>
      constructor
      · intro _
        have hOr : OrB (segW d W (PropForm.var c)) (pv d (PropForm.var c)) :=
          orB_of_atom [varTok d c] (d c) (atomB_lit d c) (by simp) (varTok_ne_not d c)
        exact ⟨W_atom d W HW _ hOr (fun hi => by simp [isImpIff] at hi), hOr,
          fun hi => by simp [isImpIff] at hi⟩
      · intro hs
        exact absurd hs (by simp [safe])
    | pnot a =>
      have hta : sizeOf a ≤ n := by
        simp only [PropForm.pnot.sizeOf_spec] at ht; omega
      have iha := ih a hta
      obtain ⟨hane, hahd⟩ := W_facts d W HW a
      constructor
      · intro hs
        have hA := pok_atomW d W a iha hs
        have hOr : OrB (segW d W (PropForm.pnot a)) (pv d (PropForm.pnot a)) := by
          rw [segW_pnot_eq]
          exact orB_not (W a) (pv d a) hA hane hahd
        exact ⟨W_atom d W HW _ hOr (fun hi => by simp [isImpIff] at hi), hOr,
          fun hi => by simp [isImpIff] at hi⟩
      · intro hs
        have hAe := pok_errW d W a iha hs
        have hOrE : OrErrB (segW d W (PropForm.pnot a)) := by
          rw [segW_pnot_eq]
          intro f rest hf
          simp only [List.length_cons] at hf
          obtain ⟨m, rfl⟩ : ∃ m, f = m + 1 := ⟨f - 1, by omega⟩
          obtain ⟨e, he⟩ := errAnd_notT (W a) hAe hane hahd m rest (by omega)
          refine ⟨e, ?_⟩
          rw [parseOrE_succ, he]
          rfl
        exact ⟨W_err d W HW _ hOrE (fun hi => by simp [isImpIff] at hi)
          (fun c h => PropForm.noConfusion h), hOrE,
          fun hi => by simp [isImpIff] at hi⟩
    | pand a b =>
      have hta : sizeOf a ≤ n := by
        simp only [PropForm.pand.sizeOf_spec] at ht; omega
      have htb : sizeOf b ≤ n := by
        simp only [PropForm.pand.sizeOf_spec] at ht; omega
      have iha := ih a hta
      have ihb := ih b htb
      obtain ⟨hane, hahd⟩ := W_facts d W HW a
      obtain ⟨hbne, hbhd⟩ := W_facts d W HW b
      constructor
      · intro hs
        obtain ⟨hsa, hsb⟩ := safe_pand_iff a b hs
        have hOr : OrB (segW d W (PropForm.pand a b)) (pv d (PropForm.pand a b)) := by
          rw [segW_pand_eq]
          exact orB_and (W a) (W b) (pv d a) (pv d b)
            (pok_atomW d W a iha hsa) hane hahd
            (pok_atomW d W b ihb hsb) hbne hbhd
        exact ⟨W_atom d W HW _ hOr (fun hi => by simp [isImpIff] at hi), hOr,
          fun hi => by simp [isImpIff] at hi⟩
      · intro hs
        have hOrE : OrErrB (segW d W (PropForm.pand a b)) := by
          rw [segW_pand_eq]
          cases hsx : safe a with
          | false => exact orErrB_pre (W a) (pok_errW d W a iha hsx) hane hahd _
          | true =>
            have hsy : safe b = false := by simpa [safe, hsx] using hs
            intro f rest hf
            simp only [List.length_append, List.length_cons] at hf
            obtain ⟨m, rfl⟩ : ∃ m, f = m + 1 := ⟨f - 1, by omega⟩
            obtain ⟨k, rfl⟩ : ∃ k, m = k + 1 := ⟨m - 1, by omega⟩
            obtain ⟨e, he⟩ := errAndRest (W b) (pok_errW d W b ihb hsy)
              hbne hbhd k (pv d a) rest (by omega)
            refine ⟨e, ?_⟩
            rw [show (W a ++ PyTok.tkand :: W b) ++ rest
                = W a ++ (PyTok.tkand :: (W b ++ rest)) from by simp,
              parseOrE_succ, parseAndE_succ,
              notCmp_atom (W a) (pv d a) (pok_atomW d W a iha hsx)
                hane hahd k _ (by omega) (by simp)]
            show (do
                let (a0, r0) ← parseAndRest k (pv d a)
                  (PyTok.tkand :: (W b ++ rest))
                parseOrRest (k + 1) a0 r0 : Except String (Bool × List PyTok)) = _
            rw [show PyTok.tkand :: (W b ++ rest)
                = (PyTok.tkand :: W b) ++ rest from rfl, he]
            rfl
        exact ⟨W_err d W HW _ hOrE (fun hi => by simp [isImpIff] at hi)
          (fun c h => PropForm.noConfusion h), hOrE,
          fun hi => by simp [isImpIff] at hi⟩
    | por a b =>
      have hta : sizeOf a ≤ n := by
        simp only [PropForm.por.sizeOf_spec] at ht; omega
      have htb : sizeOf b ≤ n := by
        simp only [PropForm.por.sizeOf_spec] at ht; omega
      have iha := ih a hta
      have ihb := ih b htb
      obtain ⟨hane, hahd⟩ := W_facts d W HW a
      obtain ⟨hbne, hbhd⟩ := W_facts d W HW b
      constructor
      · intro hs
        obtain ⟨hsa, hsb⟩ := safe_por_iff a b hs
        have hOr : OrB (segW d W (PropForm.por a b)) (pv d (PropForm.por a b)) := by
          rw [segW_por_eq]
          exact orB_or (W a) (W b) (pv d a) (pv d b)
            (pok_atomW d W a iha hsa) hane hahd
            (pok_atomW d W b ihb hsb) hbne hbhd
        exact ⟨W_atom d W HW _ hOr (fun hi => by simp [isImpIff] at hi), hOr,
          fun hi => by simp [isImpIff] at hi⟩
      · intro hs
        have hOrE : OrErrB (segW d W (PropForm.por a b)) := by
          rw [segW_por_eq]
          cases hsx : safe a with
          | false => exact orErrB_pre (W a) (pok_errW d W a iha hsx) hane hahd _
          | true =>
            have hsy : safe b = false := by simpa [safe, hsx] using hs
            intro f rest hf
            simp only [List.length_append, List.length_cons] at hf
            obtain ⟨m, rfl⟩ : ∃ m, f = m + 1 := ⟨f - 1, by omega⟩
            obtain ⟨k, rfl⟩ : ∃ k, m = k + 1 := ⟨m - 1, by omega⟩
            obtain ⟨j, rfl⟩ : ∃ j, k = j + 1 := ⟨k - 1, by omega⟩
            obtain ⟨e, he⟩ := errOrRest_atom (W b) (pok_errW d W b ihb hsy)
              hbne hbhd (j + 1 + 1) (pv d a) rest (by omega)
            refine ⟨e, ?_⟩
            rw [show (W a ++ PyTok.tkor :: W b) ++ rest
                = W a ++ (PyTok.tkor :: (W b ++ rest)) from by simp,
              parseOrE_succ, parseAndE_succ,
              notCmp_atom (W a) (pv d a) (pok_atomW d W a iha hsx)
                hane hahd (j + 1) _ (by omega) (by simp)]
            show (do
                let (a0, r0) ← parseAndRest (j + 1) (pv d a)
                  (PyTok.tkor :: (W b ++ rest))
                parseOrRest (j + 1 + 1) a0 r0 : Except String (Bool × List PyTok)) = _
            rw [andRest_stop j _ _ (by simp)]
            show parseOrRest (j + 1 + 1) (pv d a) (PyTok.tkor :: (W b ++ rest)) = _
            rw [show PyTok.tkor :: (W b ++ rest)
                = (PyTok.tkor :: W b) ++ rest from rfl]
            exact he
        exact ⟨W_err d W HW _ hOrE (fun hi => by simp [isImpIff] at hi)
          (fun c h => PropForm.noConfusion h), hOrE,
          fun hi => by simp [isImpIff] at hi⟩
    | pimp a b =>
      have hta : sizeOf a ≤ n := by
        simp only [PropForm.pimp.sizeOf_spec] at ht; omega
      have htb : sizeOf b ≤ n := by
        simp only [PropForm.pimp.sizeOf_spec] at ht; omega
      have hsubA : ∀ s, sizeOf s ≤ sizeOf a → ParseOK d W s :=
        fun s hss => ih s (le_trans hss hta)
      have hsubB : ∀ s, sizeOf s ≤ sizeOf b → ParseOK d W s :=
        fun s hss => ih s (le_trans hss htb)
      constructor
      · intro hs
        obtain ⟨hsa, hsb⟩ := safe_pimp_iff a b hs
        have hbody := segW_impOr d W HW a b hsubA hsubB hsa hsb
        have hAseg : AtomB (segW d W (PropForm.pimp a b)) (pv d (PropForm.pimp a b)) := by
          rw [show segW d W (PropForm.pimp a b)
              = PyTok.lpar :: ((PyTok.tknot :: segW d W a) ++ (PyTok.tkor :: segW d W b))
                ++ [PyTok.rpar] from by rw [segW_pimp_eq]; simp]
          exact atomB_wrap _ _ hbody
        have hOr : OrB (segW d W (PropForm.pimp a b)) (pv d (PropForm.pimp a b)) := by
          obtain ⟨hne, hhd⟩ := segW_impiff_head d W (PropForm.pimp a b) rfl
          exact orB_of_atom _ _ hAseg hne hhd
        exact ⟨W_atom d W HW _ hOr (fun _ => hAseg), hOr, fun _ => hAseg⟩
      · intro hs
        have hbodyE := segW_impOrErr d W HW a b hsubA hsubB hs
        have hAsegE : AtomErrB (segW d W (PropForm.pimp a b)) := by
          rw [show segW d W (PropForm.pimp a b)
              = PyTok.lpar :: ((PyTok.tknot :: segW d W a) ++ (PyTok.tkor :: segW d W b))
                ++ [PyTok.rpar] from by rw [segW_pimp_eq]; simp]
          exact errAtom_wrap _ hbodyE
        have hOrE : OrErrB (segW d W (PropForm.pimp a b)) := by
          obtain ⟨hne, hhd⟩ := segW_impiff_head d W (PropForm.pimp a b) rfl
          exact errOr_atom _ hAsegE hne hhd
        exact ⟨W_err d W HW _ hOrE (fun _ => hAsegE)
          (fun c h => PropForm.noConfusion h), hOrE, fun _ => hAsegE⟩
    | piff a b =>
      have hta : sizeOf a ≤ n := by
        simp only [PropForm.piff.sizeOf_spec] at ht; omega
      have htb : sizeOf b ≤ n := by
        simp only [PropForm.piff.sizeOf_spec] at ht; omega
      have hsubA : ∀ s, sizeOf s ≤ sizeOf a → ParseOK d W s :=
        fun s hss => ih s (le_trans hss hta)
      have hsubB : ∀ s, sizeOf s ≤ sizeOf b → ParseOK d W s :=
        fun s hss => ih s (le_trans hss htb)
      constructor
      · intro hs
        obtain ⟨hsa, hsb, hnb⟩ := safe_piff_iff a b hs
        have hbody := segW_iffOr d W HW a b hsubA hsubB hsa hsb hnb
        have hAseg : AtomB (segW d W (PropForm.piff a b)) (pv d (PropForm.piff a b)) := by
          rw [show segW d W (PropForm.piff a b)
              = PyTok.lpar :: (segW d W a ++ (PyTok.eqeq :: segW d W b))
                ++ [PyTok.rpar] from by rw [segW_piff_eq]; simp]
          exact atomB_wrap _ _ hbody
        have hOr : OrB (segW d W (PropForm.piff a b)) (pv d (PropForm.piff a b)) := by
          obtain ⟨hne, hhd⟩ := segW_impiff_head d W (PropForm.piff a b) rfl
          exact orB_of_atom _ _ hAseg hne hhd
        exact ⟨W_atom d W HW _ hOr (fun _ => hAseg), hOr, fun _ => hAseg⟩
      · intro hs
        have hbodyE := segW_iffOrErr d W HW a b hsubA hsubB hs
        have hAsegE : AtomErrB (segW d W (PropForm.piff a b)) := by
          rw [show segW d W (PropForm.piff a b)
              = PyTok.lpar :: (segW d W a ++ (PyTok.eqeq :: segW d W b))
                ++ [PyTok.rpar] from by rw [segW_piff_eq]; simp]
          exact errAtom_wrap _ hbodyE
        have hOrE : OrErrB (segW d W (PropForm.piff a b)) := by
          obtain ⟨hne, hhd⟩ := segW_impiff_head d W (PropForm.piff a b) rfl
          exact errOr_atom _ hAsegE hne hhd
        exact ⟨W_err d W HW _ hOrE (fun _ => hAsegE)
          (fun c h => PropForm.noConfusion h), hOrE, fun _ => hAsegE⟩

end LogicCheck

namespace LogicCheck

theorem tkS_eq_segW (d : Char → Bool) : ∀ t, segW d (tkW d) t = tkS d t := by
  intro t
  induction t with
  | var c => rfl
  | pnot a ih => cases a <;> rfl
  | pand a b iha ihb => cases a <;> cases b <;> rfl
  | por a b iha ihb => cases a <;> cases b <;> rfl
  | pimp a b iha ihb =>
    show PyTok.lpar :: PyTok.tknot :: segW d (tkW d) a
      ++ (PyTok.tkor :: segW d (tkW d) b) ++ [PyTok.rpar] = _
    rw [iha, ihb]
    rfl
  | piff a b iha ihb =>
    show PyTok.lpar :: segW d (tkW d) a
      ++ (PyTok.eqeq :: segW d (tkW d) b) ++ [PyTok.rpar] = _
    rw [iha, ihb]
    rfl

theorem tkD_eq_segW (d : Char → Bool) : ∀ t, segW d (tkDW d) t = tkD d t := by
  intro t
  induction t with
  | var c => rfl
  | pnot a ih => cases a <;> rfl
  | pand a b iha ihb => cases a <;> cases b <;> rfl
  | por a b iha ihb => cases a <;> cases b <;> rfl
  | pimp a b iha ihb =>
    show PyTok.lpar :: PyTok.tknot :: segW d (tkDW d) a
      ++ (PyTok.tkor :: segW d (tkDW d) b) ++ [PyTok.rpar] = _
    rw [iha, ihb]
    rfl
  | piff a b iha ihb =>
    show PyTok.lpar :: segW d (tkDW d) a
      ++ (PyTok.eqeq :: segW d (tkDW d) b) ++ [PyTok.rpar] = _
    rw [iha, ihb]
    rfl

theorem HW_tkW (d : Char → Bool) :
    ∀ s, tkW d s = PyTok.lpar :: segW d (tkW d) s ++ [PyTok.rpar] ∨
      (isImpIff s = true ∧ tkW d s = segW d (tkW d) s) ∨
      (∃ c, s = PropForm.var c ∧ tkW d s = [varTok d c]) := by
  intro s
  cases s with
  | var c => exact Or.inr (Or.inr ⟨c, rfl, rfl⟩)
  | pnot a =>
    refine Or.inl ?_
    rw [tkS_eq_segW]
    rfl
  | pand a b =>
    refine Or.inl ?_
    rw [tkS_eq_segW]
    rfl
  | por a b =>
    refine Or.inl ?_
    rw [tkS_eq_segW]
    rfl
  | pimp a b =>
    refine Or.inl ?_
    rw [tkS_eq_segW]
    rfl
  | piff a b =>
    refine Or.inl ?_
    rw [tkS_eq_segW]
    rfl

theorem HW_tkDW (d : Char → Bool) :
    ∀ s, tkDW d s = PyTok.lpar :: segW d (tkDW d) s ++ [PyTok.rpar] ∨
      (isImpIff s = true ∧ tkDW d s = segW d (tkDW d) s) ∨
      (∃ c, s = PropForm.var c ∧ tkDW d s = [varTok d c]) := by
  intro s
  cases s with
  | var c => exact Or.inr (Or.inr ⟨c, rfl, rfl⟩)
  | pnot a =>
    refine Or.inl ?_
    rw [tkD_eq_segW]
    rfl
  | pand a b =>
    refine Or.inl ?_
    rw [tkD_eq_segW]
    rfl
  | por a b =>
    refine Or.inl ?_
    rw [tkD_eq_segW]
    rfl
  | pimp a b =>
    refine Or.inr (Or.inl ⟨rfl, ?_⟩)
    rw [tkD_eq_segW]
    rfl
  | piff a b =>
    refine Or.inr (Or.inl ⟨rfl, ?_⟩)
    rw [tkD_eq_segW]
    rfl

theorem tkS_orB (d : Char → Bool) (t : PropForm) (hs : safe t = true) :
    OrB (tkS d t) (pv d t) := by
  have h := pok_orseg d (tkW d) t
    (parse_segW d (tkW d) (HW_tkW d) (sizeOf t) t (Nat.le_refl _)) hs
  rw [tkS_eq_segW] at h
  exact h

theorem tkS_orErrB (d : Char → Bool) (t : PropForm) (hs : safe t = false) :
    OrErrB (tkS d t) := by
  have h := pok_errseg d (tkW d) t
    (parse_segW d (tkW d) (HW_tkW d) (sizeOf t) t (Nat.le_refl _)) hs
  rw [tkS_eq_segW] at h
  exact h

theorem tkDTop_orB (d : Char → Bool) (t : PropForm) (hs : safe t = true) :
    OrB (tkDTop d t) (pv d t) := by
  cases t with
  | pimp a b =>
    obtain ⟨hsa, hsb⟩ := safe_pimp_iff a b hs
    have hbody := segW_impOr d (tkDW d) (HW_tkDW d) a b
      (fun s _ => parse_segW d (tkDW d) (HW_tkDW d) (sizeOf s) s (Nat.le_refl _))
      (fun s _ => parse_segW d (tkDW d) (HW_tkDW d) (sizeOf s) s (Nat.le_refl _))
      hsa hsb
    rw [tkD_eq_segW, tkD_eq_segW] at hbody
    exact hbody
  | piff a b =>
    obtain ⟨hsa, hsb, hnb⟩ := safe_piff_iff a b hs
    have hbody := segW_iffOr d (tkDW d) (HW_tkDW d) a b
      (fun s _ => parse_segW d (tkDW d) (HW_tkDW d) (sizeOf s) s (Nat.le_refl _))
      (fun s _ => parse_segW d (tkDW d) (HW_tkDW d) (sizeOf s) s (Nat.le_refl _))
      hsa hsb hnb
    rw [tkD_eq_segW, tkD_eq_segW] at hbody
    exact hbody
  | var c =>
    have h := pok_orseg d (tkDW d) (PropForm.var c)
      (parse_segW d (tkDW d) (HW_tkDW d) (sizeOf (PropForm.var c)) _ (Nat.le_refl _)) hs
    rw [tkD_eq_segW] at h
    exact h
  | pnot a =>
    have h := pok_orseg d (tkDW d) (PropForm.pnot a)
      (parse_segW d (tkDW d) (HW_tkDW d) (sizeOf (PropForm.pnot a)) _ (Nat.le_refl _)) hs
    rw [tkD_eq_segW] at h
    exact h
  | pand a b =>
    have h := pok_orseg d (tkDW d) (PropForm.pand a b)
      (parse_segW d (tkDW d) (HW_tkDW d) (sizeOf (PropForm.pand a b)) _ (Nat.le_refl _)) hs
    rw [tkD_eq_segW] at h
    exact h
  | por a b =>
    have h := pok_orseg d (tkDW d) (PropForm.por a b)
      (parse_segW d (tkDW d) (HW_tkDW d) (sizeOf (PropForm.por a b)) _ (Nat.le_refl _)) hs
    rw [tkD_eq_segW] at h
    exact h

theorem tkDTop_orErrB (d : Char → Bool) (t : PropForm) (hs : safe t = false) :
    OrErrB (tkDTop d t) := by
  cases t with
  | pimp a b =>
    have hbody := segW_impOrErr d (tkDW d) (HW_tkDW d) a b
      (fun s _ => parse_segW d (tkDW d) (HW_tkDW d) (sizeOf s) s (Nat.le_refl _))
      (fun s _ => parse_segW d (tkDW d) (HW_tkDW d) (sizeOf s) s (Nat.le_refl _))
      hs
    rw [tkD_eq_segW, tkD_eq_segW] at hbody
    exact hbody
  | piff a b =>
    have hbody := segW_iffOrErr d (tkDW d) (HW_tkDW d) a b
      (fun s _ => parse_segW d (tkDW d) (HW_tkDW d) (sizeOf s) s (Nat.le_refl _))
      (fun s _ => parse_segW d (tkDW d) (HW_tkDW d) (sizeOf s) s (Nat.le_refl _))
      hs
    rw [tkD_eq_segW, tkD_eq_segW] at hbody
    exact hbody
  | var c =>
    have h := pok_errseg d (tkDW d) (PropForm.var c)
      (parse_segW d (tkDW d) (HW_tkDW d) (sizeOf (PropForm.var c)) _ (Nat.le_refl _)) hs
    rw [tkD_eq_segW] at h
    exact h
  | pnot a =>
    have h := pok_errseg d (tkDW d) (PropForm.pnot a)
      (parse_segW d (tkDW d) (HW_tkDW d) (sizeOf (PropForm.pnot a)) _ (Nat.le_refl _)) hs
    rw [tkD_eq_segW] at h
    exact h
  | pand a b =>
    have h := pok_errseg d (tkDW d) (PropForm.pand a b)
      (parse_segW d (tkDW d) (HW_tkDW d) (sizeOf (PropForm.pand a b)) _ (Nat.le_refl _)) hs
    rw [tkD_eq_segW] at h
    exact h
  | por a b =>
    have h := pok_errseg d (tkDW d) (PropForm.por a b)
      (parse_segW d (tkDW d) (HW_tkDW d) (sizeOf (PropForm.por a b)) _ (Nat.le_refl _)) hs
    rw [tkD_eq_segW] at h
    exact h

theorem orB_full (T : List PyTok) (v : Bool) (h : OrB T v) :
    parseOrE (5 * T.length + 10) T = .ok (v, []) := by
  have h2 := h (5 * T.length + 10) [] (by omega) (by simp) (by simp) (by simp)
  simpa using h2

theorem orErrB_full (T : List PyTok) (h : OrErrB T) :
    ∃ e, parseOrE (5 * T.length + 10) T = .error e := by
  obtain ⟨e, he⟩ := h (5 * T.length + 10) [] (by omega)
  exact ⟨e, by simpa using he⟩

theorem tokenize_nil (g : Nat) (hg : 0 + 1 ≤ g) : tokenize g ([] : List Char) = .ok [] := by
  obtain ⟨g2, rfl⟩ : ∃ g2, g = g2 + 1 := ⟨g - 1, by omega⟩
  rfl

theorem tok_icS_full (d : Char → Bool) (t : PropForm) (σ : Char → Option Bool)
    (hσ : ∀ e ∈ tvars t, σ e = some (d e)) :
    tokenize ((icS σ t).length + 1) (icS σ t) = .ok (tkS d t) := by
  have h := tok_icS d t σ hσ [] [] (by simp) tokenize_nil
    ((icS σ t).length + 1) (by simp)
  simpa using h

theorem tok_idTop_full (d : Char → Bool) (t : PropForm) (σ : Char → Option Bool)
    (hσ : ∀ e ∈ tvars t, σ e = some (d e)) :
    tokenize ((idTop σ t).length + 1) (idTop σ t) = .ok (tkDTop d t) := by
  have h := tok_idTop d t σ hσ [] [] (by simp) tokenize_nil
    ((idTop σ t).length + 1) (by simp)
  simpa using h

theorem pyEval_icS_ok (d : Char → Bool) (t : PropForm) (σ : Char → Option Bool)
    (hσ : ∀ e ∈ tvars t, σ e = some (d e)) (hs : safe t = true) :
    pyEval (icS σ t) = .ok (pv d t) := by
  show (do
      let toks ← tokenize ((icS σ t).length + 1) (icS σ t)
      let (v, rest) ← parseOrE (5 * toks.length + 10) toks
      if rest.isEmpty then Except.ok v else Except.error "SyntaxError") = _
  rw [tok_icS_full d t σ hσ]
  show (do
      let (v, rest) ← parseOrE (5 * (tkS d t).length + 10) (tkS d t)
      if rest.isEmpty then Except.ok v else Except.error "SyntaxError") = _
  rw [orB_full (tkS d t) (pv d t) (tkS_orB d t hs)]
  rfl

theorem pyEval_icS_err (d : Char → Bool) (t : PropForm) (σ : Char → Option Bool)
    (hσ : ∀ e ∈ tvars t, σ e = some (d e)) (hs : safe t = false) :
    ∃ e, pyEval (icS σ t) = .error e := by
  obtain ⟨e, he⟩ := orErrB_full (tkS d t) (tkS_orErrB d t hs)
  refine ⟨e, ?_⟩
  show (do
      let toks ← tokenize ((icS σ t).length + 1) (icS σ t)
      let (v, rest) ← parseOrE (5 * toks.length + 10) toks
      if rest.isEmpty then Except.ok v else Except.error "SyntaxError") = _
  rw [tok_icS_full d t σ hσ]
  show (do
      let (v, rest) ← parseOrE (5 * (tkS d t).length + 10) (tkS d t)
      if rest.isEmpty then Except.ok v else Except.error "SyntaxError") = _
  rw [he]
  rfl

theorem pyEval_idTop_ok (d : Char → Bool) (t : PropForm) (σ : Char → Option Bool)
    (hσ : ∀ e ∈ tvars t, σ e = some (d e)) (hs : safe t = true) :
    pyEval (idTop σ t) = .ok (pv d t) := by
  show (do
      let toks ← tokenize ((idTop σ t).length + 1) (idTop σ t)
      let (v, rest) ← parseOrE (5 * toks.length + 10) toks
      if rest.isEmpty then Except.ok v else Except.error "SyntaxError") = _
  rw [tok_idTop_full d t σ hσ]
  show (do
      let (v, rest) ← parseOrE (5 * (tkDTop d t).length + 10) (tkDTop d t)
      if rest.isEmpty then Except.ok v else Except.error "SyntaxError") = _
  rw [orB_full (tkDTop d t) (pv d t) (tkDTop_orB d t hs)]
  rfl

theorem pyEval_idTop_err (d : Char → Bool) (t : PropForm) (σ : Char → Option Bool)
    (hσ : ∀ e ∈ tvars t, σ e = some (d e)) (hs : safe t = false) :
    ∃ e, pyEval (idTop σ t) = .error e := by
  obtain ⟨e, he⟩ := orErrB_full (tkDTop d t) (tkDTop_orErrB d t hs)
  refine ⟨e, ?_⟩
  show (do
      let toks ← tokenize ((idTop σ t).length + 1) (idTop σ t)
      let (v, rest) ← parseOrE (5 * toks.length + 10) toks
      if rest.isEmpty then Except.ok v else Except.error "SyntaxError") = _
  rw [tok_idTop_full d t σ hσ]
  show (do
      let (v, rest) ← parseOrE (5 * (tkDTop d t).length + 10) (tkDTop d t)
      if rest.isEmpty then Except.ok v else Except.error "SyntaxError") = _
  rw [he]
  rfl

end LogicCheck

namespace LogicCheck

theorem occSeq_wf_mem (t : PropForm) (hwf : t.wf = true) :
    ∀ c ∈ occSeq t, varOK c = true ∨ c = 'v' := by
  induction t with
  | var e =>
    intro c hc
    rw [show occSeq (PropForm.var e) = [e] from rfl, List.mem_singleton] at hc
    subst hc
    exact Or.inl hwf
  | pnot a ih => exact ih hwf
  | pand a b iha ihb =>
    intro c hc
    obtain ⟨hwa, hwb⟩ := Bool.and_eq_true _ _ |>.mp hwf
    rcases List.mem_append.mp hc with h | h
    · exact iha hwa c h
    · exact ihb hwb c h
  | por a b iha ihb =>
    intro c hc
    obtain ⟨hwa, hwb⟩ := Bool.and_eq_true _ _ |>.mp hwf
    rcases List.mem_append.mp hc with h | h
    · exact iha hwa c h
    · rcases List.mem_cons.mp h with rfl | h2
      · exact Or.inr rfl
      · exact ihb hwb c h2
  | pimp a b iha ihb =>
    intro c hc
    obtain ⟨hwa, hwb⟩ := Bool.and_eq_true _ _ |>.mp hwf
    rcases List.mem_append.mp hc with h | h
    · exact iha hwa c h
    · exact ihb hwb c h
  | piff a b iha ihb =>
    intro c hc
    obtain ⟨hwa, hwb⟩ := Bool.and_eq_true _ _ |>.mp hwf
    rcases List.mem_append.mp hc with h | h
    · exact iha hwa c h
    · exact ihb hwb c h

theorem tvars_sub_occSeq (t : PropForm) : ∀ e ∈ tvars t, e ∈ occSeq t := by
  induction t with
  | var c => intro e he; exact he
  | pnot a ih => exact ih
  | pand a b iha ihb =>
    intro e he
    rcases List.mem_append.mp he with h | h
    · exact List.mem_append.mpr (Or.inl (iha e h))
    · exact List.mem_append.mpr (Or.inr (ihb e h))
  | por a b iha ihb =>
    intro e he
    rcases List.mem_append.mp he with h | h
    · exact List.mem_append.mpr (Or.inl (iha e h))
    · exact List.mem_append.mpr (Or.inr (List.mem_cons_of_mem _ (ihb e h)))
  | pimp a b iha ihb =>
    intro e he
    rcases List.mem_append.mp he with h | h
    · exact List.mem_append.mpr (Or.inl (iha e h))
    · exact List.mem_append.mpr (Or.inr (ihb e h))
  | piff a b iha ihb =>
    intro e he
    rcases List.mem_append.mp he with h | h
    · exact List.mem_append.mpr (Or.inl (iha e h))
    · exact List.mem_append.mpr (Or.inr (ihb e h))

theorem tvars_wf_varOK (t : PropForm) (hwf : t.wf = true) :
    ∀ e ∈ tvars t, varOK e = true := by
  induction t with
  | var c =>
    intro e he
    rw [show tvars (PropForm.var c) = [c] from rfl, List.mem_singleton] at he
    subst he
    exact hwf
  | pnot a ih => exact ih hwf
  | pand a b iha ihb =>
    intro e he
    obtain ⟨hwa, hwb⟩ := Bool.and_eq_true _ _ |>.mp hwf
    rcases List.mem_append.mp he with h | h
    · exact iha hwa e h
    · exact ihb hwb e h
  | por a b iha ihb =>
    intro e he
    obtain ⟨hwa, hwb⟩ := Bool.and_eq_true _ _ |>.mp hwf
    rcases List.mem_append.mp he with h | h
    · exact iha hwa e h
    · exact ihb hwb e h
  | pimp a b iha ihb =>
    intro e he
    obtain ⟨hwa, hwb⟩ := Bool.and_eq_true _ _ |>.mp hwf
    rcases List.mem_append.mp he with h | h
    · exact iha hwa e h
    · exact ihb hwb e h
  | piff a b iha ihb =>
    intro e he
    obtain ⟨hwa, hwb⟩ := Bool.and_eq_true _ _ |>.mp hwf
    rcases List.mem_append.mp he with h | h
    · exact iha hwa e h
    · exact ihb hwb e h

theorem occSeq_length_pos (t : PropForm) : 1 ≤ (occSeq t).length := by
  induction t with
  | var c => simp [occSeq]
  | pnot a ih => exact ih
  | pand a b iha ihb => simp only [occSeq, List.length_append]; omega
  | por a b iha ihb => simp only [occSeq, List.length_append, List.length_cons]; omega
  | pimp a b iha ihb => simp only [occSeq, List.length_append]; omega
  | piff a b iha ihb => simp only [occSeq, List.length_append]; omega

theorem mem_sortChars (l : List Char) (c : Char) : c ∈ sortChars l ↔ c ∈ l :=
  (List.perm_insertionSort _ l).mem_iff

theorem sortChars_nodup (l : List Char) (h : l.Nodup) : (sortChars l).Nodup :=
  ((List.perm_insertionSort _ l).nodup_iff).mpr h

theorem sortChars_length (l : List Char) : (sortChars l).length = l.length :=
  (List.perm_insertionSort _ l).length_eq

theorem sortChars_occSeq_ne_empty (t : PropForm) :
    (sortChars ((occSeq t).dedup)).isEmpty = false := by
  cases hl : sortChars ((occSeq t).dedup) with
  | cons x xs => simp [List.isEmpty]
  | nil =>
    exfalso
    have h3 : ((occSeq t).dedup).length = 0 := by
      have := sortChars_length ((occSeq t).dedup)
      rw [hl] at this
      simpa using this.symm
    have h4 : occSeq t = [] :=
      (List.dedup_eq_nil _).mp (List.length_eq_zero.mp h3)
    have h5 := occSeq_length_pos t
    rw [h4] at h5
    simp at h5

theorem lookup_zip_some (vars : List Char) (tu : List Bool) (e : Char)
    (he : e ∈ vars) (hlen : tu.length = vars.length) :
    ∃ bv, (List.zip vars tu).lookup e = some bv := by
  induction vars generalizing tu with
  | nil => simp at he
  | cons v vs ih =>
    cases tu with
    | nil => simp at hlen
    | cons b bs =>
      by_cases hev : e = v
      · subst hev
        exact ⟨b, lookup_cons_hit e b (vs.zip bs)⟩
      · rcases List.mem_cons.mp he with h | h
        · exact absurd h hev
        · obtain ⟨bv, hbv⟩ := ih bs h (by simpa using hlen)
          refine ⟨bv, ?_⟩
          rw [show (v :: vs).zip (b :: bs) = (v, b) :: vs.zip bs from rfl,
            lookup_cons_miss e v b (vs.zip bs) hev]
          exact hbv

theorem mem_boolTuples_length (n : Nat) :
    ∀ tu ∈ boolTuples n, tu.length = n := by
  induction n with
  | zero =>
    intro tu htu
    rw [show boolTuples 0 = [[]] from rfl, List.mem_singleton] at htu
    subst htu
    rfl
  | succ n ih =>
    intro tu htu
    rw [show boolTuples (n + 1)
        = (boolTuples n).map (false :: ·) ++ (boolTuples n).map (true :: ·) from rfl] at htu
    rcases List.mem_append.mp htu with h | h <;>
      obtain ⟨tu2, htu2, rfl⟩ := List.mem_map.mp h <;>
      simp [ih tu2 htu2]

theorem except_toOption_some (x : Except String Bool) (v : Bool)
    (h : x.toOption = some v) : x = .ok v := by
  cases x with
  | ok w => simpa [Except.toOption] using h
  | error e => simp [Except.toOption] at h

theorem except_toOption_none (x : Except String Bool)
    (h : x.toOption = none) : ∃ e, x = .error e := by
  cases x with
  | ok w => simp [Except.toOption] at h
  | error e => exact ⟨e, rfl⟩

theorem evaluate_toOption (expr : String) (vals : Assign) :
    (evaluate expr vals).toOption = (evaluateCore expr vals).toOption := by
  unfold evaluate
  cases evaluateCore expr vals <;> rfl

theorem evalCore_hσ (t : PropForm) (hwf : t.wf = true) (vals : Assign)
    (hcov : ∀ e ∈ tvars t, ∃ bv, vals.lookup e = some bv)
    (σ2 : Char → Option Bool) (hσ2 : ∀ e, e ≠ 'v' → σ2 e = vals.lookup e) :
    ∀ e ∈ tvars t, σ2 e = some ((vals.lookup e).getD false) := by
  intro e he
  have hv := tvars_wf_varOK t hwf e he
  have hne : e ≠ 'v' := varOK_ne_lit e hv 'v' (Or.inr (Or.inr (by decide)))
  obtain ⟨bv, hbv⟩ := hcov e he
  rw [hσ2 e hne, hbv]
  rfl

theorem evaluateCore_print (t : PropForm) (hwf : t.wf = true) (vals : Assign)
    (hkeys : ∀ p ∈ vals, varOK p.1 = true ∨ p.1 = 'v')
    (hnd : (vals.map Prod.fst).Nodup)
    (hcov : ∀ e ∈ tvars t, ∃ bv, vals.lookup e = some bv) :
    (evaluateCore (String.mk (print t)) vals).toOption
      = if safe t then some (pv (fun e => (vals.lookup e).getD false) t) else none := by
  obtain ⟨σ2, hσ2, hsub⟩ := substAll_TC t hwf vals hkeys hnd
  have hσ := evalCore_hσ t hwf vals hcov σ2 hσ2
  have hcore : evaluateCore (String.mk (print t)) vals = pyEval (icS σ2 t) := by
    show (do
        let t2 ← transformTop ((String.mk (print t)).toList.map Char.toLower)
        pyEval (substAll vals t2)) = _
    rw [show (String.mk (print t)).toList = print t from rfl, map_toLower_print t hwf,
      transformTop_print t hwf]
    show pyEval (substAll vals (TC t)) = _
    rw [hsub]
  rw [hcore]
  cases hs : safe t with
  | true =>
    rw [pyEval_icS_ok (fun e => (vals.lookup e).getD false) t σ2 hσ hs]
    rfl
  | false =>
    obtain ⟨e, he⟩ := pyEval_icS_err (fun e => (vals.lookup e).getD false) t σ2 hσ hs
    rw [he]
    rfl

theorem evaluateCore_TC (t : PropForm) (hwf : t.wf = true) (vals : Assign)
    (hkeys : ∀ p ∈ vals, varOK p.1 = true ∨ p.1 = 'v')
    (hnd : (vals.map Prod.fst).Nodup)
    (hcov : ∀ e ∈ tvars t, ∃ bv, vals.lookup e = some bv) :
    (evaluateCore (String.mk (TC t)) vals).toOption
      = if safe t then some (pv (fun e => (vals.lookup e).getD false) t) else none := by
  obtain ⟨σ2, hσ2, hsub⟩ := substAll_TD t hwf vals hkeys hnd
  have hσ := evalCore_hσ t hwf vals hcov σ2 hσ2
  have hcore : evaluateCore (String.mk (TC t)) vals = pyEval (idTop σ2 t) := by
    show (do
        let t2 ← transformTop ((String.mk (TC t)).toList.map Char.toLower)
        pyEval (substAll vals t2)) = _
    rw [show (String.mk (TC t)).toList = TC t from rfl, map_toLower_TC t hwf,
      transformTop_TC t hwf]
    show pyEval (substAll vals (TD t)) = _
    rw [hsub]
  rw [hcore]
  cases hs : safe t with
  | true =>
    rw [pyEval_idTop_ok (fun e => (vals.lookup e).getD false) t σ2 hσ hs]
    rfl
  | false =>
    obtain ⟨e, he⟩ := pyEval_idTop_err (fun e => (vals.lookup e).getD false) t σ2 hσ hs
    rw [he]
    rfl

theorem row_vals_facts (t : PropForm) (hwf : t.wf = true) (tu : List Bool)
    (htu : tu ∈ boolTuples (sortChars ((occSeq t).dedup)).length) :
    (∀ p ∈ (sortChars ((occSeq t).dedup)).zip tu, varOK p.1 = true ∨ p.1 = 'v') ∧
    (((sortChars ((occSeq t).dedup)).zip tu).map Prod.fst).Nodup ∧
    (∀ e ∈ tvars t, ∃ bv, ((sortChars ((occSeq t).dedup)).zip tu).lookup e = some bv) := by
  have hlen : tu.length = (sortChars ((occSeq t).dedup)).length :=
    mem_boolTuples_length _ tu htu
  refine ⟨?_, ?_, ?_⟩
  · intro p hp
    obtain ⟨a, b⟩ := p
    have hm : a ∈ sortChars ((occSeq t).dedup) := (List.of_mem_zip hp).1
    have hm2 : a ∈ occSeq t := List.mem_dedup.mp ((mem_sortChars _ a).mp hm)
    exact occSeq_wf_mem t hwf a hm2
  · rw [List.map_fst_zip _ _ (by omega)]
    exact sortChars_nodup _ (List.nodup_dedup _)
  · intro e he
    have h1 : e ∈ occSeq t := tvars_sub_occSeq t e he
    have h2 : e ∈ sortChars ((occSeq t).dedup) :=
      (mem_sortChars _ e).mpr (List.mem_dedup.mpr h1)
    exact lookup_zip_some _ tu e h2 hlen

theorem evaluate_rows_match (t : PropForm) (hwf : t.wf = true) (hs : safe t = true)
    (tu : List Bool)
    (htu : tu ∈ boolTuples (sortChars ((occSeq t).dedup)).length) :
    ∃ v, evaluate (String.mk (TC t)) ((sortChars ((occSeq t).dedup)).zip tu) = .ok v ∧
      evaluate (String.mk (print t)) ((sortChars ((occSeq t).dedup)).zip tu) = .ok v := by
  obtain ⟨hkeys, hnd, hcov⟩ := row_vals_facts t hwf tu htu
  refine ⟨pv (fun e => ((((sortChars ((occSeq t).dedup)).zip tu).lookup e).getD false)) t,
    ?_, ?_⟩
  · exact except_toOption_some _ _ (by
      rw [evaluate_toOption, evaluateCore_TC t hwf _ hkeys hnd hcov]
      simp [hs])
  · exact except_toOption_some _ _ (by
      rw [evaluate_toOption, evaluateCore_print t hwf _ hkeys hnd hcov]
      simp [hs])

theorem evaluate_rows_err (t : PropForm) (hwf : t.wf = true) (hs : safe t = false)
    (tu : List Bool)
    (htu : tu ∈ boolTuples (sortChars ((occSeq t).dedup)).length) :
    (∃ e, evaluate (String.mk (TC t)) ((sortChars ((occSeq t).dedup)).zip tu) = .error e) ∧
    (∃ e, evaluate (String.mk (print t)) ((sortChars ((occSeq t).dedup)).zip tu) = .error e) := by
  obtain ⟨hkeys, hnd, hcov⟩ := row_vals_facts t hwf tu htu
  constructor
  · exact except_toOption_none _ (by
      rw [evaluate_toOption, evaluateCore_TC t hwf _ hkeys hnd hcov]
      simp [hs])
  · exact except_toOption_none _ (by
      rw [evaluate_toOption, evaluateCore_print t hwf _ hkeys hnd hcov]
      simp [hs])

theorem gtRows_eq_of (e1 e2 : String) (vars : List Char) :
    ∀ ts, (∀ tu ∈ ts, ∃ v, evaluate e1 (vars.zip tu) = .ok v ∧
        evaluate e2 (vars.zip tu) = .ok v) →
      gtRows e1 vars ts = gtRows e2 vars ts := by
  intro ts
  induction ts with
  | nil => intro _; rfl
  | cons tu ts ih =>
    intro h
    obtain ⟨v, h1, h2⟩ := h tu (List.mem_cons_self tu ts)
    show (do
        let r ← evaluate e1 (vars.zip tu)
        let rest ← gtRows e1 vars ts
        Except.ok ((vars.zip tu, r) :: rest)) = (do
        let r ← evaluate e2 (vars.zip tu)
        let rest ← gtRows e2 vars ts
        Except.ok ((vars.zip tu, r) :: rest))
    rw [h1, h2, ih (fun tu2 htu2 => h tu2 (List.mem_cons_of_mem tu htu2))]

theorem gtRows_err1 (e : String) (vars : List Char) (tu : List Bool)
    (ts : List (List Bool))
    (h : ∃ er, evaluate e (vars.zip tu) = .error er) :
    ∃ er, gtRows e vars (tu :: ts) = .error er := by
  obtain ⟨er, he⟩ := h
  refine ⟨er, ?_⟩
  show (do
      let r ← evaluate e (vars.zip tu)
      let rest ← gtRows e vars ts
      Except.ok ((vars.zip tu, r) :: rest)) = _
  rw [he]
  rfl

/-- C9 Idempotence of the transformer up to value-equivalence: for every
well-formed, fully parenthesized, precedence-explicit expression (rendered
as `print t`), the transformer rewrites it to `TC t`, and
`generate_truth_table` applied to that transformed string yields the same
`(variables, results)` outcome as `generate_truth_table` on the original:
the two runs return identical `(variables, rows)` tables when evaluation
succeeds, and fail together otherwise. -/
theorem C9_transformed_truth_table_matches (t : PropForm) (hwf : t.wf = true) :
    transformTop (print t) = .ok (TC t) ∧
    (generate_truth_table (String.mk (TC t))).toOption
      = (generate_truth_table (String.mk (print t))).toOption := by
  refine ⟨transformTop_print t hwf, ?_⟩
  unfold generate_truth_table
  rw [extract_print t hwf, extract_TC t hwf, sortChars_occSeq_ne_empty t]
  simp only [Bool.false_eq_true, if_false]
  cases hs : safe t with
  | true =>
    rw [gtRows_eq_of (String.mk (TC t)) (String.mk (print t))
      (sortChars ((occSeq t).dedup))
      (boolTuples (sortChars ((occSeq t).dedup)).length)
      (fun tu htu => evaluate_rows_match t hwf hs tu htu)]
  | false =>
    obtain ⟨tu, ts, hbt⟩ :
        ∃ tu ts, boolTuples (sortChars ((occSeq t).dedup)).length = tu :: ts := by
      cases hb : boolTuples (sortChars ((occSeq t).dedup)).length with
      | nil => exact absurd hb (boolTuples_ne_nil _)
      | cons tu ts => exact ⟨tu, ts, rfl⟩
    have htu : tu ∈ boolTuples (sortChars ((occSeq t).dedup)).length := by
      rw [hbt]
      exact List.mem_cons_self _ _
    obtain ⟨h1, h2⟩ := evaluate_rows_err t hwf hs tu htu
    obtain ⟨er1, hg1⟩ := gtRows_err1 (String.mk (TC t)) _ tu ts h1
    obtain ⟨er2, hg2⟩ := gtRows_err1 (String.mk (print t)) _ tu ts h2
    rw [hbt, hg1, hg2]
    rfl

theorem C9_transformed_truth_table_matches_witness :
    (PropForm.pand (PropForm.var 'p') (PropForm.var 'q')).wf = true ∧
    (transformTop (print (PropForm.pand (PropForm.var 'p') (PropForm.var 'q')))
        = .ok (TC (PropForm.pand (PropForm.var 'p') (PropForm.var 'q'))) ∧
      (generate_truth_table
          (String.mk (TC (PropForm.pand (PropForm.var 'p') (PropForm.var 'q'))))).toOption
        = (generate_truth_table
          (String.mk (print (PropForm.pand (PropForm.var 'p') (PropForm.var 'q'))))).toOption) :=
  ⟨by decide, C9_transformed_truth_table_matches
    (PropForm.pand (PropForm.var 'p') (PropForm.var 'q')) (by decide)⟩

end LogicCheck
